import Mathlib

/-!
# Order book matching engine (kl09/matching-engine, `orderbook.go`)

A shallow embedding of the Go order book.  Go pointers are addresses into an
explicit heap, so that the sharing the program creates between `*apd.Decimal`
cells (an order's `amount`, a price level's `totalAmount`, an execution
report's `amount`, the working copy `amountLeft`) is part of the model.

* `Heap.decimals`  : the `*apd.Decimal` cells that hold amounts;
* `Heap.orders`    : the `*Order` objects;
* `Heap.elements`  : the `*list.Element` objects (their `Value`, an order address);
* `Heap.levels`    : the `*OrdersBySpecificPrice` objects.

A dereference of an address that is not allocated is a nil dereference: the
operation panics, which the model renders as `none`.  A Go `error` is data in
the returned record.  Prices are never written to by the program and are held
by value.  The mutex is not modelled: operations run one at a time.

The decimal library and the red-black tree are external: decimals are pairs of
an integer coefficient and an exponent with exact arithmetic, the tree is the
list of its nodes in key order.
-/

namespace MatchingEngine

/-! ## Decimals (`github.com/cockroachdb/apd`, finite form) -/

/-- A finite `apd.Decimal`: the number `coeff * 10 ^ exponent`. The sign is carried by `coeff`. -/
structure Decimal where
  coeff : Int
  exponent : Int
  deriving DecidableEq, Repr, Inhabited

/-- The library limit on exponents, `apd.MaxExponent`. -/
def MaxExponent : Int := 100000

/-- The constructor `apd.New(coeff, exponent)`. -/
def Decimal.New (coeff exponent : Int) : Decimal := ⟨coeff, exponent⟩

/-- The rational number a decimal denotes. -/
def Decimal.val (d : Decimal) : ℚ := (d.coeff : ℚ) * (10 : ℚ) ^ d.exponent

/-- The test `d.IsZero()`: the coefficient is zero. -/
def Decimal.IsZero (d : Decimal) : Bool := decide (d.coeff = 0)

/-- The comparison `d.Cmp(x)`: numeric, insensitive to the representation; -1, 0 or 1. -/
def Decimal.Cmp (d x : Decimal) : Int :=
  let m := min d.exponent x.exponent
  let a := d.coeff * 10 ^ (d.exponent - m).toNat
  let b := x.coeff * 10 ^ (x.exponent - m).toNat
  if a < b then -1 else if a = b then 0 else 1

/-- The library helper `upscale`: brings two decimals to the smaller exponent; fails when the
exponents are more than `MaxExponent` apart. -/
def Decimal.upscale (a b : Decimal) : Option (Int × Int × Int) :=
  if a.exponent = b.exponent then some (a.coeff, b.coeff, a.exponent)
  else if a.exponent < b.exponent then
    if b.exponent - a.exponent > MaxExponent then none
    else some (a.coeff, b.coeff * 10 ^ (b.exponent - a.exponent).toNat, a.exponent)
  else
    if a.exponent - b.exponent > MaxExponent then none
    else some (a.coeff * 10 ^ (a.exponent - b.exponent).toNat, b.coeff, b.exponent)

/-- The value computed by `apd.BaseContext.Add(d, x, y)`, or the error.  The context has
precision 0, so the result is exact: the coefficients are added at the smaller exponent.  The
error is the one `upscale` reports.  The library also returns `exponent out of range` when
the exponent or the adjusted exponent of the result leaves the range of `MaxExponent`
(`setExponent`); that check is left out, so every result the library returns without error is
the result here, while an `ok` here does not show that the library returns no error. -/
def Decimal.Add (x y : Decimal) : Except String Decimal :=
  match Decimal.upscale x y with
  | none => .error "add: exponent out of range"
  | some (a, b, s) => .ok ⟨a + b, s⟩

/-- The value computed by `apd.BaseContext.Sub(d, x, y)`, or the error; as for `Add`, the
range check of `setExponent` on the result included. -/
def Decimal.Sub (x y : Decimal) : Except String Decimal :=
  match Decimal.upscale x y with
  | none => .error "add: exponent out of range"
  | some (a, b, s) => .ok ⟨a - b, s⟩

/-- A run of `n` characters `0`. -/
def zeros (n : Nat) : List Char := List.replicate n '0'

/-- The rendering `d.String()`, the "to-scientific-string" of the decimal arithmetic
specification: plain notation when the exponent is at most 0 and the adjusted exponent at
least -6, exponential notation otherwise.  It depends on the representation: 20050 and
20050.0 render differently. -/
def Decimal.TextG (d : Decimal) : String :=
  let digits : List Char := Nat.toDigits 10 d.coeff.natAbs
  let sign : List Char := if d.coeff < 0 then ['-'] else []
  let adj : Int := d.exponent + ((digits.length : Int) - 1)
  if d.exponent ≤ 0 ∧ adj ≥ -6 then
    let n := (-d.exponent).toNat
    if n = 0 then String.mk (sign ++ digits)
    else if n < digits.length then
      String.mk (sign ++ digits.take (digits.length - n) ++ ['.'] ++ digits.drop (digits.length - n))
    else String.mk (sign ++ ['0', '.'] ++ zeros (n - digits.length) ++ digits)
  else
    let mant : List Char :=
      match digits with
      | [] => []
      | c :: [] => [c]
      | c :: cs => c :: '.' :: cs
    String.mk (sign ++ mant ++ ['E'] ++ (if adj < 0 then ['-'] else ['+'])
      ++ Nat.toDigits 10 adj.natAbs)

/-! ## Data model -/

/-- The type of operation: `Ask` (sell) or `Bid` (buy). -/
inductive OperationType where
  | Ask
  | Bid
  deriving DecidableEq, Repr, Inhabited

/-- The unique order id. -/
abbrev OrderID := String

/-- The execution log record.  `amount` is the address of a decimal cell. -/
structure ExecutionReport where
  initiatorOrderID : OrderID
  executorOrderID : OrderID
  amount : Nat
  price : Decimal
  deriving DecidableEq, Repr, Inhabited

/-- An order.  `amount` is the address of a decimal cell; `createdAt` is never read. -/
structure Order where
  orderID : OrderID
  operationType : OperationType
  amount : Nat
  price : Decimal
  executions : List ExecutionReport
  deriving DecidableEq, Repr, Inhabited

/-- All orders of one price.  `totalAmount` is the address of a decimal cell and `orders`
the linked list, front first, of element addresses. -/
structure OrdersBySpecificPrice where
  price : Decimal
  totalAmount : Nat
  orders : List Nat
  deriving DecidableEq, Repr, Inhabited

/-- The heap of the objects the book refers to. -/
structure Heap where
  decimals : List Decimal
  orders : List Order
  elements : List Nat
  levels : List OrdersBySpecificPrice
  deriving DecidableEq, Repr, Inhabited

/-- One side of the book.  `priceTree` is the red-black tree in key order, each node a key
and the address of its level; `prices` is the map from the price string to a level address. -/
structure OrderSide where
  priceTree : List (Decimal × Nat)
  prices : List (String × Nat)
  sideType : OperationType
  deriving DecidableEq, Repr, Inhabited

/-- The order book: the live map `Orders` (id to element address), the journal
`OrdersDone` (id to order address) and the two sides. -/
structure OrderBook where
  BaseAsset : String
  QuoteAsset : String
  Orders : List (OrderID × Nat)
  OrdersDone : List (OrderID × Nat)
  Asks : OrderSide
  Bids : OrderSide
  deriving DecidableEq, Repr, Inhabited

/-! ## Go maps and the red-black tree -/

/-- The map read `m[k]`. -/
def mapGet {ν : Type} : List (String × ν) → String → Option ν
  | [], _ => none
  | (k', v) :: m, k => if k' = k then some v else mapGet m k

/-- The statement `delete(m, k)`. -/
def mapDelete {ν : Type} : List (String × ν) → String → List (String × ν)
  | [], _ => []
  | (k', v) :: m, k => if k' = k then mapDelete m k else (k', v) :: mapDelete m k

/-- The assignment `m[k] = v`. -/
def mapSet {ν : Type} (m : List (String × ν)) (k : String) (v : ν) : List (String × ν) :=
  (k, v) :: mapDelete m k

/-- The tree insertion `tree.Put(key, value)`: a node whose key compares equal has its key and
value replaced. -/
def treePut : List (Decimal × Nat) → Decimal → Nat → List (Decimal × Nat)
  | [], k, v => [(k, v)]
  | (k', v') :: t, k, v =>
    if k.Cmp k' < 0 then (k, v) :: (k', v') :: t
    else if k.Cmp k' = 0 then (k, v) :: t
    else (k', v') :: treePut t k v

/-- The tree deletion `tree.Remove(key)`: the node whose key compares equal is removed. -/
def treeRemove : List (Decimal × Nat) → Decimal → List (Decimal × Nat)
  | [], _ => []
  | (k', v') :: t, k => if k.Cmp k' = 0 then t else (k', v') :: treeRemove t k

/-! ## Heap access -/

/-- Writes a decimal cell. -/
def Heap.setDecimal (h : Heap) (a : Nat) (d : Decimal) : Heap :=
  { h with decimals := h.decimals.set a d }

/-- Allocates a decimal cell and returns its address. -/
def Heap.newDecimal (h : Heap) (d : Decimal) : Heap × Nat :=
  ({ h with decimals := h.decimals ++ [d] }, h.decimals.length)

/-- Writes an order object. -/
def Heap.setOrder (h : Heap) (a : Nat) (o : Order) : Heap :=
  { h with orders := h.orders.set a o }

/-- Allocates an order object and returns its address. -/
def Heap.newOrder (h : Heap) (o : Order) : Heap × Nat :=
  ({ h with orders := h.orders ++ [o] }, h.orders.length)

/-- Writes a price level object. -/
def Heap.setLevel (h : Heap) (a : Nat) (l : OrdersBySpecificPrice) : Heap :=
  { h with levels := h.levels.set a l }

/-- Allocates a price level object and returns its address. -/
def Heap.newLevel (h : Heap) (l : OrdersBySpecificPrice) : Heap × Nat :=
  ({ h with levels := h.levels ++ [l] }, h.levels.length)

/-- Allocates a list element with the given `Value` and returns its address. -/
def Heap.newElement (h : Heap) (v : Nat) : Heap × Nat :=
  ({ h with elements := h.elements ++ [v] }, h.elements.length)

/-- The empty heap. -/
def Heap.empty : Heap := ⟨[], [], [], []⟩

/-- The constructor `NewOrderSide`. -/
def NewOrderSide (sideType : OperationType) : OrderSide := ⟨[], [], sideType⟩

/-- The constructor `NewOrderBook`. -/
def NewOrderBook (baseAsset quoteAsset : String) : OrderBook :=
  ⟨baseAsset, quoteAsset, [], [], NewOrderSide .Ask, NewOrderSide .Bid⟩

/-! ## Matching: `OrderSide.ExecuteOrder` -/

/-- What `ExecuteOrder` returns: `amountLeft` (an address, `none` for the nil returned with an
error), `ordersExecuted` and `err`. -/
structure ExecResult where
  amountLeft : Option Nat
  ordersExecuted : Nat
  err : Option String
  deriving DecidableEq, Repr, Inhabited

/-- The outcome of one pass through the body of the inner loop, from the read of the element
to the update of the level total: the heap, the counter `ordersExecuted`, `listNodeEmpty`,
and the error if one makes `ExecuteOrder` return. -/
structure StepResult where
  heap : Heap
  ordersExecuted : Nat
  listNodeEmpty : Bool
  err : Option String
  deriving DecidableEq, Repr, Inhabited

/-- The write `apd.BaseContext.Sub(dst, dst, y)` on the cell `dst`, the value `y` of the
other operand having been read: on an arithmetic error the heap is as it was. -/
def Heap.subCell (h : Heap) (dst : Nat) (y : Decimal) : Option (Heap × Option String) :=
  match h.decimals[dst]? with
  | none => none
  | some x =>
    match Decimal.Sub x y with
    | .error e => some (h, some e)
    | .ok d => some (h.setDecimal dst d, none)

/-- The statement `p.executions = append(p.executions, &oe)`. -/
def Heap.appendExecution (h : Heap) (p : Nat) (oe : ExecutionReport) : Option Heap :=
  match h.orders[p]? with
  | none => none
  | some x => some (h.setOrder p { x with executions := x.executions ++ [oe] })

/-- One match of the incoming order `o` (working copy `amountLeft` at address `aL`) with the
resting order held by the element `el` of the level `lp`: lines 221-280 of `orderbook.go`.
`amountFound` is an address, that of the resting amount or `aL` itself, and the report keeps
that address; `amountExecuted` is a private copy of the value. -/
def matchStep (o aL lp el : Nat) (h : Heap) (n : Nat) : Option StepResult := do
  let r ← h.elements[el]?
  let reqOrder ← h.orders[r]?
  let ord ← h.orders[o]?
  let reqAmount ← h.decimals[reqOrder.amount]?
  let left ← h.decimals[aL]?
  -- switch reqOrder.amount.Cmp(amountLeft)
  let listNodeEmpty : Bool := decide (reqAmount.Cmp left ≤ 0)
  let amountFound : Nat := if listNodeEmpty then reqOrder.amount else aL
  let oe : ExecutionReport := ⟨ord.orderID, reqOrder.orderID, amountFound, reqOrder.price⟩
  let amountExecuted : Decimal := if listNodeEmpty then reqAmount else left
  -- if !listNodeEmpty: reqOrder.amount -= amountFound
  let s1 ← (if listNodeEmpty then some (h, none) else h.subCell reqOrder.amount left)
  match s1.2 with
  | some e => some ⟨s1.1, n, listNodeEmpty, some e⟩
  | none =>
    -- amountLeft -= amountFound
    let y ← s1.1.decimals[amountFound]?
    let s2 ← s1.1.subCell aL y
    match s2.2 with
    | some e => some ⟨s2.1, n, listNodeEmpty, some e⟩
    | none =>
      let h3 ← s2.1.appendExecution o oe
      let h4 ← h3.appendExecution r oe
      -- ordersExecuted++ ; orders.totalAmount -= amountExecuted
      let lvl ← h4.levels[lp]?
      let s5 ← h4.subCell lvl.totalAmount amountExecuted
      some ⟨s5.1, n + 1, listNodeEmpty, s5.2⟩

/-- The outcome of the inner loop over one level: the heap, the counter, the elements to
delete, `treeNodeIsEmpty`, and the error if one made `ExecuteOrder` return. -/
structure QueueResult where
  heap : Heap
  ordersExecuted : Nat
  deleteEls : List Nat
  treeNodeIsEmpty : Bool
  err : Option String
  deriving DecidableEq, Repr, Inhabited

/-- The inner loop (lines 218-293) from the element at the head of `els`, the rest of the
list being what `el.Next()` walks.  A nil element (an empty list) is a nil dereference. -/
def matchQueue (o aL lp : Nat) : List Nat → Heap → Nat → List Nat → Option QueueResult
  | [], _, _, _ => none
  | el :: rest, h, n, deleteEls =>
    match matchStep o aL lp el h n with
    | none => none
    | some s =>
      match s.err with
      | some e => some ⟨s.heap, s.ordersExecuted, deleteEls, false, some e⟩
      | none =>
        let deleteEls1 := if s.listNodeEmpty then deleteEls ++ [el] else deleteEls
        match s.heap.decimals[aL]? with
        | none => none
        | some left =>
          if left.IsZero then some ⟨s.heap, s.ordersExecuted, deleteEls1, false, none⟩
          else
            match rest with
            | [] => some ⟨s.heap, s.ordersExecuted, deleteEls1, true, none⟩
            | _ :: _ => matchQueue o aL lp rest s.heap s.ordersExecuted deleteEls1

/-- The removal loop (lines 295-300): every marked element is removed from the list of the
level `lp`, and when the list is empty the price string is deleted from `prices`. -/
def removeEls (lp : Nat) : List Nat → Heap → List (String × Nat) → Option (Heap × List (String × Nat))
  | [], h, prices => some (h, prices)
  | delEl :: rest, h, prices =>
    match h.levels[lp]? with
    | none => none
    | some lvl =>
      let lvl1 := { lvl with orders := lvl.orders.erase delEl }
      let h1 := h.setLevel lp lvl1
      let prices1 := if lvl1.orders.length = 0 then mapDelete prices lvl1.price.TextG else prices
      removeEls lp rest h1 prices1

/-- The outcome of the outer loop: the heap, the `prices` map, the counter, the tree keys to
remove, and the error if one made `ExecuteOrder` return. -/
structure WalkResult where
  heap : Heap
  prices : List (String × Nat)
  ordersExecuted : Nat
  deleteTreeNodes : List Decimal
  err : Option String
  deriving DecidableEq, Repr, Inhabited

/-- The outer loop (lines 184-307) over the tree nodes the iterator still has to visit, best
price first. -/
def walkLevels (sideType : OperationType) (o aL : Nat) :
    List (Decimal × Nat) → Heap → List (String × Nat) → Nat → List Decimal → Option WalkResult
  | [], h, prices, n, dtn => some ⟨h, prices, n, dtn, none⟩
  | (key, lp) :: rest, h, prices, n, dtn =>
    match h.decimals[aL]? with
    | none => none
    | some left =>
      -- we found required amount - it's done
      if left.IsZero then some ⟨h, prices, n, dtn, none⟩
      else
        match h.levels[lp]?, h.orders[o]? with
        | some orders, some ord =>
          -- let's check if our price fits with the price from order book
          let res := ord.price.Cmp orders.price
          if (sideType = .Ask ∧ res < 0) ∨ (sideType = .Bid ∧ res > 0) then
            some ⟨h, prices, n, dtn, none⟩
          else
            match matchQueue o aL lp orders.orders h n [] with
            | none => none
            | some q =>
              match q.err with
              | some e => some ⟨q.heap, prices, q.ordersExecuted, dtn, some e⟩
              | none =>
                match removeEls lp q.deleteEls q.heap prices with
                | none => none
                | some (h1, prices1) =>
                  let dtn1 := if q.treeNodeIsEmpty then dtn ++ [key] else dtn
                  walkLevels sideType o aL rest h1 prices1 q.ordersExecuted dtn1
        | _, _ => none

/-- The method `OrderSide.ExecuteOrder`: the heap and the side after the call, and the
returned triple. -/
def ExecuteOrder (h : Heap) (os : OrderSide) (o : Nat) : Option (Heap × OrderSide × ExecResult) :=
  match h.orders[o]? with
  | none => none
  | some ord =>
    match h.decimals[ord.amount]? with
    | none => none
    | some a =>
      -- amountLeft = apd.New(0, 0); amountLeft.Set(o.amount)
      let (h0, aL) := h.newDecimal a
      -- asks are walked from the minimum, bids from the maximum
      let nodes := if os.sideType = .Ask then os.priceTree else os.priceTree.reverse
      match walkLevels os.sideType o aL nodes h0 os.prices 0 [] with
      | none => none
      | some w =>
        match w.err with
        | some e => some (w.heap, { os with prices := w.prices }, ⟨none, w.ordersExecuted, some e⟩)
        | none =>
          let tree := w.deleteTreeNodes.foldl treeRemove os.priceTree
          some (w.heap, { os with priceTree := tree, prices := w.prices },
            ⟨some aL, w.ordersExecuted, none⟩)

/-! ## `OrderSide.AddOrder` -/

/-- The method `OrdersBySpecificPrice.AddAmount` on the level `lp`: the total becomes a new
cell holding the sum; on an arithmetic error the new cell keeps its initial zero. -/
def AddAmount (h : Heap) (lp : Nat) (amount : Nat) : Option (Heap × Option String) :=
  match h.levels[lp]? with
  | none => none
  | some lvl =>
    match h.decimals[lvl.totalAmount]?, h.decimals[amount]? with
    | some total, some a =>
      match Decimal.Add total a with
      | .error e =>
        let (h1, d) := h.newDecimal (Decimal.New 0 0)
        some (h1.setLevel lp { lvl with totalAmount := d }, some e)
      | .ok s =>
        let (h1, d) := h.newDecimal s
        some (h1.setLevel lp { lvl with totalAmount := d }, none)
    | _, _ => none

/-- The method `OrderSide.AddOrder`: the heap and the side after the call, the returned
element address (`none` for nil) and the error. -/
def AddOrder (h : Heap) (os : OrderSide) (o : Nat) :
    Option (Heap × OrderSide × Option Nat × Option String) :=
  match h.orders[o]? with
  | none => none
  | some ord =>
    let priceS := ord.price.TextG
    match mapGet os.prices priceS with
    | some lp =>
      match AddAmount h lp ord.amount with
      | none => none
      | some (h1, some e) => some (h1, os, none, some e)
      | some (h1, none) =>
        match h1.levels[lp]? with
        | none => none
        | some lvl =>
          let (h2, el) := h1.newElement o
          some (h2.setLevel lp { lvl with orders := lvl.orders ++ [el] }, os, some el, none)
    | none =>
      let (h1, lp) := h.newLevel ⟨ord.price, ord.amount, []⟩
      let os1 := { os with prices := mapSet os.prices priceS lp,
                           priceTree := treePut os.priceTree ord.price lp }
      let (h2, el) := h1.newElement o
      some (h2.setLevel lp ⟨ord.price, ord.amount, [el]⟩, os1, some el, none)

/-! ## The order book operations -/

/-- What the operations of the book return; `amountLeft` is used by `PlaceMarketOrder`
only. -/
structure Reply where
  ordersExecuted : Nat
  amountLeft : Option Nat
  err : Option String
  deriving DecidableEq, Repr, Inhabited

/-- The loop `for _, execution := range o.executions { delete(ob.Orders, ...) }`. -/
def deleteExecutors (m : List (OrderID × Nat)) (executions : List ExecutionReport) :
    List (OrderID × Nat) :=
  executions.foldl (fun m e => mapDelete m e.executorOrderID) m

/-- The side an order of the given type rests on. -/
def OrderBook.side (ob : OrderBook) (t : OperationType) : OrderSide :=
  if t = .Ask then ob.Asks else ob.Bids

/-- Replaces the side of the given type. -/
def OrderBook.setSide (ob : OrderBook) (t : OperationType) (s : OrderSide) : OrderBook :=
  if t = .Ask then { ob with Asks := s } else { ob with Bids := s }

/-- The other operation type. -/
def OperationType.opposite : OperationType → OperationType
  | .Ask => .Bid
  | .Bid => .Ask

/-- The method `OrderBook.limitOrder`, its deferred function included: on a nil error the
order is recorded in `OrdersDone`. -/
def limitOrder (h : Heap) (ob : OrderBook) (o : Nat) : Option (Heap × OrderBook × Reply) :=
  match h.orders[o]? with
  | none => none
  | some ord =>
    match mapGet ob.Orders ord.orderID with
    | some _ => some (h, ob, ⟨0, none, some ("order: " ++ ord.orderID ++ " already exists")⟩)
    | none =>
      let t := ord.operationType
      match ExecuteOrder h (ob.side t.opposite) o with
      | none => none
      | some (h1, check1, r) =>
        let ob1 := ob.setSide t.opposite check1
        match r.err, r.amountLeft with
        | some e, _ => some (h1, ob1, ⟨r.ordersExecuted, none, some ("can't find about for order: " ++ e)⟩)
        | none, none => none
        | none, some aL =>
          match h1.orders[o]?, h1.decimals[aL]? with
          | some ord1, some left =>
            -- these orders were executed - delete them
            let ob2 := { ob1 with Orders := deleteExecutors ob1.Orders ord1.executions }
            if left.IsZero then
              some (h1, { ob2 with OrdersDone := mapSet ob2.OrdersDone ord1.orderID o },
                ⟨r.ordersExecuted, none, none⟩)
            else
              let h2 := if r.ordersExecuted > 0 then h1.setOrder o { ord1 with amount := aL } else h1
              match AddOrder h2 (ob2.side t) o with
              | none => none
              | some (h3, add3, orderInList, err) =>
                let ob3 := ob2.setSide t add3
                match err, orderInList with
                | some e, _ =>
                  some (h3, ob3, ⟨r.ordersExecuted, none, some ("can't place limit order: " ++ e)⟩)
                | none, none => none
                | none, some el =>
                  some (h3, { ob3 with Orders := mapSet ob3.Orders ord1.orderID el,
                                       OrdersDone := mapSet ob3.OrdersDone ord1.orderID o },
                    ⟨r.ordersExecuted, none, none⟩)
          | _, _ => none

/-- The method `OrderBook.PlaceLimitOrder`. -/
def PlaceLimitOrder (h : Heap) (ob : OrderBook) (o : Nat) : Option (Heap × OrderBook × Reply) :=
  limitOrder h ob o

/-- The method `OrderBook.PlaceMarketOrder`, its deferred function included. -/
def PlaceMarketOrder (h : Heap) (ob : OrderBook) (o : Nat) : Option (Heap × OrderBook × Reply) :=
  match h.orders[o]? with
  | none => none
  | some ord =>
    let t := ord.operationType
    match ExecuteOrder h (ob.side t.opposite) o with
    | none => none
    | some (h1, check1, r) =>
      let ob1 := ob.setSide t.opposite check1
      match r.err with
      | some e => some (h1, ob1, ⟨r.ordersExecuted, none, some ("can't find about for order: " ++ e)⟩)
      | none =>
        match h1.orders[o]? with
        | none => none
        | some ord1 =>
          let ob2 := { ob1 with Orders := deleteExecutors ob1.Orders ord1.executions }
          some (h1, { ob2 with OrdersDone := mapSet ob2.OrdersDone ord1.orderID o },
            ⟨r.ordersExecuted, r.amountLeft, none⟩)

/-- The replay loop of `Rollback` over the execution reports: each report is placed as a
limit order of the reverse type with the id of the executor, sharing the amount cell of the
report. -/
def replay (operationTypeWas : OperationType) :
    List ExecutionReport → Heap → OrderBook → Option (Heap × OrderBook × Option String)
  | [], h, ob => some (h, ob, none)
  | oe :: rest, h, ob =>
    let (h1, o) := h.newOrder ⟨oe.executorOrderID, operationTypeWas, oe.amount, oe.price, []⟩
    match limitOrder h1 ob o with
    | none => none
    | some (h2, ob2, r) =>
      match r.err with
      | some e => some (h2, ob2, some ("error in rollback: " ++ e))
      | none => replay operationTypeWas rest h2 ob2

/-- The method `OrderBook.Rollback`: the heap and the book after the call and the error. -/
def Rollback (h : Heap) (ob : OrderBook) (orderID : OrderID) :
    Option (Heap × OrderBook × Option String) :=
  match mapGet ob.OrdersDone orderID with
  | none => some (h, ob, some ("order: " ++ orderID ++ " not found - nothing to rollback"))
  | some p =>
    match h.orders[p]? with
    | none => none
    | some order =>
      match replay order.operationType.opposite order.executions h ob with
      | none => none
      | some (h1, ob1, some e) => some (h1, ob1, some e)
      | some (h1, ob1, none) => some (h1, { ob1 with OrdersDone := mapDelete ob1.OrdersDone orderID }, none)

/-! ## The test fixture -/

/-- The caller's `&Order{...}`: a new order object with a new amount cell. -/
def Heap.allocOrder (h : Heap) (id : OrderID) (t : OperationType) (amount price : Decimal) :
    Heap × Nat :=
  let (h1, a) := h.newDecimal amount
  h1.newOrder ⟨id, t, a, price, []⟩

/-- Places a new limit order built from the given fields. -/
def placeNewLimit (h : Heap) (ob : OrderBook) (id : OrderID) (t : OperationType)
    (amount price : Decimal) : Option (Heap × OrderBook × Reply) :=
  let (h1, o) := h.allocOrder id t amount price
  PlaceLimitOrder h1 ob o

/-- Places a new market order built from the given fields. -/
def placeNewMarket (h : Heap) (ob : OrderBook) (id : OrderID) (t : OperationType)
    (amount price : Decimal) : Option (Heap × OrderBook × Reply) :=
  let (h1, o) := h.allocOrder id t amount price
  PlaceMarketOrder h1 ob o

/-- Places the listed orders as limit orders, one after the other, stopping at a panic. -/
def placeAll : List (OrderID × OperationType × Decimal × Decimal) → Heap → OrderBook →
    Option (Heap × OrderBook)
  | [], h, ob => some (h, ob)
  | (id, t, amount, price) :: rest, h, ob =>
    match placeNewLimit h ob id t amount price with
    | none => none
    | some (h1, ob1, _) => placeAll rest h1 ob1

/-- The fourteen orders of `testOrders()` in `orderbook_test.go`. -/
def testOrders : List (OrderID × OperationType × Decimal × Decimal) :=
  [ ("1", .Ask, .New 3 (-1), .New 20050 0),
    ("11", .Ask, .New 5 (-1), .New 20050 0),
    ("111", .Ask, .New 2 (-1), .New 20050 0),
    ("2", .Ask, .New 3 (-1), .New 20100 0),
    ("22", .Ask, .New 5 (-1), .New 20100 0),
    ("222", .Ask, .New 2 (-1), .New 20100 0),
    ("3", .Ask, .New 2 0, .New 20150 0),
    ("4", .Bid, .New 3 (-1), .New 20000 0),
    ("44", .Bid, .New 5 (-1), .New 20000 0),
    ("444", .Bid, .New 2 (-1), .New 20000 0),
    ("5", .Bid, .New 3 (-1), .New 19900 0),
    ("55", .Bid, .New 5 (-1), .New 19900 0),
    ("555", .Bid, .New 2 (-1), .New 19900 0),
    ("6", .Bid, .New 2 0, .New 19850 0) ]

/-- The book of the tests: the fourteen orders placed on `NewOrderBook("BTC", "USDT")`. -/
def fixture : Option (Heap × OrderBook) :=
  placeAll testOrders Heap.empty (NewOrderBook "BTC" "USDT")

/-- The rendering of one level as `OrderSide.String` prints it: the number of orders, the
price string and the total string. -/
def levelLine (h : Heap) (lp : Nat) : Option (Nat × String × String) :=
  match h.levels[lp]? with
  | none => none
  | some lvl =>
    match h.decimals[lvl.totalAmount]? with
    | none => none
    | some t => some (lvl.orders.length, lvl.price.TextG, t.TextG)

/-- The lines `OrderSide.String` prints for the `prices` map of a side. -/
def sideLines (h : Heap) (os : OrderSide) : List (Option (Nat × String × String)) :=
  os.prices.map (fun e => levelLine h e.2)

/-- The heap of the fixture. -/
def fixtureHeap : Heap := (fixture.getD default).1

/-- The book of the fixture. -/
def fixtureBook : OrderBook := (fixture.getD default).2

/-- The amounts held in the heap `h` by the cells of the execution reports of the order
at `o`. -/
def executionAmounts (h : Heap) (o : Nat) : List (Option Decimal) :=
  match h.orders[o]? with
  | none => []
  | some ord => ord.executions.map (fun e => h.decimals[e.amount]?)

/-- The execution reports of the order at `o`. -/
def executionsOf (h : Heap) (o : Nat) : List ExecutionReport :=
  match h.orders[o]? with
  | none => []
  | some ord => ord.executions

/-- The amount held in the heap `h` by the amount cell of the order at `o`. -/
def amountOf (h : Heap) (o : Nat) : Option Decimal :=
  match h.orders[o]? with
  | none => none
  | some ord => h.decimals[ord.amount]?

/-- Three asks placed on an empty book: `a1` at 20050, `a2` at the same price written
20050.0, `a3` at 20060. -/
def twoSpellings : Option (Heap × OrderBook) :=
  placeAll [("a1", .Ask, .New 1 0, .New 20050 0), ("a2", .Ask, .New 1 0, .New 200500 (-1)),
    ("a3", .Ask, .New 1 0, .New 20060 0)] Heap.empty (NewOrderBook "BTC" "USDT")

/-- The heap after the three asks of `twoSpellings`. -/
def twoSpellingsHeap : Heap := (twoSpellings.getD default).1

/-- The book after the three asks of `twoSpellings`. -/
def twoSpellingsBook : OrderBook := (twoSpellings.getD default).2

/-- An ask `r` of 1 at 20050 resting alone, then completely filled by the bid `b`: the
journal record of `r` holds a report that names `r` itself as executor. -/
def selfExecutor : Option (Heap × OrderBook) :=
  placeAll [("r", .Ask, .New 1 0, .New 20050 0), ("b", .Bid, .New 1 0, .New 20050 0)]
    Heap.empty (NewOrderBook "BTC" "USDT")

/-- The heap of `selfExecutor`. -/
def selfExecutorHeap : Heap := (selfExecutor.getD default).1

/-- The book of `selfExecutor`. -/
def selfExecutorBook : OrderBook := (selfExecutor.getD default).2

/-! ## Predicates used in the statements -/

/-- The order `x'` is `x` with, possibly, more execution reports at the end. -/
def Order.Grew (x x' : Order) : Prop :=
  x'.orderID = x.orderID ∧ x'.operationType = x.operationType ∧ x'.amount = x.amount ∧
    x'.price = x.price ∧ x.executions <+: x'.executions

/-- The level `l'` is `l` with, possibly, fewer queued elements. -/
def OrdersBySpecificPrice.Shrank (l l' : OrdersBySpecificPrice) : Prop :=
  l'.price = l.price ∧ l'.totalAmount = l.totalAmount ∧ l'.orders.Sublist l.orders

/-- What matching can do to a heap: nothing is allocated, list elements stay, an order keeps
its id, type, amount address and price and only gains reports, a level keeps its price and
total address and only loses queued elements. -/
structure Evolves (h h' : Heap) : Prop where
  elements : h'.elements = h.elements
  decimals : h'.decimals.length = h.decimals.length
  ordersLen : h'.orders.length = h.orders.length
  orders : ∀ (p : Nat) (x : Order), h.orders[p]? = some x →
    ∃ x', h'.orders[p]? = some x' ∧ x.Grew x'
  levelsLen : h'.levels.length = h.levels.length
  levels : ∀ (lp : Nat) (l : OrdersBySpecificPrice), h.levels[lp]? = some l →
    ∃ l', h'.levels[lp]? = some l' ∧ l.Shrank l'

/-- The price test of the outer loop of `ExecuteOrder`: an incoming order priced `p` may be
matched with a level priced `q` of a side of type `sideType`. -/
def crosses (sideType : OperationType) (p q : Decimal) : Prop :=
  ¬ ((sideType = .Ask ∧ p.Cmp q < 0) ∨ (sideType = .Bid ∧ p.Cmp q > 0))

instance (sideType : OperationType) (p q : Decimal) : Decidable (crosses sideType p q) := by
  unfold crosses
  exact inferInstance

/-- The id of the order held by a list element. -/
def restingId (h : Heap) (el : Nat) : Option OrderID :=
  match h.elements[el]? with
  | none => none
  | some r =>
    match h.orders[r]? with
    | none => none
    | some x => some x.orderID

/-- The cell `a` belongs to the level `lp`: it is its total, or the amount of an order in
its queue. -/
def ownsCell (h : Heap) (lp a : Nat) : Prop :=
  ∃ l, h.levels[lp]? = some l ∧
    (a = l.totalAmount ∨
      ∃ el ∈ l.orders, ∃ r x, h.elements[el]? = some r ∧ h.orders[r]? = some x ∧ a = x.amount)

/-- The order object `p` rests in the level `lp`. -/
def ownsOrder (h : Heap) (lp p : Nat) : Prop :=
  ∃ l, h.levels[lp]? = some l ∧ ∃ el ∈ l.orders, h.elements[el]? = some p

/-- The keys of the tree increase strictly: the search tree property of the red-black
tree. -/
def treeSorted (os : OrderSide) : Prop :=
  os.priceTree.Pairwise (fun a b => a.1.Cmp b.1 < 0)

instance (os : OrderSide) : Decidable (treeSorted os) := by
  unfold treeSorted
  exact inferInstance

/-- Every order queued in a level of the tree has a price that compares equal to the price
of that level. -/
def pricesAgree (h : Heap) (os : OrderSide) : Bool :=
  os.priceTree.all fun node =>
    match h.levels[node.2]? with
    | none => true
    | some l =>
      l.orders.all fun el =>
        match h.elements[el]? with
        | none => true
        | some p =>
          match h.orders[p]? with
          | none => true
          | some x => decide (x.price.Cmp l.price = 0)

/-- The fixture with one more order allocated by the caller, not yet placed: the bid
`100500` of 1.5 at 20100, at address 14. -/
def capHeap : Heap := (fixtureHeap.allocOrder "100500" .Bid (.New 15 (-1)) (.New 20100 0)).1

/-- What `ExecuteOrder` returns for the order 14 of `capHeap` on the asks of the fixture. -/
def capResult : Heap × OrderSide × ExecResult :=
  (ExecuteOrder capHeap fixtureBook.Asks 14).getD default

/-- The fixture with one more order allocated by the caller, not yet placed: the bid
`100500` of 100 at 22000, at address 14. -/
def marketHeap : Heap := (fixtureHeap.allocOrder "100500" .Bid (.New 100 0) (.New 22000 0)).1

/-- What `PlaceMarketOrder` returns for the order 14 of `marketHeap` on the fixture. -/
def marketResult : Heap × OrderBook × Reply :=
  (PlaceMarketOrder marketHeap fixtureBook 14).getD default

/-- What `PlaceLimitOrder` returns for the order 14 of `marketHeap` on the fixture. -/
def limitResult : Heap × OrderBook × Reply :=
  (PlaceLimitOrder marketHeap fixtureBook 14).getD default

/-- The queue of the level at `lp`, front first; empty when there is no such level. -/
def queueOf (h : Heap) (lp : Nat) : List Nat :=
  match h.levels[lp]? with
  | none => []
  | some l => l.orders

/-- The list elements resting in the levels of the given tree nodes: node after node and,
within a level, from the front of its queue.  On the nodes in walking order this is the side
in price-time order. -/
def restingOrder (h : Heap) : List (Decimal × Nat) → List Nat
  | [] => []
  | node :: rest => queueOf h node.2 ++ restingOrder h rest

/-- The tree nodes in the order `ExecuteOrder` walks them: asks from the minimum up, bids
from the maximum down. -/
def walkOrder (os : OrderSide) : List (Decimal × Nat) :=
  if os.sideType = .Ask then os.priceTree else os.priceTree.reverse

/-- The side can be walked for the incoming order `o`: every tree node has a level of its
own, the total of a level is an allocated cell, no element is twice in a queue, and the
incoming order is not itself resting in a level of the tree. -/
def walkable (h : Heap) (os : OrderSide) (o : Nat) : Bool :=
  decide (os.priceTree.map Prod.snd).Nodup &&
    os.priceTree.all fun node =>
      match h.levels[node.2]? with
      | none => true
      | some l =>
        decide (l.totalAmount < h.decimals.length) && decide l.orders.Nodup &&
          l.orders.all fun el => decide (h.elements[el]? ≠ some o)

/-- The fixture with one more order allocated by the caller, not yet placed: the bid
`100500` of 0.4 at 20050, at address 14. -/
def twoFillsHeap : Heap := (fixtureHeap.allocOrder "100500" .Bid (.New 4 (-1)) (.New 20050 0)).1

/-- What `ExecuteOrder` returns for the order 14 of `twoFillsHeap` on the asks of the
fixture. -/
def twoFillsResult : Heap × OrderSide × ExecResult :=
  (ExecuteOrder twoFillsHeap fixtureBook.Asks 14).getD default

/-! ## Sequences of calls -/

/-- A call of one of the three public operations of the book.  A placement carries the
fields of the order the caller builds for it: id, type, amount and price. -/
inductive Call where
  | placeLimit (id : OrderID) (t : OperationType) (amount price : Decimal)
  | placeMarket (id : OrderID) (t : OperationType) (amount price : Decimal)
  | rollback (id : OrderID)
  deriving DecidableEq, Repr, Inhabited

/-- Runs one call: the heap and the book after it, and the error it returns. -/
def Call.run (h : Heap) (ob : OrderBook) : Call → Option (Heap × OrderBook × Option String)
  | .placeLimit id t amount price =>
    match placeNewLimit h ob id t amount price with
    | none => none
    | some (h1, ob1, r) => some (h1, ob1, r.err)
  | .placeMarket id t amount price =>
    match placeNewMarket h ob id t amount price with
    | none => none
    | some (h1, ob1, r) => some (h1, ob1, r.err)
  | .rollback id => Rollback h ob id

/-- Runs the calls one after the other; there is a result only when no call panics and every
call returns a nil error: the state is then reached by successful calls. -/
def runCalls : List Call → Heap → OrderBook → Option (Heap × OrderBook)
  | [], h, ob => some (h, ob)
  | c :: cs, h, ob =>
    match c.run h ob with
    | some (h1, ob1, none) => runCalls cs h1 ob1
    | _ => none

/-- The amount of the order a placement carries is positive. -/
def Call.positive : Call → Bool
  | .placeLimit _ _ amount _ => decide (0 < amount.coeff)
  | .placeMarket _ _ amount _ => decide (0 < amount.coeff)
  | .rollback _ => true

/-- A state of the book reached from the empty book by successful calls. -/
def Reachable (h : Heap) (ob : OrderBook) : Prop :=
  ∃ calls : List Call, runCalls calls Heap.empty (NewOrderBook "BTC" "USDT") = some (h, ob)

/-- A state of the book reached from the empty book by successful calls whose orders have
positive amounts. -/
def ReachablePositive (h : Heap) (ob : OrderBook) : Prop :=
  ∃ calls : List Call, calls.all Call.positive = true ∧
    runCalls calls Heap.empty (NewOrderBook "BTC" "USDT") = some (h, ob)

/-- The fourteen placements of the fixture, as calls. -/
def fixtureCalls : List Call :=
  testOrders.map fun x => Call.placeLimit x.1 x.2.1 x.2.2.1 x.2.2.2

/-- The state after the given calls on the empty book (the default state when they do not
all succeed). -/
def stateAfter (calls : List Call) : Heap × OrderBook :=
  (runCalls calls Heap.empty (NewOrderBook "BTC" "USDT")).getD default

/-! ## The invariants of the specification, as tests on a state -/

/-- The levels a side refers to, from its tree and from its `prices` map. -/
def sideLevels (os : OrderSide) : List Nat :=
  (os.priceTree.map Prod.snd ++ os.prices.map Prod.snd).dedup

/-- The tree and the `prices` map of a side hold the same levels. -/
def sameLevels (os : OrderSide) : Bool :=
  (os.priceTree.all fun node => decide (node.2 ∈ os.prices.map Prod.snd)) &&
    (os.prices.all fun e => decide (e.2 ∈ os.priceTree.map Prod.snd))

/-- The number of times the element `el` is queued in the levels of the two sides. -/
def timesQueued (h : Heap) (ob : OrderBook) (el : Nat) : Nat :=
  (((sideLevels ob.Asks ++ sideLevels ob.Bids).dedup.map fun lp => (queueOf h lp).count el)).sum

/-- Every element queued in a level of the book is queued once, and the live map `Orders`
maps the id of its order to it. -/
def liveAgrees (h : Heap) (ob : OrderBook) : Bool :=
  (sideLevels ob.Asks ++ sideLevels ob.Bids).all fun lp =>
    (queueOf h lp).all fun el =>
      decide (timesQueued h ob el = 1) &&
        match restingId h el with
        | none => false
        | some id => decide (mapGet ob.Orders id = some el)

/-- The amounts of the orders held by the elements of a queue, added up as the library adds
(`none` when an object is missing or an addition fails). -/
def queueSum (h : Heap) : List Nat → Option Decimal
  | [] => some (Decimal.New 0 0)
  | el :: rest =>
    match h.elements[el]?, queueSum h rest with
    | some p, some s =>
      match amountOf h p with
      | none => none
      | some a =>
        match Decimal.Add a s with
        | .error _ => none
        | .ok d => some d
    | _, _ => none

/-- The total of the level compares equal to the sum of the amounts of its queued orders. -/
def totalAgrees (h : Heap) (lp : Nat) : Bool :=
  match h.levels[lp]? with
  | none => false
  | some l =>
    match h.decimals[l.totalAmount]?, queueSum h l.orders with
    | some t, some s => decide (t.Cmp s = 0)
    | _, _ => false

/-- Every level of the two sides has a total equal to the sum of its queued amounts. -/
def totalsAgree (h : Heap) (ob : OrderBook) : Bool :=
  (sideLevels ob.Asks ++ sideLevels ob.Bids).all fun lp => totalAgrees h lp

/-- The ids of the orders queued in the level `lp`, front first. -/
def queueIds (h : Heap) (lp : Nat) : List (Option OrderID) :=
  (queueOf h lp).map (restingId h)

/-- The amounts of the orders queued in the level `lp`, front first. -/
def queueAmounts (h : Heap) (lp : Nat) : List (Option Decimal) :=
  (queueOf h lp).map fun el =>
    match h.elements[el]? with
    | none => none
    | some p => amountOf h p

/-- The fixture, then the limit bid `100500` of 1.0 at 20050, which takes the three asks of
the level 20050 and nothing more. -/
def drainCalls : List Call :=
  fixtureCalls ++ [.placeLimit "100500" .Bid (.New 10 (-1)) (.New 20050 0)]

/-- The fixture, then the limit bid `100500` of 0.1 at 20050, which takes a part of the
ask `1`. -/
def nibbleCalls : List Call :=
  fixtureCalls ++ [.placeLimit "100500" .Bid (.New 1 (-1)) (.New 20050 0)]

/-- Two asks of 1 on the empty book at the same price, written 20050 and 20050.0. -/
def spellingCalls : List Call :=
  [.placeLimit "a1" .Ask (.New 1 0) (.New 20050 0),
   .placeLimit "a2" .Ask (.New 1 0) (.New 200500 (-1))]

/-- Nine successful calls after which two resting orders share one amount cell: the asks `X`
and `Y` at 100 are taken by the bid `O`, whose rest of 1 stays at 100; the rollback of `X`
puts a bid with the id `X` and the amount cell of `X` behind it; the ask `A` takes `O` and
a part of that bid; the bid `Z` at 100.0 replaces the tree node of their level and is taken
by the market ask `M`; the rollback of `O` puts an ask with the id `X` and the same amount
cell on the ask side; the bid `P` takes a part of it. -/
def sharedCellCalls : List Call :=
  [.placeLimit "X" .Ask (.New 1 0) (.New 100 0),
   .placeLimit "Y" .Ask (.New 1 0) (.New 100 0),
   .placeLimit "O" .Bid (.New 3 0) (.New 100 0),
   .rollback "X",
   .placeLimit "A" .Ask (.New 15 (-1)) (.New 100 0),
   .placeLimit "Z" .Bid (.New 1 0) (.New 1000 (-1)),
   .placeMarket "M" .Ask (.New 2 0) (.New 100 0),
   .rollback "O",
   .placeLimit "P" .Bid (.New 2 (-1)) (.New 100 0)]

/-- On the fixture, the limit bid `100500` of 4.0 at 25000, which takes the seven asks whole,
and then its rollback. -/
def sweepCalls : List Call :=
  [.placeLimit "100500" .Bid (.New 40 (-1)) (.New 25000 0), .rollback "100500"]

/-- On the fixture, the limit bid `100500` of 2.0 at 25000 of `Test_OrderBookRollback`, and
then its rollback. -/
def rollbackTestCalls : List Call :=
  [.placeLimit "100500" .Bid (.New 20 (-1)) (.New 25000 0), .rollback "100500"]

/-- On the fixture, the limit bid `100500` of 0.1 at 20050, and then its rollback. -/
def nibbleRollbackCalls : List Call :=
  [.placeLimit "100500" .Bid (.New 1 (-1)) (.New 20050 0), .rollback "100500"]

/-- The two sides are apart for an order of type `t`: every node of the opposite tree has
its level in the heap, and no level of the opposite tree is a value of the `prices` map of
the side the order rests on. -/
def sidesApart (h : Heap) (ob : OrderBook) (t : OperationType) : Bool :=
  ((ob.side t.opposite).priceTree.all fun node => decide (node.2 < h.levels.length)) &&
    ((ob.side t).prices.all fun e =>
      decide (e.2 ∉ (ob.side t.opposite).priceTree.map Prod.snd))

/-- What `PlaceLimitOrder` returns for the order 14 of `twoFillsHeap` on the fixture. -/
def twoFillsPlaced : Heap × OrderBook × Reply :=
  (PlaceLimitOrder twoFillsHeap fixtureBook 14).getD default

/-- The value held by the decimal cell `c` (0 when it is not allocated). -/
def cellVal (h : Heap) (c : Nat) : ℚ :=
  match h.decimals[c]? with
  | none => 0
  | some d => d.val

/-- The amount of the order held by the list element `el`, as a number. -/
def elAmount (h : Heap) (el : Nat) : ℚ :=
  match h.elements[el]? with
  | none => 0
  | some p =>
    match h.orders[p]? with
    | none => 0
    | some x => cellVal h x.amount

/-- The sum of the amounts of the orders held by the elements of a queue. -/
def queueVal (h : Heap) (q : List Nat) : ℚ := (q.map (elAmount h)).sum

/-- The elements `els`, a queue of the level `lp` or what is left of it, can be matched: each
holds an order with an amount that is not negative, in a cell other than `aL`; when that cell
is also the total of the level, the element is the only one. -/
def queueSound (h : Heap) (aL lp : Nat) (els : List Nat) : Prop :=
  ∀ el ∈ els, ∃ p x d, h.elements[el]? = some p ∧ h.orders[p]? = some x ∧
    h.decimals[x.amount]? = some d ∧ 0 ≤ d.val ∧ x.amount ≠ aL ∧
    ∀ l, h.levels[lp]? = some l → x.amount = l.totalAmount → els = [el]

/-- What the outer loop can take from the nodes it walks, for an incoming price `p`: the
queued amounts of the levels up to the first one that fails the price test. -/
def walkVal (h : Heap) (sideType : OperationType) (p : Decimal) : List (Decimal × Nat) → ℚ
  | [] => 0
  | node :: rest =>
    match h.levels[node.2]? with
    | none => 0
    | some l =>
      if crosses sideType p l.price then queueVal h l.orders + walkVal h sideType p rest else 0

/-- The nodes can be matched: they are distinct levels whose total is a cell other than `aL`;
every queued element holds an order with an amount that is not negative, in a cell other
than `aL`; and when that cell is also the total of a level of these nodes, the level is the
element's own and the element is alone in it. -/
def nodesSound (h : Heap) (aL : Nat) (nodes : List (Decimal × Nat)) : Prop :=
  (nodes.map Prod.snd).Nodup ∧
    ∀ node ∈ nodes, ∃ l, h.levels[node.2]? = some l ∧ l.totalAmount ≠ aL ∧
      ∀ el ∈ l.orders, ∃ p x d, h.elements[el]? = some p ∧ h.orders[p]? = some x ∧
        h.decimals[x.amount]? = some d ∧ 0 ≤ d.val ∧ x.amount ≠ aL ∧
        ∀ node' ∈ nodes, ∀ l', h.levels[node'.2]? = some l' → x.amount = l'.totalAmount →
          node'.2 = node.2 ∧ l'.orders = [el]

/-- The level of the node passes the price test of the outer loop for the price `p`. -/
def crossesNode (h : Heap) (sideType : OperationType) (p : Decimal) (node : Decimal × Nat) :
    Bool :=
  match h.levels[node.2]? with
  | none => false
  | some l => decide (crosses sideType p l.price)

/-- The total of the level of the node, as a number. -/
def totalVal (h : Heap) (node : Decimal × Nat) : ℚ :=
  match h.levels[node.2]? with
  | none => 0
  | some l => cellVal h l.totalAmount

/-- The sum of the totals of the levels of the side that pass the price test for an incoming
price `p`: ask levels priced at most `p` for a bid, bid levels priced at least `p` for an
ask. -/
def crossingTotal (h : Heap) (os : OrderSide) (p : Decimal) : ℚ :=
  ((os.priceTree.filter (crossesNode h os.sideType p)).map (totalVal h)).sum

/-- The level `a` is priced strictly below the level `b`. -/
def levelBelow (h : Heap) (a b : Nat) : Bool :=
  match h.levels[a]?, h.levels[b]? with
  | some la, some lb => decide (la.price.Cmp lb.price < 0)
  | _, _ => false

/-- The element `el`, queued in the level `lp`, holds an order with a positive amount, and
the cell of that amount is the total of no level of the tree, except of `lp` itself when
`el` is alone in it. -/
def elementSound (h : Heap) (os : OrderSide) (lp el : Nat) : Bool :=
  match h.elements[el]? with
  | none => false
  | some p =>
    match h.orders[p]? with
    | none => false
    | some x =>
      match h.decimals[x.amount]? with
      | none => false
      | some d =>
        decide (0 < d.coeff) &&
          os.priceTree.all fun node =>
            match h.levels[node.2]? with
            | none => true
            | some l => decide (x.amount = l.totalAmount → node.2 = lp ∧ l.orders = [el])

/-- A well-formed side: the nodes of the tree are distinct levels in the order of their
prices; every level has a queue that is not empty, of orders with positive amounts, and a
total equal to the sum of these amounts. -/
def wellFormedSide (h : Heap) (os : OrderSide) : Bool :=
  decide (os.priceTree.map Prod.snd).Nodup &&
    decide (os.priceTree.Pairwise fun a b => levelBelow h a.2 b.2 = true) &&
    os.priceTree.all fun node =>
      match h.levels[node.2]? with
      | none => false
      | some l =>
        !l.orders.isEmpty && totalAgrees h node.2 &&
          l.orders.all fun el => elementSound h os node.2 el

/-- The list element `el` holds an order whose amount cell is allocated. -/
def elReady (h : Heap) (el : Nat) : Prop :=
  ∃ p x, h.elements[el]? = some p ∧ h.orders[p]? = some x ∧ x.amount < h.decimals.length

/-- The tree nodes can be walked without a nil dereference: the levels are distinct objects
with a queue that is not empty and an allocated total, and their elements hold orders with
allocated amounts. -/
def nodesReady (h : Heap) (nodes : List (Decimal × Nat)) : Prop :=
  (nodes.map Prod.snd).Nodup ∧
    ∀ node ∈ nodes, ∃ l, h.levels[node.2]? = some l ∧ l.orders ≠ [] ∧
      l.totalAmount < h.decimals.length ∧ ∀ el ∈ l.orders, elReady h el

/-! ## The round trip of a placement and its rollback -/

/-- The report of a match that takes the order held by the element `el` whole: the id of the
initiator, the id of the resting order, its amount cell and its price. -/
def reportOf (h : Heap) (initiator : OrderID) (el : Nat) : ExecutionReport :=
  match h.elements[el]? with
  | none => default
  | some p =>
    match h.orders[p]? with
    | none => default
    | some x => ⟨initiator, x.orderID, x.amount, x.price⟩

/-- The elements `els`, a queue of the level `lp` or what is left of it, for a walk that
takes orders whole: each holds an order other than the incoming one, with an allocated
amount cell other than `aL`, and when that cell is also the total of the level the element
is the only one. -/
def queueWhole (h : Heap) (o aL lp : Nat) (els : List Nat) : Prop :=
  ∀ el ∈ els, ∃ p x d, h.elements[el]? = some p ∧ p ≠ o ∧ h.orders[p]? = some x ∧
    h.decimals[x.amount]? = some d ∧ x.amount ≠ aL ∧
    ∀ l, h.levels[lp]? = some l → x.amount = l.totalAmount → els = [el]

/-- The content of a side under the price string `s`: the number of queued orders and the
total of the level that the map `prices` holds for `s`; `(0, 0)` when it holds none. -/
def contentD (h : Heap) (prices : List (String × Nat)) (s : String) : Nat × ℚ :=
  match mapGet prices s with
  | none => (0, 0)
  | some lp =>
    match h.levels[lp]? with
    | none => (0, 0)
    | some l => (l.orders.length, cellVal h l.totalAmount)

/-- The reports priced `s` among `es`: how many they are, and the sum of the amounts their
cells hold in the heap `h`. -/
def tally (h : Heap) (s : String) (es : List ExecutionReport) : Nat × ℚ :=
  ((es.filter fun e => decide (e.price.TextG = s)).length,
    ((es.filter fun e => decide (e.price.TextG = s)).map fun e => cellVal h e.amount).sum)

/-- What a walk that takes orders whole needs of the heap, the map `prices` and the nodes
still to visit: the nodes are distinct levels, each held by `prices` under its price string,
with a queue without repetition and a total equal to the sum of the queued amounts; a queued
order is not the incoming one, is priced as its level, and its amount cell is the total of a
level only if it is alone in that level; every level held by `prices` is under its own price
string, is not empty, has an allocated total, and the totals of these levels are distinct
cells, other than `aL`. -/
structure WalkTidy (h : Heap) (o aL : Nat) (prices : List (String × Nat))
    (nodes : List (Decimal × Nat)) : Prop where
  nodup : (nodes.map Prod.snd).Nodup
  level : ∀ node ∈ nodes, ∃ l t, h.levels[node.2]? = some l ∧
    mapGet prices l.price.TextG = some node.2 ∧ l.orders.Nodup ∧
    h.decimals[l.totalAmount]? = some t ∧ t.val = queueVal h l.orders ∧
    ∀ el ∈ l.orders, ∃ p x d, h.elements[el]? = some p ∧ p ≠ o ∧ h.orders[p]? = some x ∧
      h.decimals[x.amount]? = some d ∧ x.amount ≠ aL ∧ x.price.TextG = l.price.TextG ∧
      ∀ node' ∈ nodes, ∀ l', h.levels[node'.2]? = some l' → x.amount = l'.totalAmount →
        node'.2 = node.2 ∧ l'.orders = [el]
  priced : ∀ s lp, mapGet prices s = some lp →
    ∃ l t, h.levels[lp]? = some l ∧ l.price.TextG = s ∧ l.totalAmount ≠ aL ∧ l.orders ≠ [] ∧
      h.decimals[l.totalAmount]? = some t
  totals : ∀ s s' lp lp' l l', mapGet prices s = some lp → mapGet prices s' = some lp' →
    h.levels[lp]? = some l → h.levels[lp']? = some l' → l.totalAmount = l'.totalAmount →
    lp = lp'

/-- Every level the map `prices` holds is in the heap, under its own price string, with an
allocated total. -/
def Priced (h : Heap) (prices : List (String × Nat)) : Prop :=
  ∀ s lp, mapGet prices s = some lp →
    ∃ l t, h.levels[lp]? = some l ∧ l.price.TextG = s ∧ h.decimals[l.totalAmount]? = some t

/-- What the replay loop of `Rollback` needs of the heap `h` and the book `ob` to put back
the reports `es` of an order of type `t`, the heap having been `hb` before the loop: the
cells of the reports were allocated in `hb` and hold amounts other than zero, and the cells
of `hb` have stayed; the ids of the executors are distinct and not live; the side of type `t`
is `W`, its best level is one of the levels `keep`, priced so that no report meets it; the
levels `keep` are those of `hb`, untouched, and are not held by the `prices` map of the
opposite side, which holds levels of the heap under their own price strings. -/
structure ReplayReady (t : OperationType) (W : OrderSide) (hb : Heap) (keep : Nat → Prop)
    (h : Heap) (ob : OrderBook) (es : List ExecutionReport) : Prop where
  cells : ∀ e ∈ es, ∃ d, hb.decimals[e.amount]? = some d ∧ d.IsZero = false
  grows : hb.decimals <+: h.decimals
  ids : (es.map fun e => e.executorOrderID).Nodup
  notLive : ∀ e ∈ es, mapGet ob.Orders e.executorOrderID = none
  own : ob.side t = W
  head : ∀ node, (walkOrder W).head? = some node → keep node.2 ∧
    ∃ l, hb.levels[node.2]? = some l ∧ ∀ e ∈ es, ¬ crosses W.sideType e.price l.price
  kept : ∀ lp, keep lp → lp < hb.levels.length ∧ h.levels[lp]? = hb.levels[lp]? ∧
    ∀ s, mapGet (ob.side t.opposite).prices s ≠ some lp
  levels : hb.levels.length ≤ h.levels.length
  priced : Priced h (ob.side t.opposite).prices

/-- The `prices` map of the side agrees with its tree: every level the map holds is a level
of the tree, under its own price string; every level of the tree is held by the map under
its price string, has a queue without repetition of orders priced as the level, and a total
cell that is the total of no other level; and the orders resting on the side have distinct
ids. -/
def pricesSound (h : Heap) (os : OrderSide) : Bool :=
  (os.prices.all fun e =>
    decide (e.2 ∈ os.priceTree.map Prod.snd) &&
      match h.levels[e.2]? with
      | none => false
      | some l => decide (l.price.TextG = e.1)) &&
  (os.priceTree.all fun node =>
    match h.levels[node.2]? with
    | none => false
    | some l =>
      decide (mapGet os.prices l.price.TextG = some node.2) && decide l.orders.Nodup &&
        (l.orders.all fun el =>
          match h.elements[el]? with
          | none => false
          | some p =>
            match h.orders[p]? with
            | none => false
            | some x => decide (x.price.TextG = l.price.TextG)) &&
        os.priceTree.all fun node' =>
          match h.levels[node'.2]? with
          | none => true
          | some l' => decide (l.totalAmount = l'.totalAmount → node.2 = node'.2)) &&
  decide ((restingOrder h (walkOrder os)).map (restingId h)).Nodup

/-- The side an order of type `t` rests on is apart from the opposite side: the levels its
`prices` map holds are in the heap, with an allocated total that is the total of no level of
the opposite tree; and its best level is in the heap, is no level of the opposite tree, and
is priced so that no order resting on the opposite side meets it. -/
def ownSideApart (h : Heap) (ob : OrderBook) (t : OperationType) : Bool :=
  ((ob.side t).prices.all fun e =>
    match h.levels[e.2]? with
    | none => false
    | some l =>
      decide (l.totalAmount < h.decimals.length) &&
        (ob.side t.opposite).priceTree.all fun node =>
          match h.levels[node.2]? with
          | none => true
          | some l' => decide (l.totalAmount ≠ l'.totalAmount)) &&
  match (walkOrder (ob.side t)).head? with
  | none => true
  | some node =>
    decide (node.2 ∉ (ob.side t.opposite).priceTree.map Prod.snd) &&
      match h.levels[node.2]? with
      | none => false
      | some l =>
        (restingOrder h (walkOrder (ob.side t.opposite))).all fun el =>
          match h.elements[el]? with
          | none => false
          | some p =>
            match h.orders[p]? with
            | none => false
            | some x => decide (¬ crosses (ob.side t).sideType x.price l.price)

/-- The book is ready for the round trip of an order of type `t`: the opposite side is well
formed, its `prices` map agrees with its tree, and the two sides are apart. -/
def roundTripReady (h : Heap) (ob : OrderBook) (t : OperationType) : Bool :=
  wellFormedSide h (ob.side t.opposite) && pricesSound h (ob.side t.opposite) &&
    sidesApart h ob t && ownSideApart h ob t

/-- Every execution report of the order at `o` holds an amount other than zero. -/
def reportsNonZero (h : Heap) (o : Nat) : Bool :=
  match h.orders[o]? with
  | none => false
  | some ord =>
    ord.executions.all fun e =>
      match h.decimals[e.amount]? with
      | none => false
      | some d => !d.IsZero

/-- What `placeNewLimit` returns on the fixture for the limit bid `100500` of 2.0 at 25000
of `Test_OrderBookRollback`. -/
def roundTripPlaced : Heap × OrderBook × Reply :=
  (placeNewLimit fixtureHeap fixtureBook "100500" .Bid (.New 20 (-1)) (.New 25000 0)).getD
    default

/-- On the empty book, the limit ask `O` of 1 at 100, which rests, and then its rollback. -/
def restRollbackCalls : List Call :=
  [.placeLimit "O" .Ask (.New 1 0) (.New 100 0), .rollback "O"]

/-- The price of the order a placement carries is positive. -/
def Call.pricedPositive : Call → Bool
  | .placeLimit _ _ _ price => decide (0 < price.coeff)
  | .placeMarket _ _ _ price => decide (0 < price.coeff)
  | .rollback _ => true

/-- On the empty book, the limit ask `A` of 2 at 100, and then the limit bid `B` of 1 at 100,
which takes a part of it. -/
def halfFillCalls : List Call :=
  [.placeLimit "A" .Ask (.New 2 0) (.New 100 0), .placeLimit "B" .Bid (.New 1 0) (.New 100 0)]

/-- No order queued in a level of the two sides has an amount of zero. -/
def noZeroResting (h : Heap) (ob : OrderBook) : Bool :=
  (sideLevels ob.Asks ++ sideLevels ob.Bids).all fun lp =>
    (queueAmounts h lp).all fun a =>
      match a with
      | none => true
      | some d => !d.IsZero

/-- The two asks of `spellingCalls`, and then the limit bid `b` of 2 at 20050. -/
def crossedCalls : List Call :=
  spellingCalls ++ [.placeLimit "b" .Bid (.New 2 0) (.New 20050 0)]

/-- The book is uncrossed: every bid level with a queue that is not empty is priced strictly
below every ask level with a queue that is not empty, the levels of a side being those of
its tree and of its `prices` map. -/
def uncrossed (h : Heap) (ob : OrderBook) : Bool :=
  (sideLevels ob.Bids).all fun b =>
    (sideLevels ob.Asks).all fun a =>
      match h.levels[b]?, h.levels[a]? with
      | some lb, some la =>
        lb.orders.isEmpty || la.orders.isEmpty || decide (lb.price.Cmp la.price < 0)
      | _, _ => true

/-- The state after the limit ask `a1` of 1 at 20050 on the empty book, with the ask `a2` of
1 at 20050.0 allocated by the caller, at address 1, and not yet placed. -/
def respellHeap : Heap :=
  ((stateAfter [.placeLimit "a1" .Ask (.New 1 0) (.New 20050 0)]).1.allocOrder "a2" .Ask
    (.New 1 0) (.New 200500 (-1))).1

/-- The ask side after the limit ask `a1` of 1 at 20050 on the empty book. -/
def respellSide : OrderSide :=
  (stateAfter [.placeLimit "a1" .Ask (.New 1 0) (.New 20050 0)]).2.Asks

/-- The report of a match that takes a part of the order held by the element `el`: as
`reportOf`, with the cell `aL` of `amountLeft` for the amount. -/
def partReportOf (h : Heap) (initiator : OrderID) (aL el : Nat) : ExecutionReport :=
  { reportOf h initiator el with amount := aL }

/-- The amount cell of the order held by the list element `el`. -/
def amountCell (h : Heap) (el : Nat) : Option Nat :=
  match h.elements[el]? with
  | none => none
  | some p =>
    match h.orders[p]? with
    | none => none
    | some x => some x.amount

/-! ## The journal of completed orders -/

/-- Who passed an order object to the book: a caller of `PlaceLimitOrder` or
`PlaceMarketOrder`, or the replay loop of `Rollback`. -/
inductive Origin where
  | caller
  | replay
  deriving DecidableEq, Repr, Inhabited

/-- The records the replay loop of a successful `Rollback` leaves in the journal: the order
object built for each report, one after the other from the address `base`, is stored under
the id of the executor of the report. -/
def replayRecords (m : List (OrderID × Nat × Origin)) (base : Nat) :
    List ExecutionReport → List (OrderID × Nat × Origin)
  | [] => m
  | e :: es => replayRecords (mapSet m e.executorOrderID (base, .replay)) (base + 1) es

/-- The journal of completed orders a run of successful calls leaves, with the origin of
every record: a placement stores the caller's order object under its id; a rollback stores
one record for each execution report of the order it rolls back and then deletes the record
of the id it was called with. -/
def doneJournal : List Call → Heap → OrderBook → List (OrderID × Nat × Origin) →
    List (OrderID × Nat × Origin)
  | [], _, _, m => m
  | c :: cs, h, ob, m =>
    match c.run h ob with
    | some (h1, ob1, none) =>
      doneJournal cs h1 ob1
        (match c with
          | .placeLimit id t amount price => mapSet m id ((h.allocOrder id t amount price).2, .caller)
          | .placeMarket id t amount price => mapSet m id ((h.allocOrder id t amount price).2, .caller)
          | .rollback id =>
            match mapGet m id with
            | none => m
            | some (p, _) =>
              match h.orders[p]? with
              | none => m
              | some order => mapDelete (replayRecords m h.orders.length order.executions) id)
    | _ => m

/-- Two asks of 1 at 100, a bid of 2 at 100 that takes both, and the rollback of the bid. -/
def replayRecordCalls : List Call :=
  [.placeLimit "X" .Ask (.New 1 0) (.New 100 0), .placeLimit "Y" .Ask (.New 1 0) (.New 100 0),
   .placeLimit "O" .Bid (.New 2 0) (.New 100 0), .rollback "O"]

/-- The calls of `replayRecordCalls` followed by a market bid of 1. -/
def journalCalls : List Call :=
  replayRecordCalls ++ [.placeMarket "M" .Bid (.New 1 0) (.New 100 0)]

/-! ## Maps -/

theorem mapGet_mapDelete_self {ν : Type} (m : List (String × ν)) (k : String) :
    mapGet (mapDelete m k) k = none := by
  induction m with
  | nil => rfl
  | cons e m ih =>
    obtain ⟨k', v⟩ := e
    by_cases hk : k' = k
    · simp [mapDelete, hk, ih]
    · simp [mapDelete, hk, mapGet, ih]

theorem mapGet_mapDelete_ne {ν : Type} (m : List (String × ν)) (k j : String) (hne : j ≠ k) :
    mapGet (mapDelete m k) j = mapGet m j := by
  induction m with
  | nil => rfl
  | cons e m ih =>
    obtain ⟨k', v⟩ := e
    by_cases hk : k' = k
    · subst hk
      have hj : ¬ k' = j := fun h => hne h.symm
      simp [mapDelete, mapGet, ih, hj]
    · by_cases hj : k' = j
      · subst hj
        simp [mapDelete, hk, mapGet]
      · simp [mapDelete, hk, mapGet, hj, ih]

theorem mapGet_mapSet_self {ν : Type} (m : List (String × ν)) (k : String) (v : ν) :
    mapGet (mapSet m k v) k = some v := by
  simp [mapSet, mapGet]

theorem mapGet_mapSet_ne {ν : Type} (m : List (String × ν)) (k j : String) (v : ν)
    (hne : j ≠ k) : mapGet (mapSet m k v) j = mapGet m j := by
  have hk : ¬ k = j := fun h => hne h.symm
  simp [mapSet, mapGet, hk, mapGet_mapDelete_ne m k j hne]

/-! ## Heap primitives -/

@[simp] theorem setDecimal_orders (h : Heap) (a : Nat) (d : Decimal) :
    (h.setDecimal a d).orders = h.orders := rfl

@[simp] theorem setDecimal_elements (h : Heap) (a : Nat) (d : Decimal) :
    (h.setDecimal a d).elements = h.elements := rfl

@[simp] theorem setDecimal_levels (h : Heap) (a : Nat) (d : Decimal) :
    (h.setDecimal a d).levels = h.levels := rfl

@[simp] theorem setDecimal_decimals (h : Heap) (a : Nat) (d : Decimal) :
    (h.setDecimal a d).decimals = h.decimals.set a d := rfl

@[simp] theorem setOrder_decimals (h : Heap) (a : Nat) (x : Order) :
    (h.setOrder a x).decimals = h.decimals := rfl

@[simp] theorem setOrder_elements (h : Heap) (a : Nat) (x : Order) :
    (h.setOrder a x).elements = h.elements := rfl

@[simp] theorem setOrder_levels (h : Heap) (a : Nat) (x : Order) :
    (h.setOrder a x).levels = h.levels := rfl

@[simp] theorem setOrder_orders (h : Heap) (a : Nat) (x : Order) :
    (h.setOrder a x).orders = h.orders.set a x := rfl

@[simp] theorem setLevel_decimals (h : Heap) (a : Nat) (l : OrdersBySpecificPrice) :
    (h.setLevel a l).decimals = h.decimals := rfl

@[simp] theorem setLevel_elements (h : Heap) (a : Nat) (l : OrdersBySpecificPrice) :
    (h.setLevel a l).elements = h.elements := rfl

@[simp] theorem setLevel_orders (h : Heap) (a : Nat) (l : OrdersBySpecificPrice) :
    (h.setLevel a l).orders = h.orders := rfl

@[simp] theorem setLevel_levels (h : Heap) (a : Nat) (l : OrdersBySpecificPrice) :
    (h.setLevel a l).levels = h.levels.set a l := rfl

theorem subCell_inv {h : Heap} {dst : Nat} {y : Decimal} {s : Heap × Option String}
    (hs : h.subCell dst y = some s) :
    ∃ x, h.decimals[dst]? = some x ∧
      ((∃ msg, s.2 = some msg ∧ s.1 = h ∧ Decimal.Sub x y = .error msg) ∨
       (∃ d, s.2 = none ∧ Decimal.Sub x y = .ok d ∧ s.1 = h.setDecimal dst d)) := by
  unfold Heap.subCell at hs
  split at hs
  · simp at hs
  · rename_i x hx
    refine ⟨x, hx, ?_⟩
    split at hs
    · rename_i msg hmsg
      simp only [Option.some.injEq] at hs
      subst hs
      exact Or.inl ⟨msg, rfl, rfl, hmsg⟩
    · rename_i d hd
      simp only [Option.some.injEq] at hs
      subst hs
      exact Or.inr ⟨d, rfl, hd, rfl⟩

theorem subCell_fields {h : Heap} {dst : Nat} {y : Decimal} {s : Heap × Option String}
    (hs : h.subCell dst y = some s) :
    s.1.orders = h.orders ∧ s.1.elements = h.elements ∧ s.1.levels = h.levels ∧
      s.1.decimals.length = h.decimals.length := by
  obtain ⟨x, -, h1 | h1⟩ := subCell_inv hs
  · obtain ⟨msg, -, hh, -⟩ := h1
    simp [hh]
  · obtain ⟨d, -, -, hh⟩ := h1
    simp [hh]

theorem subCell_frame {h : Heap} {dst : Nat} {y : Decimal} {s : Heap × Option String}
    (hs : h.subCell dst y = some s) (a : Nat) (ha : a ≠ dst) :
    s.1.decimals[a]? = h.decimals[a]? := by
  obtain ⟨x, -, h1 | h1⟩ := subCell_inv hs
  · obtain ⟨msg, -, hh, -⟩ := h1
    simp [hh]
  · obtain ⟨d, -, -, hh⟩ := h1
    simp [hh, List.getElem?_set_ne (Ne.symm ha)]

theorem appendExecution_inv {h : Heap} {p : Nat} {oe : ExecutionReport} {h' : Heap}
    (hs : h.appendExecution p oe = some h') :
    ∃ x, h.orders[p]? = some x ∧
      h' = h.setOrder p { x with executions := x.executions ++ [oe] } := by
  unfold Heap.appendExecution at hs
  split at hs
  · simp at hs
  · rename_i x hx
    simp only [Option.some.injEq] at hs
    exact ⟨x, hx, hs.symm⟩

theorem appendExecution_fields {h : Heap} {p : Nat} {oe : ExecutionReport} {h' : Heap}
    (hs : h.appendExecution p oe = some h') :
    h'.decimals = h.decimals ∧ h'.elements = h.elements ∧ h'.levels = h.levels ∧
      h'.orders.length = h.orders.length := by
  obtain ⟨x, -, hh⟩ := appendExecution_inv hs
  simp [hh]

theorem appendExecution_frame {h : Heap} {p : Nat} {oe : ExecutionReport} {h' : Heap}
    (hs : h.appendExecution p oe = some h') (q : Nat) (hq : q ≠ p) :
    h'.orders[q]? = h.orders[q]? := by
  obtain ⟨x, -, hh⟩ := appendExecution_inv hs
  simp [hh, List.getElem?_set_ne (Ne.symm hq)]

theorem appendExecution_self {h : Heap} {p : Nat} {oe : ExecutionReport} {h' : Heap}
    (hs : h.appendExecution p oe = some h') :
    ∃ x, h.orders[p]? = some x ∧
      h'.orders[p]? = some { x with executions := x.executions ++ [oe] } := by
  obtain ⟨x, hx, hh⟩ := appendExecution_inv hs
  refine ⟨x, hx, ?_⟩
  have hlt : p < h.orders.length := (List.getElem?_eq_some.mp hx).1
  simp [hh, List.getElem?_set_self hlt]

/-! ## Inversion of `matchStep` -/

theorem matchStep_inv {o aL lp el : Nat} {h : Heap} {n : Nat} {s : StepResult}
    (hs : matchStep o aL lp el h n = some s) :
    ∃ r reqOrder ord reqAmount left s1,
      h.elements[el]? = some r ∧ h.orders[r]? = some reqOrder ∧ h.orders[o]? = some ord ∧
      h.decimals[reqOrder.amount]? = some reqAmount ∧ h.decimals[aL]? = some left ∧
      s.listNodeEmpty = decide (reqAmount.Cmp left ≤ 0) ∧
      (if s.listNodeEmpty then some (h, none) else h.subCell reqOrder.amount left) = some s1 ∧
      ((∃ e, s1.2 = some e ∧ s.heap = s1.1 ∧ s.ordersExecuted = n ∧ s.err = some e) ∨
       (s1.2 = none ∧ ∃ y s2,
          s1.1.decimals[if s.listNodeEmpty then reqOrder.amount else aL]? = some y ∧
          s1.1.subCell aL y = some s2 ∧
          ((∃ e, s2.2 = some e ∧ s.heap = s2.1 ∧ s.ordersExecuted = n ∧ s.err = some e) ∨
           (s2.2 = none ∧ ∃ h3 h4 lvl s5,
              s2.1.appendExecution o ⟨ord.orderID, reqOrder.orderID,
                if s.listNodeEmpty then reqOrder.amount else aL, reqOrder.price⟩ = some h3 ∧
              h3.appendExecution r ⟨ord.orderID, reqOrder.orderID,
                if s.listNodeEmpty then reqOrder.amount else aL, reqOrder.price⟩ = some h4 ∧
              h4.levels[lp]? = some lvl ∧
              h4.subCell lvl.totalAmount (if s.listNodeEmpty then reqAmount else left)
                = some s5 ∧
              s.heap = s5.1 ∧ s.ordersExecuted = n + 1 ∧ s.err = s5.2)))) := by
  unfold matchStep at hs
  simp only [Option.bind_eq_bind, Option.bind_eq_some] at hs
  obtain ⟨r, hr, reqOrder, hreq, ord, hord, reqAmount, hra, left, hleft, s1, hs1, hs⟩ := hs
  refine ⟨r, reqOrder, ord, reqAmount, left, s1, hr, hreq, hord, hra, hleft, ?_⟩
  split at hs
  · rename_i e he
    simp only [Option.some.injEq] at hs
    subst hs
    exact ⟨rfl, hs1, Or.inl ⟨e, he, rfl, rfl, rfl⟩⟩
  · rename_i he
    simp only [Option.bind_eq_bind, Option.bind_eq_some] at hs
    obtain ⟨y, hy, s2, hs2, hs⟩ := hs
    split at hs
    · rename_i e2 he2
      simp only [Option.some.injEq] at hs
      subst hs
      exact ⟨rfl, hs1, Or.inr ⟨he, y, s2, hy, hs2, Or.inl ⟨e2, he2, rfl, rfl, rfl⟩⟩⟩
    · rename_i he2
      simp only [Option.bind_eq_bind, Option.bind_eq_some] at hs
      obtain ⟨h3, hh3, h4, hh4, lvl, hlvl, s5, hs5, hs⟩ := hs
      simp only [Option.some.injEq] at hs
      subst hs
      exact ⟨rfl, hs1, Or.inr ⟨he, y, s2, hy, hs2,
        Or.inr ⟨he2, h3, h4, lvl, s5, hh3, hh4, hlvl, hs5, rfl, rfl, rfl⟩⟩⟩

/-! ## Decimals: comparison and arithmetic against the value -/


theorem Decimal.val_scaled (d : Decimal) (m : Int) (hm : m ≤ d.exponent) :
    d.val = ((d.coeff * 10 ^ (d.exponent - m).toNat : Int) : ℚ) * (10 : ℚ) ^ m := by
  have h1 : ((d.exponent - m).toNat : Int) = d.exponent - m := Int.toNat_of_nonneg (by omega)
  have h2 : (10 : ℚ) ^ d.exponent = (10 : ℚ) ^ ((d.exponent - m).toNat : Int) * (10 : ℚ) ^ m := by
    rw [← zpow_add₀ (by norm_num : (10 : ℚ) ≠ 0), h1]
    congr 1
    omega
  unfold Decimal.val
  rw [h2, zpow_natCast]
  push_cast
  ring

theorem Decimal.Cmp_lt_iff (a b : Decimal) : a.Cmp b < 0 ↔ a.val < b.val := by
  have hpos : (0 : ℚ) < (10 : ℚ) ^ (min a.exponent b.exponent) := zpow_pos (by norm_num) _
  rw [Decimal.val_scaled a _ (min_le_left _ _), Decimal.val_scaled b _ (min_le_right _ _),
    mul_lt_mul_right hpos, Int.cast_lt]
  unfold Decimal.Cmp
  simp only
  split_ifs with h1 h2
  · simp [h1]
  · simp [h1]
  · simp [h1]

theorem Decimal.Cmp_eq_zero_iff (a b : Decimal) : a.Cmp b = 0 ↔ a.val = b.val := by
  have hpos : (10 : ℚ) ^ (min a.exponent b.exponent) ≠ 0 := (zpow_pos (by norm_num) _).ne'
  rw [Decimal.val_scaled a _ (min_le_left _ _), Decimal.val_scaled b _ (min_le_right _ _),
    mul_left_inj' hpos, Int.cast_inj]
  unfold Decimal.Cmp
  simp only
  split_ifs with h1 h2
  · simp; omega
  · simp [h2]
  · simp [h2]

theorem Decimal.Cmp_gt_iff (a b : Decimal) : 0 < a.Cmp b ↔ b.val < a.val := by
  have hpos : (0 : ℚ) < (10 : ℚ) ^ (min a.exponent b.exponent) := zpow_pos (by norm_num) _
  rw [Decimal.val_scaled a _ (min_le_left _ _), Decimal.val_scaled b _ (min_le_right _ _),
    mul_lt_mul_right hpos, Int.cast_lt]
  unfold Decimal.Cmp
  simp only
  split_ifs with h1 h2
  · simp; omega
  · simp [h2]
  · simp; omega

theorem Decimal.Sub_self (x : Decimal) : Decimal.Sub x x = .ok ⟨0, x.exponent⟩ := by
  simp [Decimal.Sub, Decimal.upscale]

theorem Decimal.Sub_val {x y d : Decimal} (h : Decimal.Sub x y = .ok d) :
    d.val = x.val - y.val := by
  unfold Decimal.Sub at h
  split at h
  · simp at h
  · rename_i a b s hu
    simp only [Except.ok.injEq] at h
    subst h
    unfold Decimal.upscale at hu
    split_ifs at hu with h1 h2 h3 h4
    · simp only [Option.some.injEq, Prod.mk.injEq] at hu
      obtain ⟨rfl, rfl, rfl⟩ := hu
      simp only [Decimal.val, h1]
      push_cast
      ring
    · simp only [Option.some.injEq, Prod.mk.injEq] at hu
      obtain ⟨rfl, rfl, rfl⟩ := hu
      rw [Decimal.val_scaled y x.exponent (le_of_lt h2)]
      simp only [Decimal.val]
      push_cast
      ring
    · simp only [Option.some.injEq, Prod.mk.injEq] at hu
      obtain ⟨rfl, rfl, rfl⟩ := hu
      rw [Decimal.val_scaled x y.exponent (by omega)]
      simp only [Decimal.val]
      push_cast
      ring

theorem Decimal.Add_val {x y d : Decimal} (h : Decimal.Add x y = .ok d) :
    d.val = x.val + y.val := by
  unfold Decimal.Add at h
  split at h
  · simp at h
  · rename_i a b s hu
    simp only [Except.ok.injEq] at h
    subst h
    unfold Decimal.upscale at hu
    split_ifs at hu with h1 h2 h3 h4
    · simp only [Option.some.injEq, Prod.mk.injEq] at hu
      obtain ⟨rfl, rfl, rfl⟩ := hu
      simp only [Decimal.val, h1]
      push_cast
      ring
    · simp only [Option.some.injEq, Prod.mk.injEq] at hu
      obtain ⟨rfl, rfl, rfl⟩ := hu
      rw [Decimal.val_scaled y x.exponent (le_of_lt h2)]
      simp only [Decimal.val]
      push_cast
      ring
    · simp only [Option.some.injEq, Prod.mk.injEq] at hu
      obtain ⟨rfl, rfl, rfl⟩ := hu
      rw [Decimal.val_scaled x y.exponent (by omega)]
      simp only [Decimal.val]
      push_cast
      ring

theorem Decimal.IsZero_iff (d : Decimal) : d.IsZero = true ↔ d.val = 0 := by
  have hpos : (10 : ℚ) ^ d.exponent ≠ 0 := (zpow_pos (by norm_num) _).ne'
  simp [Decimal.IsZero, Decimal.val, hpos]

/-! ## How matching changes the heap -/

theorem Order.Grew.grewRefl (x : Order) : x.Grew x :=
  ⟨rfl, rfl, rfl, rfl, List.prefix_refl _⟩

theorem Order.Grew.grewTrans {x y z : Order} (h1 : x.Grew y) (h2 : y.Grew z) : x.Grew z :=
  ⟨h2.1.trans h1.1, h2.2.1.trans h1.2.1, h2.2.2.1.trans h1.2.2.1,
    h2.2.2.2.1.trans h1.2.2.2.1, h1.2.2.2.2.trans h2.2.2.2.2⟩

theorem OrdersBySpecificPrice.Shrank.shrankRefl (l : OrdersBySpecificPrice) : l.Shrank l :=
  ⟨rfl, rfl, List.Sublist.refl _⟩

theorem OrdersBySpecificPrice.Shrank.shrankTrans {l m k : OrdersBySpecificPrice}
    (h1 : l.Shrank m) (h2 : m.Shrank k) : l.Shrank k :=
  ⟨h2.1.trans h1.1, h2.2.1.trans h1.2.1, h2.2.2.trans h1.2.2⟩

theorem Evolves.evRefl (h : Heap) : Evolves h h :=
  ⟨rfl, rfl, rfl, fun _ x hx => ⟨x, hx, Order.Grew.grewRefl x⟩, rfl,
    fun _ l hl => ⟨l, hl, OrdersBySpecificPrice.Shrank.shrankRefl l⟩⟩

theorem Evolves.evTrans {h1 h2 h3 : Heap} (a : Evolves h1 h2) (b : Evolves h2 h3) :
    Evolves h1 h3 := by
  refine ⟨b.elements.trans a.elements, b.decimals.trans a.decimals,
    b.ordersLen.trans a.ordersLen, ?_, b.levelsLen.trans a.levelsLen, ?_⟩
  · intro p x hx
    obtain ⟨y, hy, hxy⟩ := a.orders p x hx
    obtain ⟨z, hz, hyz⟩ := b.orders p y hy
    exact ⟨z, hz, hxy.grewTrans hyz⟩
  · intro lp l hl
    obtain ⟨m, hm, hlm⟩ := a.levels lp l hl
    obtain ⟨k, hk, hmk⟩ := b.levels lp m hm
    exact ⟨k, hk, hlm.shrankTrans hmk⟩

theorem Evolves.of_eq {h h' : Heap} (ho : h'.orders = h.orders) (he : h'.elements = h.elements)
    (hl : h'.levels = h.levels) (hd : h'.decimals.length = h.decimals.length) :
    Evolves h h' :=
  ⟨he, hd, by rw [ho], fun _ x hx => ⟨x, by rw [ho]; exact hx, Order.Grew.grewRefl x⟩, by rw [hl],
    fun _ l hx => ⟨l, by rw [hl]; exact hx, OrdersBySpecificPrice.Shrank.shrankRefl l⟩⟩

theorem subCell_evolves {h : Heap} {dst : Nat} {y : Decimal} {s : Heap × Option String}
    (hs : h.subCell dst y = some s) : Evolves h s.1 :=
  Evolves.of_eq (subCell_fields hs).1 (subCell_fields hs).2.1 (subCell_fields hs).2.2.1
    (subCell_fields hs).2.2.2

theorem appendExecution_evolves {h : Heap} {p : Nat} {oe : ExecutionReport} {h' : Heap}
    (hs : h.appendExecution p oe = some h') : Evolves h h' := by
  obtain ⟨hd, he, hl, hlen⟩ := appendExecution_fields hs
  refine ⟨he, by rw [hd], hlen, ?_, by rw [hl],
    fun _ l hx => ⟨l, by rw [hl]; exact hx, OrdersBySpecificPrice.Shrank.shrankRefl l⟩⟩
  intro q x hx
  by_cases hq : q = p
  · subst hq
    obtain ⟨x0, hx0, hx1⟩ := appendExecution_self hs
    rw [hx] at hx0
    simp only [Option.some.injEq] at hx0
    subst hx0
    exact ⟨_, hx1, rfl, rfl, rfl, rfl, List.prefix_append _ _⟩
  · exact ⟨x, by rw [appendExecution_frame hs q hq]; exact hx, Order.Grew.grewRefl x⟩

/-- The first subtraction of a match step: nothing when the resting order is taken whole. -/
theorem firstSub_inv {h : Heap} {b : Bool} {a : Nat} {y : Decimal} {s1 : Heap × Option String}
    (hs : (if b = true then some (h, none) else h.subCell a y) = some s1) :
    Evolves h s1.1 ∧ s1.1.levels = h.levels ∧ s1.1.orders = h.orders ∧
      (∀ c, c ≠ a → s1.1.decimals[c]? = h.decimals[c]?) ∧ (b = true → s1 = (h, none)) := by
  cases b with
  | true =>
    simp only [if_true, Option.some.injEq] at hs
    subst hs
    exact ⟨Evolves.evRefl h, rfl, rfl, fun _ _ => rfl, fun _ => rfl⟩
  | false =>
    simp only [Bool.false_eq_true, if_false] at hs
    exact ⟨subCell_evolves hs, (subCell_fields hs).2.2.1, (subCell_fields hs).1,
      fun c hc => subCell_frame hs c hc, fun hb => by simp at hb⟩

theorem matchStep_evolves {o aL lp el : Nat} {h : Heap} {n : Nat} {s : StepResult}
    (hs : matchStep o aL lp el h n = some s) : Evolves h s.heap ∧ s.heap.levels = h.levels := by
  obtain ⟨r, reqOrder, ord, reqAmount, left, s1, hr, hreq, hord, hra, hleft, hlne, hs1, hrest⟩ :=
    matchStep_inv hs
  obtain ⟨e1, l1, -, -, -⟩ := firstSub_inv hs1
  rcases hrest with ⟨e, -, hh, -, -⟩ | ⟨-, y, s2, hy, hs2, hrest⟩
  · rw [hh]
    exact ⟨e1, l1⟩
  · have e2 := subCell_evolves hs2
    have l2 := (subCell_fields hs2).2.2.1
    rcases hrest with ⟨e, -, hh, -, -⟩ | ⟨-, h3, h4, lvl, s5, hh3, hh4, hlvl, hs5, hh, -, -⟩
    · rw [hh]
      exact ⟨e1.evTrans e2, l2.trans l1⟩
    · rw [hh]
      exact ⟨(((e1.evTrans e2).evTrans (appendExecution_evolves hh3)).evTrans
        (appendExecution_evolves hh4)).evTrans (subCell_evolves hs5),
        (subCell_fields hs5).2.2.1.trans ((appendExecution_fields hh4).2.2.1.trans
          ((appendExecution_fields hh3).2.2.1.trans (l2.trans l1)))⟩

theorem matchStep_decimals_frame {o aL lp el : Nat} {h : Heap} {n : Nat} {s : StepResult}
    (hs : matchStep o aL lp el h n = some s) (a : Nat) (haL : a ≠ aL)
    (hamt : ∀ r x, h.elements[el]? = some r → h.orders[r]? = some x → a ≠ x.amount)
    (htot : ∀ l, h.levels[lp]? = some l → a ≠ l.totalAmount) :
    s.heap.decimals[a]? = h.decimals[a]? := by
  obtain ⟨r, reqOrder, ord, reqAmount, left, s1, hr, hreq, hord, hra, hleft, hlne, hs1, hrest⟩ :=
    matchStep_inv hs
  obtain ⟨-, l1, -, f1, -⟩ := firstSub_inv hs1
  have d1 := f1 a (hamt r reqOrder hr hreq)
  rcases hrest with ⟨e, -, hh, -, -⟩ | ⟨-, y, s2, hy, hs2, hrest⟩
  · rw [hh, d1]
  · have d2 := subCell_frame hs2 a haL
    rcases hrest with ⟨e, -, hh, -, -⟩ | ⟨-, h3, h4, lvl, s5, hh3, hh4, hlvl, hs5, hh, -, -⟩
    · rw [hh, d2, d1]
    · have hl4 : h4.levels = h.levels :=
        (appendExecution_fields hh4).2.2.1.trans ((appendExecution_fields hh3).2.2.1.trans
          ((subCell_fields hs2).2.2.1.trans l1))
      rw [hl4] at hlvl
      rw [hh, subCell_frame hs5 a (htot lvl hlvl), (appendExecution_fields hh4).1,
        (appendExecution_fields hh3).1, d2, d1]

theorem matchStep_orders_frame {o aL lp el : Nat} {h : Heap} {n : Nat} {s : StepResult}
    (hs : matchStep o aL lp el h n = some s) (p : Nat) (hpo : p ≠ o)
    (hpr : ∀ r, h.elements[el]? = some r → p ≠ r) :
    s.heap.orders[p]? = h.orders[p]? := by
  obtain ⟨r, reqOrder, ord, reqAmount, left, s1, hr, hreq, hord, hra, hleft, hlne, hs1, hrest⟩ :=
    matchStep_inv hs
  obtain ⟨-, -, o1, -, -⟩ := firstSub_inv hs1
  rcases hrest with ⟨e, -, hh, -, -⟩ | ⟨-, y, s2, hy, hs2, hrest⟩
  · rw [hh, o1]
  · have o2 := (subCell_fields hs2).1
    rcases hrest with ⟨e, -, hh, -, -⟩ | ⟨-, h3, h4, lvl, s5, hh3, hh4, hlvl, hs5, hh, -, -⟩
    · rw [hh, o2, o1]
    · rw [hh, (subCell_fields hs5).1, appendExecution_frame hh4 p (hpr r hr),
        appendExecution_frame hh3 p hpo, o2, o1]

theorem Evolves.orders_back {h h' : Heap} (ev : Evolves h h') {p : Nat} {x' : Order}
    (hx : h'.orders[p]? = some x') : ∃ x, h.orders[p]? = some x ∧ x.Grew x' := by
  have hlt : p < h.orders.length := by
    rw [← ev.ordersLen]
    exact (List.getElem?_eq_some.mp hx).1
  obtain ⟨y, hy, hg⟩ := ev.orders p _ (List.getElem?_eq_getElem hlt)
  rw [hx] at hy
  simp only [Option.some.injEq] at hy
  subst hy
  exact ⟨_, List.getElem?_eq_getElem hlt, hg⟩

theorem Evolves.levels_back {h h' : Heap} (ev : Evolves h h') {lp : Nat}
    {l' : OrdersBySpecificPrice} (hx : h'.levels[lp]? = some l') :
    ∃ l, h.levels[lp]? = some l ∧ l.Shrank l' := by
  have hlt : lp < h.levels.length := by
    rw [← ev.levelsLen]
    exact (List.getElem?_eq_some.mp hx).1
  obtain ⟨y, hy, hg⟩ := ev.levels lp _ (List.getElem?_eq_getElem hlt)
  rw [hx] at hy
  simp only [Option.some.injEq] at hy
  subst hy
  exact ⟨_, List.getElem?_eq_getElem hlt, hg⟩

/-! ## The inner loop -/

theorem matchQueue_cons_inv {o aL lp el : Nat} {rest : List Nat} {h : Heap} {n : Nat}
    {dels : List Nat} {res : QueueResult}
    (hq : matchQueue o aL lp (el :: rest) h n dels = some res) :
    ∃ s, matchStep o aL lp el h n = some s ∧
      ((∃ e, s.err = some e ∧ res = ⟨s.heap, s.ordersExecuted, dels, false, some e⟩) ∨
       (s.err = none ∧ ∃ left, s.heap.decimals[aL]? = some left ∧
          ((left.IsZero = true ∧ res = ⟨s.heap, s.ordersExecuted,
              if s.listNodeEmpty then dels ++ [el] else dels, false, none⟩) ∨
           (left.IsZero = false ∧ rest = [] ∧ res = ⟨s.heap, s.ordersExecuted,
              if s.listNodeEmpty then dels ++ [el] else dels, true, none⟩) ∨
           (left.IsZero = false ∧ rest ≠ [] ∧
              matchQueue o aL lp rest s.heap s.ordersExecuted
                (if s.listNodeEmpty then dels ++ [el] else dels) = some res)))) := by
  unfold matchQueue at hq
  split at hq
  · simp at hq
  · rename_i s hs
    refine ⟨s, hs, ?_⟩
    split at hq
    · rename_i e he
      simp only [Option.some.injEq] at hq
      exact Or.inl ⟨e, he, hq.symm⟩
    · rename_i he
      refine Or.inr ⟨he, ?_⟩
      dsimp only at hq
      generalize (if s.listNodeEmpty = true then dels ++ [el] else dels) = dels1 at hq ⊢
      split at hq
      · simp at hq
      · rename_i left hleft
        refine ⟨left, hleft, ?_⟩
        split at hq
        · rename_i hz
          simp only [Option.some.injEq] at hq
          exact Or.inl ⟨hz, hq.symm⟩
        · rename_i hz
          have hz' : left.IsZero = false := by simpa using hz
          split at hq
          · simp only [Option.some.injEq] at hq
            exact Or.inr (Or.inl ⟨hz', rfl, hq.symm⟩)
          · exact Or.inr (Or.inr ⟨hz', by simp, hq⟩)

theorem matchQueue_evolves {o aL lp : Nat} (q : List Nat) :
    ∀ {h : Heap} {n : Nat} {dels : List Nat} {res : QueueResult},
      matchQueue o aL lp q h n dels = some res →
      Evolves h res.heap ∧ res.heap.levels = h.levels := by
  induction q with
  | nil => intro h n dels res hq; simp [matchQueue] at hq
  | cons el rest ih =>
    intro h n dels res hq
    obtain ⟨s, hs, hcase⟩ := matchQueue_cons_inv hq
    obtain ⟨ev, hl⟩ := matchStep_evolves hs
    rcases hcase with ⟨e, -, hres⟩ | ⟨-, left, -, ⟨-, hres⟩ | ⟨-, -, hres⟩ | ⟨-, -, hrec⟩⟩
    · subst hres; exact ⟨ev, hl⟩
    · subst hres; exact ⟨ev, hl⟩
    · subst hres; exact ⟨ev, hl⟩
    · obtain ⟨ev2, hl2⟩ := ih hrec
      exact ⟨ev.evTrans ev2, hl2.trans hl⟩

theorem matchQueue_decimals_frame {o aL lp : Nat} (q : List Nat) :
    ∀ {h : Heap} {n : Nat} {dels : List Nat} {res : QueueResult},
      matchQueue o aL lp q h n dels = some res → ∀ a : Nat, a ≠ aL →
      (∀ el ∈ q, ∀ r x, h.elements[el]? = some r → h.orders[r]? = some x → a ≠ x.amount) →
      (∀ l, h.levels[lp]? = some l → a ≠ l.totalAmount) →
      res.heap.decimals[a]? = h.decimals[a]? := by
  induction q with
  | nil => intro h n dels res hq; simp [matchQueue] at hq
  | cons el rest ih =>
    intro h n dels res hq a haL hamt htot
    obtain ⟨s, hs, hcase⟩ := matchQueue_cons_inv hq
    obtain ⟨ev, hl⟩ := matchStep_evolves hs
    have hd := matchStep_decimals_frame hs a haL (hamt el (List.mem_cons_self _ _)) htot
    rcases hcase with ⟨e, -, hres⟩ | ⟨-, left, -, ⟨-, hres⟩ | ⟨-, -, hres⟩ | ⟨-, -, hrec⟩⟩
    · subst hres; exact hd
    · subst hres; exact hd
    · subst hres; exact hd
    · rw [ih hrec a haL ?_ ?_, hd]
      · intro el' hel' r x' hr hx'
        rw [ev.elements] at hr
        obtain ⟨x, hx, hg⟩ := ev.orders_back hx'
        rw [hg.2.2.1]
        exact hamt el' (List.mem_cons_of_mem _ hel') r x hr hx
      · intro l hlv
        rw [hl] at hlv
        exact htot l hlv

theorem matchQueue_orders_frame {o aL lp : Nat} (q : List Nat) :
    ∀ {h : Heap} {n : Nat} {dels : List Nat} {res : QueueResult},
      matchQueue o aL lp q h n dels = some res → ∀ p : Nat, p ≠ o →
      (∀ el ∈ q, ∀ r, h.elements[el]? = some r → p ≠ r) →
      res.heap.orders[p]? = h.orders[p]? := by
  induction q with
  | nil => intro h n dels res hq; simp [matchQueue] at hq
  | cons el rest ih =>
    intro h n dels res hq p hpo hpr
    obtain ⟨s, hs, hcase⟩ := matchQueue_cons_inv hq
    obtain ⟨ev, hl⟩ := matchStep_evolves hs
    have hd := matchStep_orders_frame hs p hpo (hpr el (List.mem_cons_self _ _))
    rcases hcase with ⟨e, -, hres⟩ | ⟨-, left, -, ⟨-, hres⟩ | ⟨-, -, hres⟩ | ⟨-, -, hrec⟩⟩
    · subst hres; exact hd
    · subst hres; exact hd
    · subst hres; exact hd
    · rw [ih hrec p hpo ?_, hd]
      intro el' hel' r hr
      rw [ev.elements] at hr
      exact hpr el' (List.mem_cons_of_mem _ hel') r hr

theorem matchQueue_deleteEls {o aL lp : Nat} (q : List Nat) :
    ∀ {h : Heap} {n : Nat} {dels : List Nat} {res : QueueResult},
      matchQueue o aL lp q h n dels = some res →
      ∃ d, res.deleteEls = dels ++ d ∧ d.Sublist q := by
  induction q with
  | nil => intro h n dels res hq; simp [matchQueue] at hq
  | cons el rest ih =>
    intro h n dels res hq
    obtain ⟨s, hs, hcase⟩ := matchQueue_cons_inv hq
    have hone : ∀ b : Bool, ∃ d, (if b = true then dels ++ [el] else dels) = dels ++ d ∧
        d.Sublist [el] := by
      intro b
      cases b
      · exact ⟨[], by simp, by simp⟩
      · exact ⟨[el], by simp, List.Sublist.refl _⟩
    rcases hcase with ⟨e, -, hres⟩ | ⟨-, left, -, ⟨-, hres⟩ | ⟨-, -, hres⟩ | ⟨-, -, hrec⟩⟩
    · subst hres; exact ⟨[], by simp, by simp⟩
    · subst hres
      obtain ⟨d, hd, hsub⟩ := hone s.listNodeEmpty
      exact ⟨d, hd, hsub.trans (by simp)⟩
    · subst hres
      obtain ⟨d, hd, hsub⟩ := hone s.listNodeEmpty
      exact ⟨d, hd, hsub.trans (by simp)⟩
    · obtain ⟨d, hd, hsub⟩ := hone s.listNodeEmpty
      obtain ⟨d2, hd2, hsub2⟩ := ih hrec
      refine ⟨d ++ d2, by rw [hd2, hd, List.append_assoc], ?_⟩
      have : (d ++ d2).Sublist ([el] ++ rest) := List.Sublist.append hsub hsub2
      simpa using this

/-! ## The removal loop -/

theorem removeEls_spec (lp : Nat) (dels : List Nat) :
    ∀ {h : Heap} {prices : List (String × Nat)} {h' : Heap} {prices' : List (String × Nat)},
      removeEls lp dels h prices = some (h', prices') →
      h'.decimals = h.decimals ∧ h'.orders = h.orders ∧ h'.elements = h.elements ∧
      h'.levels.length = h.levels.length ∧
      (∀ lp', lp' ≠ lp → h'.levels[lp']? = h.levels[lp']?) ∧
      (∀ l, h.levels[lp]? = some l →
        h'.levels[lp]? = some { l with orders := dels.foldl List.erase l.orders }) ∧
      (∀ k v, mapGet prices' k = some v → mapGet prices k = some v) := by
  induction dels with
  | nil =>
    intro h prices h' prices' hr
    simp only [removeEls, Option.some.injEq, Prod.mk.injEq] at hr
    obtain ⟨rfl, rfl⟩ := hr
    exact ⟨rfl, rfl, rfl, rfl, fun _ _ => rfl, fun l hl => by simpa using hl, fun _ _ hk => hk⟩
  | cons d rest ih =>
    intro h prices h' prices' hr
    unfold removeEls at hr
    split at hr
    · simp at hr
    · rename_i lvl hlvl
      obtain ⟨hd, ho, he, hlen, hfr, hself, hpr⟩ := ih hr
      have hlt : lp < h.levels.length := (List.getElem?_eq_some.mp hlvl).1
      refine ⟨by simpa using hd, by simpa using ho, by simpa using he, by simpa using hlen,
        ?_, ?_, ?_⟩
      · intro lp' hne
        rw [hfr lp' hne]
        simp [List.getElem?_set_ne (Ne.symm hne)]
      · intro l hl
        rw [hlvl] at hl
        simp only [Option.some.injEq] at hl
        subst hl
        have := hself { lvl with orders := lvl.orders.erase d }
          (by simp [List.getElem?_set_self hlt])
        simpa using this
      · intro k v hk
        have h1 := hpr k v hk
        split at h1
        · by_cases hkk : k = lvl.price.TextG
          · subst hkk
            rw [mapGet_mapDelete_self] at h1
            simp at h1
          · rwa [mapGet_mapDelete_ne _ _ _ hkk] at h1
        · exact h1

theorem foldl_erase_sublist (dels : List Nat) : ∀ q : List Nat, (dels.foldl List.erase q).Sublist q := by
  induction dels with
  | nil => intro q; exact List.Sublist.refl _
  | cons d rest ih =>
    intro q
    exact (ih (q.erase d)).trans (List.erase_sublist d q)

theorem removeEls_evolves {lp : Nat} {dels : List Nat} {h : Heap} {prices : List (String × Nat)}
    {h' : Heap} {prices' : List (String × Nat)}
    (hr : removeEls lp dels h prices = some (h', prices')) : Evolves h h' := by
  obtain ⟨hd, ho, he, hlen, hfr, hself, -⟩ := removeEls_spec lp dels hr
  refine ⟨he, by rw [hd], by rw [ho], fun _ x hx => ⟨x, by rw [ho]; exact hx, Order.Grew.grewRefl x⟩,
    hlen, ?_⟩
  intro lp' l hl
  by_cases hne : lp' = lp
  · subst hne
    exact ⟨_, hself l hl, rfl, rfl, foldl_erase_sublist dels l.orders⟩
  · exact ⟨l, by rw [hfr lp' hne]; exact hl, OrdersBySpecificPrice.Shrank.shrankRefl l⟩

/-! ## The outer loop -/

theorem walkLevels_cons_inv {sideType : OperationType} {o aL : Nat} {key : Decimal} {lp : Nat}
    {rest : List (Decimal × Nat)} {h : Heap} {prices : List (String × Nat)} {n : Nat}
    {dtn : List Decimal} {w : WalkResult}
    (hw : walkLevels sideType o aL ((key, lp) :: rest) h prices n dtn = some w) :
    ∃ left, h.decimals[aL]? = some left ∧
      ((left.IsZero = true ∧ w = ⟨h, prices, n, dtn, none⟩) ∨
       (left.IsZero = false ∧ ∃ orders ord, h.levels[lp]? = some orders ∧
          h.orders[o]? = some ord ∧
          ((¬ crosses sideType ord.price orders.price ∧ w = ⟨h, prices, n, dtn, none⟩) ∨
           (crosses sideType ord.price orders.price ∧
            ∃ q, matchQueue o aL lp orders.orders h n [] = some q ∧
              ((∃ e, q.err = some e ∧ w = ⟨q.heap, prices, q.ordersExecuted, dtn, some e⟩) ∨
               (q.err = none ∧ ∃ h1 prices1,
                  removeEls lp q.deleteEls q.heap prices = some (h1, prices1) ∧
                  walkLevels sideType o aL rest h1 prices1 q.ordersExecuted
                    (if q.treeNodeIsEmpty then dtn ++ [key] else dtn) = some w)))))) := by
  unfold walkLevels at hw
  split at hw
  · simp at hw
  · rename_i left hleft
    refine ⟨left, hleft, ?_⟩
    split at hw
    · rename_i hz
      simp only [Option.some.injEq] at hw
      exact Or.inl ⟨hz, hw.symm⟩
    · rename_i hz
      have hz' : left.IsZero = false := by simpa using hz
      refine Or.inr ⟨hz', ?_⟩
      split at hw
      · rename_i orders ord horders hord
        refine ⟨orders, ord, horders, hord, ?_⟩
        dsimp only at hw
        split at hw
        · rename_i hc
          simp only [Option.some.injEq] at hw
          exact Or.inl ⟨fun hcr => hcr hc, hw.symm⟩
        · rename_i hc
          refine Or.inr ⟨hc, ?_⟩
          split at hw
          · simp at hw
          · rename_i q hq
            refine ⟨q, hq, ?_⟩
            split at hw
            · rename_i e he
              simp only [Option.some.injEq] at hw
              exact Or.inl ⟨e, he, hw.symm⟩
            · rename_i he
              refine Or.inr ⟨he, ?_⟩
              split at hw
              · simp at hw
              · rename_i h1 prices1 hrm
                exact ⟨h1, prices1, hrm, hw⟩
      · simp at hw

theorem walkLevels_evolves {sideType : OperationType} {o aL : Nat}
    (nodes : List (Decimal × Nat)) :
    ∀ {h : Heap} {prices : List (String × Nat)} {n : Nat} {dtn : List Decimal} {w : WalkResult},
      walkLevels sideType o aL nodes h prices n dtn = some w →
      Evolves h w.heap ∧ ∀ k v, mapGet w.prices k = some v → mapGet prices k = some v := by
  induction nodes with
  | nil =>
    intro h prices n dtn w hw
    simp only [walkLevels, Option.some.injEq] at hw
    subst hw
    exact ⟨Evolves.evRefl h, fun _ _ hk => hk⟩
  | cons node rest ih =>
    obtain ⟨key, lp⟩ := node
    intro h prices n dtn w hw
    obtain ⟨left, -, hcase⟩ := walkLevels_cons_inv hw
    rcases hcase with ⟨-, rfl⟩ | ⟨-, orders, ord, horders, hord, ⟨-, rfl⟩ | ⟨-, q, hq, hcase⟩⟩
    · exact ⟨Evolves.evRefl h, fun _ _ hk => hk⟩
    · exact ⟨Evolves.evRefl h, fun _ _ hk => hk⟩
    · obtain ⟨ev1, -⟩ := matchQueue_evolves _ hq
      rcases hcase with ⟨e, -, rfl⟩ | ⟨-, h1, prices1, hrm, hrec⟩
      · exact ⟨ev1, fun _ _ hk => hk⟩
      · obtain ⟨ev3, hp3⟩ := ih hrec
        exact ⟨(ev1.evTrans (removeEls_evolves hrm)).evTrans ev3,
          fun k v hk => (removeEls_spec lp _ hrm).2.2.2.2.2.2 k v (hp3 k v hk)⟩

theorem walkLevels_levels_frame {sideType : OperationType} {o aL : Nat}
    (nodes : List (Decimal × Nat)) :
    ∀ {h : Heap} {prices : List (String × Nat)} {n : Nat} {dtn : List Decimal} {w : WalkResult},
      walkLevels sideType o aL nodes h prices n dtn = some w → ∀ lp' : Nat,
      (∀ node ∈ nodes, node.2 = lp' → ∀ l ord, h.levels[lp']? = some l →
        h.orders[o]? = some ord → ¬ crosses sideType ord.price l.price) →
      w.heap.levels[lp']? = h.levels[lp']? := by
  induction nodes with
  | nil =>
    intro h prices n dtn w hw
    simp only [walkLevels, Option.some.injEq] at hw
    subst hw
    exact fun _ _ => rfl
  | cons node rest ih =>
    obtain ⟨key, lp⟩ := node
    intro h prices n dtn w hw lp' hno
    obtain ⟨left, -, hcase⟩ := walkLevels_cons_inv hw
    rcases hcase with ⟨-, rfl⟩ | ⟨-, orders, ord, horders, hord, ⟨-, rfl⟩ | ⟨hc, q, hq, hcase⟩⟩
    · rfl
    · rfl
    · have hne : lp' ≠ lp := by
        intro heq
        subst heq
        exact hno (key, lp') (List.mem_cons_self _ _) rfl orders ord horders hord hc
      obtain ⟨ev1, hl1⟩ := matchQueue_evolves _ hq
      rcases hcase with ⟨e, -, rfl⟩ | ⟨-, h1, prices1, hrm, hrec⟩
      · rw [hl1]
      · have hstep : h1.levels[lp']? = h.levels[lp']? := by
          rw [(removeEls_spec lp _ hrm).2.2.2.2.1 lp' hne, hl1]
        have ev : Evolves h h1 := ev1.evTrans (removeEls_evolves hrm)
        rw [ih hrec lp' ?_, hstep]
        intro node hnode heq l ord1 hl hord1
        rw [hstep] at hl
        obtain ⟨ord0, hord0, hg⟩ := ev.orders_back hord1
        rw [hg.2.2.2.1]
        exact hno node (List.mem_cons_of_mem _ hnode) heq l ord0 hl hord0

theorem walkLevels_decimals_frame {sideType : OperationType} {o aL : Nat}
    (nodes : List (Decimal × Nat)) :
    ∀ {h : Heap} {prices : List (String × Nat)} {n : Nat} {dtn : List Decimal} {w : WalkResult},
      walkLevels sideType o aL nodes h prices n dtn = some w → ∀ a : Nat, a ≠ aL →
      (∀ node ∈ nodes, ∀ l ord, h.levels[node.2]? = some l → h.orders[o]? = some ord →
        crosses sideType ord.price l.price →
        a ≠ l.totalAmount ∧
          ∀ el ∈ l.orders, ∀ r x, h.elements[el]? = some r → h.orders[r]? = some x →
            a ≠ x.amount) →
      w.heap.decimals[a]? = h.decimals[a]? := by
  induction nodes with
  | nil =>
    intro h prices n dtn w hw
    simp only [walkLevels, Option.some.injEq] at hw
    subst hw
    exact fun _ _ _ => rfl
  | cons node rest ih =>
    obtain ⟨key, lp⟩ := node
    intro h prices n dtn w hw a haL hno
    obtain ⟨left, -, hcase⟩ := walkLevels_cons_inv hw
    rcases hcase with ⟨-, rfl⟩ | ⟨-, orders, ord, horders, hord, ⟨-, rfl⟩ | ⟨hc, q, hq, hcase⟩⟩
    · rfl
    · rfl
    · obtain ⟨htot, hamt⟩ := hno (key, lp) (List.mem_cons_self _ _) orders ord horders hord hc
      obtain ⟨ev1, hl1⟩ := matchQueue_evolves _ hq
      have hd1 : q.heap.decimals[a]? = h.decimals[a]? :=
        matchQueue_decimals_frame _ hq a haL hamt
          (fun l hl => by rw [horders] at hl; simp only [Option.some.injEq] at hl; subst hl; exact htot)
      rcases hcase with ⟨e, -, rfl⟩ | ⟨-, h1, prices1, hrm, hrec⟩
      · exact hd1
      · have ev : Evolves h h1 := ev1.evTrans (removeEls_evolves hrm)
        rw [ih hrec a haL ?_, (removeEls_spec lp _ hrm).1, hd1]
        intro node hnode l1 ord1 hl1' hord1 hc1
        obtain ⟨ord0, hord0, hg⟩ := ev.orders_back hord1
        obtain ⟨l0, hl0, hsh⟩ := ev.levels_back hl1'
        rw [hg.2.2.2.1, hsh.1] at hc1
        obtain ⟨ht0, ha0⟩ := hno node (List.mem_cons_of_mem _ hnode) l0 ord0 hl0 hord0 hc1
        refine ⟨by rw [hsh.2.1]; exact ht0, ?_⟩
        intro el hel r x hr hx
        rw [ev.elements] at hr
        obtain ⟨x0, hx0, hgx⟩ := ev.orders_back hx
        rw [hgx.2.2.1]
        exact ha0 el (hsh.2.2.subset hel) r x0 hr hx0

theorem walkLevels_orders_frame {sideType : OperationType} {o aL : Nat}
    (nodes : List (Decimal × Nat)) :
    ∀ {h : Heap} {prices : List (String × Nat)} {n : Nat} {dtn : List Decimal} {w : WalkResult},
      walkLevels sideType o aL nodes h prices n dtn = some w → ∀ p : Nat, p ≠ o →
      (∀ node ∈ nodes, ∀ l ord, h.levels[node.2]? = some l → h.orders[o]? = some ord →
        crosses sideType ord.price l.price →
        ∀ el ∈ l.orders, ∀ r, h.elements[el]? = some r → p ≠ r) →
      w.heap.orders[p]? = h.orders[p]? := by
  induction nodes with
  | nil =>
    intro h prices n dtn w hw
    simp only [walkLevels, Option.some.injEq] at hw
    subst hw
    exact fun _ _ _ => rfl
  | cons node rest ih =>
    obtain ⟨key, lp⟩ := node
    intro h prices n dtn w hw p hpo hno
    obtain ⟨left, -, hcase⟩ := walkLevels_cons_inv hw
    rcases hcase with ⟨-, rfl⟩ | ⟨-, orders, ord, horders, hord, ⟨-, rfl⟩ | ⟨hc, q, hq, hcase⟩⟩
    · rfl
    · rfl
    · have hamt := hno (key, lp) (List.mem_cons_self _ _) orders ord horders hord hc
      obtain ⟨ev1, hl1⟩ := matchQueue_evolves _ hq
      have hd1 : q.heap.orders[p]? = h.orders[p]? := matchQueue_orders_frame _ hq p hpo hamt
      rcases hcase with ⟨e, -, rfl⟩ | ⟨-, h1, prices1, hrm, hrec⟩
      · exact hd1
      · have ev : Evolves h h1 := ev1.evTrans (removeEls_evolves hrm)
        rw [ih hrec p hpo ?_, (removeEls_spec lp _ hrm).2.1, hd1]
        intro node hnode l1 ord1 hl1' hord1 hc1 el hel r hr
        obtain ⟨ord0, hord0, hg⟩ := ev.orders_back hord1
        obtain ⟨l0, hl0, hsh⟩ := ev.levels_back hl1'
        rw [hg.2.2.2.1, hsh.1] at hc1
        rw [ev.elements] at hr
        exact hno node (List.mem_cons_of_mem _ hnode) l0 ord0 hl0 hord0 hc1 el
          (hsh.2.2.subset hel) r hr

/-! ## Where the execution reports of the incoming order come from -/

theorem matchStep_reports {o aL lp el : Nat} {h : Heap} {n : Nat} {s : StepResult}
    (hs : matchStep o aL lp el h n = some s) {ord : Order} (hord : h.orders[o]? = some ord) :
    ∃ r req, h.elements[el]? = some r ∧ h.orders[r]? = some req ∧
      ∃ ord' new, s.heap.orders[o]? = some ord' ∧ ord'.executions = ord.executions ++ new ∧
        ∀ e ∈ new, e.initiatorOrderID = ord.orderID ∧ e.executorOrderID = req.orderID ∧
          e.price = req.price := by
  obtain ⟨r, reqOrder, ord0, reqAmount, left, s1, hr, hreq, hord0, hra, hleft, hlne, hs1, hrest⟩ :=
    matchStep_inv hs
  rw [hord] at hord0
  simp only [Option.some.injEq] at hord0
  subst hord0
  refine ⟨r, reqOrder, hr, hreq, ?_⟩
  obtain ⟨-, -, o1, -, -⟩ := firstSub_inv hs1
  rcases hrest with ⟨e, -, hh, -, -⟩ | ⟨-, y, s2, hy, hs2, hrest⟩
  · exact ⟨ord, [], by rw [hh, o1]; exact hord, by simp, by simp⟩
  · have o2 := (subCell_fields hs2).1
    rcases hrest with ⟨e, -, hh, -, -⟩ | ⟨-, h3, h4, lvl, s5, hh3, hh4, hlvl, hs5, hh, -, -⟩
    · exact ⟨ord, [], by rw [hh, o2, o1]; exact hord, by simp, by simp⟩
    · generalize hoe : (⟨ord.orderID, reqOrder.orderID,
        if s.listNodeEmpty = true then reqOrder.amount else aL, reqOrder.price⟩ :
          ExecutionReport) = oe at hh3 hh4
      have hoe3 : oe.initiatorOrderID = ord.orderID ∧ oe.executorOrderID = reqOrder.orderID ∧
          oe.price = reqOrder.price := by
        rw [← hoe]
        exact ⟨rfl, rfl, rfl⟩
      obtain ⟨x, hx, hx3⟩ := appendExecution_self hh3
      rw [o2, o1, hord] at hx
      simp only [Option.some.injEq] at hx
      subst hx
      have o5 : s.heap.orders = h4.orders := by rw [hh]; exact (subCell_fields hs5).1
      by_cases hro : r = o
      · subst hro
        obtain ⟨x3, hx3', hx4⟩ := appendExecution_self hh4
        rw [hx3] at hx3'
        simp only [Option.some.injEq] at hx3'
        subst hx3'
        refine ⟨_, [oe, oe], by rw [o5]; exact hx4, by simp, ?_⟩
        intro e he
        simp only [List.mem_cons, List.mem_singleton, List.not_mem_nil, or_false, or_self] at he
        subst he
        exact hoe3
      · refine ⟨_, [oe], by rw [o5, appendExecution_frame hh4 o (Ne.symm hro)]; exact hx3,
          rfl, ?_⟩
        intro e he
        simp only [List.mem_singleton] at he
        subst he
        exact hoe3

theorem matchQueue_reports {o aL lp : Nat} (q : List Nat) :
    ∀ {h : Heap} {n : Nat} {dels : List Nat} {res : QueueResult},
      matchQueue o aL lp q h n dels = some res → ∀ {ord : Order}, h.orders[o]? = some ord →
      ∃ ord' new, res.heap.orders[o]? = some ord' ∧ ord'.executions = ord.executions ++ new ∧
        ∀ e ∈ new, ∃ el ∈ q, ∃ r req, h.elements[el]? = some r ∧ h.orders[r]? = some req ∧
          e.initiatorOrderID = ord.orderID ∧ e.executorOrderID = req.orderID ∧
          e.price = req.price := by
  induction q with
  | nil => intro h n dels res hq; simp [matchQueue] at hq
  | cons el rest ih =>
    intro h n dels res hq ord hord
    obtain ⟨s, hs, hcase⟩ := matchQueue_cons_inv hq
    obtain ⟨ev, -⟩ := matchStep_evolves hs
    obtain ⟨r, req, hr, hreq, ord1, new1, hord1, hex1, hnew1⟩ := matchStep_reports hs hord
    have hfirst : ∀ e ∈ new1, ∃ el' ∈ el :: rest, ∃ r req, h.elements[el']? = some r ∧
        h.orders[r]? = some req ∧ e.initiatorOrderID = ord.orderID ∧
        e.executorOrderID = req.orderID ∧ e.price = req.price :=
      fun e he => ⟨el, List.mem_cons_self _ _, r, req, hr, hreq, hnew1 e he⟩
    rcases hcase with ⟨e, -, hres⟩ | ⟨-, left, -, ⟨-, hres⟩ | ⟨-, -, hres⟩ | ⟨-, -, hrec⟩⟩
    · subst hres; exact ⟨ord1, new1, hord1, hex1, hfirst⟩
    · subst hres; exact ⟨ord1, new1, hord1, hex1, hfirst⟩
    · subst hres; exact ⟨ord1, new1, hord1, hex1, hfirst⟩
    · obtain ⟨ord2, new2, hord2, hex2, hnew2⟩ := ih hrec hord1
      obtain ⟨ord0, hord0, hg⟩ := ev.orders_back hord1
      rw [hord] at hord0
      simp only [Option.some.injEq] at hord0
      subst hord0
      refine ⟨ord2, new1 ++ new2, hord2, by rw [hex2, hex1, List.append_assoc], ?_⟩
      intro e he
      rcases List.mem_append.mp he with he | he
      · exact hfirst e he
      · obtain ⟨el', hel', r', req', hr', hreq', h1, h2, h3⟩ := hnew2 e he
        rw [ev.elements] at hr'
        obtain ⟨req0, hreq0, hgr⟩ := ev.orders_back hreq'
        exact ⟨el', List.mem_cons_of_mem _ hel', r', req0, hr', hreq0, h1.trans hg.1,
          h2.trans hgr.1, h3.trans hgr.2.2.2.1⟩

theorem walkLevels_reports {sideType : OperationType} {o aL : Nat}
    (nodes : List (Decimal × Nat)) :
    ∀ {h : Heap} {prices : List (String × Nat)} {n : Nat} {dtn : List Decimal} {w : WalkResult},
      walkLevels sideType o aL nodes h prices n dtn = some w →
      ∀ {ord : Order}, h.orders[o]? = some ord →
      ∃ ord' new, w.heap.orders[o]? = some ord' ∧ ord'.executions = ord.executions ++ new ∧
        ∀ e ∈ new, ∃ node ∈ nodes, ∃ l, h.levels[node.2]? = some l ∧
          crosses sideType ord.price l.price ∧
          ∃ el ∈ l.orders, ∃ r req, h.elements[el]? = some r ∧ h.orders[r]? = some req ∧
            e.initiatorOrderID = ord.orderID ∧ e.executorOrderID = req.orderID ∧
            e.price = req.price := by
  induction nodes with
  | nil =>
    intro h prices n dtn w hw ord hord
    simp only [walkLevels, Option.some.injEq] at hw
    subst hw
    exact ⟨ord, [], hord, by simp, by simp⟩
  | cons node rest ih =>
    obtain ⟨key, lp⟩ := node
    intro h prices n dtn w hw ord hord
    obtain ⟨left, -, hcase⟩ := walkLevels_cons_inv hw
    rcases hcase with ⟨-, rfl⟩ | ⟨-, orders, ord0, horders, hord0, ⟨-, rfl⟩ | ⟨hc, q, hq, hcase⟩⟩
    · exact ⟨ord, [], hord, by simp, by simp⟩
    · exact ⟨ord, [], hord, by simp, by simp⟩
    · rw [hord] at hord0
      simp only [Option.some.injEq] at hord0
      subst hord0
      obtain ⟨ev1, -⟩ := matchQueue_evolves _ hq
      obtain ⟨ord1, new1, hord1, hex1, hnew1⟩ := matchQueue_reports _ hq hord
      have hfirst : ∀ e ∈ new1, ∃ node ∈ (key, lp) :: rest, ∃ l, h.levels[node.2]? = some l ∧
          crosses sideType ord.price l.price ∧
          ∃ el ∈ l.orders, ∃ r req, h.elements[el]? = some r ∧ h.orders[r]? = some req ∧
            e.initiatorOrderID = ord.orderID ∧ e.executorOrderID = req.orderID ∧
            e.price = req.price :=
        fun e he => ⟨(key, lp), List.mem_cons_self _ _, orders, horders, hc, hnew1 e he⟩
      rcases hcase with ⟨e, -, rfl⟩ | ⟨-, h1, prices1, hrm, hrec⟩
      · exact ⟨ord1, new1, hord1, hex1, hfirst⟩
      · have ev : Evolves h h1 := ev1.evTrans (removeEls_evolves hrm)
        have hord1' : h1.orders[o]? = some ord1 := by
          rw [(removeEls_spec lp _ hrm).2.1]; exact hord1
        obtain ⟨ord2, new2, hord2, hex2, hnew2⟩ := ih hrec hord1'
        obtain ⟨ordb, hordb, hg⟩ := ev.orders_back hord1'
        rw [hord] at hordb
        simp only [Option.some.injEq] at hordb
        subst hordb
        refine ⟨ord2, new1 ++ new2, hord2, by rw [hex2, hex1, List.append_assoc], ?_⟩
        intro e he
        rcases List.mem_append.mp he with he | he
        · exact hfirst e he
        · obtain ⟨node, hnode, l1, hl1, hc1, el', hel', r', req', hr', hreq', h1', h2', h3'⟩ :=
            hnew2 e he
          obtain ⟨l0, hl0, hsh⟩ := ev.levels_back hl1
          rw [ev.elements] at hr'
          obtain ⟨req0, hreq0, hgr⟩ := ev.orders_back hreq'
          rw [hg.2.2.2.1, hsh.1] at hc1
          exact ⟨node, List.mem_cons_of_mem _ hnode, l0, hl0, hc1, el', hsh.2.2.subset hel', r',
            req0, hr', hreq0, h1'.trans hg.1, h2'.trans hgr.1, h3'.trans hgr.2.2.2.1⟩

/-! ## `ExecuteOrder` as a whole -/

theorem ExecuteOrder_inv {h : Heap} {os : OrderSide} {o : Nat} {h' : Heap} {os' : OrderSide}
    {r : ExecResult} (hex : ExecuteOrder h os o = some (h', os', r)) :
    ∃ ord a w, h.orders[o]? = some ord ∧ h.decimals[ord.amount]? = some a ∧
      walkLevels os.sideType o h.decimals.length
        (if os.sideType = .Ask then os.priceTree else os.priceTree.reverse)
        (h.newDecimal a).1 os.prices 0 [] = some w ∧
      h' = w.heap ∧
      ((∃ e, w.err = some e ∧ os' = { os with prices := w.prices } ∧
          r = ⟨none, w.ordersExecuted, some e⟩) ∨
       (w.err = none ∧
          os' = { os with priceTree := w.deleteTreeNodes.foldl treeRemove os.priceTree,
                          prices := w.prices } ∧
          r = ⟨some h.decimals.length, w.ordersExecuted, none⟩)) := by
  unfold ExecuteOrder at hex
  split at hex
  · simp at hex
  · rename_i ord hord
    split at hex
    · simp at hex
    · rename_i a ha
      refine ⟨ord, a, ?_⟩
      dsimp only [Heap.newDecimal] at hex ⊢
      split at hex
      · simp at hex
      · rename_i w hw
        refine ⟨w, hord, ha, hw, ?_⟩
        split at hex
        · rename_i e he
          simp only [Option.some.injEq, Prod.mk.injEq] at hex
          obtain ⟨rfl, rfl, rfl⟩ := hex
          exact ⟨rfl, Or.inl ⟨e, he, rfl, rfl⟩⟩
        · rename_i he
          simp only [Option.some.injEq, Prod.mk.injEq] at hex
          obtain ⟨rfl, rfl, rfl⟩ := hex
          exact ⟨rfl, Or.inr ⟨he, rfl, rfl⟩⟩

theorem mem_walk_nodes {os : OrderSide} {node : Decimal × Nat}
    (hn : node ∈ (if os.sideType = .Ask then os.priceTree else os.priceTree.reverse)) :
    node ∈ os.priceTree := by
  split at hn
  · exact hn
  · exact List.mem_reverse.mp hn

theorem ExecuteOrder_evolves {h : Heap} {os : OrderSide} {o : Nat} {h' : Heap} {os' : OrderSide}
    {r : ExecResult} (hex : ExecuteOrder h os o = some (h', os', r)) :
    h'.elements = h.elements ∧ h'.decimals.length = h.decimals.length + 1 ∧
    h'.orders.length = h.orders.length ∧ h'.levels.length = h.levels.length ∧
    (∀ (p : Nat) (x : Order), h.orders[p]? = some x → ∃ x', h'.orders[p]? = some x' ∧ x.Grew x') ∧
    (∀ (lp : Nat) (l : OrdersBySpecificPrice), h.levels[lp]? = some l →
      ∃ l', h'.levels[lp]? = some l' ∧ l.Shrank l') ∧
    os'.sideType = os.sideType ∧
    (∀ k v, mapGet os'.prices k = some v → mapGet os.prices k = some v) := by
  obtain ⟨ord, a, w, hord, ha, hw, rfl, hcase⟩ := ExecuteOrder_inv hex
  obtain ⟨ev, hp⟩ := walkLevels_evolves _ hw
  refine ⟨ev.elements, ?_, ev.ordersLen, ev.levelsLen, ev.orders, ev.levels, ?_, ?_⟩
  · rw [ev.decimals]
    simp [Heap.newDecimal]
  · rcases hcase with ⟨e, -, rfl, -⟩ | ⟨-, rfl, -⟩ <;> rfl
  · rcases hcase with ⟨e, -, rfl, -⟩ | ⟨-, rfl, -⟩ <;> exact hp

theorem ExecuteOrder_levels_frame {h : Heap} {os : OrderSide} {o : Nat} {h' : Heap}
    {os' : OrderSide} {r : ExecResult} (hex : ExecuteOrder h os o = some (h', os', r))
    {ord : Order} (ho : h.orders[o]? = some ord) (lp : Nat)
    (hno : ∀ node ∈ os.priceTree, node.2 = lp → ∀ l, h.levels[lp]? = some l →
      ¬ crosses os.sideType ord.price l.price) :
    h'.levels[lp]? = h.levels[lp]? := by
  obtain ⟨ord0, a, w, hord, ha, hw, rfl, -⟩ := ExecuteOrder_inv hex
  have := walkLevels_levels_frame _ hw lp (by
    intro node hnode heq l ord1 hl hord1
    have h1 : h.orders[o]? = some ord1 := hord1
    rw [ho] at h1
    simp only [Option.some.injEq] at h1
    subst h1
    exact hno node (mem_walk_nodes hnode) heq l hl)
  exact this

theorem ExecuteOrder_decimals_frame {h : Heap} {os : OrderSide} {o : Nat} {h' : Heap}
    {os' : OrderSide} {r : ExecResult} (hex : ExecuteOrder h os o = some (h', os', r))
    {ord : Order} (ho : h.orders[o]? = some ord) (a : Nat) (ha : a < h.decimals.length)
    (hno : ∀ node ∈ os.priceTree, ∀ l, h.levels[node.2]? = some l →
      crosses os.sideType ord.price l.price →
      a ≠ l.totalAmount ∧
        ∀ el ∈ l.orders, ∀ p x, h.elements[el]? = some p → h.orders[p]? = some x →
          a ≠ x.amount) :
    h'.decimals[a]? = h.decimals[a]? := by
  obtain ⟨ord0, a0, w, hord, ha0, hw, rfl, -⟩ := ExecuteOrder_inv hex
  have := walkLevels_decimals_frame _ hw a (Nat.ne_of_lt ha) (by
    intro node hnode l ord1 hl hord1 hc
    have h1 : h.orders[o]? = some ord1 := hord1
    rw [ho] at h1
    simp only [Option.some.injEq] at h1
    subst h1
    exact hno node (mem_walk_nodes hnode) l hl hc)
  rw [this]
  simp [Heap.newDecimal, List.getElem?_append_left ha]

theorem ExecuteOrder_orders_frame {h : Heap} {os : OrderSide} {o : Nat} {h' : Heap}
    {os' : OrderSide} {r : ExecResult} (hex : ExecuteOrder h os o = some (h', os', r))
    {ord : Order} (ho : h.orders[o]? = some ord) (p : Nat) (hp : p ≠ o)
    (hno : ∀ node ∈ os.priceTree, ∀ l, h.levels[node.2]? = some l →
      crosses os.sideType ord.price l.price →
      ∀ el ∈ l.orders, ∀ q, h.elements[el]? = some q → p ≠ q) :
    h'.orders[p]? = h.orders[p]? := by
  obtain ⟨ord0, a0, w, hord, ha0, hw, rfl, -⟩ := ExecuteOrder_inv hex
  have := walkLevels_orders_frame _ hw p hp (by
    intro node hnode l ord1 hl hord1 hc
    have h1 : h.orders[o]? = some ord1 := hord1
    rw [ho] at h1
    simp only [Option.some.injEq] at h1
    subst h1
    exact hno node (mem_walk_nodes hnode) l hl hc)
  exact this

theorem ExecuteOrder_reports {h : Heap} {os : OrderSide} {o : Nat} {h' : Heap}
    {os' : OrderSide} {r : ExecResult} (hex : ExecuteOrder h os o = some (h', os', r))
    {ord : Order} (ho : h.orders[o]? = some ord) :
    ∃ ord' new, h'.orders[o]? = some ord' ∧ ord'.executions = ord.executions ++ new ∧
      ∀ e ∈ new, ∃ node ∈ os.priceTree, ∃ l, h.levels[node.2]? = some l ∧
        crosses os.sideType ord.price l.price ∧
        ∃ el ∈ l.orders, ∃ p req, h.elements[el]? = some p ∧ h.orders[p]? = some req ∧
          e.initiatorOrderID = ord.orderID ∧ e.executorOrderID = req.orderID ∧
          e.price = req.price := by
  obtain ⟨ord0, a0, w, hord, ha0, hw, rfl, -⟩ := ExecuteOrder_inv hex
  have ho' : (h.newDecimal a0).1.orders[o]? = some ord := ho
  obtain ⟨ord', new, h1, h2, h3⟩ := walkLevels_reports _ hw ho'
  refine ⟨ord', new, h1, h2, ?_⟩
  intro e he
  obtain ⟨node, hnode, l, hl, hc, rest⟩ := h3 e he
  exact ⟨node, mem_walk_nodes hnode, l, hl, hc, rest⟩

theorem pricesAgree_spec {h : Heap} {os : OrderSide} (hp : pricesAgree h os = true)
    {node : Decimal × Nat} (hnode : node ∈ os.priceTree) {l : OrdersBySpecificPrice}
    (hl : h.levels[node.2]? = some l) {el : Nat} (hel : el ∈ l.orders) {p : Nat} {x : Order}
    (hpe : h.elements[el]? = some p) (hx : h.orders[p]? = some x) :
    x.price.Cmp l.price = 0 := by
  unfold pricesAgree at hp
  rw [List.all_eq_true] at hp
  have h1 := hp node hnode
  rw [hl] at h1
  simp only [List.all_eq_true] at h1
  have h2 := h1 el hel
  rw [hpe] at h2
  simp only [hx, decide_eq_true_eq] at h2
  exact h2

theorem treeRemove_mem {t : List (Decimal × Nat)} {k : Decimal} {node : Decimal × Nat}
    (hn : node ∈ t) (hk : k.Cmp node.1 ≠ 0) : node ∈ treeRemove t k := by
  induction t with
  | nil => simp at hn
  | cons e t ih =>
    obtain ⟨k', v'⟩ := e
    unfold treeRemove
    rcases List.mem_cons.mp hn with heq | hmem
    · subst heq
      simp [hk]
    · split
      · exact hmem
      · exact List.mem_cons_of_mem _ (ih hmem)

theorem foldl_treeRemove_mem (ks : List Decimal) :
    ∀ {t : List (Decimal × Nat)} {node : Decimal × Nat}, node ∈ t →
      (∀ k ∈ ks, k.Cmp node.1 ≠ 0) → node ∈ ks.foldl treeRemove t := by
  induction ks with
  | nil => intro t node hn _; exact hn
  | cons k ks ih =>
    intro t node hn hk
    exact ih (treeRemove_mem hn (hk k (List.mem_cons_self _ _)))
      (fun k' hk' => hk k' (List.mem_cons_of_mem _ hk'))

theorem walkLevels_dtn {sideType : OperationType} {o aL : Nat}
    (nodes : List (Decimal × Nat)) :
    ∀ {h : Heap} {prices : List (String × Nat)} {n : Nat} {dtn : List Decimal} {w : WalkResult},
      walkLevels sideType o aL nodes h prices n dtn = some w →
      ∀ k ∈ w.deleteTreeNodes, k ∈ dtn ∨ ∃ node ∈ nodes, node.1 = k ∧
        ∃ l ord, h.levels[node.2]? = some l ∧ h.orders[o]? = some ord ∧
          crosses sideType ord.price l.price := by
  induction nodes with
  | nil =>
    intro h prices n dtn w hw
    simp only [walkLevels, Option.some.injEq] at hw
    subst hw
    exact fun k hk => Or.inl hk
  | cons node rest ih =>
    obtain ⟨key, lp⟩ := node
    intro h prices n dtn w hw k hk
    obtain ⟨left, -, hcase⟩ := walkLevels_cons_inv hw
    rcases hcase with ⟨-, rfl⟩ | ⟨-, orders, ord, horders, hord, ⟨-, rfl⟩ | ⟨hc, q, hq, hcase⟩⟩
    · exact Or.inl hk
    · exact Or.inl hk
    · obtain ⟨ev1, -⟩ := matchQueue_evolves _ hq
      rcases hcase with ⟨e, -, rfl⟩ | ⟨-, h1, prices1, hrm, hrec⟩
      · exact Or.inl hk
      · have ev : Evolves h h1 := ev1.evTrans (removeEls_evolves hrm)
        rcases ih hrec k hk with hin | ⟨node, hnode, hkey, l1, ord1, hl1, hord1, hc1⟩
        · split at hin
          · rcases List.mem_append.mp hin with hin | hin
            · exact Or.inl hin
            · simp only [List.mem_singleton] at hin
              exact Or.inr ⟨(key, lp), List.mem_cons_self _ _, hin.symm, orders, ord, horders,
                hord, hc⟩
          · exact Or.inl hin
        · obtain ⟨l0, hl0, hsh⟩ := ev.levels_back hl1
          obtain ⟨ord0, hord0, hg⟩ := ev.orders_back hord1
          rw [hg.2.2.2.1, hsh.1] at hc1
          exact Or.inr ⟨node, List.mem_cons_of_mem _ hnode, hkey, l0, ord0, hl0, hord0, hc1⟩

theorem treeSorted_ne {os : OrderSide} (hs : treeSorted os) {a b : Decimal × Nat}
    (ha : a ∈ os.priceTree) (hb : b ∈ os.priceTree) (hab : a ≠ b) : a.1.Cmp b.1 ≠ 0 := by
  have hsym : Symmetric (fun a b : Decimal × Nat => a.1.Cmp b.1 ≠ 0) := by
    intro x y hxy hyx
    exact hxy ((Decimal.Cmp_eq_zero_iff _ _).mpr ((Decimal.Cmp_eq_zero_iff _ _).mp hyx).symm)
  have hp : os.priceTree.Pairwise (fun a b : Decimal × Nat => a.1.Cmp b.1 ≠ 0) :=
    List.Pairwise.imp (fun h => ne_of_lt h) hs
  exact hp.forall hsym ha hb hab

/-! ## The counter of executed orders -/

theorem matchStep_count {o aL lp el : Nat} {h : Heap} {n : Nat} {s : StepResult}
    (hs : matchStep o aL lp el h n = some s) (hok : s.err = none) : s.ordersExecuted = n + 1 := by
  obtain ⟨r, reqOrder, ord, reqAmount, left, s1, -, -, -, -, -, -, -, hrest⟩ := matchStep_inv hs
  rcases hrest with ⟨e, -, -, -, he⟩ | ⟨-, y, s2, -, -, hrest⟩
  · rw [hok] at he
    simp at he
  · rcases hrest with ⟨e, -, -, -, he⟩ | ⟨-, h3, h4, lvl, s5, -, -, -, -, -, hn, -⟩
    · rw [hok] at he
      simp at he
    · exact hn

theorem matchQueue_count {o aL lp : Nat} (q : List Nat) :
    ∀ {h : Heap} {n : Nat} {dels : List Nat} {res : QueueResult},
      matchQueue o aL lp q h n dels = some res → res.err = none → n < res.ordersExecuted := by
  induction q with
  | nil => intro h n dels res hq; simp [matchQueue] at hq
  | cons el rest ih =>
    intro h n dels res hq hok
    obtain ⟨s, hs, hcase⟩ := matchQueue_cons_inv hq
    rcases hcase with ⟨e, -, hres⟩ | ⟨he, left, -, ⟨-, hres⟩ | ⟨-, -, hres⟩ | ⟨-, -, hrec⟩⟩
    · subst hres
      simp at hok
    · subst hres
      have := matchStep_count hs he
      simp only
      omega
    · subst hres
      have := matchStep_count hs he
      simp only
      omega
    · have h1 := matchStep_count hs he
      have h2 := ih hrec hok
      omega

theorem walkLevels_count {sideType : OperationType} {o aL : Nat}
    (nodes : List (Decimal × Nat)) :
    ∀ {h : Heap} {prices : List (String × Nat)} {n : Nat} {dtn : List Decimal} {w : WalkResult},
      walkLevels sideType o aL nodes h prices n dtn = some w → w.err = none →
      n ≤ w.ordersExecuted ∧
        (w.ordersExecuted = n → w.heap = h ∧ w.prices = prices ∧ w.deleteTreeNodes = dtn) := by
  induction nodes with
  | nil =>
    intro h prices n dtn w hw _
    simp only [walkLevels, Option.some.injEq] at hw
    subst hw
    exact ⟨le_refl _, fun _ => ⟨rfl, rfl, rfl⟩⟩
  | cons node rest ih =>
    obtain ⟨key, lp⟩ := node
    intro h prices n dtn w hw hok
    obtain ⟨left, -, hcase⟩ := walkLevels_cons_inv hw
    rcases hcase with ⟨-, rfl⟩ | ⟨-, orders, ord, horders, hord, ⟨-, rfl⟩ | ⟨hc, q, hq, hcase⟩⟩
    · exact ⟨le_refl _, fun _ => ⟨rfl, rfl, rfl⟩⟩
    · exact ⟨le_refl _, fun _ => ⟨rfl, rfl, rfl⟩⟩
    · rcases hcase with ⟨e, -, rfl⟩ | ⟨hqok, h1, prices1, hrm, hrec⟩
      · simp at hok
      · have h1' := matchQueue_count _ hq hqok
        have h2 := (ih hrec hok).1
        exact ⟨by omega, fun heq => by omega⟩

/-! ## `AddOrder` -/

theorem AddAmount_inv {h : Heap} {lp amount : Nat} {h' : Heap} {e : Option String}
    (ha : AddAmount h lp amount = some (h', e)) :
    ∃ lvl total a, h.levels[lp]? = some lvl ∧ h.decimals[lvl.totalAmount]? = some total ∧
      h.decimals[amount]? = some a ∧
      ((∃ msg, Decimal.Add total a = .error msg ∧ e = some msg ∧
          h' = (h.newDecimal (Decimal.New 0 0)).1.setLevel lp
                 { lvl with totalAmount := h.decimals.length }) ∨
       (∃ s, Decimal.Add total a = .ok s ∧ e = none ∧
          h' = (h.newDecimal s).1.setLevel lp { lvl with totalAmount := h.decimals.length })) := by
  unfold AddAmount at ha
  split at ha
  · simp at ha
  · rename_i lvl hlvl
    split at ha
    · rename_i total a htotal hamt
      refine ⟨lvl, total, a, hlvl, htotal, hamt, ?_⟩
      split at ha
      · rename_i msg hmsg
        simp only [Heap.newDecimal, Option.some.injEq, Prod.mk.injEq] at ha
        exact Or.inl ⟨msg, hmsg, ha.2.symm, ha.1.symm⟩
      · rename_i s hs
        simp only [Heap.newDecimal, Option.some.injEq, Prod.mk.injEq] at ha
        exact Or.inr ⟨s, hs, ha.2.symm, ha.1.symm⟩
    · simp at ha

/-- What a successful `AddOrder` does: a new element holding the order is put at the tail
of the level found in `prices` under the price string, whose total becomes a new cell
holding the sum; or, when `prices` has no such level, a new level is made of the order's
price and amount cell and is put in `prices` and in the tree. -/
theorem AddOrder_ok {h : Heap} {os : OrderSide} {o : Nat} {h' : Heap} {os' : OrderSide}
    {el : Nat} (ha : AddOrder h os o = some (h', os', some el, none)) :
    ∃ ord, h.orders[o]? = some ord ∧ el = h.elements.length ∧
      h'.elements = h.elements ++ [o] ∧ h'.orders = h.orders ∧
      ((∃ lp lvl total a s, mapGet os.prices ord.price.TextG = some lp ∧ os' = os ∧
          h.levels[lp]? = some lvl ∧ h.decimals[lvl.totalAmount]? = some total ∧
          h.decimals[ord.amount]? = some a ∧ Decimal.Add total a = .ok s ∧
          h'.levels = h.levels.set lp ⟨lvl.price, h.decimals.length, lvl.orders ++ [el]⟩ ∧
          h'.decimals = h.decimals ++ [s]) ∨
       (mapGet os.prices ord.price.TextG = none ∧
          os' = { os with prices := mapSet os.prices ord.price.TextG h.levels.length,
                          priceTree := treePut os.priceTree ord.price h.levels.length } ∧
          h'.levels = h.levels ++ [⟨ord.price, ord.amount, [el]⟩] ∧
          h'.decimals = h.decimals)) := by
  unfold AddOrder at ha
  split at ha
  · simp at ha
  · rename_i ord hord
    refine ⟨ord, hord, ?_⟩
    dsimp only at ha
    split at ha
    · rename_i lp hlp
      split at ha
      · simp at ha
      · simp at ha
      · rename_i h1 hadd
        obtain ⟨lvl, total, a, hlvl, htotal, hamt, hcase⟩ := AddAmount_inv hadd
        rcases hcase with ⟨msg, -, he, -⟩ | ⟨s, hs, -, hh1⟩
        · simp at he
        · have hlt : lp < h.levels.length := (List.getElem?_eq_some.mp hlvl).1
          have hl1 : h1.levels[lp]? = some { lvl with totalAmount := h.decimals.length } := by
            rw [hh1]
            simp [Heap.newDecimal, List.getElem?_set_self hlt]
          rw [hl1] at ha
          simp only [Heap.newElement, Option.some.injEq, Prod.mk.injEq] at ha
          obtain ⟨hh', hos, hel, -⟩ := ha
          have hel1 : h1.elements = h.elements := by rw [hh1]; rfl
          rw [hel1] at hel hh'
          refine ⟨hel.symm, ?_, ?_, Or.inl ⟨lp, lvl, total, a, s, hlp, hos.symm, hlvl, htotal, hamt,
            hs, ?_, ?_⟩⟩
          · rw [← hh']; simp [hel1]
          · rw [← hh', hh1]; rfl
          · rw [← hh', hh1, ← hel]
            simp [Heap.newDecimal]
          · rw [← hh', hh1]
            rfl
    · rename_i hlp
      simp only [Heap.newLevel, Heap.newElement, Option.some.injEq, Prod.mk.injEq] at ha
      obtain ⟨hh', hos, hel, -⟩ := ha
      refine ⟨hel.symm, ?_, ?_, Or.inr ⟨hlp, hos.symm, ?_, ?_⟩⟩
      · rw [← hh']; rfl
      · rw [← hh']; rfl
      · rw [← hh', ← hel]
        simp [Heap.setLevel]
      · rw [← hh']; rfl

/-! ## The book: sides and the live map -/

theorem opposite_ne (t : OperationType) : t.opposite ≠ t := by
  cases t <;> simp [OperationType.opposite]

@[simp] theorem side_setSide_self (ob : OrderBook) (t : OperationType) (s : OrderSide) :
    (ob.setSide t s).side t = s := by
  cases t <;> simp [OrderBook.side, OrderBook.setSide]

theorem side_setSide_ne (ob : OrderBook) {t u : OperationType} (s : OrderSide) (hne : u ≠ t) :
    (ob.setSide t s).side u = ob.side u := by
  cases t <;> cases u <;> simp_all [OrderBook.side, OrderBook.setSide]

@[simp] theorem setSide_Orders (ob : OrderBook) (t : OperationType) (s : OrderSide) :
    (ob.setSide t s).Orders = ob.Orders := by
  cases t <;> simp [OrderBook.setSide]

@[simp] theorem setSide_OrdersDone (ob : OrderBook) (t : OperationType) (s : OrderSide) :
    (ob.setSide t s).OrdersDone = ob.OrdersDone := by
  cases t <;> simp [OrderBook.setSide]

theorem mapGet_mapDelete_some {ν : Type} {m : List (String × ν)} {k j : String} {v : ν}
    (hg : mapGet (mapDelete m k) j = some v) : mapGet m j = some v := by
  by_cases hjk : j = k
  · subst hjk
    rw [mapGet_mapDelete_self] at hg
    simp at hg
  · rwa [mapGet_mapDelete_ne m k j hjk] at hg

theorem mapGet_deleteExecutors_some (es : List ExecutionReport) :
    ∀ {m : List (OrderID × Nat)} {j : String} {v : Nat},
      mapGet (deleteExecutors m es) j = some v → mapGet m j = some v := by
  induction es with
  | nil => intro m j v hg; exact hg
  | cons e es ih =>
    intro m j v hg
    exact mapGet_mapDelete_some (ih (by simpa [deleteExecutors] using hg))

theorem mapGet_deleteExecutors_none (es : List ExecutionReport) {m : List (OrderID × Nat)}
    {j : String} (hn : mapGet m j = none) : mapGet (deleteExecutors m es) j = none := by
  cases hg : mapGet (deleteExecutors m es) j with
  | none => rfl
  | some v =>
    rw [mapGet_deleteExecutors_some es hg] at hn
    simp at hn

/-! ## Inversion of the operations of the book -/

theorem limitOrder_ok {h : Heap} {ob : OrderBook} {o : Nat} {h' : Heap} {ob' : OrderBook}
    {rep : Reply} (hl : limitOrder h ob o = some (h', ob', rep)) (hok : rep.err = none) :
    ∃ ord h1 check1 r aL ord1 left, h.orders[o]? = some ord ∧
      mapGet ob.Orders ord.orderID = none ∧
      ExecuteOrder h (ob.side ord.operationType.opposite) o = some (h1, check1, r) ∧
      r.err = none ∧ r.amountLeft = some aL ∧ h1.orders[o]? = some ord1 ∧
      h1.decimals[aL]? = some left ∧ rep.ordersExecuted = r.ordersExecuted ∧
      ((left.IsZero = true ∧ h' = h1 ∧
          ob' = { ob.setSide ord.operationType.opposite check1 with
                    Orders := deleteExecutors ob.Orders ord1.executions,
                    OrdersDone := mapSet ob.OrdersDone ord1.orderID o }) ∨
       (left.IsZero = false ∧ ∃ add3 el,
          AddOrder (if r.ordersExecuted > 0 then h1.setOrder o { ord1 with amount := aL } else h1)
            (ob.side ord.operationType) o = some (h', add3, some el, none) ∧
          ob' = { (ob.setSide ord.operationType.opposite check1).setSide ord.operationType add3
                    with
                    Orders := mapSet (deleteExecutors ob.Orders ord1.executions) ord1.orderID el,
                    OrdersDone := mapSet ob.OrdersDone ord1.orderID o })) := by
  unfold limitOrder at hl
  split at hl
  · simp at hl
  · rename_i ord hord
    split at hl
    · simp only [Option.some.injEq, Prod.mk.injEq] at hl
      obtain ⟨-, -, hrep⟩ := hl
      rw [← hrep] at hok
      simp at hok
    · rename_i hlive
      dsimp only at hl
      split at hl
      · simp at hl
      · rename_i h1 check1 r hex
        split at hl
        · simp only [Option.some.injEq, Prod.mk.injEq] at hl
          obtain ⟨-, -, hrep⟩ := hl
          rw [← hrep] at hok
          simp at hok
        · simp at hl
        · rename_i aL herr haL
          split at hl
          · rename_i ord1 left hord1 hleft
            refine ⟨ord, h1, check1, r, aL, ord1, left, hord, hlive, hex, herr, haL, hord1,
              hleft, ?_⟩
            split at hl
            · rename_i hz
              simp only [Option.some.injEq, Prod.mk.injEq] at hl
              obtain ⟨hh, hob, hrep⟩ := hl
              refine ⟨by rw [← hrep], Or.inl ⟨hz, hh.symm, ?_⟩⟩
              rw [← hob]
              simp
            · rename_i hz
              have hz' : left.IsZero = false := by simpa using hz
              have hside : ({ ob.setSide ord.operationType.opposite check1 with
                  Orders := deleteExecutors (ob.setSide ord.operationType.opposite check1).Orders
                    ord1.executions } : OrderBook).side ord.operationType
                  = ob.side ord.operationType := by
                generalize ord.operationType = t
                cases t <;> simp [OrderBook.side, OrderBook.setSide, OperationType.opposite]
              rw [hside] at hl
              split at hl
              · simp at hl
              · rename_i h3 add3 orderInList err hadd
                split at hl
                · simp only [Option.some.injEq, Prod.mk.injEq] at hl
                  obtain ⟨-, -, hrep⟩ := hl
                  rw [← hrep] at hok
                  simp at hok
                · simp at hl
                · rename_i _ _ el
                  simp only [Option.some.injEq, Prod.mk.injEq] at hl
                  obtain ⟨hh, hob, hrep⟩ := hl
                  subst hh
                  refine ⟨by rw [← hrep], Or.inr ⟨hz', add3, el, hadd, ?_⟩⟩
                  rw [← hob]
                  clear hside hadd hex hob
                  generalize ord.operationType = t
                  cases t <;> simp [OrderBook.setSide, OperationType.opposite]
          · simp at hl

theorem PlaceMarketOrder_ok {h : Heap} {ob : OrderBook} {o : Nat} {h' : Heap} {ob' : OrderBook}
    {rep : Reply} (hm : PlaceMarketOrder h ob o = some (h', ob', rep)) (hok : rep.err = none) :
    ∃ ord check1 r ord1, h.orders[o]? = some ord ∧
      ExecuteOrder h (ob.side ord.operationType.opposite) o = some (h', check1, r) ∧
      r.err = none ∧ h'.orders[o]? = some ord1 ∧
      rep = ⟨r.ordersExecuted, r.amountLeft, none⟩ ∧
      ob' = { ob.setSide ord.operationType.opposite check1 with
                Orders := deleteExecutors ob.Orders ord1.executions,
                OrdersDone := mapSet ob.OrdersDone ord1.orderID o } := by
  unfold PlaceMarketOrder at hm
  split at hm
  · simp at hm
  · rename_i ord hord
    dsimp only at hm
    split at hm
    · simp at hm
    · rename_i h1 check1 r hex
      split at hm
      · simp only [Option.some.injEq, Prod.mk.injEq] at hm
        obtain ⟨-, -, hrep⟩ := hm
        rw [← hrep] at hok
        simp at hok
      · rename_i herr
        split at hm
        · simp at hm
        · rename_i ord1 hord1
          simp only [Option.some.injEq, Prod.mk.injEq] at hm
          obtain ⟨hh, hob, hrep⟩ := hm
          subst hh
          refine ⟨ord, check1, r, ord1, hord, hex, herr, hord1, hrep.symm, ?_⟩
          rw [← hob]
          simp

theorem ExecuteOrder_nothing {h : Heap} {os : OrderSide} {o : Nat} {h' : Heap} {os' : OrderSide}
    {r : ExecResult} (hex : ExecuteOrder h os o = some (h', os', r)) (hok : r.err = none)
    (hzero : r.ordersExecuted = 0) :
    ∃ ord a, h.orders[o]? = some ord ∧ h.decimals[ord.amount]? = some a ∧
      h' = (h.newDecimal a).1 ∧ os' = os ∧ r.amountLeft = some h.decimals.length := by
  obtain ⟨ord, a, w, hord, ha, hw, rfl, hcase⟩ := ExecuteOrder_inv hex
  rcases hcase with ⟨e, -, -, rfl⟩ | ⟨hwok, rfl, rfl⟩
  · simp at hok
  · obtain ⟨-, hsame⟩ := walkLevels_count _ hw hwok
    obtain ⟨hh, hp, hd⟩ := hsame hzero
    refine ⟨ord, a, hord, ha, hh, ?_, rfl⟩
    rw [hp, hd]
    rfl

theorem ExecuteOrder_ok_amountLeft {h : Heap} {os : OrderSide} {o : Nat} {h' : Heap}
    {os' : OrderSide} {r : ExecResult} (hex : ExecuteOrder h os o = some (h', os', r))
    (hok : r.err = none) : r.amountLeft = some h.decimals.length := by
  obtain ⟨ord, a, w, hord, ha, hw, rfl, hcase⟩ := ExecuteOrder_inv hex
  rcases hcase with ⟨e, -, -, rfl⟩ | ⟨hwok, rfl, rfl⟩
  · simp at hok
  · rfl

/-! ## Time priority within a level -/

theorem restingId_evolves {h h' : Heap} (ev : Evolves h h') (el : Nat) :
    restingId h' el = restingId h el := by
  unfold restingId
  rw [ev.elements]
  cases hr : h.elements[el]? with
  | none => rfl
  | some r =>
    simp only
    cases hx : h.orders[r]? with
    | none =>
      have : h'.orders[r]? = none := by
        rw [List.getElem?_eq_none_iff] at hx ⊢
        rw [ev.ordersLen]
        exact hx
      rw [this]
    | some x =>
      obtain ⟨x', hx', hg⟩ := ev.orders r x hx
      rw [hx']
      simp [hg.1]

/-- A successful match step appends one report to the incoming order, whose executor is the
order held by the element; and when the resting order is only partly taken, the step leaves
`amountLeft` at zero. -/
theorem matchStep_ok {o aL lp el : Nat} {h : Heap} {n : Nat} {s : StepResult}
    (hs : matchStep o aL lp el h n = some s) (hok : s.err = none) {ord : Order}
    (hord : h.orders[o]? = some ord) (hne : h.elements[el]? ≠ some o)
    (hfresh : ∀ l, h.levels[lp]? = some l → l.totalAmount ≠ aL) :
    (∃ ord' e, s.heap.orders[o]? = some ord' ∧ ord'.executions = ord.executions ++ [e] ∧
      some e.executorOrderID = restingId h el) ∧
    (s.listNodeEmpty = false → ∃ z, s.heap.decimals[aL]? = some z ∧ z.IsZero = true) := by
  obtain ⟨r, reqOrder, ord0, reqAmount, left, s1, hr, hreq, hord0, hra, hleft, hlne, hs1, hrest⟩ :=
    matchStep_inv hs
  rw [hord] at hord0
  simp only [Option.some.injEq] at hord0
  subst hord0
  have hro : r ≠ o := fun heq => hne (by rw [hr, heq])
  obtain ⟨-, l1, o1, -, -⟩ := firstSub_inv hs1
  rcases hrest with ⟨e, -, -, -, he⟩ | ⟨-, y, s2, hy, hs2, hrest⟩
  · rw [hok] at he
    simp at he
  · have o2 := (subCell_fields hs2).1
    rcases hrest with ⟨e, -, -, -, he⟩ | ⟨he2, h3, h4, lvl, s5, hh3, hh4, hlvl, hs5, hh, -, -⟩
    · rw [hok] at he
      simp at he
    · have o5 : s.heap.orders = h4.orders := by rw [hh]; exact (subCell_fields hs5).1
      have hl4 : h4.levels = h.levels :=
        (appendExecution_fields hh4).2.2.1.trans ((appendExecution_fields hh3).2.2.1.trans
          ((subCell_fields hs2).2.2.1.trans l1))
      rw [hl4] at hlvl
      constructor
      · obtain ⟨x, hx, hx3⟩ := appendExecution_self hh3
        rw [o2, o1, hord] at hx
        simp only [Option.some.injEq] at hx
        subst hx
        refine ⟨_, _, by rw [o5, appendExecution_frame hh4 o (Ne.symm hro)]; exact hx3, rfl, ?_⟩
        simp [restingId, hr, hreq]
      · intro hfalse
        rw [hfalse] at hy
        simp only [Bool.false_eq_true, if_false] at hy
        obtain ⟨x, hx, hc⟩ := subCell_inv hs2
        rcases hc with ⟨msg, hmsg, -, -⟩ | ⟨d, -, hd, hh2⟩
        · rw [he2] at hmsg
          simp at hmsg
        · rw [hy] at hx
          simp only [Option.some.injEq] at hx
          subst hx
          rw [Decimal.Sub_self] at hd
          simp only [Except.ok.injEq] at hd
          have hlt : aL < s1.1.decimals.length := (List.getElem?_eq_some.mp hy).1
          refine ⟨d, ?_, by rw [← hd]; rfl⟩
          rw [hh, subCell_frame hs5 aL (hfresh lvl hlvl).symm, (appendExecution_fields hh4).1,
            (appendExecution_fields hh3).1, hh2]
          simp [List.getElem?_set_self hlt]

/-- The inner loop takes the elements of the queue from the head, one report each, and
marks for deletion every element it passes.  Either it ran through the whole queue, all of
it is marked and `treeNodeIsEmpty` is set; or it stopped with `amountLeft` at zero, having
marked the `k + 1` elements it matched, or all but the last when the last was only partly
taken. -/
theorem matchQueue_prefix {o aL lp : Nat} (q : List Nat) :
    ∀ {h : Heap} {n : Nat} {dels : List Nat} {res : QueueResult} {ord : Order},
      matchQueue o aL lp q h n dels = some res → res.err = none → h.orders[o]? = some ord →
      (∀ el ∈ q, h.elements[el]? ≠ some o) →
      (∀ l, h.levels[lp]? = some l → l.totalAmount ≠ aL) →
      ∃ k ord' new, k < q.length ∧ res.ordersExecuted = n + (k + 1) ∧
        res.heap.orders[o]? = some ord' ∧ ord'.executions = ord.executions ++ new ∧
        new.map (fun e => some e.executorOrderID) = (q.take (k + 1)).map (restingId h) ∧
        ((res.treeNodeIsEmpty = true ∧ k + 1 = q.length ∧ res.deleteEls = dels ++ q) ∨
          (res.treeNodeIsEmpty = false ∧
            (∃ z, res.heap.decimals[aL]? = some z ∧ z.IsZero = true) ∧
            (res.deleteEls = dels ++ q.take (k + 1) ∨ res.deleteEls = dels ++ q.take k))) := by
  induction q with
  | nil => intro h n dels res ord hq; simp [matchQueue] at hq
  | cons el rest ih =>
    intro h n dels res ord hq hok hord hne hfresh
    obtain ⟨s, hs, hcase⟩ := matchQueue_cons_inv hq
    obtain ⟨ev, hlev⟩ := matchStep_evolves hs
    rcases hcase with ⟨e, -, hres⟩ | ⟨he, left, hleft, hcase⟩
    · subst hres
      simp at hok
    · obtain ⟨⟨ord1, e, hord1, hex1, hid1⟩, hpart⟩ :=
        matchStep_ok hs he hord (hne el (List.mem_cons_self _ _)) hfresh
      have hfull : left.IsZero = false → s.listNodeEmpty = true := by
        intro hz
        cases hb : s.listNodeEmpty with
        | true => rfl
        | false =>
          obtain ⟨z, hz1, hz2⟩ := hpart hb
          rw [hleft] at hz1
          simp only [Option.some.injEq] at hz1
          subst hz1
          rw [hz] at hz2
          simp at hz2
      rcases hcase with ⟨hz, hres⟩ | ⟨hz, hrest, hres⟩ | ⟨hz, -, hrec⟩
      · refine ⟨0, ord1, [e], by simp, by rw [hres]; exact matchStep_count hs he,
          by rw [hres]; exact hord1, hex1, by simp [hid1], Or.inr ⟨by rw [hres], ?_, ?_⟩⟩
        · exact ⟨left, by rw [hres]; exact hleft, hz⟩
        · rw [hres]
          cases s.listNodeEmpty
          · exact Or.inr (by simp)
          · exact Or.inl (by simp)
      · refine ⟨0, ord1, [e], by simp, by rw [hres]; exact matchStep_count hs he,
          by rw [hres]; exact hord1, hex1, by simp [hid1],
          Or.inl ⟨by rw [hres], by simp [hrest], ?_⟩⟩
        rw [hres, hfull hz, hrest]
        simp
      · rw [hfull hz] at hrec
        simp only [if_true] at hrec
        obtain ⟨k, ord2, new2, hk, hcnt, hord2, hex2, hids, hdels⟩ :=
          ih hrec hok hord1
            (fun el' hel' => by rw [ev.elements]; exact hne el' (List.mem_cons_of_mem _ hel'))
            (fun l hl => by rw [hlev] at hl; exact hfresh l hl)
        refine ⟨k + 1, ord2, e :: new2, by simp; omega, ?_, hord2, ?_, ?_, ?_⟩
        · rw [hcnt, matchStep_count hs he]
          omega
        · rw [hex2, hex1]
          simp
        · simp only [List.map_cons, List.take_succ_cons, hid1, hids]
          congr 1
          apply List.map_congr_left
          intro el' _
          exact restingId_evolves ev el'
        · rcases hdels with ⟨h1, h2, h3⟩ | ⟨h1, h2, h3⟩
          · exact Or.inl ⟨h1, by simp [h2], by rw [h3]; simp⟩
          · refine Or.inr ⟨h1, h2, ?_⟩
            rcases h3 with hd | hd
            · exact Or.inl (by rw [hd]; simp)
            · exact Or.inr (by rw [hd]; simp)

/-- Whatever its outcome, a match step appends to the incoming order no report, or one
report whose executor is the order held by the element, and counts it. -/
theorem matchStep_any {o aL lp el : Nat} {h : Heap} {n : Nat} {s : StepResult}
    (hs : matchStep o aL lp el h n = some s) {ord : Order}
    (hord : h.orders[o]? = some ord) (hne : h.elements[el]? ≠ some o) :
    ∃ ord' new, s.heap.orders[o]? = some ord' ∧ ord'.executions = ord.executions ++ new ∧
      s.ordersExecuted = n + new.length ∧
      (new = [] ∨ ∃ e, new = [e] ∧ some e.executorOrderID = restingId h el) ∧
      (s.err = none → new ≠ []) := by
  obtain ⟨r, reqOrder, ord0, reqAmount, left, s1, hr, hreq, hord0, hra, hleft, hlne, hs1, hrest⟩ :=
    matchStep_inv hs
  rw [hord] at hord0
  simp only [Option.some.injEq] at hord0
  subst hord0
  have hro : r ≠ o := fun heq => hne (by rw [hr, heq])
  obtain ⟨-, l1, o1, -, -⟩ := firstSub_inv hs1
  rcases hrest with ⟨e, -, hh, hn, he⟩ | ⟨-, y, s2, hy, hs2, hrest⟩
  · exact ⟨ord, [], by rw [hh, o1]; exact hord, by simp, by simpa using hn, Or.inl rfl,
      fun hnone => by rw [hnone] at he; simp at he⟩
  · have o2 := (subCell_fields hs2).1
    rcases hrest with ⟨e, -, hh, hn, he⟩ | ⟨-, h3, h4, lvl, s5, hh3, hh4, hlvl, hs5, hh, hn, -⟩
    · exact ⟨ord, [], by rw [hh, o2, o1]; exact hord, by simp, by simpa using hn, Or.inl rfl,
        fun hnone => by rw [hnone] at he; simp at he⟩
    · have o5 : s.heap.orders = h4.orders := by rw [hh]; exact (subCell_fields hs5).1
      obtain ⟨x, hx, hx3⟩ := appendExecution_self hh3
      rw [o2, o1, hord] at hx
      simp only [Option.some.injEq] at hx
      subst hx
      refine ⟨_, [_], by rw [o5, appendExecution_frame hh4 o (Ne.symm hro)]; exact hx3, rfl,
        by simpa using hn, Or.inr ⟨_, rfl, ?_⟩, fun _ => by simp⟩
      simp [restingId, hr, hreq]

/-- Whatever its outcome, the inner loop appends to the incoming order reports whose
executors are, in this order, the first elements of the queue, and counts them. -/
theorem matchQueue_order {o aL lp : Nat} (q : List Nat) :
    ∀ {h : Heap} {n : Nat} {dels : List Nat} {res : QueueResult} {ord : Order},
      matchQueue o aL lp q h n dels = some res → h.orders[o]? = some ord →
      (∀ el ∈ q, h.elements[el]? ≠ some o) →
      ∃ m ord' new, m ≤ q.length ∧ res.ordersExecuted = n + m ∧
        res.heap.orders[o]? = some ord' ∧ ord'.executions = ord.executions ++ new ∧
        new.map (fun e => some e.executorOrderID) = (q.take m).map (restingId h) := by
  induction q with
  | nil => intro h n dels res ord hq; simp [matchQueue] at hq
  | cons el rest ih =>
    intro h n dels res ord hq hord hne
    obtain ⟨s, hs, hcase⟩ := matchQueue_cons_inv hq
    obtain ⟨ev, -⟩ := matchStep_evolves hs
    obtain ⟨ord1, new1, hord1, hex1, hcnt1, hshape, hnonempty⟩ :=
      matchStep_any hs hord (hne el (List.mem_cons_self _ _))
    have hstop : res.heap = s.heap → res.ordersExecuted = s.ordersExecuted →
        ∃ m ord' new, m ≤ (el :: rest).length ∧ res.ordersExecuted = n + m ∧
          res.heap.orders[o]? = some ord' ∧ ord'.executions = ord.executions ++ new ∧
          new.map (fun e => some e.executorOrderID)
            = ((el :: rest).take m).map (restingId h) := by
      intro hheap hcount
      rcases hshape with hnil | ⟨e, he, hid⟩
      · exact ⟨0, ord1, [], by simp, by rw [hcount, hcnt1, hnil]; rfl, by rw [hheap]; exact hord1,
          by rw [hex1, hnil], by simp⟩
      · exact ⟨1, ord1, [e], by simp, by rw [hcount, hcnt1, he]; rfl,
          by rw [hheap]; exact hord1, by rw [hex1, he], by simp [hid]⟩
    rcases hcase with ⟨e, -, hres⟩ | ⟨he, left, hleft, ⟨-, hres⟩ | ⟨-, -, hres⟩ | ⟨-, -, hrec⟩⟩
    · exact hstop (by rw [hres]) (by rw [hres])
    · exact hstop (by rw [hres]) (by rw [hres])
    · exact hstop (by rw [hres]) (by rw [hres])
    · rcases hshape with hnil | ⟨e, he1, hid⟩
      · exact absurd hnil (hnonempty he)
      · obtain ⟨m, ord2, new2, hm, hcnt, hord2, hex2, hids⟩ :=
          ih hrec hord1
            (fun el' hel' => by rw [ev.elements]; exact hne el' (List.mem_cons_of_mem _ hel'))
        refine ⟨m + 1, ord2, e :: new2, by simp; omega, ?_, hord2, ?_, ?_⟩
        · rw [hcnt, hcnt1, he1]
          simp only [List.length_singleton]
          omega
        · rw [hex2, hex1, he1]
          simp
        · simp only [List.map_cons, List.take_succ_cons, hid, hids]
          congr 1
          apply List.map_congr_left
          intro el' _
          exact restingId_evolves ev el'

/-! ## Price-time priority along the tree -/

theorem foldl_erase_take (q : List Nat) (hq : q.Nodup) :
    ∀ j, (q.take j).foldl List.erase q = q.drop j := by
  induction q with
  | nil => intro j; simp
  | cons a t ih =>
    intro j
    cases j with
    | zero => simp
    | succ j =>
      simp only [List.take_succ_cons, List.foldl_cons, List.erase_cons_head, List.drop_succ_cons]
      exact ih (List.nodup_cons.mp hq).2 j

theorem walkLevels_zero {sideType : OperationType} {o aL : Nat} (nodes : List (Decimal × Nat))
    {h : Heap} {prices : List (String × Nat)} {n : Nat} {dtn : List Decimal} {w : WalkResult}
    (hw : walkLevels sideType o aL nodes h prices n dtn = some w) {z : Decimal}
    (hz : h.decimals[aL]? = some z) (hzero : z.IsZero = true) :
    w = ⟨h, prices, n, dtn, none⟩ := by
  cases nodes with
  | nil =>
    simp only [walkLevels, Option.some.injEq] at hw
    exact hw.symm
  | cons node rest =>
    obtain ⟨key, lp⟩ := node
    obtain ⟨left, hleft, hcase⟩ := walkLevels_cons_inv hw
    rw [hz] at hleft
    simp only [Option.some.injEq] at hleft
    subst hleft
    rcases hcase with ⟨-, hres⟩ | ⟨hnz, -⟩
    · exact hres
    · rw [hzero] at hnz
      simp at hnz

theorem queueOf_congr {h h' : Heap} {lp : Nat} (hl : h'.levels[lp]? = h.levels[lp]?) :
    queueOf h' lp = queueOf h lp := by
  unfold queueOf
  rw [hl]

theorem restingOrder_congr {h h' : Heap} (nodes : List (Decimal × Nat))
    (hl : ∀ node ∈ nodes, h'.levels[node.2]? = h.levels[node.2]?) :
    restingOrder h' nodes = restingOrder h nodes := by
  induction nodes with
  | nil => rfl
  | cons node rest ih =>
    simp only [restingOrder]
    rw [queueOf_congr (hl node (List.mem_cons_self _ _)),
      ih (fun n hn => hl n (List.mem_cons_of_mem _ hn))]

theorem walkLevels_untouched {sideType : OperationType} {o aL : Nat}
    {nodes : List (Decimal × Nat)} {h : Heap} {prices : List (String × Nat)} {n : Nat}
    {dtn : List Decimal} {w : WalkResult}
    (hw : walkLevels sideType o aL nodes h prices n dtn = some w) (lp : Nat)
    (hno : ∀ node ∈ nodes, node.2 ≠ lp) : w.heap.levels[lp]? = h.levels[lp]? :=
  walkLevels_levels_frame nodes hw lp (fun node hnode heq => absurd heq (hno node hnode))

/-- The outer loop matches the resting elements in price-time order: the executors of the
`m` reports it appends to the incoming order are the first `m` elements of `restingOrder`.
When it ends without error, the first `j` of them are gone from their queues, where `j` is
`m`, or `m - 1` when the last one was only partly taken. -/
theorem walkLevels_prefix {sideType : OperationType} {o aL : Nat}
    (nodes : List (Decimal × Nat)) :
    ∀ {h : Heap} {prices : List (String × Nat)} {n : Nat} {dtn : List Decimal} {w : WalkResult}
      {ord : Order},
      walkLevels sideType o aL nodes h prices n dtn = some w →
      h.orders[o]? = some ord → (nodes.map Prod.snd).Nodup →
      (∀ node ∈ nodes, ∀ l, h.levels[node.2]? = some l →
        l.totalAmount ≠ aL ∧ l.orders.Nodup ∧ ∀ el ∈ l.orders, h.elements[el]? ≠ some o) →
      ∃ m new ord', w.ordersExecuted = n + m ∧ w.heap.orders[o]? = some ord' ∧
        ord'.executions = ord.executions ++ new ∧
        new.map (fun e => some e.executorOrderID)
          = ((restingOrder h nodes).take m).map (restingId h) ∧
        m ≤ (restingOrder h nodes).length ∧
        (w.err = none → ∃ j, (j = m ∨ j + 1 = m) ∧
          restingOrder w.heap nodes = (restingOrder h nodes).drop j) := by
  induction nodes with
  | nil =>
    intro h prices n dtn w ord hw hord _ _
    simp only [walkLevels, Option.some.injEq] at hw
    subst hw
    exact ⟨0, [], ord, rfl, hord, by simp, by simp, by simp, fun _ => ⟨0, Or.inl rfl, by simp⟩⟩
  | cons node rest ih =>
    obtain ⟨key, lp⟩ := node
    intro h prices n dtn w ord hw hord hnodup hwf
    have hstay : w = ⟨h, prices, n, dtn, none⟩ →
        ∃ m new ord', w.ordersExecuted = n + m ∧ w.heap.orders[o]? = some ord' ∧
          ord'.executions = ord.executions ++ new ∧
          new.map (fun e => some e.executorOrderID)
            = ((restingOrder h ((key, lp) :: rest)).take m).map (restingId h) ∧
          m ≤ (restingOrder h ((key, lp) :: rest)).length ∧
          (w.err = none → ∃ j, (j = m ∨ j + 1 = m) ∧
            restingOrder w.heap ((key, lp) :: rest)
              = (restingOrder h ((key, lp) :: rest)).drop j) := by
      intro hres
      subst hres
      exact ⟨0, [], ord, rfl, hord, by simp, by simp, by simp,
        fun _ => ⟨0, Or.inl rfl, by simp⟩⟩
    obtain ⟨left, -, hcase⟩ := walkLevels_cons_inv hw
    rcases hcase with ⟨-, hres⟩ | ⟨-, l, ord0, hl, hord0, ⟨-, hres⟩ | ⟨hc, qr, hq, hcase⟩⟩
    · exact hstay hres
    · exact hstay hres
    · obtain ⟨hfresh, hqnodup, hnotin⟩ := hwf (key, lp) (List.mem_cons_self _ _) l hl
      have hq0 : queueOf h lp = l.orders := by simp [queueOf, hl]
      rcases hcase with ⟨e, hqerr, hres⟩ | ⟨hqok, h1, prices1, hrm, hrec⟩
      · -- an arithmetic error inside the level: the walk returns at once
        obtain ⟨m, ord1, new1, hm, hcnt1, hord1, hex1, hids1⟩ :=
          matchQueue_order _ hq hord hnotin
        subst hres
        refine ⟨m, new1, ord1, hcnt1, hord1, hex1, ?_, ?_, fun hnone => by simp at hnone⟩
        · simp only [restingOrder, hq0]
          rw [List.take_append_of_le_length hm]
          exact hids1
        · simp only [restingOrder, hq0, List.length_append]
          omega
      · obtain ⟨k, ord1, new1, hk, hcnt1, hord1, hex1, hids1, hshape⟩ :=
          matchQueue_prefix _ hq hqok hord hnotin
            (fun l' hl' => by
              rw [hl] at hl'
              simp only [Option.some.injEq] at hl'
              subst hl'
              exact hfresh)
        obtain ⟨ev1, hlev1⟩ := matchQueue_evolves _ hq
        obtain ⟨hd1, ho1, he1, -, hfr1, hself1, -⟩ := removeEls_spec lp _ hrm
        have ev : Evolves h h1 := ev1.evTrans (removeEls_evolves hrm)
        have hlq : qr.heap.levels[lp]? = some l := by rw [hlev1]; exact hl
        have hl1 := hself1 l hlq
        have hnd : lp ∉ rest.map Prod.snd ∧ (rest.map Prod.snd).Nodup := by
          have hcopy := hnodup
          rw [List.map_cons, List.nodup_cons] at hcopy
          exact hcopy
        have hlpnot : ∀ node ∈ rest, node.2 ≠ lp := by
          intro node hnode heq
          exact hnd.1 (by rw [← heq]; exact List.mem_map_of_mem _ hnode)
        have hsame : ∀ node ∈ rest, h1.levels[node.2]? = h.levels[node.2]? := by
          intro node hnode
          rw [hfr1 node.2 (hlpnot node hnode), hlev1]
        have hR : restingOrder h1 rest = restingOrder h rest := restingOrder_congr rest hsame
        have hord1' : h1.orders[o]? = some ord1 := by rw [ho1]; exact hord1
        rcases hshape with ⟨-, hlen, hdels⟩ | ⟨-, ⟨z, hz, hzero⟩, hdels⟩
        · -- the whole level was taken: the walk goes on
          have hq1 : queueOf h1 lp = [] := by
            have : h1.levels[lp]? = some { l with orders := [] } := by
              rw [hl1, hdels]
              simp only [List.nil_append]
              have := foldl_erase_take l.orders hqnodup l.orders.length
              rw [List.take_length, List.drop_length] at this
              rw [this]
            simp [queueOf, this]
          obtain ⟨m2, new2, ord2, hcnt2, hord2, hex2, hids2, hm2, hrest2⟩ :=
            ih hrec hord1' hnd.2
              (fun node hnode l' hl' => by
                rw [hsame node hnode] at hl'
                obtain ⟨a, b, c⟩ := hwf node (List.mem_cons_of_mem _ hnode) l' hl'
                exact ⟨a, b, fun el hel => by rw [ev.elements]; exact c el hel⟩)
          have hqw : queueOf w.heap lp = [] := by
            rw [queueOf_congr (walkLevels_untouched hrec lp hlpnot)]
            exact hq1
          refine ⟨l.orders.length + m2, new1 ++ new2, ord2, ?_, hord2, ?_, ?_, ?_, ?_⟩
          · rw [hcnt2, hcnt1]
            omega
          · rw [hex2, hex1, List.append_assoc]
          · simp only [restingOrder, hq0, List.map_append, hids1, hids2, hR]
            rw [List.take_append, hlen, List.take_length, List.map_append]
            congr 1
            apply List.map_congr_left
            intro el' _
            exact restingId_evolves ev el'
          · simp only [restingOrder, hq0, List.length_append]
            rw [hR] at hm2
            omega
          · intro hnone
            obtain ⟨j2, hj2, hdrop2⟩ := hrest2 hnone
            refine ⟨l.orders.length + j2, by omega, ?_⟩
            simp only [restingOrder, hq0, hqw, List.nil_append]
            rw [hdrop2, hR, List.drop_append]
        · -- the walk stops here: `amountLeft` is zero
          have hz1 : h1.decimals[aL]? = some z := by rw [hd1]; exact hz
          have hres := walkLevels_zero rest hrec hz1 hzero
          subst hres
          have hfin : ∀ j, j ≤ l.orders.length → qr.deleteEls = [] ++ l.orders.take j →
              restingOrder h1 ((key, lp) :: rest)
                = (restingOrder h ((key, lp) :: rest)).drop j := by
            intro j hj hd
            have : h1.levels[lp]? = some { l with orders := l.orders.drop j } := by
              rw [hl1, hd]
              simp only [List.nil_append]
              rw [foldl_erase_take l.orders hqnodup j]
            simp only [restingOrder, hq0, hR]
            rw [List.drop_append_of_le_length hj]
            simp [queueOf, this]
          have htake : ((restingOrder h ((key, lp) :: rest)).take (k + 1)).map (restingId h)
              = (l.orders.take (k + 1)).map (restingId h) := by
            simp only [restingOrder, hq0]
            rw [List.take_append_of_le_length (by omega)]
          have hmlen : k + 1 ≤ (restingOrder h ((key, lp) :: rest)).length := by
            simp only [restingOrder, hq0, List.length_append]
            omega
          refine ⟨k + 1, new1, ord1, hcnt1, hord1', hex1, by rw [hids1, htake], hmlen, ?_⟩
          intro _
          rcases hdels with hd | hd
          · exact ⟨k + 1, Or.inl rfl, hfin (k + 1) (by omega) hd⟩
          · exact ⟨k, Or.inr rfl, hfin k (by omega) hd⟩

theorem walkable_spec {h : Heap} {os : OrderSide} {o : Nat} (hw : walkable h os o = true) :
    ((walkOrder os).map Prod.snd).Nodup ∧
    ∀ node ∈ walkOrder os, ∀ l, h.levels[node.2]? = some l →
      l.totalAmount ≠ h.decimals.length ∧ l.orders.Nodup ∧
        ∀ el ∈ l.orders, h.elements[el]? ≠ some o := by
  unfold walkable at hw
  rw [Bool.and_eq_true, decide_eq_true_eq, List.all_eq_true] at hw
  obtain ⟨hnd, hall⟩ := hw
  constructor
  · unfold walkOrder
    split
    · exact hnd
    · rw [List.map_reverse]
      exact List.nodup_reverse.mpr hnd
  · intro node hnode l hl
    have hmem : node ∈ os.priceTree := by
      unfold walkOrder at hnode
      split at hnode
      · exact hnode
      · exact List.mem_reverse.mp hnode
    have h1 := hall node hmem
    rw [hl] at h1
    simp only [Bool.and_eq_true, decide_eq_true_eq, List.all_eq_true] at h1
    exact ⟨Nat.ne_of_lt h1.1.1, h1.1.2, h1.2⟩

theorem AddOrder_tail {h : Heap} {os : OrderSide} {o : Nat} {h' : Heap} {os' : OrderSide}
    {el : Nat} (ha : AddOrder h os o = some (h', os', some el, none)) :
    ∃ ord lp, h.orders[o]? = some ord ∧ mapGet os'.prices ord.price.TextG = some lp ∧
      h'.elements[el]? = some o ∧ h.elements[el]? = none ∧
      queueOf h' lp = queueOf h lp ++ [el] := by
  obtain ⟨ord, hord, helq, helems, -, hcases⟩ := AddOrder_ok ha
  have h1 : h'.elements[el]? = some o := by
    rw [helems, helq]
    exact List.getElem?_concat_length _ _
  have h2 : h.elements[el]? = none := by
    rw [helq]
    exact List.getElem?_eq_none (le_refl _)
  rcases hcases with ⟨lp, lvl, total, a, s, hlp, hos, hlvl, -, -, -, hlevels', -⟩ |
      ⟨hlp, hos, hlevels', -⟩
  · have hlt : lp < h.levels.length := (List.getElem?_eq_some.mp hlvl).1
    refine ⟨ord, lp, hord, by rw [hos]; exact hlp, h1, h2, ?_⟩
    simp [queueOf, hlevels', hlvl, List.getElem?_set_self hlt]
  · refine ⟨ord, h.levels.length, hord, by rw [hos]; exact mapGet_mapSet_self _ _ _, h1, h2, ?_⟩
    simp [queueOf, hlevels']

/-! ## The error paths of the book -/

theorem limitOrder_of_live (h : Heap) (ob : OrderBook) (o : Nat) (ord : Order) (el : Nat)
    (ho : h.orders[o]? = some ord) (hlive : mapGet ob.Orders ord.orderID = some el) :
    limitOrder h ob o
      = some (h, ob, ⟨0, none, some ("order: " ++ ord.orderID ++ " already exists")⟩) := by
  simp [limitOrder, ho, hlive]

theorem Rollback_of_not_done (h : Heap) (ob : OrderBook) (orderID : OrderID)
    (hnot : mapGet ob.OrdersDone orderID = none) :
    Rollback h ob orderID
      = some (h, ob, some ("order: " ++ orderID ++ " not found - nothing to rollback")) := by
  simp [Rollback, hnot]

theorem Rollback_ok_done (h : Heap) (ob : OrderBook) (orderID : OrderID) (h' : Heap)
    (ob' : OrderBook) (hok : Rollback h ob orderID = some (h', ob', none)) :
    mapGet ob'.OrdersDone orderID = none := by
  unfold Rollback at hok
  split at hok
  · simp at hok
  · split at hok
    · simp at hok
    · split at hok
      · simp at hok
      · simp at hok
      · simp only [Option.some.injEq, Prod.mk.injEq, and_true] at hok
        obtain ⟨-, hob⟩ := hok
        rw [← hob]
        exact mapGet_mapDelete_self _ _

set_option maxRecDepth 100000 in
theorem fixture_eq : fixture = some (fixtureHeap, fixtureBook) := by decide

/-! ## The properties of the specification -/

/-- C8: when the id of the order is a key of the live map `Orders`, `PlaceLimitOrder`
returns the error `order: <id> already exists` with 0 orders executed, and the heap and the
book (asks, bids, `Orders`, `OrdersDone`) are returned exactly as they were. -/
theorem placeLimitOrder_duplicate_id (h : Heap) (ob : OrderBook) (o : Nat) (ord : Order)
    (el : Nat) (ho : h.orders[o]? = some ord)
    (hlive : mapGet ob.Orders ord.orderID = some el) :
    PlaceLimitOrder h ob o
      = some (h, ob, ⟨0, none, some ("order: " ++ ord.orderID ++ " already exists")⟩) :=
  limitOrder_of_live h ob o ord el ho hlive

set_option maxRecDepth 100000 in
/-- Witness of C8: the first order of the fixture, id `1`, placed again on the fixture. -/
theorem placeLimitOrder_duplicate_id_witness :
    PlaceLimitOrder fixtureHeap fixtureBook 0
      = some (fixtureHeap, fixtureBook, ⟨0, none, some "order: 1 already exists"⟩) :=
  placeLimitOrder_duplicate_id fixtureHeap fixtureBook 0
    ⟨"1", .Ask, 0, ⟨20050, 0⟩, []⟩ 0 (by decide) (by decide)

/-- C9: when the id is not a key of `OrdersDone`, `Rollback` returns the error
`order: <id> not found - nothing to rollback`, and the heap and the book (asks, bids,
`Orders`, `OrdersDone`) are returned exactly as they were. -/
theorem rollback_not_found (h : Heap) (ob : OrderBook) (orderID : OrderID)
    (hnot : mapGet ob.OrdersDone orderID = none) :
    Rollback h ob orderID
      = some (h, ob, some ("order: " ++ orderID ++ " not found - nothing to rollback")) :=
  Rollback_of_not_done h ob orderID hnot

set_option maxRecDepth 100000 in
/-- Witness of C9: the id `991122` of the test on the fixture. -/
theorem rollback_not_found_witness :
    Rollback fixtureHeap fixtureBook "991122"
      = some (fixtureHeap, fixtureBook,
          some "order: 991122 not found - nothing to rollback") :=
  rollback_not_found fixtureHeap fixtureBook "991122" (by decide)

/-- C10: after a `Rollback` of an id that returns no error, the id is not a key of
`OrdersDone`, and a `Rollback` of the same id repeated at once returns the not-found error
(and changes nothing). -/
theorem rollback_removes_id (h : Heap) (ob : OrderBook) (orderID : OrderID) (h' : Heap)
    (ob' : OrderBook) (hok : Rollback h ob orderID = some (h', ob', none)) :
    mapGet ob'.OrdersDone orderID = none ∧
    Rollback h' ob' orderID
      = some (h', ob', some ("order: " ++ orderID ++ " not found - nothing to rollback")) :=
  ⟨Rollback_ok_done h ob orderID h' ob' hok,
    Rollback_of_not_done h' ob' orderID (Rollback_ok_done h ob orderID h' ob' hok)⟩

set_option maxRecDepth 100000 in
/-- Witness of C10: the ask `r` was filled by the bid `b`, so the only report in the journal
record of `r` names `r` itself as executor; its rollback succeeds and a second one fails. -/
theorem rollback_removes_id_witness :
    executionsOf selfExecutorHeap 0 = [⟨"b", "r", 0, ⟨20050, 0⟩⟩] ∧
    mapGet selfExecutorBook.OrdersDone "r" = some 0 ∧
    mapGet ((Rollback selfExecutorHeap selfExecutorBook "r").getD default).2.1.OrdersDone "r"
      = none ∧
    Rollback ((Rollback selfExecutorHeap selfExecutorBook "r").getD default).1
        ((Rollback selfExecutorHeap selfExecutorBook "r").getD default).2.1 "r"
      = some (((Rollback selfExecutorHeap selfExecutorBook "r").getD default).1,
          ((Rollback selfExecutorHeap selfExecutorBook "r").getD default).2.1,
          some "order: r not found - nothing to rollback") :=
  ⟨by decide, by decide,
    rollback_removes_id selfExecutorHeap selfExecutorBook "r" _ _ (by decide)⟩

set_option maxRecDepth 100000 in
/-- C1 (conservation), the code evaluated on the fixture.  The limit bid `100500` of 0.1 at
20050 trades once with the ask `1` and does not rest, yet the amount cell of its only report
holds 0.0: the cell is `amountLeft` itself, which the step then brings to zero.  The market
bid of 100 at 22000 (the case of `Test_MarketOrderExecution`) gets seven reports whose cells
hold 0.3, 0.5, 0.2, 0.3, 0.5, 0.2 and 0 (the last cell is also the total of the level 20150)
and returns 96.0.  Neither sum gives back the initial amount. -/
theorem conservation_violated_fixture :
    ((placeNewLimit fixtureHeap fixtureBook "100500" .Bid (.New 1 (-1)) (.New 20050 0)).map
        (fun s => (s.2.2, executionAmounts s.1 14)) = some (⟨1, none, none⟩, [some ⟨0, -1⟩])) ∧
    ((placeNewLimit fixtureHeap fixtureBook "100500" .Bid (.New 1 (-1)) (.New 20050 0)).map
        (fun s => (mapGet s.2.1.Orders "100500", decide (s.2.1.Bids = fixtureBook.Bids)))
      = some (none, true)) ∧
    (Decimal.New 1 (-1)).val ≠ (Decimal.mk 0 (-1)).val + 0 ∧
    ((placeNewMarket fixtureHeap fixtureBook "100500" .Bid (.New 100 0) (.New 22000 0)).map
        (fun s => (s.2.2, executionAmounts s.1 14, s.1.decimals[37]?))
      = some (⟨7, some 37, none⟩,
          [some ⟨3, -1⟩, some ⟨5, -1⟩, some ⟨2, -1⟩, some ⟨3, -1⟩, some ⟨5, -1⟩, some ⟨2, -1⟩,
            some ⟨0, 0⟩], some ⟨960, -1⟩)) ∧
    (Decimal.New 100 0).val ≠
      (Decimal.mk 3 (-1)).val + (Decimal.mk 5 (-1)).val + (Decimal.mk 2 (-1)).val
        + (Decimal.mk 3 (-1)).val + (Decimal.mk 5 (-1)).val + (Decimal.mk 2 (-1)).val
        + (Decimal.mk 0 0).val + (Decimal.mk 960 (-1)).val := by
  refine ⟨by decide, by decide, ?_, by decide, ?_⟩
  · norm_num [Decimal.val, Decimal.New]
  · norm_num [Decimal.val, Decimal.New]

set_option maxRecDepth 100000 in
/-- C2 (price priority), the code evaluated.  After the asks `a1` at 20050, `a2` at 20050.0
and `a3` at 20060, the level of `a1` is in the `prices` map of the ask side but no longer in
its tree.  The bid `b` of 2 at 20060 is matched with `a2` and then with `a3` at 20060, while
`a1`, priced 20050, rests with its whole amount 1 in the level `prices["20050"]`, before and
after the call. -/
theorem price_priority_violated_two_spellings :
    (mapGet twoSpellingsBook.Asks.prices "20050" = some 0 ∧
      twoSpellingsHeap.levels[0]? = some ⟨⟨20050, 0⟩, 0, [0]⟩ ∧
      twoSpellingsHeap.elements[0]? = some 0 ∧
      twoSpellingsHeap.orders[0]? = some ⟨"a1", .Ask, 0, ⟨20050, 0⟩, []⟩ ∧
      twoSpellingsHeap.decimals[0]? = some ⟨1, 0⟩ ∧
      mapGet twoSpellingsBook.Orders "a1" = some 0) ∧
    ((placeNewLimit twoSpellingsHeap twoSpellingsBook "b" .Bid (.New 2 0) (.New 20060 0)).map
        (fun s => (s.2.2, executionsOf s.1 3))
      = some (⟨2, none, none⟩,
          [⟨"b", "a2", 2, ⟨200500, -1⟩⟩, ⟨"b", "a3", 4, ⟨20060, 0⟩⟩])) ∧
    ((placeNewLimit twoSpellingsHeap twoSpellingsBook "b" .Bid (.New 2 0) (.New 20060 0)).map
        (fun s => (mapGet s.2.1.Asks.prices "20050", s.1.levels[0]?, s.1.orders[0]?,
          s.1.decimals[0]?))
      = some (some 0, some ⟨⟨20050, 0⟩, 0, [0]⟩, some ⟨"a1", .Ask, 0, ⟨20050, 0⟩, []⟩,
          some ⟨1, 0⟩)) ∧
    (Decimal.mk 20050 0).Cmp ⟨20060, 0⟩ = -1 := by
  refine ⟨by decide, by decide, by decide, by decide⟩

set_option maxRecDepth 100000 in
/-- C5 (the report of a match step), the code evaluated on the fixture.  The incoming bid of
0.1 (order 14, working copy in cell 37) meets the head ask `1` of the level 20050, whose
amount is 0.3.  The report appended to both orders has the ids and the price that are specified,
but its amount is the cell 37, `amountLeft` itself, and that cell holds 0.0 when the report
is appended, not min(0.3, 0.1) = 0.1. -/
theorem partial_fill_report_amount_zero :
    ((fixtureHeap.allocOrder "100500" .Bid (.New 1 (-1)) (.New 20050 0)).1.newDecimal
        (.New 1 (-1))).2 = 37 ∧
    amountOf fixtureHeap 0 = some ⟨3, -1⟩ ∧
    ((matchStep 14 37 0 0
        ((fixtureHeap.allocOrder "100500" .Bid (.New 1 (-1)) (.New 20050 0)).1.newDecimal
          (.New 1 (-1))).1 0).map
        (fun s => (s.ordersExecuted, s.listNodeEmpty, s.err, executionsOf s.heap 14))
      = some (1, false, none, [⟨"100500", "1", 37, ⟨20050, 0⟩⟩])) ∧
    ((matchStep 14 37 0 0
        ((fixtureHeap.allocOrder "100500" .Bid (.New 1 (-1)) (.New 20050 0)).1.newDecimal
          (.New 1 (-1))).1 0).map
        (fun s => (executionsOf s.heap 0, s.heap.decimals[37]?, amountOf s.heap 0))
      = some ([⟨"100500", "1", 37, ⟨20050, 0⟩⟩], some ⟨0, -1⟩, some ⟨2, -1⟩)) ∧
    (Decimal.mk 0 (-1)).val ≠ min (Decimal.mk 3 (-1)).val (Decimal.mk 1 (-1)).val := by
  refine ⟨by decide, by decide, by decide, by decide, ?_⟩
  norm_num [Decimal.val]

/-- C4: price cap.  Let `ExecuteOrder` run for the incoming order `ord` on a side whose tree
is a search tree and whose queued orders are priced as their levels.  Every report the call
appends to the incoming order has a price at most the incoming price when the side holds
asks (incoming bid), at least the incoming price when the side holds bids (incoming ask).
A level that fails the price test of the loop is the same object afterwards (same price,
total address and queue) and its node is still in the tree; a decimal cell that belongs to
no level passing the test keeps its value, and so does every order that rests in no such
level. -/
theorem price_cap (h : Heap) (os : OrderSide) (o : Nat) (h' : Heap) (os' : OrderSide)
    (r : ExecResult) (ord : Order)
    (hex : ExecuteOrder h os o = some (h', os', r)) (ho : h.orders[o]? = some ord)
    (hsorted : treeSorted os) (hagree : pricesAgree h os = true) :
    (∃ ord' new, h'.orders[o]? = some ord' ∧ ord'.executions = ord.executions ++ new ∧
      ∀ e ∈ new, (os.sideType = .Ask → e.price.val ≤ ord.price.val) ∧
        (os.sideType = .Bid → ord.price.val ≤ e.price.val)) ∧
    (∀ (lp : Nat) (l : OrdersBySpecificPrice), h.levels[lp]? = some l →
      ¬ crosses os.sideType ord.price l.price → h'.levels[lp]? = some l) ∧
    (∀ node ∈ os.priceTree, ∀ l, h.levels[node.2]? = some l →
      ¬ crosses os.sideType ord.price l.price → node ∈ os'.priceTree) ∧
    (∀ a, a < h.decimals.length →
      (∀ node ∈ os.priceTree, ∀ l, h.levels[node.2]? = some l →
        crosses os.sideType ord.price l.price → ¬ ownsCell h node.2 a) →
      h'.decimals[a]? = h.decimals[a]?) ∧
    (∀ p, p ≠ o →
      (∀ node ∈ os.priceTree, ∀ l, h.levels[node.2]? = some l →
        crosses os.sideType ord.price l.price → ¬ ownsOrder h node.2 p) →
      h'.orders[p]? = h.orders[p]?) := by
  refine ⟨?_, ?_, ?_, ?_, ?_⟩
  · obtain ⟨ord', new, h1, h2, h3⟩ := ExecuteOrder_reports hex ho
    refine ⟨ord', new, h1, h2, ?_⟩
    intro e he
    obtain ⟨node, hnode, l, hl, hc, el, hel, p, req, hp, hreq, -, -, hprice⟩ := h3 e he
    have hval : req.price.val = l.price.val :=
      (Decimal.Cmp_eq_zero_iff _ _).mp (pricesAgree_spec hagree hnode hl hel hp hreq)
    rw [hprice, hval]
    unfold crosses at hc
    constructor
    · intro hside
      by_contra hlt
      exact hc (Or.inl ⟨hside, (Decimal.Cmp_lt_iff _ _).mpr (lt_of_not_le hlt)⟩)
    · intro hside
      by_contra hlt
      exact hc (Or.inr ⟨hside, (Decimal.Cmp_gt_iff _ _).mpr (lt_of_not_le hlt)⟩)
  · intro lp l hl hnc
    rw [ExecuteOrder_levels_frame hex ho lp (by
      intro node _ _ l' hl'
      rw [hl] at hl'
      simp only [Option.some.injEq] at hl'
      subst hl'
      exact hnc)]
    exact hl
  · intro node hnode l hl hnc
    obtain ⟨ord0, a, w, hord, ha, hw, -, hcase⟩ := ExecuteOrder_inv hex
    rcases hcase with ⟨e, -, rfl, -⟩ | ⟨-, rfl, -⟩
    · exact hnode
    · refine foldl_treeRemove_mem _ hnode ?_
      intro k hk
      rcases walkLevels_dtn _ hw k hk with hin | ⟨node', hnode', hkey, l', ord1, hl', hord1, hc⟩
      · simp at hin
      · have h1 : h.orders[o]? = some ord1 := hord1
        rw [ho] at h1
        simp only [Option.some.injEq] at h1
        subst h1
        have hl'' : h.levels[node'.2]? = some l' := hl'
        rw [← hkey]
        refine treeSorted_ne hsorted (mem_walk_nodes hnode') hnode ?_
        intro heq
        subst heq
        rw [hl] at hl''
        simp only [Option.some.injEq] at hl''
        subst hl''
        exact hnc hc
  · intro a ha hno
    refine ExecuteOrder_decimals_frame hex ho a ha ?_
    intro node hnode l hl hc
    have hown := hno node hnode l hl hc
    refine ⟨fun heq => hown ⟨l, hl, Or.inl heq⟩, ?_⟩
    intro el hel p x hp hx heq
    exact hown ⟨l, hl, Or.inr ⟨el, hel, p, x, hp, hx, heq⟩⟩
  · intro p hp hno
    refine ExecuteOrder_orders_frame hex ho p hp ?_
    intro node hnode l hl hc el hel q hq heq
    subst heq
    exact hno node hnode l hl hc ⟨l, hl, el, hel, hq⟩

set_option maxRecDepth 100000 in
/-- Witness of C4: the bid of 1.5 at 20100 on the asks of the fixture.  Its reports are
priced at most 20100 and the level 20150 (address 2), which does not cross, is as before. -/
theorem price_cap_witness :
    ExecuteOrder capHeap fixtureBook.Asks 14
      = some (capResult.1, capResult.2.1, capResult.2.2) ∧
    treeSorted fixtureBook.Asks ∧ pricesAgree capHeap fixtureBook.Asks = true ∧
    (∃ ord' new, capResult.1.orders[14]? = some ord' ∧
      ord'.executions = ([] : List ExecutionReport) ++ new ∧
      ∀ e ∈ new, (fixtureBook.Asks.sideType = .Ask → e.price.val ≤ (Decimal.mk 20100 0).val) ∧
        (fixtureBook.Asks.sideType = .Bid → (Decimal.mk 20100 0).val ≤ e.price.val)) ∧
    capResult.1.levels[2]? = some ⟨⟨20150, 0⟩, 16, [6]⟩ :=
  ⟨by decide, by decide, by decide,
    (price_cap capHeap fixtureBook.Asks 14 capResult.1 capResult.2.1 capResult.2.2
      ⟨"100500", .Bid, 36, ⟨20100, 0⟩, []⟩ (by decide) (by decide) (by decide) (by decide)).1,
    (price_cap capHeap fixtureBook.Asks 14 capResult.1 capResult.2.1 capResult.2.2
      ⟨"100500", .Bid, 36, ⟨20100, 0⟩, []⟩ (by decide) (by decide) (by decide)
      (by decide)).2.1 2 ⟨⟨20150, 0⟩, 16, [6]⟩ (by decide) (by decide)⟩

/-- C7: a market order does not rest.  After a `PlaceMarketOrder` that returns no error,
the side of the order's own type is the same record, every entry of the live map `Orders`
was there before (none is added, for the order or otherwise), the heap is the one left by
`ExecuteOrder` on the opposite side, the returned `amountLeft` and `ordersExecuted` are
those `ExecuteOrder` returned, and `OrdersDone` maps the id to the order.  The objects the
own side refers to are untouched as well: no list element changes, a level that is no node
of the opposite tree, a decimal cell that belongs to no level of the opposite tree and any
other order that rests in no level of the opposite tree are as before. -/
theorem market_order_does_not_rest (h : Heap) (ob : OrderBook) (o : Nat) (h' : Heap)
    (ob' : OrderBook) (rep : Reply) (ord : Order)
    (hm : PlaceMarketOrder h ob o = some (h', ob', rep)) (hok : rep.err = none)
    (ho : h.orders[o]? = some ord) :
    ob'.side ord.operationType = ob.side ord.operationType ∧
    (∀ k v, mapGet ob'.Orders k = some v → mapGet ob.Orders k = some v) ∧
    (∃ os1 r, ExecuteOrder h (ob.side ord.operationType.opposite) o = some (h', os1, r) ∧
      rep.amountLeft = r.amountLeft ∧ rep.ordersExecuted = r.ordersExecuted ∧
      ob'.side ord.operationType.opposite = os1) ∧
    mapGet ob'.OrdersDone ord.orderID = some o ∧
    h'.elements = h.elements ∧
    (∀ lp : Nat, (∀ node ∈ (ob.side ord.operationType.opposite).priceTree, node.2 ≠ lp) →
      h'.levels[lp]? = h.levels[lp]?) ∧
    (∀ a, a < h.decimals.length →
      (∀ node ∈ (ob.side ord.operationType.opposite).priceTree, ¬ ownsCell h node.2 a) →
      h'.decimals[a]? = h.decimals[a]?) ∧
    (∀ p, p ≠ o →
      (∀ node ∈ (ob.side ord.operationType.opposite).priceTree, ¬ ownsOrder h node.2 p) →
      h'.orders[p]? = h.orders[p]?) := by
  obtain ⟨ord0, check1, r, ord1, hord0, hex, herr, hord1, hrep, hob⟩ := PlaceMarketOrder_ok hm hok
  rw [ho] at hord0
  simp only [Option.some.injEq] at hord0
  subst hord0
  obtain ⟨hel, -, -, -, hgrew, -, -, -⟩ := ExecuteOrder_evolves hex
  obtain ⟨x', hx', hg⟩ := hgrew o ord ho
  rw [hord1] at hx'
  simp only [Option.some.injEq] at hx'
  subst hx'
  refine ⟨?_, ?_, ⟨check1, r, hex, by rw [hrep], by rw [hrep], ?_⟩, ?_, hel, ?_, ?_, ?_⟩
  · rw [hob]
    exact side_setSide_ne ob check1 (opposite_ne ord.operationType).symm
  · intro k v hk
    rw [hob] at hk
    exact mapGet_deleteExecutors_some _ hk
  · rw [hob]
    exact side_setSide_self ob _ check1
  · rw [hob, hg.1]
    exact mapGet_mapSet_self _ _ _
  · intro lp hno
    exact ExecuteOrder_levels_frame hex ho lp
      (fun node hnode heq => absurd heq (hno node hnode))
  · intro a ha hno
    refine ExecuteOrder_decimals_frame hex ho a ha ?_
    intro node hnode l hl _
    have hown := hno node hnode
    refine ⟨fun heq => hown ⟨l, hl, Or.inl heq⟩, ?_⟩
    intro el hel' p x hp hx heq
    exact hown ⟨l, hl, Or.inr ⟨el, hel', p, x, hp, hx, heq⟩⟩
  · intro p hp hno
    refine ExecuteOrder_orders_frame hex ho p hp ?_
    intro node hnode l hl _ el hel' q hq heq
    subst heq
    exact hno node hnode ⟨l, hl, el, hel', hq⟩

set_option maxRecDepth 100000 in
/-- Witness of C7: the market bid of 100 at 22000 of `Test_MarketOrderExecution` on the
fixture. -/
theorem market_order_does_not_rest_witness :
    PlaceMarketOrder marketHeap fixtureBook 14
      = some (marketResult.1, marketResult.2.1, marketResult.2.2) ∧
    marketResult.2.2.err = none ∧
    marketResult.2.1.side .Bid = fixtureBook.side .Bid ∧
    mapGet marketResult.2.1.OrdersDone "100500" = some 14 :=
  ⟨by decide, by decide,
    (market_order_does_not_rest marketHeap fixtureBook 14 marketResult.1 marketResult.2.1
      marketResult.2.2 ⟨"100500", .Bid, 36, ⟨22000, 0⟩, []⟩ (by decide) (by decide)
      (by decide)).1,
    (market_order_does_not_rest marketHeap fixtureBook 14 marketResult.1 marketResult.2.1
      marketResult.2.2 ⟨"100500", .Bid, 36, ⟨22000, 0⟩, []⟩ (by decide) (by decide)
      (by decide)).2.2.2.1⟩

/-- C6: what a successful `PlaceLimitOrder` does with the remainder.  With `h1` the heap
and `left` the value of `amountLeft` after `ExecuteOrder` on the opposite side: when `left`
is zero the heap stays `h1`, the own side is the same record and `Orders` has no entry for
the id.  Otherwise a new list element `el` holding the order is the last of the queue of the
level that `prices` of the own side gives for the price string, the amount cell of the order
holds `left`, and `Orders` maps the id to `el`; that level is the one `prices` gave before,
with the queue it had in `h1` in front and a total equal to its total in `h1` plus `left`,
or, when `prices` gave none, a new level with that price whose total cell holds `left` and
which `treePut` adds to the tree.  Matching leaves a level of the own side as it was before
the call when it is no node of the opposite tree, and a decimal cell as well when no level
of the opposite tree owns it. -/
theorem limit_order_rests (h : Heap) (ob : OrderBook) (o : Nat) (h' : Heap) (ob' : OrderBook)
    (rep : Reply) (ord : Order)
    (hl : PlaceLimitOrder h ob o = some (h', ob', rep)) (hok : rep.err = none)
    (ho : h.orders[o]? = some ord) :
    ∃ h1 os1 r aL left,
      ExecuteOrder h (ob.side ord.operationType.opposite) o = some (h1, os1, r) ∧
      r.amountLeft = some aL ∧ h1.decimals[aL]? = some left ∧
      rep.ordersExecuted = r.ordersExecuted ∧
      (left.IsZero = true →
        h' = h1 ∧ ob'.side ord.operationType = ob.side ord.operationType ∧
        mapGet ob'.Orders ord.orderID = none) ∧
      (left.IsZero = false →
        ∃ el lp lvl',
          h'.elements[el]? = some o ∧ h.elements[el]? = none ∧
          mapGet ob'.Orders ord.orderID = some el ∧
          amountOf h' o = some left ∧
          mapGet (ob'.side ord.operationType).prices ord.price.TextG = some lp ∧
          h'.levels[lp]? = some lvl' ∧
          ((∃ lvl1 total1 total',
              mapGet (ob.side ord.operationType).prices ord.price.TextG = some lp ∧
              ob'.side ord.operationType = ob.side ord.operationType ∧
              h1.levels[lp]? = some lvl1 ∧ lvl'.price = lvl1.price ∧
              lvl'.orders = lvl1.orders ++ [el] ∧
              h1.decimals[lvl1.totalAmount]? = some total1 ∧
              h'.decimals[lvl'.totalAmount]? = some total' ∧
              total'.val = total1.val + left.val) ∨
           (mapGet (ob.side ord.operationType).prices ord.price.TextG = none ∧
              h1.levels[lp]? = none ∧ lvl'.price = ord.price ∧ lvl'.orders = [el] ∧
              h'.decimals[lvl'.totalAmount]? = some left ∧
              (ob'.side ord.operationType).priceTree
                = treePut (ob.side ord.operationType).priceTree ord.price lp))) ∧
      (∀ lp : Nat, (∀ node ∈ (ob.side ord.operationType.opposite).priceTree, node.2 ≠ lp) →
        h1.levels[lp]? = h.levels[lp]?) ∧
      (∀ a, a < h.decimals.length →
        (∀ node ∈ (ob.side ord.operationType.opposite).priceTree, ¬ ownsCell h node.2 a) →
        h1.decimals[a]? = h.decimals[a]?) := by
  obtain ⟨ord0, h1, check1, r, aL, ord1, left, hord0, hlive, hex, herr, haL, hord1, hleft, hcnt,
    hcase⟩ := limitOrder_ok hl hok
  rw [ho] at hord0
  simp only [Option.some.injEq] at hord0
  subst hord0
  obtain ⟨hel, -, -, -, hgrew, -, -, -⟩ := ExecuteOrder_evolves hex
  obtain ⟨x', hx', hg⟩ := hgrew o ord ho
  rw [hord1] at hx'
  simp only [Option.some.injEq] at hx'
  subst hx'
  refine ⟨h1, check1, r, aL, left, hex, haL, hleft, hcnt, ?_, ?_, ?_, ?_⟩
  · intro hz
    rcases hcase with ⟨-, hh, hob⟩ | ⟨hz', -⟩
    · refine ⟨hh, ?_, ?_⟩
      · rw [hob]
        exact side_setSide_ne ob check1 (opposite_ne ord.operationType).symm
      · rw [hob]
        exact mapGet_deleteExecutors_none _ hlive
    · rw [hz] at hz'
      simp at hz'
  · intro hz
    rcases hcase with ⟨hz', -, -⟩ | ⟨-, add3, el, hadd, hob⟩
    · rw [hz] at hz'
      simp at hz'
    · -- the heap `AddOrder` starts from
      have key : ∃ h2 ord2, AddOrder h2 (ob.side ord.operationType) o
            = some (h', add3, some el, none) ∧
          h2.orders[o]? = some ord2 ∧ ord2.price = ord.price ∧
          h2.decimals = h1.decimals ∧ h2.levels = h1.levels ∧ h2.elements = h1.elements ∧
          h2.decimals[ord2.amount]? = some left := by
        by_cases hpos : r.ordersExecuted > 0
        · rw [if_pos hpos] at hadd
          have hlt : o < h1.orders.length := (List.getElem?_eq_some.mp hord1).1
          exact ⟨_, { ord1 with amount := aL }, hadd, by simp [List.getElem?_set_self hlt],
            hg.2.2.2.1, rfl, rfl, rfl, hleft⟩
        · rw [if_neg hpos] at hadd
          obtain ⟨ordn, a, hon, han, hh1, -, haLn⟩ :=
            ExecuteOrder_nothing hex herr (by omega)
          rw [ho] at hon
          simp only [Option.some.injEq] at hon
          subst hon
          rw [haL] at haLn
          simp only [Option.some.injEq] at haLn
          have hlt : ord.amount < h.decimals.length := (List.getElem?_eq_some.mp han).1
          have hleft' : left = a := by
            rw [hh1, haLn] at hleft
            simpa [Heap.newDecimal] using hleft.symm
          refine ⟨h1, ord1, hadd, hord1, hg.2.2.2.1, rfl, rfl, rfl, ?_⟩
          rw [hg.2.2.1, hh1, hleft']
          simpa [Heap.newDecimal, List.getElem?_append_left hlt] using han
      obtain ⟨h2, ord2, hadd2, hord2, hprice2, hdec2, hlev2, helem2, hamt2⟩ := key
      obtain ⟨ord2', hord2', helq, helems, horders, hcases⟩ := AddOrder_ok hadd2
      rw [hord2] at hord2'
      simp only [Option.some.injEq] at hord2'
      subst hord2'
      have hside : ob'.side ord.operationType = add3 := by
        rw [hob]
        generalize ord.operationType = t
        cases t <;> simp [OrderBook.side, OrderBook.setSide, OperationType.opposite]
      have hlive' : mapGet ob'.Orders ord.orderID = some el := by
        rw [hob, hg.1]
        exact mapGet_mapSet_self _ _ _
      have helem' : h'.elements[el]? = some o := by
        rw [helems, helq]
        exact List.getElem?_concat_length _ _
      have helnew : h.elements[el]? = none := by
        rw [helq, helem2, hel]
        exact List.getElem?_eq_none (le_refl _)
      rw [hprice2] at hcases
      rcases hcases with ⟨lp, lvl, total, a, s, hlp, hos, hlvl, htotal, hamt, hsum, hlevels',
          hdec'⟩ | ⟨hlp, hos, hlevels', hdec'⟩
      · rw [hamt2] at hamt
        simp only [Option.some.injEq] at hamt
        subst hamt
        have hlt : lp < h2.levels.length := (List.getElem?_eq_some.mp hlvl).1
        have hdlt : ord2.amount < h2.decimals.length := (List.getElem?_eq_some.mp hamt2).1
        refine ⟨el, lp, ⟨lvl.price, h2.decimals.length, lvl.orders ++ [el]⟩, helem', helnew,
          hlive', ?_, ?_, ?_, Or.inl ⟨lvl, total, s, hlp, ?_, ?_, rfl, rfl, ?_, ?_, ?_⟩⟩
        · unfold amountOf
          rw [horders, hord2]
          simp only
          rw [hdec', List.getElem?_append_left hdlt]
          exact hamt2
        · rw [hside, hos]
          exact hlp
        · rw [hlevels']
          exact List.getElem?_set_self hlt
        · rw [hside, hos]
        · rw [← hlev2]
          exact hlvl
        · rw [← hdec2]
          exact htotal
        · simp only
          rw [hdec']
          exact List.getElem?_concat_length _ _
        · exact Decimal.Add_val hsum
      · have hdlt : ord2.amount < h2.decimals.length := (List.getElem?_eq_some.mp hamt2).1
        refine ⟨el, h2.levels.length, ⟨ord.price, ord2.amount, [el]⟩, helem', helnew, hlive',
          ?_, ?_, ?_, Or.inr ⟨hlp, ?_, rfl, rfl, ?_, ?_⟩⟩
        · unfold amountOf
          rw [horders, hord2]
          simp only
          rw [hdec']
          exact hamt2
        · rw [hside, hos]
          exact mapGet_mapSet_self _ _ _
        · rw [hlevels']
          exact List.getElem?_concat_length _ _
        · rw [← hlev2]
          exact List.getElem?_eq_none (le_refl _)
        · simp only
          rw [hdec']
          exact hamt2
        · rw [hside, hos]
  · intro lp hno
    exact ExecuteOrder_levels_frame hex ho lp
      (fun node hnode heq => absurd heq (hno node hnode))
  · intro a ha hno
    refine ExecuteOrder_decimals_frame hex ho a ha ?_
    intro node hnode l hl' _
    have hown := hno node hnode
    refine ⟨fun heq => hown ⟨l, hl', Or.inl heq⟩, ?_⟩
    intro el hel' p x hp hx heq
    exact hown ⟨l, hl', Or.inr ⟨el, hel', p, x, hp, hx, heq⟩⟩

set_option maxRecDepth 100000 in
/-- Witness of C6: the limit bid of 100 at 22000 of `Test_LimitOrderExecution` on the
fixture; it rests with 96.0 in a new level. -/
theorem limit_order_rests_witness :
    PlaceLimitOrder marketHeap fixtureBook 14
      = some (limitResult.1, limitResult.2.1, limitResult.2.2) ∧
    limitResult.2.2.err = none ∧
    ∃ h1 os1 r aL left,
      ExecuteOrder marketHeap (fixtureBook.side .Ask) 14 = some (h1, os1, r) ∧
      r.amountLeft = some aL ∧ h1.decimals[aL]? = some left ∧
      limitResult.2.2.ordersExecuted = r.ordersExecuted :=
  ⟨by decide, by decide, by
    obtain ⟨h1, os1, r, aL, left, a, b, c, d, -⟩ :=
      limit_order_rests marketHeap fixtureBook 14 limitResult.1 limitResult.2.1
        limitResult.2.2 ⟨"100500", .Bid, 36, ⟨22000, 0⟩, []⟩ (by decide) (by decide)
        (by decide)
    exact ⟨h1, os1, r, aL, left, a, b, c, d⟩⟩

/-- C3: time priority.  `AddOrder` puts the new element at the tail of its level, so a queue
is in the order of arrival.  In every `ExecuteOrder` call on a side that can be walked, the
executors of the `m` reports appended to the incoming order are, in this order, the first
`m` elements of the side in price-time order (`restingOrder`: level after level as the tree
is walked, each queue from its head): within a level the orders are executed in queue
order.  When the call returns no error, the first `j` of these elements are gone from their
queues afterwards, with `j = m`, or `j = m - 1` when the last one was only partly taken: an
order is executed only after every order in front of it was taken whole and removed. -/
theorem time_priority (h : Heap) (os : OrderSide) (o : Nat) (h' : Heap) (os' : OrderSide)
    (r : ExecResult) (ord : Order)
    (hex : ExecuteOrder h os o = some (h', os', r))
    (ho : h.orders[o]? = some ord) (hwalk : walkable h os o = true) :
    (∃ m new ord', r.ordersExecuted = m ∧ h'.orders[o]? = some ord' ∧
      ord'.executions = ord.executions ++ new ∧
      new.map (fun e => some e.executorOrderID)
        = ((restingOrder h (walkOrder os)).take m).map (restingId h) ∧
      m ≤ (restingOrder h (walkOrder os)).length ∧
      (r.err = none → ∃ j, (j = m ∨ j + 1 = m) ∧
        restingOrder h' (walkOrder os) = (restingOrder h (walkOrder os)).drop j)) ∧
    (∀ (h0 : Heap) (os0 : OrderSide) (o0 : Nat) (h0' : Heap) (os0' : OrderSide) (el : Nat),
      AddOrder h0 os0 o0 = some (h0', os0', some el, none) →
      ∃ ord0 lp, h0.orders[o0]? = some ord0 ∧
        mapGet os0'.prices ord0.price.TextG = some lp ∧
        h0'.elements[el]? = some o0 ∧ h0.elements[el]? = none ∧
        queueOf h0' lp = queueOf h0 lp ++ [el]) := by
  refine ⟨?_, fun h0 os0 o0 h0' os0' el ha => AddOrder_tail ha⟩
  obtain ⟨ord0, a, w, hord0, ha, hw, rfl, hcase⟩ := ExecuteOrder_inv hex
  obtain ⟨hnd, hwf⟩ := walkable_spec hwalk
  have ho' : (h.newDecimal a).1.orders[o]? = some ord := ho
  obtain ⟨m, new, ord', hcnt, hord', hexs, hids, hm, hrest⟩ :=
    walkLevels_prefix (walkOrder os) hw ho' hnd hwf
  have hR : restingOrder (h.newDecimal a).1 (walkOrder os) = restingOrder h (walkOrder os) :=
    restingOrder_congr _ (fun _ _ => rfl)
  have hI : restingId (h.newDecimal a).1 = restingId h := rfl
  rw [hR] at hids hm hrest
  rw [hI] at hids
  have hcount : r.ordersExecuted = m := by
    rcases hcase with ⟨e, -, -, rfl⟩ | ⟨-, -, rfl⟩ <;> simpa using hcnt
  refine ⟨m, new, ord', hcount, hord', hexs, hids, hm, ?_⟩
  intro hnone
  rcases hcase with ⟨e, -, -, rfl⟩ | ⟨hwok, -, -⟩
  · simp at hnone
  · exact hrest hwok

set_option maxRecDepth 100000 in
/-- Witness of C3: the bid of 0.4 at 20050 on the asks of the fixture is matched with the
asks `1` and `11`, the first two of the level 20050, in that order. -/
theorem time_priority_witness :
    ExecuteOrder twoFillsHeap fixtureBook.Asks 14
      = some (twoFillsResult.1, twoFillsResult.2.1, twoFillsResult.2.2) ∧
    walkable twoFillsHeap fixtureBook.Asks 14 = true ∧
    ∃ m new ord', twoFillsResult.2.2.ordersExecuted = m ∧
      twoFillsResult.1.orders[14]? = some ord' ∧
      ord'.executions = ([] : List ExecutionReport) ++ new ∧
      new.map (fun e => some e.executorOrderID)
        = ((restingOrder twoFillsHeap (walkOrder fixtureBook.Asks)).take m).map
            (restingId twoFillsHeap) ∧
      m ≤ (restingOrder twoFillsHeap (walkOrder fixtureBook.Asks)).length ∧
      (twoFillsResult.2.2.err = none → ∃ j, (j = m ∨ j + 1 = m) ∧
        restingOrder twoFillsResult.1 (walkOrder fixtureBook.Asks)
          = (restingOrder twoFillsHeap (walkOrder fixtureBook.Asks)).drop j) :=
  ⟨by decide, by decide,
    (time_priority twoFillsHeap fixtureBook.Asks 14 twoFillsResult.1 twoFillsResult.2.1
      twoFillsResult.2.2 ⟨"100500", .Bid, 36, ⟨20050, 0⟩, []⟩ (by decide) (by decide)
      (by decide)).1⟩

/-! ## States reached by successful calls -/

theorem reachable_of_map (calls : List Call) (f : Heap × OrderBook → Bool) {b : Bool}
    (hc : (runCalls calls Heap.empty (NewOrderBook "BTC" "USDT")).map f = some b) :
    ∃ h ob, Reachable h ob ∧ f (h, ob) = b := by
  cases hr : runCalls calls Heap.empty (NewOrderBook "BTC" "USDT") with
  | none => simp [hr] at hc
  | some s =>
    rw [hr] at hc
    simp only [Option.map_some', Option.some.injEq] at hc
    exact ⟨s.1, s.2, ⟨calls, hr⟩, hc⟩

theorem reachablePositive_of_map (calls : List Call) (f : Heap × OrderBook → Bool) {b : Bool}
    (hp : calls.all Call.positive = true)
    (hc : (runCalls calls Heap.empty (NewOrderBook "BTC" "USDT")).map f = some b) :
    ∃ h ob, ReachablePositive h ob ∧ f (h, ob) = b := by
  cases hr : runCalls calls Heap.empty (NewOrderBook "BTC" "USDT") with
  | none => simp [hr] at hc
  | some s =>
    rw [hr] at hc
    simp only [Option.map_some', Option.some.injEq] at hc
    exact ⟨s.1, s.2, ⟨calls, hp, hr⟩, hc⟩

/-! ## The scenarios of the specification, evaluated -/

set_option maxRecDepth 100000 in
set_option maxHeartbeats 4000000 in
/-- C12 (rollback of an order filled by whole resting orders), the code evaluated on the
fixture, a book built by fourteen limit orders none of which executed.  The limit bid
`100500` of 4.0 at 25000 takes the seven asks whole and is completely filled; its rollback
returns no error and leaves the bids as they were, but the ask side gets back only the levels
20100 and 20050: the level 20150, one order and total 2 before the bid, is missing.  The
ask `3` was alone in that level, so its amount cell was also the total of the level, and the
cell the report of its fill points to was brought to 0 by the update of the total: the order
replayed for it has amount 0 and does not rest.  With the bid of 2.0 of the test, which
stops short of the level 20150, the three levels are as before. -/
theorem rollback_round_trip_loses_lone_level :
    sideLines fixtureHeap fixtureBook.Asks
      = [some (1, "20150", "2"), some (3, "20100", "1.0"), some (3, "20050", "1.0")] ∧
    (placeNewLimit fixtureHeap fixtureBook "100500" .Bid (.New 40 (-1)) (.New 25000 0)).map
        (fun s => (s.2.2, mapGet s.2.1.Orders "100500"))
      = some (⟨7, none, none⟩, none) ∧
    (placeNewLimit fixtureHeap fixtureBook "100500" .Bid (.New 40 (-1)) (.New 25000 0)).map
        (fun s => sideLines s.1 s.2.1.Asks) = some [] ∧
    (placeNewLimit fixtureHeap fixtureBook "100500" .Bid (.New 40 (-1)) (.New 25000 0)).map
        (fun s => executionAmounts s.1 14)
      = some [some ⟨3, -1⟩, some ⟨5, -1⟩, some ⟨2, -1⟩, some ⟨3, -1⟩, some ⟨5, -1⟩, some ⟨2, -1⟩,
          some ⟨0, 0⟩] ∧
    (runCalls sweepCalls fixtureHeap fixtureBook).map (fun s => sideLines s.1 s.2.Asks)
      = some [some (3, "20100", "1.0"), some (3, "20050", "1.0")] ∧
    (runCalls sweepCalls fixtureHeap fixtureBook).map
        (fun s => decide (sideLines s.1 s.2.Bids = sideLines fixtureHeap fixtureBook.Bids))
      = some true ∧
    (runCalls rollbackTestCalls fixtureHeap fixtureBook).map (fun s => sideLines s.1 s.2.Asks)
      = some [some (3, "20100", "1.0"), some (3, "20050", "1.0"), some (1, "20150", "2")] := by
  refine ⟨by decide, by decide, by decide, by decide, by decide, by decide, by decide⟩

set_option maxRecDepth 100000 in
/-- C13 (limit orders that do not cross), the code evaluated.  The asks `a1` and `a2` of 1
are placed on the empty book at the same price, written 20050 and 20050.0; both calls
succeed.  The two prices compare equal, yet the `prices` map of the ask side then holds two
levels, one with `a1` and one with `a2`, and the tree holds only the level of `a2`: no level
holds both orders. -/
theorem equal_prices_two_levels :
    (runCalls spellingCalls Heap.empty (NewOrderBook "BTC" "USDT")).map
        (fun s => (s.2.Asks.priceTree, s.2.Asks.prices))
      = some ([(⟨200500, -1⟩, 1)], [("20050.0", 1), ("20050", 0)]) ∧
    (runCalls spellingCalls Heap.empty (NewOrderBook "BTC" "USDT")).map
        (fun s => (queueIds s.1 0, queueIds s.1 1)) = some ([some "a1"], [some "a2"]) ∧
    (runCalls spellingCalls Heap.empty (NewOrderBook "BTC" "USDT")).map
        (fun s => (levelLine s.1 0, levelLine s.1 1))
      = some (some (1, "20050", "1"), some (1, "20050.0", "1")) ∧
    (Decimal.mk 20050 0).Cmp ⟨200500, -1⟩ = 0 := by
  refine ⟨by decide, by decide, by decide, by decide⟩

set_option maxRecDepth 100000 in
/-- C15: on the fixture, `PlaceLimitOrder` of the ask `100500` of 2.5 at 19850 returns 7 and
no error, and the bid side is left with one level, in the `prices` map and in the tree alike:
price 19850, 1 order, total 1.0.  Symmetrically the bid of 2.5 at 20150 returns 7 and leaves
the ask side with the one level 20150, 1 order, total 1.0. -/
theorem fixture_sweep_leaves_one_level :
    (placeNewLimit fixtureHeap fixtureBook "100500" .Ask (.New 25 (-1)) (.New 19850 0)).map
        (fun s => (s.2.2, sideLines s.1 s.2.1.Bids))
      = some (⟨7, none, none⟩, [some (1, "19850", "1.0")]) ∧
    (placeNewLimit fixtureHeap fixtureBook "100500" .Ask (.New 25 (-1)) (.New 19850 0)).map
        (fun s => s.2.1.Bids.priceTree.map fun node => (node.1, levelLine s.1 node.2))
      = some [(⟨19850, 0⟩, some (1, "19850", "1.0"))] ∧
    (placeNewLimit fixtureHeap fixtureBook "100500" .Bid (.New 25 (-1)) (.New 20150 0)).map
        (fun s => (s.2.2, sideLines s.1 s.2.1.Asks))
      = some (⟨7, none, none⟩, [some (1, "20150", "1.0")]) ∧
    (placeNewLimit fixtureHeap fixtureBook "100500" .Bid (.New 25 (-1)) (.New 20150 0)).map
        (fun s => s.2.1.Asks.priceTree.map fun node => (node.1, levelLine s.1 node.2))
      = some [(⟨20150, 0⟩, some (1, "20150", "1.0"))] := by
  refine ⟨by decide, by decide, by decide, by decide⟩

set_option maxRecDepth 100000 in
set_option maxHeartbeats 4000000 in
/-- C16 (rollback after a partial fill), the code evaluated on the fixture.  The limit bid
`100500` of 0.1 at 20050 is recorded in `OrdersDone` with one report, whose executor is the
ask `1`; that ask had 0.3, was filled in part and is still at the head of the queue of the
level 20050 with 0.2.  Its id is no longer a key of `Orders`, and `Rollback` of `100500`
returns no error: it leaves the level with its three orders and the total 0.9. -/
theorem rollback_after_part_fill_succeeds :
    (placeNewLimit fixtureHeap fixtureBook "100500" .Bid (.New 1 (-1)) (.New 20050 0)).map
        (fun s => (s.2.2, mapGet s.2.1.OrdersDone "100500"))
      = some (⟨1, none, none⟩, some 14) ∧
    (placeNewLimit fixtureHeap fixtureBook "100500" .Bid (.New 1 (-1)) (.New 20050 0)).map
        (fun s => executionsOf s.1 14) = some [⟨"100500", "1", 37, ⟨20050, 0⟩⟩] ∧
    amountOf fixtureHeap 0 = some ⟨3, -1⟩ ∧
    (placeNewLimit fixtureHeap fixtureBook "100500" .Bid (.New 1 (-1)) (.New 20050 0)).map
        (fun s => (mapGet s.2.1.Asks.prices "20050", queueIds s.1 0))
      = some (some 0, [some "1", some "11", some "111"]) ∧
    (placeNewLimit fixtureHeap fixtureBook "100500" .Bid (.New 1 (-1)) (.New 20050 0)).map
        (fun s => (queueAmounts s.1 0, mapGet s.2.1.Orders "1"))
      = some ([some ⟨2, -1⟩, some ⟨5, -1⟩, some ⟨2, -1⟩], none) ∧
    (placeNewLimit fixtureHeap fixtureBook "100500" .Bid (.New 1 (-1)) (.New 20050 0)).map
        (fun s => (Rollback s.1 s.2.1 "100500").map fun s1 => s1.2.2) = some (some none) ∧
    (runCalls nibbleRollbackCalls fixtureHeap fixtureBook).map
        (fun s => (queueIds s.1 0, levelLine s.1 0))
      = some ([some "1", some "11", some "111"], some (3, "20050", "0.9")) := by
  refine ⟨by decide, by decide, by decide, by decide, by decide, by decide, by decide⟩

set_option maxRecDepth 100000 in
/-- C18 (tree and `prices` hold the same levels), the code evaluated.  The fixture followed
by the limit bid `100500` of 1.0 at 20050 is a sequence of successful calls.  The bid takes
exactly the three asks of the level 20050: the inner loop stops on `amountLeft.IsZero()`
before it can set `treeNodeIsEmpty`, so the key 20050 is deleted from `prices` but its node
stays in the tree, with an empty queue. -/
theorem exact_drain_leaves_tree_node :
    (runCalls drainCalls Heap.empty (NewOrderBook "BTC" "USDT")).map
        (fun s => (s.2.Asks.priceTree, s.2.Asks.prices))
      = some ([(⟨20050, 0⟩, 0), (⟨20100, 0⟩, 1), (⟨20150, 0⟩, 2)], [("20150", 2), ("20100", 1)]) ∧
    (runCalls drainCalls Heap.empty (NewOrderBook "BTC" "USDT")).map (fun s => queueOf s.1 0)
      = some [] ∧
    ∃ h ob, Reachable h ob ∧ sameLevels ob.Asks = false :=
  ⟨by decide, by decide,
    reachable_of_map drainCalls (fun s => sameLevels s.2.Asks) (by decide)⟩

set_option maxRecDepth 100000 in
/-- C19 (every queued order is live), the code evaluated.  The fixture followed by the limit
bid `100500` of 0.1 at 20050 is a sequence of successful calls.  The ask `1` is filled in
part and stays at the head of the queue of the level 20050 with 0.2, but the loop over the
executions deletes its id from `Orders`: the order is queued and not live. -/
theorem part_filled_order_not_live :
    (runCalls nibbleCalls Heap.empty (NewOrderBook "BTC" "USDT")).map
        (fun s => (mapGet s.2.Asks.prices "20050", queueIds s.1 0, queueAmounts s.1 0))
      = some (some 0, [some "1", some "11", some "111"],
          [some ⟨2, -1⟩, some ⟨5, -1⟩, some ⟨2, -1⟩]) ∧
    (runCalls nibbleCalls Heap.empty (NewOrderBook "BTC" "USDT")).map
        (fun s => (mapGet s.2.Orders "1", mapGet s.2.Orders "11")) = some (none, some 1) ∧
    ∃ h ob, Reachable h ob ∧ liveAgrees h ob = false :=
  ⟨by decide, by decide,
    reachable_of_map nibbleCalls (fun s => liveAgrees s.1 s.2) (by decide)⟩

set_option maxRecDepth 100000 in
/-- C20 (total of a level), the code evaluated.  The nine calls of `sharedCellCalls` place
orders with positive amounts and all succeed.  Afterwards the level `prices["100"]` of the
bid side (address 1) has total 0.5 while the one order in its queue, the bid with the id `X`
made by the first rollback, has amount 0.3: the ask with the id `X` made by the second
rollback shares its amount cell, and the fill of that ask by the bid `P` wrote to the cell
without touching the total of this level. -/
theorem shared_cell_breaks_total :
    sharedCellCalls.all Call.positive = true ∧
    (runCalls sharedCellCalls Heap.empty (NewOrderBook "BTC" "USDT")).map
        (fun s => (mapGet s.2.Bids.prices "100", levelLine s.1 1))
      = some (some 1, some (1, "100", "0.5")) ∧
    (runCalls sharedCellCalls Heap.empty (NewOrderBook "BTC" "USDT")).map
        (fun s => (queueIds s.1 1, queueAmounts s.1 1))
      = some ([some "X"], [some ⟨3, -1⟩]) ∧
    ∃ h ob, ReachablePositive h ob ∧ totalsAgree h ob = false :=
  ⟨by decide, by decide, by decide,
    reachablePositive_of_map sharedCellCalls (fun s => totalsAgree s.1 s.2)
      (by decide) (by decide)⟩

/-! ## The count of executed orders, for a whole call -/

theorem ExecuteOrder_prefix {h : Heap} {os : OrderSide} {o : Nat} {h' : Heap} {os' : OrderSide}
    {r : ExecResult} {ord : Order}
    (hex : ExecuteOrder h os o = some (h', os', r))
    (ho : h.orders[o]? = some ord) (hwalk : walkable h os o = true) :
    ∃ m new ord', r.ordersExecuted = m ∧ h'.orders[o]? = some ord' ∧
      ord'.executions = ord.executions ++ new ∧
      new.map (fun e => some e.executorOrderID)
        = ((restingOrder h (walkOrder os)).take m).map (restingId h) ∧
      m ≤ (restingOrder h (walkOrder os)).length ∧
      (r.err = none → ∃ j, (j = m ∨ j + 1 = m) ∧
        restingOrder h' (walkOrder os) = (restingOrder h (walkOrder os)).drop j) := by
  obtain ⟨ord0, a, w, hord0, ha, hw, rfl, hcase⟩ := ExecuteOrder_inv hex
  obtain ⟨hnd, hwf⟩ := walkable_spec hwalk
  have ho' : (h.newDecimal a).1.orders[o]? = some ord := ho
  obtain ⟨m, new, ord', hcnt, hord', hexs, hids, hm, hrest⟩ :=
    walkLevels_prefix (walkOrder os) hw ho' hnd hwf
  have hR : restingOrder (h.newDecimal a).1 (walkOrder os) = restingOrder h (walkOrder os) :=
    restingOrder_congr _ (fun _ _ => rfl)
  have hI : restingId (h.newDecimal a).1 = restingId h := rfl
  rw [hR] at hids hm hrest
  rw [hI] at hids
  have hcount : r.ordersExecuted = m := by
    rcases hcase with ⟨e, -, -, rfl⟩ | ⟨-, -, rfl⟩ <;> simpa using hcnt
  refine ⟨m, new, ord', hcount, hord', hexs, hids, hm, ?_⟩
  intro hnone
  rcases hcase with ⟨e, -, -, rfl⟩ | ⟨hwok, -, -⟩
  · simp at hnone
  · exact hrest hwok

theorem mapGet_mem {ν : Type} {m : List (String × ν)} {k : String} {v : ν}
    (hg : mapGet m k = some v) : (k, v) ∈ m := by
  induction m with
  | nil => simp [mapGet] at hg
  | cons e m ih =>
    obtain ⟨k', v'⟩ := e
    by_cases hk : k' = k
    · subst hk
      simp only [mapGet, if_true, Option.some.injEq] at hg
      subst hg
      exact List.mem_cons_self _ _
    · simp only [mapGet, hk, if_false] at hg
      exact List.mem_cons_of_mem _ (ih hg)

theorem mem_walkOrder {os : OrderSide} {node : Decimal × Nat} :
    node ∈ walkOrder os ↔ node ∈ os.priceTree := by
  unfold walkOrder
  split
  · exact Iff.rfl
  · exact List.mem_reverse

theorem sidesApart_spec {h : Heap} {ob : OrderBook} {t : OperationType}
    (hs : sidesApart h ob t = true) :
    (∀ node ∈ walkOrder (ob.side t.opposite), node.2 < h.levels.length) ∧
    (∀ k lp, mapGet (ob.side t).prices k = some lp →
      ∀ node ∈ walkOrder (ob.side t.opposite), node.2 ≠ lp) := by
  unfold sidesApart at hs
  rw [Bool.and_eq_true, List.all_eq_true, List.all_eq_true] at hs
  obtain ⟨h1, h2⟩ := hs
  constructor
  · intro node hnode
    exact of_decide_eq_true (h1 node (mem_walkOrder.mp hnode))
  · intro k lp hk node hnode heq
    have hno := of_decide_eq_true (h2 (k, lp) (mapGet_mem hk))
    apply hno
    rw [← heq]
    exact List.mem_map_of_mem Prod.snd (mem_walkOrder.mp hnode)

/-- C17: the count of executed orders.  Let a `PlaceLimitOrder` or `PlaceMarketOrder` call
return no error, on a book whose opposite side can be walked, holds each element once and is
apart from the own side.  The returned `ordersExecuted` is the number of reports the call
appended to the executions of the incoming order.  Of the elements resting on the opposite
side, in price-time order, the call removed the first `j` and no other, and `ordersExecuted`
is `j`, every executed order being gone, or it is `j + 1` and then the order next after the
removed ones, the last one executed, was filled in part only: it is still queued, at the
head of what is left. -/
theorem orders_executed_count (h : Heap) (ob : OrderBook) (o : Nat) (h' : Heap)
    (ob' : OrderBook) (rep : Reply) (ord : Order)
    (hcall : PlaceLimitOrder h ob o = some (h', ob', rep) ∨
      PlaceMarketOrder h ob o = some (h', ob', rep))
    (hok : rep.err = none) (ho : h.orders[o]? = some ord)
    (hwalk : walkable h (ob.side ord.operationType.opposite) o = true)
    (hnd : (restingOrder h (walkOrder (ob.side ord.operationType.opposite))).Nodup)
    (hapart : sidesApart h ob ord.operationType = true) :
    ∃ ord' new j, h'.orders[o]? = some ord' ∧ ord'.executions = ord.executions ++ new ∧
      rep.ordersExecuted = new.length ∧
      new.map (fun e => some e.executorOrderID)
        = ((restingOrder h (walkOrder (ob.side ord.operationType.opposite))).take
            rep.ordersExecuted).map (restingId h) ∧
      restingOrder h' (walkOrder (ob.side ord.operationType.opposite))
        = (restingOrder h (walkOrder (ob.side ord.operationType.opposite))).drop j ∧
      j ≤ (restingOrder h (walkOrder (ob.side ord.operationType.opposite))).length ∧
      ((rep.ordersExecuted = j ∧
          ∀ el ∈ (restingOrder h (walkOrder (ob.side ord.operationType.opposite))).take
              rep.ordersExecuted,
            el ∉ restingOrder h' (walkOrder (ob.side ord.operationType.opposite))) ∨
       (rep.ordersExecuted = j + 1 ∧
          ∃ el, (restingOrder h (walkOrder (ob.side ord.operationType.opposite)))[j]? = some el ∧
            (restingOrder h' (walkOrder (ob.side ord.operationType.opposite))).head? = some el))
    := by
  -- what `ExecuteOrder` did, and that the rest of the call leaves the opposite queues alone
  have key : ∃ h1 check1 r ord1, ExecuteOrder h (ob.side ord.operationType.opposite) o
        = some (h1, check1, r) ∧ r.err = none ∧ rep.ordersExecuted = r.ordersExecuted ∧
      h1.orders[o]? = some ord1 ∧
      (∃ ord', h'.orders[o]? = some ord' ∧ ord'.executions = ord1.executions) ∧
      restingOrder h' (walkOrder (ob.side ord.operationType.opposite))
        = restingOrder h1 (walkOrder (ob.side ord.operationType.opposite)) := by
    rcases hcall with hl | hm
    · obtain ⟨ord0, h1, check1, r, aL, ord1, left, ho0, -, hex, herr, -, hord1, -, hcnt, hcases⟩ :=
        limitOrder_ok hl hok
      rw [ho] at ho0
      simp only [Option.some.injEq] at ho0
      subst ho0
      refine ⟨h1, check1, r, ord1, hex, herr, hcnt, hord1, ?_⟩
      rcases hcases with ⟨-, rfl, -⟩ | ⟨-, add3, el, hadd, -⟩
      · exact ⟨⟨ord1, hord1, rfl⟩, rfl⟩
      · obtain ⟨ord2, hord2, -, -, horders, hlev⟩ := AddOrder_ok hadd
        obtain ⟨hlt, hne⟩ := sidesApart_spec hapart
        have hlen : h1.levels.length = h.levels.length := (ExecuteOrder_evolves hex).2.2.2.1
        have hlt1 : o < h1.orders.length := (List.getElem?_eq_some.mp hord1).1
        have h2lev : (if r.ordersExecuted > 0 then h1.setOrder o { ord1 with amount := aL }
            else h1).levels = h1.levels := by
          split <;> rfl
        constructor
        · rw [horders]
          by_cases hpos : r.ordersExecuted > 0
          · refine ⟨{ ord1 with amount := aL }, ?_, rfl⟩
            simp [hpos, List.getElem?_set_self hlt1]
          · refine ⟨ord1, ?_, rfl⟩
            simpa [hpos] using hord1
        · refine restingOrder_congr _ ?_
          intro node hnode
          rcases hlev with ⟨lp, lvl, total, a, s, hlp, -, -, -, -, -, hl', -⟩ | ⟨-, -, hl', -⟩
          · rw [hl', h2lev]
            exact List.getElem?_set_ne (Ne.symm (hne _ lp hlp node hnode))
          · rw [hl', h2lev]
            exact List.getElem?_append_left (by rw [hlen]; exact hlt node hnode)
    · obtain ⟨ord0, check1, r, ord1, ho0, hex, herr, hord1, hrep, -⟩ := PlaceMarketOrder_ok hm hok
      rw [ho] at ho0
      simp only [Option.some.injEq] at ho0
      subst ho0
      refine ⟨h', check1, r, ord1, hex, herr, ?_, hord1, ⟨ord1, hord1, rfl⟩, rfl⟩
      rw [hrep]
  obtain ⟨h1, check1, r, ord1, hex, herr, hcnt, hord1, ⟨ord', hord', hexs'⟩, hR⟩ := key
  obtain ⟨m, new, ord1', hm, hord1', hnew, hids, hmle, hrest⟩ := ExecuteOrder_prefix hex ho hwalk
  rw [hord1] at hord1'
  simp only [Option.some.injEq] at hord1'
  subst hord1'
  obtain ⟨j, hj, hdrop⟩ := hrest herr
  have hlen : new.length = m := by
    have := congrArg List.length hids
    simpa [List.length_take, hmle] using this
  rw [← hm] at hlen hids hmle hj
  rw [← hcnt] at hlen hids hmle hj
  refine ⟨ord', new, j, hord', by rw [hexs', hnew], hlen.symm, hids, by rw [hR, hdrop], ?_, ?_⟩
  · rcases hj with hj | hj <;> omega
  · rcases hj with hj | hj
    · left
      refine ⟨hj.symm, ?_⟩
      intro el hel hin
      rw [hR, hdrop, hj] at hin
      have hdis := List.disjoint_take_drop hnd (le_refl rep.ordersExecuted)
      exact hdis hel hin
    · right
      refine ⟨hj.symm, ?_⟩
      have hjlt : j < (restingOrder h (walkOrder (ob.side ord.operationType.opposite))).length := by
        omega
      refine ⟨_, List.getElem?_eq_getElem hjlt, ?_⟩
      rw [hR, hdrop]
      simp [List.head?_drop, List.getElem?_eq_getElem hjlt]

set_option maxRecDepth 100000 in
/-- Witness of C17: the limit bid of 0.4 at 20050 on the fixture returns 2; two reports are
appended; the ask `1` is removed and the ask `11`, filled in part, heads what is left of the
level 20050, which has 2 orders and the total 0.6. -/
theorem orders_executed_count_witness :
    PlaceLimitOrder twoFillsHeap fixtureBook 14
      = some (twoFillsPlaced.1, twoFillsPlaced.2.1, twoFillsPlaced.2.2) ∧
    twoFillsPlaced.2.2 = ⟨2, none, none⟩ ∧
    levelLine twoFillsPlaced.1 0 = some (2, "20050", "0.6") ∧
    ∃ ord' new j, twoFillsPlaced.1.orders[14]? = some ord' ∧
      ord'.executions = ([] : List ExecutionReport) ++ new ∧
      twoFillsPlaced.2.2.ordersExecuted = new.length ∧
      new.map (fun e => some e.executorOrderID)
        = ((restingOrder twoFillsHeap (walkOrder (fixtureBook.side .Ask))).take
            twoFillsPlaced.2.2.ordersExecuted).map (restingId twoFillsHeap) ∧
      restingOrder twoFillsPlaced.1 (walkOrder (fixtureBook.side .Ask))
        = (restingOrder twoFillsHeap (walkOrder (fixtureBook.side .Ask))).drop j ∧
      j ≤ (restingOrder twoFillsHeap (walkOrder (fixtureBook.side .Ask))).length ∧
      ((twoFillsPlaced.2.2.ordersExecuted = j ∧
          ∀ el ∈ (restingOrder twoFillsHeap (walkOrder (fixtureBook.side .Ask))).take
              twoFillsPlaced.2.2.ordersExecuted,
            el ∉ restingOrder twoFillsPlaced.1 (walkOrder (fixtureBook.side .Ask))) ∨
       (twoFillsPlaced.2.2.ordersExecuted = j + 1 ∧
          ∃ el, (restingOrder twoFillsHeap (walkOrder (fixtureBook.side .Ask)))[j]? = some el ∧
            (restingOrder twoFillsPlaced.1 (walkOrder (fixtureBook.side .Ask))).head?
              = some el)) :=
  ⟨by decide, by decide, by decide,
    orders_executed_count twoFillsHeap fixtureBook 14 twoFillsPlaced.1 twoFillsPlaced.2.1
      twoFillsPlaced.2.2 ⟨"100500", .Bid, 36, ⟨20050, 0⟩, []⟩ (Or.inl (by decide)) (by decide)
      (by decide) (by decide) (by decide) (by decide)⟩

/-! ## `ExecuteOrder` returns: no nil dereference on a side that is ready -/

theorem subCell_some {h : Heap} {dst : Nat} (y : Decimal) (hd : dst < h.decimals.length) :
    ∃ s, h.subCell dst y = some s := by
  unfold Heap.subCell
  rw [List.getElem?_eq_getElem hd]
  dsimp only
  split
  · exact ⟨_, rfl⟩
  · exact ⟨_, rfl⟩

theorem appendExecution_some {h : Heap} {p : Nat} (oe : ExecutionReport)
    (hp : p < h.orders.length) : ∃ h', h.appendExecution p oe = some h' := by
  unfold Heap.appendExecution
  rw [List.getElem?_eq_getElem hp]
  exact ⟨_, rfl⟩

theorem matchStep_some {o aL lp el : Nat} {h : Heap} (n : Nat)
    (hel : elReady h el) (ho : o < h.orders.length) (haL : aL < h.decimals.length)
    (hlvl : ∃ l, h.levels[lp]? = some l ∧ l.totalAmount < h.decimals.length) :
    ∃ s, matchStep o aL lp el h n = some s := by
  obtain ⟨p, x, hp, hx, hxa⟩ := hel
  obtain ⟨l, hl, hlt⟩ := hlvl
  have hplt : p < h.orders.length := (List.getElem?_eq_some.mp hx).1
  unfold matchStep
  simp only [Option.bind_eq_bind, hp, hx, List.getElem?_eq_getElem ho,
    List.getElem?_eq_getElem hxa, List.getElem?_eq_getElem haL, Option.some_bind]
  -- the first subtraction
  obtain ⟨s1, hs1⟩ : ∃ s1, (if decide ((h.decimals[x.amount]).Cmp (h.decimals[aL]) ≤ 0) = true
      then some (h, none) else h.subCell x.amount (h.decimals[aL])) = some s1 := by
    split
    · exact ⟨_, rfl⟩
    · exact subCell_some _ hxa
  rw [hs1]
  simp only [Option.some_bind]
  obtain ⟨ev1, hlev1, hord1, -, -⟩ := firstSub_inv hs1
  generalize decide ((h.decimals[x.amount]).Cmp (h.decimals[aL]) ≤ 0) = b
  have haf : (if b = true then x.amount else aL) < s1.1.decimals.length := by
    rw [ev1.decimals]
    split
    · exact hxa
    · exact haL
  generalize (if b = true then x.amount else aL) = af at haf ⊢
  generalize (if b = true then h.decimals[x.amount] else h.decimals[aL]) = ae
  cases hs1e : s1.2 with
  | some e => exact ⟨_, rfl⟩
  | none =>
    simp only [List.getElem?_eq_getElem haf, Option.some_bind]
    obtain ⟨s2, hs2⟩ := subCell_some (s1.1.decimals[af]) (show aL < s1.1.decimals.length by
      rw [ev1.decimals]; exact haL)
    rw [hs2]
    simp only [Option.some_bind]
    obtain ⟨hord2, -, hlev2, hlen2⟩ := subCell_fields hs2
    cases hs2e : s2.2 with
    | some e => exact ⟨_, rfl⟩
    | none =>
      dsimp only
      obtain ⟨h3, hh3⟩ := appendExecution_some (h := s2.1)
        ⟨h.orders[o].orderID, x.orderID, af, x.price⟩ (show o < s2.1.orders.length by
          rw [hord2, hord1]; exact ho)
      rw [hh3]
      simp only [Option.some_bind]
      obtain ⟨hdec3, -, hlev3, hlen3⟩ := appendExecution_fields hh3
      obtain ⟨h4, hh4⟩ := appendExecution_some (h := h3)
        ⟨h.orders[o].orderID, x.orderID, af, x.price⟩ (show p < h3.orders.length by
          rw [hlen3, hord2, hord1]; exact hplt)
      rw [hh4]
      simp only [Option.some_bind]
      obtain ⟨hdec4, -, hlev4, -⟩ := appendExecution_fields hh4
      have hl4 : h4.levels[lp]? = some l := by rw [hlev4, hlev3, hlev2, hlev1]; exact hl
      rw [hl4]
      simp only [Option.some_bind]
      obtain ⟨s5, hs5⟩ := subCell_some (h := h4) ae (show l.totalAmount < h4.decimals.length by
        rw [hdec4, hdec3, hlen2, ev1.decimals]; exact hlt)
      rw [hs5]
      exact ⟨_, rfl⟩

theorem elReady_evolves {h h' : Heap} (ev : Evolves h h') {el : Nat} (hr : elReady h el) :
    elReady h' el := by
  obtain ⟨p, x, hp, hx, hxa⟩ := hr
  obtain ⟨x', hx', hg⟩ := ev.orders p x hx
  refine ⟨p, x', ?_, hx', ?_⟩
  · rw [ev.elements]; exact hp
  · rw [hg.2.2.1, ev.decimals]; exact hxa

theorem matchQueue_some (o aL lp : Nat) (els : List Nat) :
    ∀ {h : Heap} (n : Nat) (dels : List Nat), els ≠ [] → (∀ el ∈ els, elReady h el) →
      o < h.orders.length → aL < h.decimals.length →
      (∃ l, h.levels[lp]? = some l ∧ l.totalAmount < h.decimals.length) →
      ∃ q, matchQueue o aL lp els h n dels = some q := by
  induction els with
  | nil => intro h n dels hne; exact absurd rfl hne
  | cons el rest ih =>
    intro h n dels _ hready ho haL hlvl
    obtain ⟨s, hs⟩ := matchStep_some n (hready el (List.mem_cons_self _ _)) ho haL hlvl
    obtain ⟨ev, hlev⟩ := matchStep_evolves hs
    have haL' : aL < s.heap.decimals.length := by rw [ev.decimals]; exact haL
    unfold matchQueue
    rw [hs]
    dsimp only
    cases hse : s.err with
    | some e => exact ⟨_, rfl⟩
    | none =>
      dsimp only
      rw [List.getElem?_eq_getElem haL']
      dsimp only
      split
      · exact ⟨_, rfl⟩
      · cases rest with
        | nil => exact ⟨_, rfl⟩
        | cons el2 rest2 =>
          dsimp only
          refine ih _ _ (List.cons_ne_nil _ _) ?_ ?_ haL' ?_
          · intro e he
            exact elReady_evolves ev (hready e (List.mem_cons_of_mem _ he))
          · rw [ev.ordersLen]; exact ho
          · obtain ⟨l, hl, hlt⟩ := hlvl
            exact ⟨l, by rw [hlev]; exact hl, by rw [ev.decimals]; exact hlt⟩

theorem removeEls_some (lp : Nat) (dels : List Nat) :
    ∀ {h : Heap} (prices : List (String × Nat)), lp < h.levels.length →
      ∃ r, removeEls lp dels h prices = some r := by
  induction dels with
  | nil => intro h prices _; exact ⟨_, rfl⟩
  | cons d rest ih =>
    intro h prices hlt
    unfold removeEls
    rw [List.getElem?_eq_getElem hlt]
    dsimp only
    exact ih _ (by simpa using hlt)

theorem walkLevels_some (sideType : OperationType) (o aL : Nat)
    (nodes : List (Decimal × Nat)) :
    ∀ {h : Heap} (prices : List (String × Nat)) (n : Nat) (dtn : List Decimal),
      nodesReady h nodes → o < h.orders.length → aL < h.decimals.length →
      ∃ w, walkLevels sideType o aL nodes h prices n dtn = some w := by
  induction nodes with
  | nil => intro h prices n dtn _ _ _; exact ⟨_, rfl⟩
  | cons node rest ih =>
    obtain ⟨key, lp⟩ := node
    intro h prices n dtn hready ho haL
    obtain ⟨hnd, hall⟩ := hready
    obtain ⟨l, hl, hne, hlt, hels⟩ := hall (key, lp) (List.mem_cons_self _ _)
    unfold walkLevels
    rw [List.getElem?_eq_getElem haL]
    dsimp only
    split
    · exact ⟨_, rfl⟩
    · have hl' : h.levels[lp]? = some l := hl
      rw [hl', List.getElem?_eq_getElem ho]
      dsimp only
      split
      · exact ⟨_, rfl⟩
      · obtain ⟨q, hq⟩ := matchQueue_some o aL lp l.orders n [] hne hels ho haL
          ⟨l, hl, hlt⟩
        rw [hq]
        dsimp only
        cases hqe : q.err with
        | some e => exact ⟨_, rfl⟩
        | none =>
          dsimp only
          obtain ⟨evq, hlevq⟩ := matchQueue_evolves _ hq
          have hlplt : lp < q.heap.levels.length := by
            rw [hlevq]; exact (List.getElem?_eq_some.mp hl).1
          obtain ⟨⟨h1, prices1⟩, hr⟩ := removeEls_some lp q.deleteEls (h := q.heap) prices hlplt
          rw [hr]
          dsimp only
          have evr := removeEls_evolves hr
          have ev := evq.evTrans evr
          obtain ⟨-, -, -, -, hother, -, -⟩ := removeEls_spec lp q.deleteEls hr
          have hnd' : lp ∉ rest.map Prod.snd ∧ (rest.map Prod.snd).Nodup := by
            have hcopy := hnd
            rw [List.map_cons, List.nodup_cons] at hcopy
            exact hcopy
          refine ih _ _ _ ⟨hnd'.2, ?_⟩ (by rw [ev.ordersLen]; exact ho)
            (by rw [ev.decimals]; exact haL)
          intro node hnode
          obtain ⟨l2, hl2, hne2, hlt2, hels2⟩ := hall node (List.mem_cons_of_mem _ hnode)
          have hneq : node.2 ≠ lp := by
            intro heq
            exact hnd'.1 (heq ▸ List.mem_map_of_mem Prod.snd hnode)
          refine ⟨l2, ?_, hne2, by rw [ev.decimals]; exact hlt2,
            fun el hel => elReady_evolves ev (hels2 el hel)⟩
          rw [hother node.2 hneq, hlevq]
          exact hl2

/-! ## The amount left by the loops -/

theorem Decimal.Cmp_le_iff (a b : Decimal) : a.Cmp b ≤ 0 ↔ a.val ≤ b.val := by
  rw [← not_lt, Decimal.Cmp_gt_iff, not_lt]

theorem subCell_self {h : Heap} {dst : Nat} {y : Decimal} {s : Heap × Option String}
    (hs : h.subCell dst y = some s) (hok : s.2 = none) :
    ∃ x d, h.decimals[dst]? = some x ∧ Decimal.Sub x y = .ok d ∧
      s.1.decimals[dst]? = some d := by
  obtain ⟨x, hx, h1 | h1⟩ := subCell_inv hs
  · obtain ⟨msg, hmsg, -, -⟩ := h1
    rw [hok] at hmsg
    simp at hmsg
  · obtain ⟨d, -, hd, hh⟩ := h1
    refine ⟨x, d, hx, hd, ?_⟩
    have hlt : dst < h.decimals.length := (List.getElem?_eq_some.mp hx).1
    simp [hh, List.getElem?_set_self hlt]

theorem matchStep_value {o aL lp el : Nat} {h : Heap} {n : Nat} {s : StepResult}
    (hs : matchStep o aL lp el h n = some s) (hok : s.err = none)
    {p : Nat} {x : Order} {d left : Decimal}
    (hp : h.elements[el]? = some p) (hx : h.orders[p]? = some x)
    (hd : h.decimals[x.amount]? = some d) (hleft : h.decimals[aL]? = some left)
    (hne : x.amount ≠ aL) (htot : ∀ l, h.levels[lp]? = some l → l.totalAmount ≠ aL) :
    ∃ left', s.heap.decimals[aL]? = some left' ∧ left'.val = left.val - min d.val left.val ∧
      s.listNodeEmpty = decide (d.val ≤ left.val) ∧
      (s.listNodeEmpty = true → ∀ a, a ≠ aL → (∀ l, h.levels[lp]? = some l → a ≠ l.totalAmount) →
        s.heap.decimals[a]? = h.decimals[a]?) := by
  obtain ⟨r, reqOrder, ord, reqAmount, left0, s1, hr, hreq, hord, hra, hl0, hb, hs1, hcase⟩ :=
    matchStep_inv hs
  rw [hp] at hr
  simp only [Option.some.injEq] at hr
  subst hr
  rw [hx] at hreq
  simp only [Option.some.injEq] at hreq
  subst hreq
  rw [hd] at hra
  simp only [Option.some.injEq] at hra
  subst hra
  rw [hleft] at hl0
  simp only [Option.some.injEq] at hl0
  subst hl0
  have hb' : s.listNodeEmpty = decide (d.val ≤ left.val) := by
    rw [hb]
    exact decide_eq_decide.mpr (Decimal.Cmp_le_iff d left)
  rcases hcase with ⟨e, -, -, -, he⟩ | ⟨hs1ok, y, s2, hy, hs2, hcase2⟩
  · rw [hok] at he; simp at he
  rcases hcase2 with ⟨e, -, -, -, he⟩ | ⟨hs2ok, h3, h4, lvl, s5, hh3, hh4, hlvl, hs5, hheap, -, herr⟩
  · rw [hok] at he; simp at he
  have hs5ok : s5.2 = none := by rw [← herr]; exact hok
  obtain ⟨x2, d2, hx2, hsub2, hd2⟩ := subCell_self hs2 hs2ok
  obtain ⟨ev1, hlev1, -, hfr1, hfull1⟩ := firstSub_inv hs1
  obtain ⟨-, -, hlev2, -⟩ := subCell_fields hs2
  obtain ⟨hdec3, -, hlev3, -⟩ := appendExecution_fields hh3
  obtain ⟨hdec4, -, hlev4, -⟩ := appendExecution_fields hh4
  have hlvl' : h.levels[lp]? = some lvl := by
    rw [← hlev1, ← hlev2, ← hlev3, ← hlev4]; exact hlvl
  have htne : aL ≠ lvl.totalAmount := fun heq => htot lvl hlvl' heq.symm
  have haLfin : s.heap.decimals[aL]? = some d2 := by
    rw [hheap, subCell_frame hs5 aL htne, hdec4, hdec3]
    exact hd2
  have hx2' : s1.1.decimals[aL]? = some left := by
    rw [hfr1 aL (Ne.symm hne)]; exact hleft
  rw [hx2'] at hx2
  simp only [Option.some.injEq] at hx2
  subst hx2
  have hval := Decimal.Sub_val hsub2
  refine ⟨d2, haLfin, ?_, hb', ?_⟩
  · by_cases hle : d.val ≤ left.val
    · have hbt : s.listNodeEmpty = true := by rw [hb']; exact decide_eq_true hle
      rw [hbt] at hy
      simp only [if_true] at hy
      have hs1eq := hfull1 hbt
      rw [hs1eq] at hy
      rw [hd] at hy
      simp only [Option.some.injEq] at hy
      subst hy
      rw [hval, min_eq_left hle]
    · have hbf : s.listNodeEmpty = false := by rw [hb']; exact decide_eq_false hle
      rw [hbf] at hy
      simp only [Bool.false_eq_true, if_false] at hy
      rw [hx2'] at hy
      simp only [Option.some.injEq] at hy
      subst hy
      rw [hval, min_eq_right (le_of_lt (lt_of_not_le hle))]
  · intro hbt a haL hatot
    have hs1eq := hfull1 hbt
    rw [hheap, subCell_frame hs5 a (hatot lvl hlvl'), hdec4, hdec3, subCell_frame hs2 a haL,
      hs1eq]

theorem elAmount_eq {h : Heap} {el p : Nat} {x : Order} {d : Decimal}
    (hp : h.elements[el]? = some p) (hx : h.orders[p]? = some x)
    (hd : h.decimals[x.amount]? = some d) : elAmount h el = d.val := by
  simp [elAmount, cellVal, hp, hx, hd]

theorem queueVal_cons (h : Heap) (el : Nat) (rest : List Nat) :
    queueVal h (el :: rest) = elAmount h el + queueVal h rest := by
  simp [queueVal]

theorem queueVal_nonneg {h : Heap} {aL lp : Nat} {els : List Nat} (hq : queueSound h aL lp els) :
    0 ≤ queueVal h els := by
  unfold queueVal
  apply List.sum_nonneg
  intro v hv
  obtain ⟨el, hel, rfl⟩ := List.mem_map.mp hv
  obtain ⟨p, x, d, hp, hx, hd, hpos, -, -⟩ := hq el hel
  rw [elAmount_eq hp hx hd]
  exact hpos

theorem queueVal_congr {h h' : Heap} {els : List Nat}
    (hc : ∀ el ∈ els, elAmount h' el = elAmount h el) : queueVal h' els = queueVal h els := by
  unfold queueVal
  congr 1
  exact List.map_congr_left hc

theorem matchQueue_value {o aL lp : Nat} (els : List Nat) :
    ∀ {h : Heap} {n : Nat} {dels : List Nat} {q : QueueResult} {left : Decimal},
      matchQueue o aL lp els h n dels = some q → q.err = none →
      h.decimals[aL]? = some left →
      (∀ l, h.levels[lp]? = some l → l.totalAmount ≠ aL) →
      queueSound h aL lp els →
      ∃ left', q.heap.decimals[aL]? = some left' ∧
        left'.val = max 0 (left.val - queueVal h els) ∧
        (left'.IsZero = false → ∀ a, a ≠ aL →
          (∀ l, h.levels[lp]? = some l → a ≠ l.totalAmount) →
          q.heap.decimals[a]? = h.decimals[a]?) := by
  induction els with
  | nil =>
    intro h n dels q left hq
    simp [matchQueue] at hq
  | cons el rest ih =>
    intro h n dels q left hq hok hleft htot hsound
    obtain ⟨p, x, d, hp, hx, hd, hpos, hne, hlone⟩ := hsound el (List.mem_cons_self _ _)
    obtain ⟨s, hs, hcase⟩ := matchQueue_cons_inv hq
    rcases hcase with ⟨e, -, hres⟩ | ⟨hsok, left1, hleft1, hcase⟩
    · rw [hres] at hok; simp at hok
    obtain ⟨left1', hl1, hval1, hb, hframe⟩ := matchStep_value hs hsok hp hx hd hleft hne htot
    rw [hleft1] at hl1
    simp only [Option.some.injEq] at hl1
    subst hl1
    have hrestsound : ∀ el' ∈ rest, ∃ p' x' d', h.elements[el']? = some p' ∧
        h.orders[p']? = some x' ∧ h.decimals[x'.amount]? = some d' ∧ 0 ≤ d'.val ∧
        x'.amount ≠ aL ∧ ∀ l, h.levels[lp]? = some l → x'.amount ≠ l.totalAmount := by
      intro el' hel'
      obtain ⟨p', x', d', hp', hx', hd', hpos', hne', hlone'⟩ :=
        hsound el' (List.mem_cons_of_mem _ hel')
      refine ⟨p', x', d', hp', hx', hd', hpos', hne', ?_⟩
      intro l hl heq
      have h1 := hlone' l hl heq
      simp only [List.cons.injEq] at h1
      rw [h1.2] at hel'
      simp at hel'
    have hRnonneg : 0 ≤ queueVal h rest := by
      unfold queueVal
      apply List.sum_nonneg
      intro v hv
      obtain ⟨el', hel', rfl⟩ := List.mem_map.mp hv
      obtain ⟨p', x', d', hp', hx', hd', hpos', -, -⟩ := hrestsound el' hel'
      rw [elAmount_eq hp' hx' hd']
      exact hpos'
    rw [queueVal_cons, elAmount_eq hp hx hd]
    have hzero_iff := Decimal.IsZero_iff left1
    rcases hcase with ⟨hz, hres⟩ | ⟨hz, hnil, hres⟩ | ⟨hz, -, hrec⟩
    · -- the step brought `amountLeft` to zero
      refine ⟨left1, by rw [hres]; exact hleft1, ?_, fun hnz => by rw [hz] at hnz; simp at hnz⟩
      have h0 : left1.val = 0 := hzero_iff.mp hz
      rw [h0] at hval1 ⊢
      have hle : left.val ≤ d.val := by
        by_contra hlt
        rw [min_eq_left (le_of_lt (lt_of_not_le hlt))] at hval1
        have : d.val = left.val := by linarith
        exact hlt (le_of_eq this.symm)
      have h2 : left.val - (d.val + queueVal h rest) ≤ 0 := by linarith
      rw [max_eq_left h2]
    · -- the queue is exhausted
      have hnz : left1.val ≠ 0 := fun h0 => by
        rw [hzero_iff.mpr h0] at hz; simp at hz
      have hlt : d.val < left.val := by
        by_contra hge
        rw [min_eq_right (le_of_not_lt hge)] at hval1
        exact hnz (by linarith)
      have hfull : s.listNodeEmpty = true := by rw [hb]; exact decide_eq_true (le_of_lt hlt)
      refine ⟨left1, by rw [hres]; exact hleft1, ?_, ?_⟩
      · subst hnil
        rw [hval1, min_eq_left (le_of_lt hlt)]
        simp only [queueVal, List.map_nil, List.sum_nil, add_zero]
        have h2 : (0 : ℚ) ≤ left.val - d.val := by linarith
        rw [max_eq_right h2]
      · intro _ a ha hat
        rw [hres]
        exact hframe hfull a ha hat
    · -- the loop goes on with the next element
      have hnz : left1.val ≠ 0 := fun h0 => by
        rw [hzero_iff.mpr h0] at hz; simp at hz
      have hlt : d.val < left.val := by
        by_contra hge
        rw [min_eq_right (le_of_not_lt hge)] at hval1
        exact hnz (by linarith)
      have hfull : s.listNodeEmpty = true := by rw [hb]; exact decide_eq_true (le_of_lt hlt)
      obtain ⟨ev, hlev⟩ := matchStep_evolves hs
      have hsound' : queueSound s.heap aL lp rest := by
        intro el' hel'
        obtain ⟨p', x', d', hp', hx', hd', hpos', hne', htne'⟩ := hrestsound el' hel'
        obtain ⟨x'', hx'', hg⟩ := ev.orders p' x' hx'
        refine ⟨p', x'', d', by rw [ev.elements]; exact hp', hx'', ?_, hpos', ?_, ?_⟩
        · rw [hg.2.2.1, hframe hfull x'.amount hne' htne']
          exact hd'
        · rw [hg.2.2.1]; exact hne'
        · intro l hl heq
          rw [hlev] at hl
          rw [hg.2.2.1] at heq
          exact absurd heq (htne' l hl)
      have hsame : queueVal s.heap rest = queueVal h rest := by
        apply queueVal_congr
        intro el' hel'
        obtain ⟨p', x', d', hp', hx', hd', -, hne', htne'⟩ := hrestsound el' hel'
        obtain ⟨x'', hx'', hg⟩ := ev.orders p' x' hx'
        have hd'' : s.heap.decimals[x''.amount]? = some d' := by
          rw [hg.2.2.1, hframe hfull x'.amount hne' htne']
          exact hd'
        rw [elAmount_eq hp' hx' hd', elAmount_eq (by rw [ev.elements]; exact hp') hx'' hd'']
      obtain ⟨left', hl', hval', hframe'⟩ := ih hrec hok hleft1
        (fun l hl => htot l (by rw [← hlev]; exact hl)) hsound'
      refine ⟨left', hl', ?_, ?_⟩
      · rw [hval', hsame, hval1, min_eq_left (le_of_lt hlt)]
        congr 1
        ring
      · intro hnz' a ha hat
        rw [hframe' hnz' a ha (fun l hl => hat l (by rw [← hlev]; exact hl))]
        exact hframe hfull a ha hat

theorem nodesSound_queue {h : Heap} {aL : Nat} {nodes : List (Decimal × Nat)}
    (hs : nodesSound h aL nodes) {node : Decimal × Nat} (hn : node ∈ nodes)
    {l : OrdersBySpecificPrice} (hl : h.levels[node.2]? = some l) :
    queueSound h aL node.2 l.orders := by
  obtain ⟨l0, hl0, -, hels⟩ := hs.2 node hn
  rw [hl] at hl0
  simp only [Option.some.injEq] at hl0
  subst hl0
  intro el hel
  obtain ⟨p, x, d, hp, hx, hd, hpos, hne, hsep⟩ := hels el hel
  refine ⟨p, x, d, hp, hx, hd, hpos, hne, ?_⟩
  intro l' hl' heq
  rw [hl] at hl'
  simp only [Option.some.injEq] at hl'
  subst hl'
  exact (hsep node hn l hl heq).2

theorem nodesSound_tail {h : Heap} {aL : Nat} {node : Decimal × Nat}
    {rest : List (Decimal × Nat)} (hs : nodesSound h aL (node :: rest)) :
    nodesSound h aL rest := by
  have hcopy := hs.1
  rw [List.map_cons, List.nodup_cons] at hcopy
  refine ⟨hcopy.2, fun n hn => ?_⟩
  obtain ⟨l2, hl2, ht2, hels2⟩ := hs.2 n (List.mem_cons_of_mem _ hn)
  refine ⟨l2, hl2, ht2, fun el hel => ?_⟩
  obtain ⟨p', x, d, hp, hx, hd, hpos, hne, hsep⟩ := hels2 el hel
  exact ⟨p', x, d, hp, hx, hd, hpos, hne, fun n' hn' => hsep n' (List.mem_cons_of_mem _ hn')⟩

theorem walkVal_nonneg {h : Heap} {aL : Nat} (sideType : OperationType) (p : Decimal)
    (nodes : List (Decimal × Nat)) (hs : nodesSound h aL nodes) :
    0 ≤ walkVal h sideType p nodes := by
  induction nodes with
  | nil => simp [walkVal]
  | cons node rest ih =>
    unfold walkVal
    split
    · exact le_refl _
    · rename_i l hl
      split
      · have h1 := queueVal_nonneg (nodesSound_queue hs (List.mem_cons_self _ _) hl)
        have h2 := ih (nodesSound_tail hs)
        linarith
      · exact le_refl _

theorem walkVal_congr {h h' : Heap} (sideType : OperationType) (p : Decimal)
    (nodes : List (Decimal × Nat))
    (hc : ∀ node ∈ nodes, h'.levels[node.2]? = h.levels[node.2]? ∧
      ∀ l, h.levels[node.2]? = some l → ∀ el ∈ l.orders, elAmount h' el = elAmount h el) :
    walkVal h' sideType p nodes = walkVal h sideType p nodes := by
  induction nodes with
  | nil => rfl
  | cons node rest ih =>
    obtain ⟨hl, hel⟩ := hc node (List.mem_cons_self _ _)
    unfold walkVal
    rw [hl]
    split
    · rfl
    · rename_i l hl0
      rw [queueVal_congr (hel l hl0), ih (fun n hn => hc n (List.mem_cons_of_mem _ hn))]

theorem nodesSound_step {h h1 : Heap} {aL : Nat} {key : Decimal} {lp : Nat}
    {rest : List (Decimal × Nat)} (hs : nodesSound h aL ((key, lp) :: rest))
    (ev : Evolves h h1)
    (hlev : ∀ lp', lp' ≠ lp → h1.levels[lp']? = h.levels[lp']?)
    (hdec : ∀ a, a ≠ aL → (∀ l, h.levels[lp]? = some l → a ≠ l.totalAmount) →
      h1.decimals[a]? = h.decimals[a]?) :
    nodesSound h1 aL rest ∧
      ∀ (sideType : OperationType) (p : Decimal),
        walkVal h1 sideType p rest = walkVal h sideType p rest := by
  have hcopy := hs.1
  rw [List.map_cons, List.nodup_cons] at hcopy
  have hne : ∀ node ∈ rest, node.2 ≠ lp := by
    intro node hn heq
    have hmem : node.2 ∈ rest.map Prod.snd := List.mem_map_of_mem Prod.snd hn
    rw [heq] at hmem
    exact hcopy.1 hmem
  -- what an element queued in a level of `rest` looks like in the two heaps
  have hel : ∀ node ∈ rest, ∀ l, h.levels[node.2]? = some l → ∀ el ∈ l.orders,
      ∃ p x x' d, h.elements[el]? = some p ∧ h.orders[p]? = some x ∧
        h1.orders[p]? = some x' ∧ x'.amount = x.amount ∧ h.decimals[x.amount]? = some d ∧
        h1.decimals[x.amount]? = some d ∧ 0 ≤ d.val ∧ x.amount ≠ aL ∧
        ∀ node' ∈ (key, lp) :: rest, ∀ l', h.levels[node'.2]? = some l' →
          x.amount = l'.totalAmount → node'.2 = node.2 ∧ l'.orders = [el] := by
    intro node hn l hl el hel
    obtain ⟨l0, hl0, -, hels⟩ := hs.2 node (List.mem_cons_of_mem _ hn)
    rw [hl] at hl0
    simp only [Option.some.injEq] at hl0
    subst hl0
    obtain ⟨p, x, d, hp, hx, hd, hpos, hxne, hsep⟩ := hels el hel
    obtain ⟨x', hx', hg⟩ := ev.orders p x hx
    refine ⟨p, x, x', d, hp, hx, hx', hg.2.2.1, hd, ?_, hpos, hxne, hsep⟩
    rw [hdec x.amount hxne ?_]
    · exact hd
    · intro l' hl' heq
      exact hne node hn (hsep (key, lp) (List.mem_cons_self _ _) l' hl' heq).1.symm
  constructor
  · refine ⟨hcopy.2, fun node hn => ?_⟩
    obtain ⟨l, hl, ht, -⟩ := hs.2 node (List.mem_cons_of_mem _ hn)
    refine ⟨l, by rw [hlev node.2 (hne node hn)]; exact hl, ht, fun el hin => ?_⟩
    obtain ⟨p, x, x', d, hp, hx, hx', hamt, hd, hd1, hpos, hxne, hsep⟩ := hel node hn l hl el hin
    refine ⟨p, x', d, by rw [ev.elements]; exact hp, hx', by rw [hamt]; exact hd1, hpos,
      by rw [hamt]; exact hxne, ?_⟩
    intro node' hn' l' hl' heq
    rw [hlev node'.2 (hne node' hn')] at hl'
    rw [hamt] at heq
    exact hsep node' (List.mem_cons_of_mem _ hn') l' hl' heq
  · intro sideType p
    apply walkVal_congr
    intro node hn
    refine ⟨hlev node.2 (hne node hn), fun l hl el hin => ?_⟩
    obtain ⟨p, x, x', d, hp, hx, hx', hamt, hd, hd1, -, -, -⟩ := hel node hn l hl el hin
    rw [elAmount_eq hp hx hd, elAmount_eq (by rw [ev.elements]; exact hp) hx'
      (by rw [hamt]; exact hd1)]

theorem walkLevels_value {sideType : OperationType} {o aL : Nat}
    (nodes : List (Decimal × Nat)) :
    ∀ {h : Heap} {prices : List (String × Nat)} {n : Nat} {dtn : List Decimal} {w : WalkResult}
      {ord : Order} {left : Decimal},
      walkLevels sideType o aL nodes h prices n dtn = some w → w.err = none →
      h.orders[o]? = some ord → h.decimals[aL]? = some left → 0 ≤ left.val →
      nodesSound h aL nodes →
      ∃ left', w.heap.decimals[aL]? = some left' ∧
        left'.val = max 0 (left.val - walkVal h sideType ord.price nodes) := by
  induction nodes with
  | nil =>
    intro h prices n dtn w ord left hw _ _ hleft hpos _
    simp only [walkLevels, Option.some.injEq] at hw
    subst hw
    refine ⟨left, hleft, ?_⟩
    simp only [walkVal, sub_zero]
    exact (max_eq_right hpos).symm
  | cons node rest ih =>
    obtain ⟨key, lp⟩ := node
    intro h prices n dtn w ord left hw hok hord hleft hpos hsound
    have hWnonneg := walkVal_nonneg sideType ord.price _ hsound
    obtain ⟨left0, hleft0, hcase⟩ := walkLevels_cons_inv hw
    rw [hleft] at hleft0
    simp only [Option.some.injEq] at hleft0
    subst hleft0
    rcases hcase with ⟨hz, rfl⟩ | ⟨hz, l, ord0, hl, hord0, hcase⟩
    · refine ⟨left, hleft, ?_⟩
      rw [(Decimal.IsZero_iff left).mp hz]
      have h2 : (0 : ℚ) - walkVal h sideType ord.price ((key, lp) :: rest) ≤ 0 := by linarith
      rw [max_eq_left h2]
    rw [hord] at hord0
    simp only [Option.some.injEq] at hord0
    subst hord0
    have hl' : h.levels[((key, lp) : Decimal × Nat).2]? = some l := hl
    rcases hcase with ⟨hnc, rfl⟩ | ⟨hc, q, hq, hcase⟩
    · refine ⟨left, hleft, ?_⟩
      have hW : walkVal h sideType ord.price ((key, lp) :: rest) = 0 := by
        unfold walkVal
        rw [hl']
        simp [hnc]
      rw [hW, sub_zero]
      exact (max_eq_right hpos).symm
    rcases hcase with ⟨e, -, rfl⟩ | ⟨hqok, h1, prices1, hrem, hrec⟩
    · simp at hok
    have hW : walkVal h sideType ord.price ((key, lp) :: rest)
        = queueVal h l.orders + walkVal h sideType ord.price rest := by
      conv_lhs => unfold walkVal
      rw [hl']
      simp [hc]
    obtain ⟨lq, hlq, htq, -⟩ := hsound.2 (key, lp) (List.mem_cons_self _ _)
    have htot : ∀ l0, h.levels[lp]? = some l0 → l0.totalAmount ≠ aL := by
      intro l0 hl0
      have hlq' : h.levels[lp]? = some lq := hlq
      rw [hl0] at hlq'
      simp only [Option.some.injEq] at hlq'
      subst hlq'
      exact htq
    obtain ⟨left1, hleft1, hval1, hframe⟩ := matchQueue_value _ hq hqok hleft htot
      (nodesSound_queue hsound (List.mem_cons_self _ _) hl')
    obtain ⟨hdecr, -, -, -, hother, -, -⟩ := removeEls_spec lp q.deleteEls hrem
    have hleft1' : h1.decimals[aL]? = some left1 := by rw [hdecr]; exact hleft1
    have hQnonneg := queueVal_nonneg (nodesSound_queue hsound (List.mem_cons_self _ _) hl')
    by_cases hz1 : left1.IsZero = true
    · have hw1 := walkLevels_zero rest hrec hleft1' hz1
      subst hw1
      refine ⟨left1, hleft1', ?_⟩
      have h0 : left1.val = 0 := (Decimal.IsZero_iff left1).mp hz1
      rw [h0] at hval1
      have hW2 := walkVal_nonneg sideType ord.price rest (nodesSound_tail hsound)
      have hle : left.val - queueVal h l.orders ≤ 0 := by
        by_contra hgt
        rw [max_eq_right (le_of_lt (lt_of_not_le hgt))] at hval1
        exact hgt (le_of_eq hval1.symm)
      rw [h0, hW]
      have h2 : left.val - (queueVal h l.orders + walkVal h sideType ord.price rest) ≤ 0 := by
        linarith
      rw [max_eq_left h2]
    · have hz1' : left1.IsZero = false := by simpa using hz1
      obtain ⟨evq, hlevq⟩ := matchQueue_evolves _ hq
      have evr := removeEls_evolves hrem
      have ev := evq.evTrans evr
      obtain ⟨hsound1, hWsame⟩ := nodesSound_step hsound ev
        (fun lp' hne => by rw [hother lp' hne, hlevq])
        (fun a ha hat => by rw [hdecr]; exact hframe hz1' a ha hat)
      obtain ⟨ord1, hord1, hg⟩ := ev.orders o ord hord
      have hpos1 : 0 ≤ left1.val := by rw [hval1]; exact le_max_left _ _
      obtain ⟨left', hleft', hval'⟩ := ih hrec hok hord1 hleft1' hpos1 hsound1
      refine ⟨left', hleft', ?_⟩
      rw [hval', hg.2.2.2.1, hWsame, hW, hval1]
      have hnz : left1.val ≠ 0 := fun h0 => by
        rw [(Decimal.IsZero_iff left1).mpr h0] at hz1'; simp at hz1'
      have hgt : 0 < left.val - queueVal h l.orders := by
        by_contra hle
        rw [max_eq_left (le_of_not_lt hle)] at hval1
        exact hnz hval1
      rw [max_eq_right (le_of_lt hgt)]
      congr 1
      ring

/-! ## Well-formed sides -/

theorem Decimal.val_nonneg_of_coeff {d : Decimal} (hd : 0 ≤ d.coeff) : 0 ≤ d.val := by
  unfold Decimal.val
  exact mul_nonneg (by exact_mod_cast hd) (le_of_lt (zpow_pos (by norm_num) _))

theorem queueSum_val {h : Heap} (q : List Nat) :
    ∀ {s : Decimal}, queueSum h q = some s → s.val = queueVal h q := by
  induction q with
  | nil =>
    intro s hs
    simp only [queueSum, Option.some.injEq] at hs
    subst hs
    simp [queueVal, Decimal.val, Decimal.New]
  | cons el rest ih =>
    intro s hs
    unfold queueSum at hs
    split at hs
    · rename_i p s0 hp hs0
      unfold amountOf at hs
      split at hs
      · simp at hs
      · rename_i a ha
        split at ha
        · simp at ha
        · rename_i x hx
          split at hs
          · simp at hs
          · rename_i d hd
            simp only [Option.some.injEq] at hs
            subst hs
            rw [queueVal_cons, Decimal.Add_val hd, ih hs0, elAmount_eq hp hx ha]
    · simp at hs

theorem elementSound_spec {h : Heap} {os : OrderSide} {lp el : Nat}
    (hs : elementSound h os lp el = true) :
    ∃ p x d, h.elements[el]? = some p ∧ h.orders[p]? = some x ∧
      h.decimals[x.amount]? = some d ∧ 0 < d.coeff ∧
      ∀ node ∈ os.priceTree, ∀ l, h.levels[node.2]? = some l → x.amount = l.totalAmount →
        node.2 = lp ∧ l.orders = [el] := by
  unfold elementSound at hs
  split at hs
  · simp at hs
  · rename_i p hp
    split at hs
    · simp at hs
    · rename_i x hx
      split at hs
      · simp at hs
      · rename_i d hd
        rw [Bool.and_eq_true, decide_eq_true_eq, List.all_eq_true] at hs
        refine ⟨p, x, d, hp, hx, hd, hs.1, ?_⟩
        intro node hnode l hl
        have h1 := hs.2 node hnode
        rw [hl] at h1
        exact of_decide_eq_true h1

theorem wellFormedSide_spec {h : Heap} {os : OrderSide} (hw : wellFormedSide h os = true) :
    (os.priceTree.map Prod.snd).Nodup ∧
    os.priceTree.Pairwise (fun a b => levelBelow h a.2 b.2 = true) ∧
    ∀ node ∈ os.priceTree, ∃ l, h.levels[node.2]? = some l ∧ l.orders ≠ [] ∧
      totalAgrees h node.2 = true ∧ ∀ el ∈ l.orders, elementSound h os node.2 el = true := by
  unfold wellFormedSide at hw
  rw [Bool.and_eq_true, Bool.and_eq_true, decide_eq_true_eq, decide_eq_true_eq,
    List.all_eq_true] at hw
  refine ⟨hw.1.1, hw.1.2, ?_⟩
  intro node hnode
  have h1 := hw.2 node hnode
  split at h1
  · simp at h1
  · rename_i l hl
    rw [Bool.and_eq_true, Bool.and_eq_true, List.all_eq_true] at h1
    refine ⟨l, hl, ?_, h1.1.2, h1.2⟩
    intro hnil
    rw [hnil] at h1
    simp at h1

theorem totalAgrees_spec {h : Heap} {lp : Nat} (ht : totalAgrees h lp = true) :
    ∃ l t, h.levels[lp]? = some l ∧ h.decimals[l.totalAmount]? = some t ∧
      t.val = queueVal h l.orders := by
  unfold totalAgrees at ht
  split at ht
  · simp at ht
  · rename_i l hl
    split at ht
    · rename_i t s ht0 hs0
      refine ⟨l, t, hl, ht0, ?_⟩
      rw [← queueSum_val _ hs0]
      exact (Decimal.Cmp_eq_zero_iff t s).mp (of_decide_eq_true ht)
    · simp at ht

theorem walkVal_eq_filter {h : Heap} (sideType : OperationType) (p : Decimal)
    (nodes : List (Decimal × Nat))
    (hmono : nodes.Pairwise fun a b =>
      crossesNode h sideType p b = true → crossesNode h sideType p a = true)
    (htot : ∀ node ∈ nodes, ∀ l, h.levels[node.2]? = some l →
      cellVal h l.totalAmount = queueVal h l.orders) :
    walkVal h sideType p nodes
      = ((nodes.filter (crossesNode h sideType p)).map (totalVal h)).sum := by
  induction nodes with
  | nil => rfl
  | cons node rest ih =>
    rw [List.pairwise_cons] at hmono
    have hrest := ih hmono.2 (fun n hn => htot n (List.mem_cons_of_mem _ hn))
    have hnone : crossesNode h sideType p node = false →
        rest.filter (crossesNode h sideType p) = [] := by
      intro hf
      rw [List.filter_eq_nil_iff]
      intro n hn hc
      rw [hmono.1 n hn hc] at hf
      simp at hf
    unfold walkVal
    split
    · rename_i hl
      have hf : crossesNode h sideType p node = false := by simp [crossesNode, hl]
      rw [List.filter_cons_of_neg (by simp [hf]), hnone hf]
      rfl
    · rename_i l hl
      split
      · rename_i hc
        have ht : crossesNode h sideType p node = true := by simp [crossesNode, hl, hc]
        rw [List.filter_cons_of_pos ht, List.map_cons, List.sum_cons, hrest]
        congr 1
        rw [← htot node (List.mem_cons_self _ _) l hl]
        simp [totalVal, hl]
      · rename_i hc
        have hf : crossesNode h sideType p node = false := by simp [crossesNode, hl, hc]
        rw [List.filter_cons_of_neg (by simp [hf]), hnone hf]
        rfl

theorem levelBelow_mono_ask {h : Heap} {p : Decimal} {a b : Decimal × Nat}
    (hb : levelBelow h a.2 b.2 = true) :
    crossesNode h .Ask p b = true → crossesNode h .Ask p a = true := by
  unfold levelBelow at hb
  split at hb
  · rename_i la lb hla hlb
    have hlt := (Decimal.Cmp_lt_iff _ _).mp (of_decide_eq_true hb)
    intro hc
    simp only [crossesNode, hlb, decide_eq_true_eq] at hc
    simp only [crossesNode, hla, decide_eq_true_eq]
    unfold crosses at hc ⊢
    simp only [true_and, reduceCtorEq, false_and, or_false, not_lt] at hc ⊢
    have h1 := (Decimal.Cmp_le_iff lb.price p).mp (by
      have := (Decimal.Cmp_lt_iff p lb.price).not.mp (not_lt.mpr hc)
      exact (Decimal.Cmp_le_iff lb.price p).mpr (not_lt.mp this))
    have h2 : la.price.val ≤ p.val := le_trans (le_of_lt hlt) h1
    have h3 := (Decimal.Cmp_lt_iff p la.price).not.mpr (not_lt.mpr h2)
    exact not_lt.mp h3
  · simp at hb

theorem levelBelow_mono_bid {h : Heap} {p : Decimal} {a b : Decimal × Nat}
    (hb : levelBelow h b.2 a.2 = true) :
    crossesNode h .Bid p b = true → crossesNode h .Bid p a = true := by
  unfold levelBelow at hb
  split at hb
  · rename_i lb la hlb hla
    have hlt := (Decimal.Cmp_lt_iff _ _).mp (of_decide_eq_true hb)
    intro hc
    simp only [crossesNode, hlb, decide_eq_true_eq] at hc
    simp only [crossesNode, hla, decide_eq_true_eq]
    unfold crosses at hc ⊢
    simp only [reduceCtorEq, false_and, true_and, false_or, gt_iff_lt, not_lt] at hc ⊢
    have h1 : p.val ≤ lb.price.val := by
      have := (Decimal.Cmp_gt_iff p lb.price).not.mp (not_lt.mpr hc)
      exact not_lt.mp this
    have h2 : p.val ≤ la.price.val := le_trans h1 (le_of_lt hlt)
    have h3 := (Decimal.Cmp_gt_iff p la.price).not.mpr (not_lt.mpr h2)
    exact not_lt.mp h3
  · simp at hb

theorem newDecimal_getElem {h : Heap} (a : Decimal) {c : Nat} {d : Decimal}
    (hd : h.decimals[c]? = some d) : (h.newDecimal a).1.decimals[c]? = some d := by
  have hlt : c < h.decimals.length := (List.getElem?_eq_some.mp hd).1
  simp only [Heap.newDecimal]
  rw [List.getElem?_append_left hlt]
  exact hd

theorem wellFormedSide_sound {h : Heap} {os : OrderSide} (hw : wellFormedSide h os = true)
    (a : Decimal) :
    nodesReady (h.newDecimal a).1 (walkOrder os) ∧
      nodesSound (h.newDecimal a).1 h.decimals.length (walkOrder os) := by
  obtain ⟨hnd, -, hall⟩ := wellFormedSide_spec hw
  have hnd' : ((walkOrder os).map Prod.snd).Nodup := by
    unfold walkOrder
    split
    · exact hnd
    · rw [List.map_reverse]
      exact List.nodup_reverse.mpr hnd
  have hlen : (h.newDecimal a).1.decimals.length = h.decimals.length + 1 := by
    simp [Heap.newDecimal]
  constructor
  · refine ⟨hnd', fun node hnode => ?_⟩
    obtain ⟨l, hl, hne, htot, hels⟩ := hall node (mem_walkOrder.mp hnode)
    obtain ⟨l', t, hl', ht, -⟩ := totalAgrees_spec htot
    rw [hl] at hl'
    simp only [Option.some.injEq] at hl'
    subst hl'
    refine ⟨l, hl, hne, ?_, fun el hel => ?_⟩
    · rw [hlen]
      exact Nat.lt_succ_of_lt (List.getElem?_eq_some.mp ht).1
    · obtain ⟨p, x, d, hp, hx, hd, -, -⟩ := elementSound_spec (hels el hel)
      refine ⟨p, x, hp, hx, ?_⟩
      rw [hlen]
      exact Nat.lt_succ_of_lt (List.getElem?_eq_some.mp hd).1
  · refine ⟨hnd', fun node hnode => ?_⟩
    obtain ⟨l, hl, hne, htot, hels⟩ := hall node (mem_walkOrder.mp hnode)
    obtain ⟨l', t, hl', ht, -⟩ := totalAgrees_spec htot
    rw [hl] at hl'
    simp only [Option.some.injEq] at hl'
    subst hl'
    refine ⟨l, hl, ?_, fun el hel => ?_⟩
    · exact Nat.ne_of_lt (List.getElem?_eq_some.mp ht).1
    · obtain ⟨p, x, d, hp, hx, hd, hpos, hsep⟩ := elementSound_spec (hels el hel)
      refine ⟨p, x, d, hp, hx, newDecimal_getElem a hd,
        Decimal.val_nonneg_of_coeff (le_of_lt hpos),
        Nat.ne_of_lt (List.getElem?_eq_some.mp hd).1, ?_⟩
      intro node' hn' l' hl' heq
      exact hsep node' (mem_walkOrder.mp hn') l' hl' heq

theorem wellFormedSide_walkVal {h : Heap} {os : OrderSide} (hw : wellFormedSide h os = true)
    (a p : Decimal) :
    walkVal (h.newDecimal a).1 os.sideType p (walkOrder os) = crossingTotal h os p := by
  obtain ⟨hnd, hsorted, hall⟩ := wellFormedSide_spec hw
  -- the copy of the amount changes no amount that is read
  have h0 : walkVal (h.newDecimal a).1 os.sideType p (walkOrder os)
      = walkVal h os.sideType p (walkOrder os) := by
    apply walkVal_congr
    intro node hnode
    refine ⟨rfl, fun l hl el hel => ?_⟩
    obtain ⟨l0, hl0, -, -, hels⟩ := hall node (mem_walkOrder.mp hnode)
    rw [hl] at hl0
    simp only [Option.some.injEq] at hl0
    subst hl0
    obtain ⟨p', x, d, hp, hx, hd, -, -⟩ := elementSound_spec (hels el hel)
    rw [elAmount_eq hp hx hd, elAmount_eq (h := (h.newDecimal a).1) hp hx
      (newDecimal_getElem a hd)]
  have htot : ∀ node ∈ walkOrder os, ∀ l, h.levels[node.2]? = some l →
      cellVal h l.totalAmount = queueVal h l.orders := by
    intro node hnode l hl
    obtain ⟨l0, hl0, -, htot0, -⟩ := hall node (mem_walkOrder.mp hnode)
    obtain ⟨l', t, hl', ht, hval⟩ := totalAgrees_spec htot0
    rw [hl] at hl'
    simp only [Option.some.injEq] at hl'
    subst hl'
    simp [cellVal, ht, hval]
  rw [h0]
  unfold crossingTotal
  by_cases hside : os.sideType = .Ask
  · have hwo : walkOrder os = os.priceTree := by simp [walkOrder, hside]
    rw [hwo] at htot ⊢
    rw [hside] at *
    exact walkVal_eq_filter _ p _ (hsorted.imp (fun hb => levelBelow_mono_ask hb)) htot
  · have hbid : os.sideType = .Bid := by
      cases hs : os.sideType with
      | Ask => exact absurd hs hside
      | Bid => rfl
    have hwo : walkOrder os = os.priceTree.reverse := by simp [walkOrder, hside]
    rw [hwo] at htot ⊢
    rw [hbid] at *
    rw [walkVal_eq_filter _ p _ ?_ htot, List.filter_reverse, List.map_reverse,
      List.sum_reverse]
    rw [List.pairwise_reverse]
    exact hsorted.imp (fun hb => levelBelow_mono_bid hb)

/-- C14: the amount left by `ExecuteOrder`.  On a well-formed side (the nodes of the tree are
distinct levels in price order, each with a queue that is not empty, of orders with positive
amounts, and a total equal to their sum) and for an incoming order with amount `a`, not
negative, and price `p`, the call returns.  When it returns no error, `amountLeft` holds
`max 0 (a - L)`, where `L` is the sum of the totals of the levels that pass the price test
for `p`. -/
theorem amount_left_after_matching (h : Heap) (os : OrderSide) (o : Nat) (ord : Order)
    (a : Decimal)
    (ho : h.orders[o]? = some ord) (ha : h.decimals[ord.amount]? = some a)
    (hpos : 0 ≤ a.coeff) (hwf : wellFormedSide h os = true) :
    ∃ h' os' r, ExecuteOrder h os o = some (h', os', r) ∧
      (r.err = none → ∃ aL left, r.amountLeft = some aL ∧ h'.decimals[aL]? = some left ∧
        left.val = max 0 (a.val - crossingTotal h os ord.price)) := by
  obtain ⟨hready, hsound⟩ := wellFormedSide_sound hwf a
  have holt : o < (h.newDecimal a).1.orders.length := (List.getElem?_eq_some.mp ho).1
  have haLlt : h.decimals.length < (h.newDecimal a).1.decimals.length := by
    simp [Heap.newDecimal]
  obtain ⟨w, hw⟩ := walkLevels_some os.sideType o h.decimals.length (walkOrder os)
    os.prices 0 [] hready holt haLlt
  have hleft : (h.newDecimal a).1.decimals[h.decimals.length]? = some a := by
    simp [Heap.newDecimal]
  have hex : ∃ os' r, ExecuteOrder h os o = some (w.heap, os', r) ∧
      (w.err = none → r.err = none ∧ r.amountLeft = some h.decimals.length) ∧
      (r.err = none → w.err = none) := by
    unfold ExecuteOrder
    rw [ho]
    dsimp only
    rw [ha]
    dsimp only
    have hw' : walkLevels os.sideType o (h.newDecimal a).2
        (if os.sideType = .Ask then os.priceTree else os.priceTree.reverse)
        (h.newDecimal a).1 os.prices 0 [] = some w := hw
    rw [hw']
    dsimp only
    cases hwe : w.err with
    | some e => exact ⟨_, _, rfl, by simp, by simp⟩
    | none => exact ⟨_, _, rfl, by simp [Heap.newDecimal], by simp⟩
  obtain ⟨os', r, hexec, hfwd, hback⟩ := hex
  refine ⟨w.heap, os', r, hexec, ?_⟩
  intro hrok
  have hwok := hback hrok
  obtain ⟨left, hl, hval⟩ := walkLevels_value _ hw hwok
    (show (h.newDecimal a).1.orders[o]? = some ord from ho) hleft
    (Decimal.val_nonneg_of_coeff hpos) hsound
  refine ⟨h.decimals.length, left, (hfwd hwok).2, hl, ?_⟩
  rw [hval, wellFormedSide_walkVal hwf]

set_option maxRecDepth 100000 in
/-- Witness of C14: the bid of 100 at 22000 on the asks of the fixture, a well-formed side
whose three levels all pass the price test.  Seven orders are executed and `amountLeft`, the
cell 37, holds 96.0. -/
theorem amount_left_after_matching_witness :
    wellFormedSide marketHeap fixtureBook.Asks = true ∧
    (ExecuteOrder marketHeap fixtureBook.Asks 14).map (fun s => (s.2.2, s.1.decimals[37]?))
      = some (⟨some 37, 7, none⟩, some ⟨960, -1⟩) ∧
    ∃ h' os' r, ExecuteOrder marketHeap fixtureBook.Asks 14 = some (h', os', r) ∧
      (r.err = none → ∃ aL left, r.amountLeft = some aL ∧ h'.decimals[aL]? = some left ∧
        left.val
          = max 0 ((Decimal.mk 100 0).val
              - crossingTotal marketHeap fixtureBook.Asks (Decimal.mk 22000 0))) :=
  ⟨by decide, by decide,
    amount_left_after_matching marketHeap fixtureBook.Asks 14
      ⟨"100500", .Bid, 36, ⟨22000, 0⟩, []⟩ ⟨100, 0⟩ (by decide) (by decide) (by decide)
      (by decide)⟩

/-! ## Whole fills -/

theorem matchStep_whole {o aL lp el : Nat} {h : Heap} {n : Nat} {s : StepResult}
    (hs : matchStep o aL lp el h n = some s) (hok : s.err = none)
    {ord : Order} {p : Nat} {x : Order} {d : Decimal} {lvl : OrdersBySpecificPrice}
    {t : Decimal}
    (hord : h.orders[o]? = some ord) (hp : h.elements[el]? = some p) (hpo : p ≠ o)
    (hx : h.orders[p]? = some x) (hd : h.decimals[x.amount]? = some d)
    (hlvl : h.levels[lp]? = some lvl) (ht : h.decimals[lvl.totalAmount]? = some t)
    (htne : lvl.totalAmount ≠ aL)
    (hwhole : ∀ ord', s.heap.orders[o]? = some ord' → ∀ e ∈ ord'.executions, e.amount ≠ aL) :
    s.listNodeEmpty = true ∧
    s.heap.orders[o]? = some { ord with executions :=
      ord.executions ++ [⟨ord.orderID, x.orderID, x.amount, x.price⟩] } ∧
    (∃ t', s.heap.decimals[lvl.totalAmount]? = some t' ∧ t'.val = t.val - d.val) ∧
    (∀ a, a ≠ aL → a ≠ lvl.totalAmount → s.heap.decimals[a]? = h.decimals[a]?) := by
  obtain ⟨r, reqOrder, ord0, reqAmount, left, s1, hr, hreq, hord0, hra, hleft, hb, hs1, hcase⟩ :=
    matchStep_inv hs
  rw [hp] at hr
  simp only [Option.some.injEq] at hr
  subst hr
  rw [hx] at hreq
  simp only [Option.some.injEq] at hreq
  subst hreq
  rw [hd] at hra
  simp only [Option.some.injEq] at hra
  subst hra
  rw [hord] at hord0
  simp only [Option.some.injEq] at hord0
  subst hord0
  rcases hcase with ⟨e, -, -, -, he⟩ | ⟨hs1ok, y, s2, hy, hs2, hcase2⟩
  · rw [hok] at he; simp at he
  rcases hcase2 with ⟨e, -, -, -, he⟩ | ⟨hs2ok, h3, h4, lvl4, s5, hh3, hh4, hlvl4, hs5, hheap, -, herr⟩
  · rw [hok] at he; simp at he
  have hs5ok : s5.2 = none := by rw [← herr]; exact hok
  obtain ⟨ev1, hlev1, hord1, hfr1, hfull1⟩ := firstSub_inv hs1
  obtain ⟨hord2, -, hlev2, -⟩ := subCell_fields hs2
  obtain ⟨hdec3, -, hlev3, -⟩ := appendExecution_fields hh3
  obtain ⟨hdec4, -, hlev4, -⟩ := appendExecution_fields hh4
  obtain ⟨hord5, -, -, -⟩ := subCell_fields hs5
  -- the order at `o` after the two appends
  obtain ⟨x3, hx3, hx3'⟩ := appendExecution_self hh3
  have hx3o : s2.1.orders[o]? = some ord := by rw [hord2, hord1]; exact hord
  rw [hx3o] at hx3
  simp only [Option.some.injEq] at hx3
  subst hx3
  have ho4 : h4.orders[o]? = some { ord with executions := ord.executions ++
      [⟨ord.orderID, x.orderID, if s.listNodeEmpty = true then x.amount else aL, x.price⟩] } := by
    rw [appendExecution_frame hh4 o (Ne.symm hpo)]
    exact hx3'
  have hofin : s.heap.orders[o]? = some { ord with executions := ord.executions ++
      [⟨ord.orderID, x.orderID, if s.listNodeEmpty = true then x.amount else aL, x.price⟩] } := by
    rw [hheap, hord5]; exact ho4
  have hbt : s.listNodeEmpty = true := by
    by_contra hbf
    have hne := hwhole _ hofin ⟨ord.orderID, x.orderID,
      if s.listNodeEmpty = true then x.amount else aL, x.price⟩ (by simp)
    simp [hbf] at hne
  have hs1eq := hfull1 hbt
  have hlvl' : h4.levels[lp]? = some lvl := by
    rw [hlev4, hlev3, hlev2, hlev1]; exact hlvl
  rw [hlvl'] at hlvl4
  simp only [Option.some.injEq] at hlvl4
  subst hlvl4
  refine ⟨hbt, ?_, ?_, ?_⟩
  · simpa [hbt] using hofin
  · obtain ⟨t5, d5, ht5, hsub5, hd5⟩ := subCell_self hs5 hs5ok
    have ht5' : h4.decimals[lvl.totalAmount]? = some t := by
      rw [hdec4, hdec3, subCell_frame hs2 _ htne, hs1eq]
      exact ht
    rw [ht5'] at ht5
    simp only [Option.some.injEq] at ht5
    subst ht5
    refine ⟨d5, by rw [hheap]; exact hd5, ?_⟩
    rw [Decimal.Sub_val hsub5]
    simp [hbt]
  · intro a haL hat
    rw [hheap, subCell_frame hs5 a hat, hdec4, hdec3, subCell_frame hs2 a haL, hs1eq]

theorem reportOf_eq {h : Heap} {el p : Nat} {x : Order} (id : OrderID)
    (hp : h.elements[el]? = some p) (hx : h.orders[p]? = some x) :
    reportOf h id el = ⟨id, x.orderID, x.amount, x.price⟩ := by
  simp [reportOf, hp, hx]

theorem matchQueue_whole {o aL lp : Nat} (els : List Nat) :
    ∀ {h : Heap} {n : Nat} {dels : List Nat} {q : QueueResult} {ord : Order}
      {lvl : OrdersBySpecificPrice} {t : Decimal},
      matchQueue o aL lp els h n dels = some q → q.err = none →
      h.orders[o]? = some ord → h.levels[lp]? = some lvl →
      h.decimals[lvl.totalAmount]? = some t → lvl.totalAmount ≠ aL →
      queueWhole h o aL lp els →
      (∀ ord', q.heap.orders[o]? = some ord' → ∀ e ∈ ord'.executions, e.amount ≠ aL) →
      ∃ k, 1 ≤ k ∧ k ≤ els.length ∧ q.ordersExecuted = n + k ∧
        q.deleteEls = dels ++ els.take k ∧
        q.heap.orders[o]? = some { ord with executions :=
          ord.executions ++ (els.take k).map (reportOf h ord.orderID) } ∧
        (∃ t', q.heap.decimals[lvl.totalAmount]? = some t' ∧
          t'.val = t.val - queueVal h (els.take k)) ∧
        (∀ a, a ≠ aL → a ≠ lvl.totalAmount → q.heap.decimals[a]? = h.decimals[a]?) := by
  induction els with
  | nil =>
    intro h n dels q ord lvl t hq
    simp [matchQueue] at hq
  | cons el rest ih =>
    intro h n dels q ord lvl t hq hok hord hlvl ht htne hqw hwhole
    obtain ⟨p, x, d, hp, hpo, hx, hd, -, hlone⟩ := hqw el (List.mem_cons_self _ _)
    obtain ⟨s, hs, hcase⟩ := matchQueue_cons_inv hq
    rcases hcase with ⟨e, -, hres⟩ | ⟨hsok, left1, hleft1, hcase⟩
    · rw [hres] at hok; simp at hok
    obtain ⟨ev, hlev⟩ := matchStep_evolves hs
    obtain ⟨evq, -⟩ := matchQueue_evolves _ hq
    -- the reports of the step are reports of the final order
    have hwhole_s : ∀ ord', s.heap.orders[o]? = some ord' →
        ∀ e ∈ ord'.executions, e.amount ≠ aL := by
      intro ord' hord' e he
      rcases hcase with ⟨-, hres⟩ | ⟨-, -, hres⟩ | ⟨-, -, hrec⟩
      · exact hwhole ord' (by rw [hres]; exact hord') e he
      · exact hwhole ord' (by rw [hres]; exact hord') e he
      · obtain ⟨evr, -⟩ := matchQueue_evolves _ hrec
        obtain ⟨ord'', hord'', hg⟩ := evr.orders o ord' hord'
        exact hwhole ord'' hord'' e (hg.2.2.2.2.subset he)
    obtain ⟨hfull, hos, ⟨t1, ht1, ht1v⟩, hframe⟩ :=
      matchStep_whole hs hsok hord hp hpo hx hd hlvl ht htne hwhole_s
    have hcnt := matchStep_count hs hsok
    have hrep : reportOf h ord.orderID el = ⟨ord.orderID, x.orderID, x.amount, x.price⟩ :=
      reportOf_eq _ hp hx
    have hone : ∃ k, 1 ≤ k ∧ k ≤ (el :: rest).length ∧ s.ordersExecuted = n + k ∧
        (if s.listNodeEmpty = true then dels ++ [el] else dels) = dels ++ (el :: rest).take k ∧
        s.heap.orders[o]? = some { ord with executions :=
          ord.executions ++ ((el :: rest).take k).map (reportOf h ord.orderID) } ∧
        (∃ t', s.heap.decimals[lvl.totalAmount]? = some t' ∧
          t'.val = t.val - queueVal h ((el :: rest).take k)) ∧
        (∀ a, a ≠ aL → a ≠ lvl.totalAmount → s.heap.decimals[a]? = h.decimals[a]?) := by
      refine ⟨1, le_refl _, by simp, hcnt, by simp [hfull], ?_, ⟨t1, ht1, ?_⟩, hframe⟩
      · simp only [List.take_succ_cons, List.take_zero, List.map_cons, List.map_nil, hrep]
        exact hos
      · simp only [List.take_succ_cons, List.take_zero, queueVal_cons]
        rw [elAmount_eq hp hx hd, ht1v]
        simp [queueVal]
    rcases hcase with ⟨-, hres⟩ | ⟨-, -, hres⟩ | ⟨-, hne, hrec⟩
    · rw [hres]; exact hone
    · rw [hres]; exact hone
    · -- the loop goes on with the next element
      have hxt : ∀ el' ∈ rest, ∀ p' x', h.elements[el']? = some p' → h.orders[p']? = some x' →
          x'.amount ≠ lvl.totalAmount ∧ x'.amount ≠ aL := by
        intro el' hel' p' x' hp' hx'
        obtain ⟨p2, x2, d2, hp2, -, hx2, hd2, hne2, hlone2⟩ :=
          hqw el' (List.mem_cons_of_mem _ hel')
        rw [hp'] at hp2
        simp only [Option.some.injEq] at hp2
        subst hp2
        rw [hx'] at hx2
        simp only [Option.some.injEq] at hx2
        subst hx2
        constructor
        · intro heq
          have h1 := hlone2 lvl hlvl heq
          simp only [List.cons.injEq] at h1
          rw [h1.2] at hel'
          simp at hel'
        · exact hne2
      have hqw' : queueWhole s.heap o aL lp rest := by
        intro el' hel'
        obtain ⟨p', x', d', hp', hpo', hx', hd', -, hlone'⟩ :=
          hqw el' (List.mem_cons_of_mem _ hel')
        obtain ⟨x'', hx'', hg⟩ := ev.orders p' x' hx'
        obtain ⟨hxt1, hxt2⟩ := hxt el' hel' p' x' hp' hx'
        refine ⟨p', x'', d', by rw [ev.elements]; exact hp', hpo', hx'', ?_, ?_, ?_⟩
        · rw [hg.2.2.1, hframe x'.amount hxt2 hxt1]
          exact hd'
        · rw [hg.2.2.1]; exact hxt2
        · intro l hl heq
          rw [hlev, hlvl] at hl
          simp only [Option.some.injEq] at hl
          subst hl
          rw [hg.2.2.1] at heq
          exact absurd heq hxt1
      have hsameR : ∀ el' ∈ rest, reportOf s.heap ord.orderID el' = reportOf h ord.orderID el' ∧
          elAmount s.heap el' = elAmount h el' := by
        intro el' hel'
        obtain ⟨p', x', d', hp', -, hx', hd', -, -⟩ := hqw el' (List.mem_cons_of_mem _ hel')
        obtain ⟨x'', hx'', hg⟩ := ev.orders p' x' hx'
        obtain ⟨hxt1, hxt2⟩ := hxt el' hel' p' x' hp' hx'
        have hp'' : s.heap.elements[el']? = some p' := by rw [ev.elements]; exact hp'
        have hd'' : s.heap.decimals[x''.amount]? = some d' := by
          rw [hg.2.2.1, hframe x'.amount hxt2 hxt1]; exact hd'
        constructor
        · rw [reportOf_eq _ hp'' hx'', reportOf_eq _ hp' hx', hg.1, hg.2.2.1, hg.2.2.2.1]
        · rw [elAmount_eq hp'' hx'' hd'', elAmount_eq hp' hx' hd']
      obtain ⟨k, hk1, hk2, hcntk, hdelk, hok', ⟨t', ht', ht'v⟩, hframe'⟩ :=
        ih hrec hok hos (by rw [hlev]; exact hlvl) ht1 htne hqw' hwhole
      refine ⟨k + 1, by omega, by simpa using hk2, by rw [hcntk, hcnt]; omega, ?_, ?_,
        ⟨t', ht', ?_⟩, ?_⟩
      · rw [hdelk]
        simp [hfull]
      · rw [hok']
        simp only [List.take_succ_cons, List.map_cons, hrep]
        have hmap : (rest.take k).map (reportOf s.heap ord.orderID)
            = (rest.take k).map (reportOf h ord.orderID) :=
          List.map_congr_left (fun el' hel' => (hsameR el' (List.mem_of_mem_take hel')).1)
        rw [hmap]
        simp
      · rw [ht'v, ht1v]
        simp only [List.take_succ_cons, queueVal_cons]
        have hq : queueVal s.heap (rest.take k) = queueVal h (rest.take k) :=
          queueVal_congr (fun el' hel' => (hsameR el' (List.mem_of_mem_take hel')).2)
        rw [hq, elAmount_eq hp hx hd]
        ring
      · intro a ha hat
        rw [hframe' a ha hat]
        exact hframe a ha hat

theorem removeEls_take (lp : Nat) (k : Nat) :
    ∀ (q0 : List Nat) {h : Heap} {prices : List (String × Nat)} {h' : Heap}
      {prices' : List (String × Nat)} {lvl : OrdersBySpecificPrice},
      h.levels[lp]? = some lvl → lvl.orders = q0 → q0.Nodup → k ≤ q0.length →
      removeEls lp (q0.take k) h prices = some (h', prices') →
      h'.levels[lp]? = some { lvl with orders := q0.drop k } ∧
      prices' = (if k = q0.length ∧ 0 < k then mapDelete prices lvl.price.TextG else prices) := by
  induction k with
  | zero =>
    intro q0 h prices h' prices' lvl hl hq _ _ hr
    simp only [List.take_zero, removeEls, Option.some.injEq, Prod.mk.injEq] at hr
    obtain ⟨rfl, rfl⟩ := hr
    refine ⟨?_, by simp⟩
    rw [hl, ← hq]
    simp
  | succ k ih =>
    intro q0 h prices h' prices' lvl hl hq hnd hk hr
    cases q0 with
    | nil => simp at hk
    | cons e q1 =>
      simp only [List.take_succ_cons] at hr
      unfold removeEls at hr
      rw [hl] at hr
      dsimp only at hr
      have herase : lvl.orders.erase e = q1 := by rw [hq]; simp
      rw [herase] at hr
      have hnd1 : q1.Nodup := (List.nodup_cons.mp hnd).2
      have hk1 : k ≤ q1.length := by simpa using hk
      have hlt : lp < h.levels.length := (List.getElem?_eq_some.mp hl).1
      have hl1 : (h.setLevel lp { lvl with orders := q1 }).levels[lp]?
          = some { lvl with orders := q1 } := by
        simp [List.getElem?_set_self hlt]
      obtain ⟨hlev, hp⟩ := ih q1 hl1 rfl hnd1 hk1 hr
      refine ⟨by simpa using hlev, ?_⟩
      rw [hp]
      by_cases hq1 : q1.length = 0
      · have hk0 : k = 0 := by omega
        subst hk0
        simp [hq1]
      · simp only [hq1, if_false]
        have : (k + 1 = (e :: q1).length ∧ 0 < k + 1) ↔ (k = q1.length ∧ 0 < k) := by
          simp only [List.length_cons]
          constructor
          · intro h1; exact ⟨by omega, by omega⟩
          · intro h1; exact ⟨by omega, by omega⟩
        simp only [this]

/-! ## The content of a side under a price string -/

theorem tally_nil (h : Heap) (s : String) : tally h s [] = (0, 0) := rfl

theorem tally_append (h : Heap) (s : String) (es fs : List ExecutionReport) :
    tally h s (es ++ fs) = tally h s es + tally h s fs := by
  simp [tally, List.filter_append]

theorem tally_congr {h h' : Heap} (s : String) {es : List ExecutionReport}
    (hc : ∀ e ∈ es, cellVal h' e.amount = cellVal h e.amount) : tally h' s es = tally h s es := by
  unfold tally
  congr 1
  congr 1
  apply List.map_congr_left
  intro e he
  exact hc e (List.mem_of_mem_filter he)

theorem cellVal_eq {h : Heap} {c : Nat} {d : Decimal} (hd : h.decimals[c]? = some d) :
    cellVal h c = d.val := by
  simp [cellVal, hd]

theorem cellVal_congr {h h' : Heap} {c : Nat} (hc : h'.decimals[c]? = h.decimals[c]?) :
    cellVal h' c = cellVal h c := by
  simp [cellVal, hc]

theorem tally_same_price {h : Heap} {s : String} {id : OrderID} (els : List Nat)
    (hs : ∀ el ∈ els, (reportOf h id el).price.TextG = s ∧
      cellVal h (reportOf h id el).amount = elAmount h el) :
    tally h s (els.map (reportOf h id)) = (els.length, queueVal h els) := by
  induction els with
  | nil => simp [tally, queueVal]
  | cons el rest ih =>
    obtain ⟨h1, h2⟩ := hs el (List.mem_cons_self _ _)
    have ih' := ih (fun e he => hs e (List.mem_cons_of_mem _ he))
    have happ : (el :: rest).map (reportOf h id)
        = [reportOf h id el] ++ rest.map (reportOf h id) := rfl
    rw [happ, tally_append, ih', queueVal_cons]
    simp [tally, h1, h2]
    omega

theorem tally_other_price {h : Heap} {s : String} {es : List ExecutionReport}
    (hs : ∀ e ∈ es, e.price.TextG ≠ s) : tally h s es = (0, 0) := by
  have hf : es.filter (fun e => decide (e.price.TextG = s)) = [] := by
    rw [List.filter_eq_nil_iff]
    intro e he
    simpa using hs e he
  simp [tally, hf]

/-! ## One level taken by whole fills -/

theorem level_whole {o aL lp : Nat} {key : Decimal} {rest : List (Decimal × Nat)} {h : Heap}
    {prices : List (String × Nat)} {n : Nat} {q : QueueResult} {h1 : Heap}
    {prices1 : List (String × Nat)} {ord : Order} {l : OrdersBySpecificPrice}
    (htidy : WalkTidy h o aL prices ((key, lp) :: rest))
    (hord : h.orders[o]? = some ord) (hl : h.levels[lp]? = some l)
    (hq : matchQueue o aL lp l.orders h n [] = some q) (hok : q.err = none)
    (hrem : removeEls lp q.deleteEls q.heap prices = some (h1, prices1))
    (hwhole : ∀ ord', q.heap.orders[o]? = some ord' → ∀ e ∈ ord'.executions, e.amount ≠ aL) :
    ∃ k, 1 ≤ k ∧ k ≤ l.orders.length ∧
      h1.orders[o]? = some { ord with executions :=
        ord.executions ++ (l.orders.take k).map (reportOf h ord.orderID) } ∧
      WalkTidy h1 o aL prices1 rest ∧
      (∀ s, contentD h prices s = contentD h1 prices1 s +
        tally h s ((l.orders.take k).map (reportOf h ord.orderID))) ∧
      (∀ a, a ≠ aL → a ≠ l.totalAmount → h1.decimals[a]? = h.decimals[a]?) ∧
      (∃ t t', h.decimals[l.totalAmount]? = some t ∧ h1.decimals[l.totalAmount]? = some t' ∧
        t'.val = t.val - queueVal h (l.orders.take k) ∧ t.val = queueVal h l.orders) ∧
      (∀ lp', lp' ≠ lp → h1.levels[lp']? = h.levels[lp']?) ∧
      h1.elements = h.elements ∧
      (∀ (p : Nat) (x : Order), h.orders[p]? = some x →
        ∃ x', h1.orders[p]? = some x' ∧ x.Grew x') ∧
      (∀ s v, mapGet prices1 s = some v → mapGet prices s = some v) := by
  obtain ⟨l0, t, hl0, hpl, hnd, ht, htv, hels⟩ := htidy.level (key, lp) (List.mem_cons_self _ _)
  simp only at hl0 hpl hels
  rw [hl] at hl0
  simp only [Option.some.injEq] at hl0
  subst hl0
  obtain ⟨lP, tP, hlP, -, htne, hne, -⟩ := htidy.priced _ _ hpl
  rw [hl] at hlP
  simp only [Option.some.injEq] at hlP
  subst hlP
  have hqw : queueWhole h o aL lp l.orders := by
    intro el hel
    obtain ⟨p, x, d, hp, hpo, hx, hd, hxa, -, halias⟩ := hels el hel
    refine ⟨p, x, d, hp, hpo, hx, hd, hxa, ?_⟩
    intro l' hl' heq
    exact (halias (key, lp) (List.mem_cons_self _ _) l' hl' heq).2 ▸ (by
      rw [hl] at hl'
      simp only [Option.some.injEq] at hl'
      rw [hl'])
  obtain ⟨k, hk1, hk2, -, hdel, hoq, ⟨t', ht', ht'v⟩, hframe⟩ :=
    matchQueue_whole l.orders hq hok hord hl ht htne hqw hwhole
  simp only [List.nil_append] at hdel
  obtain ⟨evq, hlevq⟩ := matchQueue_evolves _ hq
  obtain ⟨hdec1, hord1, hel1, hlen1, hother1, -, hsub1⟩ := removeEls_spec lp _ hrem
  have hlq : q.heap.levels[lp]? = some l := by rw [hlevq]; exact hl
  rw [hdel] at hrem
  obtain ⟨hl1, hp1⟩ := removeEls_take lp k l.orders hlq rfl hnd hk2 hrem
  -- frames from `h` to `h1`
  have hfr : ∀ a, a ≠ aL → a ≠ l.totalAmount → h1.decimals[a]? = h.decimals[a]? := by
    intro a ha hat
    rw [hdec1]
    exact hframe a ha hat
  have hlev : ∀ lp', lp' ≠ lp → h1.levels[lp']? = h.levels[lp']? := by
    intro lp' hne'
    rw [hother1 lp' hne', hlevq]
  have helm : h1.elements = h.elements := by rw [hel1, evq.elements]
  have hgrew : ∀ (p : Nat) (x : Order), h.orders[p]? = some x →
      ∃ x', h1.orders[p]? = some x' ∧ x.Grew x' := by
    intro p x hx
    rw [hord1]
    exact evq.orders p x hx
  have hsub : ∀ s v, mapGet prices1 s = some v → mapGet prices s = some v := by
    intro s v hv
    rw [hp1] at hv
    split at hv
    · exact mapGet_mapDelete_some hv
    · exact hv
  -- the other nodes
  have hrestne : ∀ node ∈ rest, node.2 ≠ lp := by
    intro node hn heq
    have := htidy.nodup
    simp only [List.map_cons, List.nodup_cons] at this
    exact this.1 (heq ▸ List.mem_map_of_mem Prod.snd hn)
  have hprice1 : ∀ s, s ≠ l.price.TextG → mapGet prices1 s = mapGet prices s := by
    intro s hs
    rw [hp1]
    split
    · exact mapGet_mapDelete_ne _ _ _ hs
    · rfl
  have hother : ∀ s lp', mapGet prices s = some lp' → lp' ≠ lp →
      ∃ l' t', h.levels[lp']? = some l' ∧ h1.levels[lp']? = some l' ∧ l'.price.TextG = s ∧
        s ≠ l.price.TextG ∧ l'.totalAmount ≠ aL ∧ l'.orders ≠ [] ∧
        h.decimals[l'.totalAmount]? = some t' ∧ h1.decimals[l'.totalAmount]? = some t' := by
    intro s lp' hs hne'
    obtain ⟨l', t2, hl', hs', hta, hne2, ht2⟩ := htidy.priced s lp' hs
    have hsne : s ≠ l.price.TextG := by
      intro heq
      rw [heq, hpl] at hs
      simp only [Option.some.injEq] at hs
      exact hne' hs.symm
    have htt : l'.totalAmount ≠ l.totalAmount := by
      intro heq
      exact hne' (htidy.totals s l.price.TextG lp' lp l' l hs hpl hl' hl heq)
    refine ⟨l', t2, hl', by rw [hlev lp' hne']; exact hl', hs', hsne, hta, hne2, ht2, ?_⟩
    rw [hfr _ hta htt]
    exact ht2
  have hrep : ∀ el ∈ l.orders, (reportOf h ord.orderID el).price.TextG = l.price.TextG ∧
      cellVal h (reportOf h ord.orderID el).amount = elAmount h el := by
    intro el hel
    obtain ⟨p, x, d, hp, -, hx, hd, -, hpx, -⟩ := hels el hel
    rw [reportOf_eq _ hp hx, elAmount_eq hp hx hd]
    exact ⟨hpx, cellVal_eq hd⟩
  refine ⟨k, hk1, hk2, by rw [hord1]; exact hoq, ?_, ?_, hfr,
    ⟨t, t', ht, by rw [hdec1]; exact ht', ht'v, htv⟩, hlev, helm, hgrew, hsub⟩
  · -- the invariant for the rest of the walk
    constructor
    · have := htidy.nodup
      simp only [List.map_cons, List.nodup_cons] at this
      exact this.2
    · intro node hn
      obtain ⟨l', t2, hl', hpl', hnd', ht2, ht2v, hels'⟩ :=
        htidy.level node (List.mem_cons_of_mem _ hn)
      have hne' := hrestne node hn
      obtain ⟨l'', t3, hl'', hl1'', hs'', hsne, hta, hne2, ht3, ht31⟩ :=
        hother _ _ hpl' hne'
      have helq : ∀ el ∈ l'.orders, ∃ p x x' d, h.elements[el]? = some p ∧
          h.orders[p]? = some x ∧ h1.orders[p]? = some x' ∧ x.Grew x' ∧
          h.decimals[x.amount]? = some d ∧ h1.decimals[x.amount]? = some d := by
        intro el hel
        obtain ⟨p, x, d, hp, hpo, hx, hd, hxa, hpx, halias⟩ := hels' el hel
        obtain ⟨x', hx', hg⟩ := hgrew p x hx
        refine ⟨p, x, x', d, hp, hx, hx', hg, hd, ?_⟩
        rw [hfr _ hxa]
        · exact hd
        · intro heq
          exact hne' (halias (key, lp) (List.mem_cons_self _ _) l hl heq).1.symm
      rw [hl'] at hl''
      simp only [Option.some.injEq] at hl''
      subst hl''
      rw [ht2] at ht3
      simp only [Option.some.injEq] at ht3
      subst ht3
      refine ⟨l', t2, hl1'', ?_, hnd', ht31, ?_, ?_⟩
      · rw [hprice1 _ hsne]
        exact hpl'
      · rw [ht2v]
        symm
        apply queueVal_congr
        intro el hel
        obtain ⟨p, x, x', d, hp, hx, hx', hg, hd, hd1⟩ := helq el hel
        rw [elAmount_eq (by rw [helm]; exact hp) hx' (by rw [hg.2.2.1]; exact hd1),
          elAmount_eq hp hx hd]
      · intro el hel
        obtain ⟨p, x, d, hp, hpo, hx, hd, hxa, hpx, halias⟩ := hels' el hel
        obtain ⟨p2, x2, x', d2, hp2, hx2, hx', hg, hd2, hd1⟩ := helq el hel
        rw [hp] at hp2
        simp only [Option.some.injEq] at hp2
        subst hp2
        rw [hx] at hx2
        simp only [Option.some.injEq] at hx2
        subst hx2
        refine ⟨p, x', d2, by rw [helm]; exact hp, hpo, hx', by rw [hg.2.2.1]; exact hd1,
          by rw [hg.2.2.1]; exact hxa, by rw [hg.2.2.2.1]; exact hpx, ?_⟩
        intro node' hn' l3 hl3 heq
        rw [hlev _ (hrestne node' hn')] at hl3
        rw [hg.2.2.1] at heq
        exact halias node' (List.mem_cons_of_mem _ hn') l3 hl3 heq
    · intro s lp' hs
      have hs0 := hsub s lp' hs
      by_cases hlp : lp' = lp
      · subst hlp
        obtain ⟨l', t2, hl', hs', hta, hne2, ht2⟩ := htidy.priced s lp' hs0
        rw [hl] at hl'
        simp only [Option.some.injEq] at hl'
        subst hl'
        have hkl : ¬ (k = l.orders.length ∧ 0 < k) := by
          intro hk
          rw [hp1, if_pos hk, ← hs', mapGet_mapDelete_self] at hs
          simp at hs
        have hklt : k < l.orders.length := by omega
        refine ⟨_, t', hl1, hs', hta, ?_, by rw [hdec1]; exact ht'⟩
        intro hnil
        have := congrArg List.length hnil
        simp at this
        omega
      · obtain ⟨l', t2, hl', hl1', hs', -, hta, hne2, -, ht21⟩ := hother s lp' hs0 hlp
        exact ⟨l', t2, hl1', hs', hta, hne2, ht21⟩
    · intro s s' lp2 lp3 l2 l3 hs hs' hl2 hl3 heq
      have hs0 := hsub s lp2 hs
      have hs0' := hsub s' lp3 hs'
      have key1 : ∀ (lpx : Nat) (lx : OrdersBySpecificPrice), h1.levels[lpx]? = some lx →
          ∃ lx0, h.levels[lpx]? = some lx0 ∧ lx0.totalAmount = lx.totalAmount := by
        intro lpx lx hlx
        by_cases hlp : lpx = lp
        · subst hlp
          rw [hl1] at hlx
          simp only [Option.some.injEq] at hlx
          subst hlx
          exact ⟨l, hl, rfl⟩
        · rw [hlev _ hlp] at hlx
          exact ⟨lx, hlx, rfl⟩
      obtain ⟨l20, hl20, ht20⟩ := key1 lp2 l2 hl2
      obtain ⟨l30, hl30, ht30⟩ := key1 lp3 l3 hl3
      exact htidy.totals s s' lp2 lp3 l20 l30 hs0 hs0' hl20 hl30 (by rw [ht20, ht30, heq])
  · -- the content under each price string
    intro s
    by_cases hs : s = l.price.TextG
    · subst hs
      rw [tally_same_price _ (fun el hel => hrep el (List.mem_of_mem_take hel))]
      have hc0 : contentD h prices l.price.TextG = (l.orders.length, t.val) := by
        simp [contentD, hpl, hl, cellVal_eq ht]
      rw [hc0]
      by_cases hkl : k = l.orders.length
      · have hc1 : contentD h1 prices1 l.price.TextG = (0, 0) := by
          rw [hp1, if_pos ⟨hkl, by omega⟩]
          simp [contentD, mapGet_mapDelete_self]
        rw [hc1, hkl, List.take_length, htv]
        simp
      · have ht1 : h1.decimals[l.totalAmount]? = some t' := by rw [hdec1]; exact ht'
        have hc1 : contentD h1 prices1 l.price.TextG = (l.orders.length - k, t'.val) := by
          rw [hp1, if_neg (fun hk => hkl hk.1)]
          simp [contentD, hpl, hl1, cellVal_eq ht1]
        rw [hc1, ht'v]
        simp only [List.length_take, Prod.mk_add_mk, Prod.mk.injEq]
        constructor
        · omega
        · ring
    · rw [tally_other_price (by
        intro e he
        obtain ⟨el, hel, rfl⟩ := List.mem_map.mp he
        rw [(hrep el (List.mem_of_mem_take hel)).1]
        exact fun heq => hs heq.symm)]
      have hz : ((0, 0) : Nat × ℚ) = 0 := rfl
      rw [hz, add_zero]
      unfold contentD
      rw [hprice1 s hs]
      cases hg : mapGet prices s with
      | none => rfl
      | some lp' =>
        have hlp : lp' ≠ lp := by
          intro heq
          subst heq
          obtain ⟨l', t2, hl', hs', -⟩ := htidy.priced s lp' hg
          rw [hl] at hl'
          simp only [Option.some.injEq] at hl'
          subst hl'
          exact hs hs'.symm
        obtain ⟨l', t2, hl', hl1', -, -, -, -, ht2, ht21⟩ := hother s lp' hg hlp
        simp only [hl', hl1', cellVal_eq ht2, cellVal_eq ht21]

/-! ## A walk that takes orders whole -/

theorem mem_restingOrder {h : Heap} {el : Nat} (nodes : List (Decimal × Nat)) :
    el ∈ restingOrder h nodes →
      ∃ node ∈ nodes, ∃ l, h.levels[node.2]? = some l ∧ el ∈ l.orders := by
  induction nodes with
  | nil => intro hel; simp [restingOrder] at hel
  | cons node rest ih =>
    intro hel
    simp only [restingOrder, List.mem_append] at hel
    rcases hel with hel | hel
    · unfold queueOf at hel
      cases hl : h.levels[node.2]? with
      | none => rw [hl] at hel; simp at hel
      | some l =>
        rw [hl] at hel
        exact ⟨node, List.mem_cons_self _ _, l, hl, hel⟩
    · obtain ⟨node', hn', l, hl, hmem⟩ := ih hel
      exact ⟨node', List.mem_cons_of_mem _ hn', l, hl, hmem⟩

theorem walkTidy_done {h : Heap} {o aL : Nat} {prices : List (String × Nat)}
    {nodes : List (Decimal × Nat)} (ht : WalkTidy h o aL prices nodes) :
    WalkTidy h o aL prices [] :=
  ⟨by simp, by intro node hn; simp at hn, ht.priced, ht.totals⟩

theorem walkLevels_content {sideType : OperationType} {o aL : Nat}
    (nodes : List (Decimal × Nat)) :
    ∀ {h : Heap} {prices : List (String × Nat)} {n : Nat} {dtn : List Decimal} {w : WalkResult}
      {ord : Order},
      walkLevels sideType o aL nodes h prices n dtn = some w → w.err = none →
      h.orders[o]? = some ord → WalkTidy h o aL prices nodes →
      cellVal w.heap aL = 0 →
      (∀ ord', w.heap.orders[o]? = some ord' →
        ∀ e ∈ ord'.executions, cellVal w.heap e.amount ≠ 0) →
      ∃ els : List Nat, els.Sublist (restingOrder h nodes) ∧
        w.heap.orders[o]? = some { ord with executions :=
          ord.executions ++ (els.map (reportOf h ord.orderID)) } ∧
        (∀ s, contentD h prices s = contentD w.heap w.prices s +
          tally h s (els.map (reportOf h ord.orderID))) ∧
        (∀ el ∈ els, w.heap.decimals[(reportOf h ord.orderID el).amount]?
          = h.decimals[(reportOf h ord.orderID el).amount]?) ∧
        (∀ a, a ≠ aL → (∀ node ∈ nodes, ∀ l, h.levels[node.2]? = some l → a ≠ l.totalAmount) →
          w.heap.decimals[a]? = h.decimals[a]?) ∧
        WalkTidy w.heap o aL w.prices [] ∧
        (∀ s lp, mapGet w.prices s = some lp → mapGet prices s = some lp) := by
  have hbase : ∀ {h : Heap} {prices : List (String × Nat)} {n : Nat} {dtn : List Decimal}
      {ord : Order} {nodes : List (Decimal × Nat)} {w : WalkResult},
      w = ⟨h, prices, n, dtn, none⟩ → h.orders[o]? = some ord → WalkTidy h o aL prices nodes →
      ∃ els : List Nat, els.Sublist (restingOrder h nodes) ∧
        w.heap.orders[o]? = some { ord with executions :=
          ord.executions ++ (els.map (reportOf h ord.orderID)) } ∧
        (∀ s, contentD h prices s = contentD w.heap w.prices s +
          tally h s (els.map (reportOf h ord.orderID))) ∧
        (∀ el ∈ els, w.heap.decimals[(reportOf h ord.orderID el).amount]?
          = h.decimals[(reportOf h ord.orderID el).amount]?) ∧
        (∀ a, a ≠ aL → (∀ node ∈ nodes, ∀ l, h.levels[node.2]? = some l → a ≠ l.totalAmount) →
          w.heap.decimals[a]? = h.decimals[a]?) ∧
        WalkTidy w.heap o aL w.prices [] ∧
        (∀ s lp, mapGet w.prices s = some lp → mapGet prices s = some lp) := by
    intro h prices n dtn ord nodes w hw hord htidy
    subst hw
    refine ⟨[], List.nil_sublist _, by simpa using hord, ?_, by simp, fun _ _ _ => rfl,
      walkTidy_done htidy, fun _ _ hs => hs⟩
    intro s
    have hz : ((0, 0) : Nat × ℚ) = 0 := rfl
    simp [tally_nil, hz]
  induction nodes with
  | nil =>
    intro h prices n dtn w ord hw _ hord htidy _ _
    simp only [walkLevels, Option.some.injEq] at hw
    exact hbase hw.symm hord htidy
  | cons node rest ih =>
    obtain ⟨key, lp⟩ := node
    intro h prices n dtn w ord hw hwok hord htidy hzero hfinal
    obtain ⟨left0, -, hcase⟩ := walkLevels_cons_inv hw
    rcases hcase with ⟨-, hres⟩ | ⟨-, l, ord0, hl, hord0, hcase⟩
    · exact hbase hres hord htidy
    rcases hcase with ⟨-, hres⟩ | ⟨-, q, hq, hcase⟩
    · exact hbase hres hord htidy
    rcases hcase with ⟨e, -, hres⟩ | ⟨hqok, h1, prices1, hrem, hrec⟩
    · rw [hres] at hwok; simp at hwok
    obtain ⟨ev1, -⟩ := walkLevels_evolves _ hrec
    have hord1q := (removeEls_spec lp _ hrem).2.1
    have hne_aL : ∀ ord', w.heap.orders[o]? = some ord' → ∀ e ∈ ord'.executions,
        e.amount ≠ aL := by
      intro ord' hord' e he heq
      exact hfinal ord' hord' e he (by rw [heq]; exact hzero)
    have hwhole : ∀ ord', q.heap.orders[o]? = some ord' → ∀ e ∈ ord'.executions,
        e.amount ≠ aL := by
      intro ord' hord' e he
      rw [← hord1q] at hord'
      obtain ⟨ord'', hord'', hg⟩ := ev1.orders o ord' hord'
      exact hne_aL ord'' hord'' e (hg.2.2.2.2.subset he)
    obtain ⟨k, hk1, hk2, ho1, htidy1, hcont, hfr, ⟨t, t', ht, ht1, ht'v, htv⟩, hlev, helm,
      hgrew, hsub⟩ := level_whole htidy hord hl hq hqok hrem hwhole
    obtain ⟨els', hsl', ho', hcont', hcells', hframe', htidy', hsub'⟩ :=
      ih hrec hwok ho1 htidy1 hzero hfinal
    have hrestne : ∀ node ∈ rest, node.2 ≠ lp := by
      intro node hn heq
      have := htidy.nodup
      simp only [List.map_cons, List.nodup_cons] at this
      exact this.1 (heq ▸ List.mem_map_of_mem Prod.snd hn)
    have hro : restingOrder h1 rest = restingOrder h rest :=
      restingOrder_congr rest (fun node hn => hlev _ (hrestne node hn))
    -- the elements of the later levels: same report, same cell
    have hlater : ∀ el ∈ restingOrder h rest,
        reportOf h1 ord.orderID el = reportOf h ord.orderID el ∧
        h1.decimals[(reportOf h ord.orderID el).amount]?
          = h.decimals[(reportOf h ord.orderID el).amount]? := by
      intro el hel
      obtain ⟨node', hn', l', hl', hmem⟩ := mem_restingOrder rest hel
      obtain ⟨l2, t2, hl2, -, -, -, -, hels2⟩ := htidy.level node' (List.mem_cons_of_mem _ hn')
      rw [hl'] at hl2
      simp only [Option.some.injEq] at hl2
      subst hl2
      obtain ⟨p, x, d, hp, -, hx, hd, hxa, -, halias⟩ := hels2 el hmem
      obtain ⟨x', hx', hg⟩ := hgrew p x hx
      rw [reportOf_eq _ (by rw [helm]; exact hp) hx', reportOf_eq _ hp hx, hg.1, hg.2.2.1,
        hg.2.2.2.1]
      refine ⟨rfl, hfr _ hxa ?_⟩
      intro heq
      exact hrestne node' hn' (halias (key, lp) (List.mem_cons_self _ _) l hl heq).1.symm
    have hmapeq : els'.map (reportOf h1 ord.orderID) = els'.map (reportOf h ord.orderID) :=
      List.map_congr_left (fun el hel => (hlater el (hro ▸ hsl'.subset hel)).1)
    have hofin : w.heap.orders[o]? = some { ord with executions :=
        ord.executions ++ (l.orders.take k ++ els').map (reportOf h ord.orderID) } := by
      rw [ho']
      simp only [hmapeq, List.map_append, List.append_assoc]
    -- the totals of the later levels are other cells
    have htot_rest : ∀ node ∈ rest, ∀ l', h1.levels[node.2]? = some l' →
        l.totalAmount ≠ l'.totalAmount := by
      intro node hn l' hl' heq
      rw [hlev _ (hrestne node hn)] at hl'
      obtain ⟨l2, t2, hl2, hpl2, -⟩ := htidy.level node (List.mem_cons_of_mem _ hn)
      rw [hl'] at hl2
      simp only [Option.some.injEq] at hl2
      subst hl2
      obtain ⟨l3, t3, hl3, hpl3, -⟩ := htidy.level (key, lp) (List.mem_cons_self _ _)
      simp only at hl3 hpl3
      rw [hl] at hl3
      simp only [Option.some.injEq] at hl3
      subst hl3
      exact hrestne node hn
        (htidy.totals _ _ _ _ _ _ hpl3 hpl2 hl hl' heq).symm
    have htne' : l.totalAmount ≠ aL := by
      obtain ⟨l3, t3, hl3, hpl3, -⟩ := htidy.level (key, lp) (List.mem_cons_self _ _)
      simp only at hl3 hpl3
      rw [hl] at hl3
      simp only [Option.some.injEq] at hl3
      subst hl3
      obtain ⟨l4, t4, hl4, -, htne4, -, -⟩ := htidy.priced _ _ hpl3
      rw [hl] at hl4
      simp only [Option.some.injEq] at hl4
      subst hl4
      exact htne4
    -- the cells of the orders taken from this level
    have hnow : ∀ el ∈ l.orders.take k,
        w.heap.decimals[(reportOf h ord.orderID el).amount]?
          = h.decimals[(reportOf h ord.orderID el).amount]? := by
      intro el hel
      obtain ⟨l2, t2, hl2, -, -, ht2, -, hels2⟩ := htidy.level (key, lp) (List.mem_cons_self _ _)
      simp only at hl2 hels2
      rw [hl] at hl2
      simp only [Option.some.injEq] at hl2
      subst hl2
      obtain ⟨p, x, d, hp, -, hx, hd, hxa, -, halias⟩ := hels2 el (List.mem_of_mem_take hel)
      rw [reportOf_eq _ hp hx]
      have hnot : x.amount ≠ l.totalAmount := by
        intro heq
        have hone := (halias (key, lp) (List.mem_cons_self _ _) l hl heq).2
        have hk : l.orders.take k = l.orders := by
          rw [hone]
          cases k with
          | zero => omega
          | succ k => simp
        have hz : t'.val = 0 := by rw [ht'v, hk, htv]; ring
        have hw0 : w.heap.decimals[l.totalAmount]? = some t' := by
          rw [hframe' _ htne' (fun node hn l' hl' => htot_rest node hn l' hl')]
          exact ht1
        have hmem : (reportOf h ord.orderID el) ∈ ord.executions ++
            (l.orders.take k ++ els').map (reportOf h ord.orderID) := by
          apply List.mem_append_right
          exact List.mem_map_of_mem _ (List.mem_append_left _ hel)
        have := hfinal _ hofin _ hmem
        rw [reportOf_eq _ hp hx] at this
        simp only at this
        rw [heq, cellVal_eq hw0] at this
        exact this hz
      rw [hframe' _ hxa, hfr _ hxa hnot]
      intro node hn l' hl' heq
      rw [hlev _ (hrestne node hn)] at hl'
      exact hrestne node hn
        (halias node (List.mem_cons_of_mem _ hn) l' hl' heq).1
    refine ⟨l.orders.take k ++ els', ?_, hofin, ?_, ?_, ?_, htidy', ?_⟩
    · simp only [restingOrder]
      have hqo : queueOf h lp = l.orders := by simp [queueOf, hl]
      rw [hqo]
      exact List.Sublist.append (List.take_sublist _ _) (hro ▸ hsl')
    · intro s
      rw [hcont s, hcont' s, List.map_append, tally_append]
      have htl : tally h1 s (els'.map (reportOf h1 ord.orderID))
          = tally h s (els'.map (reportOf h ord.orderID)) := by
        rw [hmapeq]
        apply tally_congr
        intro e he
        obtain ⟨el, hel, rfl⟩ := List.mem_map.mp he
        exact cellVal_congr (hlater el (hro ▸ hsl'.subset hel)).2
      simp only at htl
      rw [htl]
      abel
    · intro el hel
      rcases List.mem_append.mp hel with hel | hel
      · exact hnow el hel
      · have h2 := hlater el (hro ▸ hsl'.subset hel)
        have h3 := hcells' el hel
        simp only at h3
        rw [h2.1] at h3
        rw [h3, h2.2]
    · intro a ha hat
      rw [hframe' a ha, hfr a ha (hat (key, lp) (List.mem_cons_self _ _) l hl)]
      intro node hn l' hl'
      rw [hlev _ (hrestne node hn)] at hl'
      exact hat node (List.mem_cons_of_mem _ hn) l' hl'
    · intro s lp' hs
      exact hsub s lp' (hsub' s lp' hs)

/-! ## An order that meets no price rests -/

theorem opposite_opposite (t : OperationType) : t.opposite.opposite = t := by
  cases t <;> rfl

theorem setSide_side (ob : OrderBook) (t : OperationType) : ob.setSide t (ob.side t) = ob := by
  unfold OrderBook.setSide OrderBook.side
  by_cases ht : t = .Ask <;> simp [ht]

theorem ExecuteOrder_apart {h : Heap} {os : OrderSide} {o : Nat} {ord : Order} {a : Decimal}
    (ho : h.orders[o]? = some ord) (ha : h.decimals[ord.amount]? = some a)
    (hhead : ∀ node, (walkOrder os).head? = some node →
      ∃ l, h.levels[node.2]? = some l ∧ ¬ crosses os.sideType ord.price l.price) :
    ExecuteOrder h os o
      = some ((h.newDecimal a).1, os, ⟨some h.decimals.length, 0, none⟩) := by
  have hside : ({ os with priceTree := os.priceTree, prices := os.prices } : OrderSide) = os := by
    cases os; rfl
  unfold ExecuteOrder
  rw [ho]
  simp only [ha]
  have hwalk : walkLevels os.sideType o h.decimals.length
      (if os.sideType = .Ask then os.priceTree else os.priceTree.reverse)
      (h.newDecimal a).1 os.prices 0 []
      = some ⟨(h.newDecimal a).1, os.prices, 0, [], none⟩ := by
    have hnodes : (if os.sideType = .Ask then os.priceTree else os.priceTree.reverse)
        = walkOrder os := rfl
    rw [hnodes]
    cases hn : walkOrder os with
    | nil => rfl
    | cons node rest =>
      obtain ⟨key, lp⟩ := node
      obtain ⟨l, hl, hnc⟩ := hhead (key, lp) (by rw [hn]; rfl)
      have haL : (h.newDecimal a).1.decimals[h.decimals.length]? = some a := by
        simp [Heap.newDecimal]
      have hl0 : (h.newDecimal a).1.levels[lp]? = some l := by
        simpa [Heap.newDecimal] using hl
      have ho0 : (h.newDecimal a).1.orders[o]? = some ord := by
        simpa [Heap.newDecimal] using ho
      unfold walkLevels
      rw [haL]
      simp only
      by_cases hz : a.IsZero = true
      · simp [hz]
      · simp only [hz, hl0, ho0]
        unfold crosses at hnc
        simp only [not_not] at hnc
        simp [hnc]
  have hpair : (h.newDecimal a) = ((h.newDecimal a).1, h.decimals.length) := rfl
  rw [hpair]
  simp only [hwalk, List.foldl_nil, hside]

theorem AddOrder_some {h : Heap} {os : OrderSide} {o : Nat} {ord : Order} {a : Decimal}
    (ho : h.orders[o]? = some ord) (ha : h.decimals[ord.amount]? = some a)
    (hp : Priced h os.prices) :
    ∃ h' os' el err, AddOrder h os o = some (h', os', el, err) ∧
      (err = none → ∃ e, el = some e) := by
  unfold AddOrder
  rw [ho]
  simp only
  cases hg : mapGet os.prices ord.price.TextG with
  | none => exact ⟨_, _, _, _, rfl, fun _ => ⟨_, rfl⟩⟩
  | some lp =>
    obtain ⟨l, t, hl, -, ht⟩ := hp _ _ hg
    simp only
    unfold AddAmount
    rw [hl]
    simp only [ht, ha]
    cases hadd : Decimal.Add t a with
    | error e => exact ⟨_, _, _, _, rfl, fun he => by simp at he⟩
    | ok s =>
      have hlt : lp < h.levels.length := (List.getElem?_eq_some.mp hl).1
      simp only [Heap.newDecimal, Heap.setLevel, List.getElem?_set_self hlt]
      exact ⟨_, _, _, _, rfl, fun _ => ⟨_, rfl⟩⟩

theorem AddOrder_content {h : Heap} {os : OrderSide} {o : Nat} {h' : Heap} {os' : OrderSide}
    {el : Nat} {ord : Order} {a : Decimal}
    (hadd : AddOrder h os o = some (h', os', some el, none))
    (ho : h.orders[o]? = some ord) (ha : h.decimals[ord.amount]? = some a)
    (hp : Priced h os.prices) :
    Priced h' os'.prices ∧
    (∀ s, contentD h' os'.prices s
      = contentD h os.prices s + (if ord.price.TextG = s then (1, a.val) else 0)) ∧
    h.decimals <+: h'.decimals ∧ h'.orders = h.orders ∧ h.levels.length ≤ h'.levels.length ∧
    (∀ lp, lp < h.levels.length → (∀ s, mapGet os.prices s ≠ some lp) →
      h'.levels[lp]? = h.levels[lp]? ∧ ∀ s, mapGet os'.prices s ≠ some lp) := by
  obtain ⟨ord0, ho0, hel, helems, hords, hcase⟩ := AddOrder_ok hadd
  rw [ho] at ho0
  simp only [Option.some.injEq] at ho0
  subst ho0
  rcases hcase with ⟨lp, lvl, total, a0, s0, hg, hos, hl, ht, ha0, hsum, hlev, hdec⟩ |
    ⟨hg, hos, hlev, hdec⟩
  · -- the level exists: the order joins its queue
    rw [ha] at ha0
    simp only [Option.some.injEq] at ha0
    subst ha0
    subst hos
    have hlt : lp < h.levels.length := (List.getElem?_eq_some.mp hl).1
    have hl' : h'.levels[lp]? = some ⟨lvl.price, h.decimals.length, lvl.orders ++ [el]⟩ := by
      rw [hlev]
      exact List.getElem?_set_self hlt
    have hlo : ∀ lp', lp' ≠ lp → h'.levels[lp']? = h.levels[lp']? := by
      intro lp' hne
      rw [hlev]
      exact List.getElem?_set_ne (Ne.symm hne)
    have hpre : h.decimals <+: h'.decimals := by rw [hdec]; exact List.prefix_append _ _
    have hcell : ∀ (c : Nat) (d : Decimal), h.decimals[c]? = some d →
        h'.decimals[c]? = some d := by
      intro c d hc
      rw [hdec]
      rw [List.getElem?_append_left (List.getElem?_eq_some.mp hc).1]
      exact hc
    have hnew : h'.decimals[h.decimals.length]? = some s0 := by
      rw [hdec]
      simp
    obtain ⟨lP, tP, hlP, hsP, -⟩ := hp _ _ hg
    rw [hl] at hlP
    simp only [Option.some.injEq] at hlP
    subst hlP
    refine ⟨?_, ?_, hpre, hords, by rw [hlev]; simp, ?_⟩
    · intro s lp' hs
      by_cases hlp : lp' = lp
      · subst hlp
        obtain ⟨l2, t2, hl2, hs2, -⟩ := hp s lp' hs
        rw [hl] at hl2
        simp only [Option.some.injEq] at hl2
        subst hl2
        exact ⟨_, s0, hl', hs2, hnew⟩
      · obtain ⟨l2, t2, hl2, hs2, ht2⟩ := hp s lp' hs
        exact ⟨l2, t2, by rw [hlo _ hlp]; exact hl2, hs2, hcell _ _ ht2⟩
    · intro s
      by_cases hs : ord.price.TextG = s
      · subst hs
        rw [if_pos rfl]
        simp only [contentD, hg, hl', hl, cellVal_eq hnew, cellVal_eq ht,
          Decimal.Add_val hsum, List.length_append, List.length_singleton, Prod.mk_add_mk]
      · rw [if_neg hs, add_zero]
        unfold contentD
        cases hgs : mapGet os'.prices s with
        | none => rfl
        | some lp' =>
          obtain ⟨l2, t2, hl2, hs2, ht2⟩ := hp s lp' hgs
          have hlp : lp' ≠ lp := by
            intro heq
            subst heq
            rw [hl] at hl2
            simp only [Option.some.injEq] at hl2
            subst hl2
            exact hs (hsP ▸ hs2)
          simp only [hlo _ hlp, hl2, cellVal_eq ht2, cellVal_eq (hcell _ _ ht2)]
    · intro lp' hlt' hno
      refine ⟨hlo lp' ?_, hno⟩
      intro heq
      subst heq
      exact hno _ hg
  · -- a new level
    subst hos
    have hpre : h.decimals <+: h'.decimals := by rw [hdec]
    have hl' : h'.levels[h.levels.length]? = some ⟨ord.price, ord.amount, [el]⟩ := by
      rw [hlev]
      simp
    have hlo : ∀ lp', lp' < h.levels.length → h'.levels[lp']? = h.levels[lp']? := by
      intro lp' hlt'
      rw [hlev]
      exact List.getElem?_append_left hlt'
    refine ⟨?_, ?_, hpre, hords, by rw [hlev]; simp, ?_⟩
    · intro s lp' hs
      simp only at hs
      by_cases hk : s = ord.price.TextG
      · subst hk
        rw [mapGet_mapSet_self] at hs
        simp only [Option.some.injEq] at hs
        subst hs
        exact ⟨_, a, hl', rfl, by rw [hdec]; exact ha⟩
      · rw [mapGet_mapSet_ne _ _ _ _ hk] at hs
        obtain ⟨l2, t2, hl2, hs2, ht2⟩ := hp s lp' hs
        have hlt' : lp' < h.levels.length := (List.getElem?_eq_some.mp hl2).1
        exact ⟨l2, t2, by rw [hlo _ hlt']; exact hl2, hs2, by rw [hdec]; exact ht2⟩
    · intro s
      simp only
      by_cases hk : ord.price.TextG = s
      · subst hk
        rw [if_pos rfl]
        have hha : h'.decimals[ord.amount]? = some a := by rw [hdec]; exact ha
        simp only [contentD, mapGet_mapSet_self, hl', hg, cellVal_eq hha, List.length_singleton,
          Prod.mk_add_mk, zero_add]
      · rw [if_neg hk, add_zero]
        unfold contentD
        rw [mapGet_mapSet_ne _ _ _ _ (fun heq => hk heq.symm)]
        cases hgs : mapGet os.prices s with
        | none => rfl
        | some lp' =>
          obtain ⟨l2, t2, hl2, hs2, ht2⟩ := hp s lp' hgs
          have hlt' : lp' < h.levels.length := (List.getElem?_eq_some.mp hl2).1
          simp only [hlo _ hlt', hl2, cellVal, hdec]
    · intro lp' hlt' hno
      refine ⟨hlo lp' hlt', ?_⟩
      intro s hs
      simp only at hs
      by_cases hk : s = ord.price.TextG
      · subst hk
        rw [mapGet_mapSet_self] at hs
        simp only [Option.some.injEq] at hs
        omega
      · rw [mapGet_mapSet_ne _ _ _ _ hk] at hs
        exact hno s hs

theorem priced_newDecimal {h : Heap} {prices : List (String × Nat)} (hp : Priced h prices)
    (a : Decimal) : Priced (h.newDecimal a).1 prices := by
  intro s lp hs
  obtain ⟨l, t, hl, hs', ht⟩ := hp s lp hs
  exact ⟨l, t, by simpa [Heap.newDecimal] using hl, hs', newDecimal_getElem a ht⟩

theorem limitOrder_apart {h : Heap} {ob : OrderBook} {o : Nat} {ord : Order} {a : Decimal}
    (ho : h.orders[o]? = some ord) (hex : ord.executions = [])
    (ha : h.decimals[ord.amount]? = some a) (hnz : a.IsZero = false)
    (hlive : mapGet ob.Orders ord.orderID = none)
    (hhead : ∀ node, (walkOrder (ob.side ord.operationType.opposite)).head? = some node →
      ∃ l, h.levels[node.2]? = some l ∧
        ¬ crosses (ob.side ord.operationType.opposite).sideType ord.price l.price)
    (hp : Priced h (ob.side ord.operationType).prices) :
    ∃ h' ob' rep, limitOrder h ob o = some (h', ob', rep) ∧
      (rep.err = none → ∃ add el,
        AddOrder (h.newDecimal a).1 (ob.side ord.operationType) o
          = some (h', add, some el, none) ∧
        ob' = { ob.setSide ord.operationType add with
                  Orders := mapSet ob.Orders ord.orderID el,
                  OrdersDone := mapSet ob.OrdersDone ord.orderID o }) := by
  have hexec := ExecuteOrder_apart ho ha hhead
  have ho0 : (h.newDecimal a).1.orders[o]? = some ord := by
    simpa [Heap.newDecimal] using ho
  have ha0 : (h.newDecimal a).1.decimals[ord.amount]? = some a := newDecimal_getElem a ha
  have haL : (h.newDecimal a).1.decimals[h.decimals.length]? = some a := by
    simp [Heap.newDecimal]
  obtain ⟨h', os', el, err, hadd, hel⟩ := AddOrder_some ho0 ha0 (priced_newDecimal hp a)
  have hside : ∀ m : List (OrderID × Nat),
      ({ ob.setSide ord.operationType.opposite (ob.side ord.operationType.opposite)
          with Orders := m } : OrderBook).side ord.operationType
        = ob.side ord.operationType := by
    intro m
    rw [setSide_side]
    rfl
  unfold limitOrder
  rw [ho]
  simp only [hlive, hexec, ho0, haL, hnz, hside, Nat.lt_irrefl, gt_iff_lt, if_false,
    Bool.false_eq_true, hadd]
  cases err with
  | some e =>
    refine ⟨_, _, _, rfl, ?_⟩
    intro he
    simp at he
  | none =>
    obtain ⟨e, he⟩ := hel rfl
    subst he
    refine ⟨_, _, _, rfl, ?_⟩
    intro _
    refine ⟨os', e, rfl, ?_⟩
    simp [setSide_side, deleteExecutors, hex]

/-! ## The replay loop of `Rollback` -/

theorem grows_getElem {α : Type} {l1 l2 : List α} (hp : l1 <+: l2) {i : Nat} {x : α}
    (hx : l1[i]? = some x) : l2[i]? = some x := by
  obtain ⟨t, rfl⟩ := hp
  rw [List.getElem?_append_left (List.getElem?_eq_some.mp hx).1]
  exact hx

theorem contentD_congr {h : Heap} (h' : Heap) {prices : List (String × Nat)}
    (hp : Priced h prices)
    (hl : h'.levels = h.levels) (hd : h.decimals <+: h'.decimals) (s : String) :
    contentD h' prices s = contentD h prices s := by
  unfold contentD
  cases hg : mapGet prices s with
  | none => rfl
  | some lp =>
    obtain ⟨l, t, hl0, -, ht⟩ := hp s lp hg
    simp only [hl, hl0, cellVal_eq ht, cellVal_eq (grows_getElem hd ht)]

theorem tally_cons (h : Heap) (s : String) (e : ExecutionReport) (es : List ExecutionReport) :
    tally h s (e :: es)
      = (if e.price.TextG = s then (1, cellVal h e.amount) else 0) + tally h s es := by
  have happ : e :: es = [e] ++ es := rfl
  rw [happ, tally_append]
  congr 1
  by_cases hs : e.price.TextG = s
  · simp [tally, hs]
  · simp [tally, hs]

theorem replay_whole (t : OperationType) (W : OrderSide) (hb : Heap) (keep : Nat → Prop) :
    ∀ (es : List ExecutionReport) {h : Heap} {ob : OrderBook},
      ReplayReady t W hb keep h ob es →
      ∃ h2 ob2 e, replay t.opposite es h ob = some (h2, ob2, e) ∧
        (e = none →
          (∀ s, contentD h2 (ob2.side t.opposite).prices s
            = contentD h (ob.side t.opposite).prices s + tally hb s es) ∧
          ob2.side t = W ∧ hb.decimals <+: h2.decimals ∧
          ∀ lp, keep lp → h2.levels[lp]? = hb.levels[lp]?) := by
  intro es
  induction es with
  | nil =>
    intro h ob hr
    refine ⟨h, ob, none, rfl, fun _ => ⟨?_, hr.own, hr.grows, ?_⟩⟩
    · intro s
      rw [tally_nil]
      have hz : ((0, 0) : Nat × ℚ) = 0 := rfl
      rw [hz, add_zero]
    · intro lp hlp
      exact (hr.kept lp hlp).2.1
  | cons oe rest ih =>
    intro h ob hr
    obtain ⟨d, hd, hnz⟩ := hr.cells oe (List.mem_cons_self _ _)
    have hids := hr.ids
    simp only [List.map_cons, List.nodup_cons, List.mem_map, not_exists, not_and] at hids
    -- the synthetic order
    have hsyn : (h.newOrder ⟨oe.executorOrderID, t.opposite, oe.amount, oe.price, []⟩).1.orders[
        h.orders.length]? = some ⟨oe.executorOrderID, t.opposite, oe.amount, oe.price, []⟩ := by
      simp [Heap.newOrder]
    have hpr1 : Priced (h.newOrder ⟨oe.executorOrderID, t.opposite, oe.amount, oe.price, []⟩).1
        (ob.side t.opposite).prices := hr.priced
    obtain ⟨h', ob', rep, hlim, hdesc⟩ :=
      limitOrder_apart (h := (h.newOrder ⟨oe.executorOrderID, t.opposite, oe.amount, oe.price,
        []⟩).1) (a := d) hsyn rfl (grows_getElem hr.grows hd) hnz
        (hr.notLive oe (List.mem_cons_self _ _))
        (by
          intro node hn
          simp only [opposite_opposite, hr.own] at hn ⊢
          obtain ⟨hk, l, hl, hnc⟩ := hr.head node hn
          refine ⟨l, ?_, hnc oe (List.mem_cons_self _ _)⟩
          have := (hr.kept _ hk).2.1
          simp only [Heap.newOrder]
          rw [this]
          exact hl)
        hpr1
    have hrep : replay t.opposite (oe :: rest) h ob
        = match rep.err with
          | some e => some (h', ob', some ("error in rollback: " ++ e))
          | none => replay t.opposite rest h' ob' := by
      simp only [replay, Heap.newOrder] at hlim ⊢
      rw [hlim]
    rw [hrep]
    cases herr : rep.err with
    | some e => exact ⟨_, _, _, rfl, fun he => by simp at he⟩
    | none =>
      obtain ⟨add, el, hadd, hob'⟩ := hdesc herr
      simp only at hadd hob'
      have hd0 : ((h.newOrder ⟨oe.executorOrderID, t.opposite, oe.amount, oe.price,
          []⟩).1.newDecimal d).1.decimals[oe.amount]? = some d := by
        simp only [Heap.newOrder, Heap.newDecimal]
        exact grows_getElem (List.prefix_append _ _) (grows_getElem hr.grows hd)
      have hsyn0 : ((h.newOrder ⟨oe.executorOrderID, t.opposite, oe.amount, oe.price,
          []⟩).1.newDecimal d).1.orders[h.orders.length]?
            = some ⟨oe.executorOrderID, t.opposite, oe.amount, oe.price, []⟩ := by
        simp [Heap.newOrder, Heap.newDecimal]
      obtain ⟨hpr', hcont, hpre, -, hlen, hkeep⟩ :=
        AddOrder_content hadd hsyn0 hd0 (priced_newDecimal hpr1 d)
      have hside_t : ob'.side t = W := by
        rw [hob', ← hr.own]
        have : ∀ (b : OrderBook) (m m' : List (OrderID × Nat)),
            ({ b with Orders := m, OrdersDone := m' } : OrderBook).side t = b.side t :=
          fun _ _ _ => rfl
        rw [this]
        exact side_setSide_ne ob add (Ne.symm (opposite_ne t))
      have hside_o : ob'.side t.opposite = add := by
        rw [hob']
        have : ∀ (b : OrderBook) (m m' : List (OrderID × Nat)),
            ({ b with Orders := m, OrdersDone := m' } : OrderBook).side t.opposite
              = b.side t.opposite := fun _ _ _ => rfl
        rw [this]
        exact side_setSide_self ob _ add
      have hgrow' : hb.decimals <+: h'.decimals := by
        refine List.IsPrefix.trans hr.grows (List.IsPrefix.trans ?_ hpre)
        simp only [Heap.newOrder, Heap.newDecimal]
        exact List.prefix_append _ _
      have hready : ReplayReady t W hb keep h' ob' rest := by
        refine ⟨fun e he => hr.cells e (List.mem_cons_of_mem _ he), hgrow', hids.2, ?_, hside_t,
          ?_, ?_, ?_, ?_⟩
        · intro e he
          rw [hob']
          simp only
          rw [mapGet_mapSet_ne]
          · exact hr.notLive e (List.mem_cons_of_mem _ he)
          · intro heq
            exact hids.1 e he heq
        · intro node hn
          obtain ⟨hk, l, hl, hnc⟩ := hr.head node hn
          exact ⟨hk, l, hl, fun e he => hnc e (List.mem_cons_of_mem _ he)⟩
        · intro lp hlp
          obtain ⟨hlt, hsame, hno⟩ := hr.kept lp hlp
          have := hkeep lp (by
            simp only [Heap.newOrder, Heap.newDecimal]
            exact lt_of_lt_of_le hlt hr.levels) hno
          refine ⟨hlt, ?_, ?_⟩
          · rw [this.1]
            simp only [Heap.newOrder, Heap.newDecimal]
            exact hsame
          · rw [hside_o]
            exact this.2
        · refine le_trans hr.levels ?_
          simpa [Heap.newOrder, Heap.newDecimal] using hlen
        · rw [hside_o]
          exact hpr'
      obtain ⟨h2, ob2, e, hrest, hres⟩ := ih hready
      refine ⟨h2, ob2, e, hrest, ?_⟩
      intro he
      obtain ⟨hc2, hw2, hg2, hk2⟩ := hres he
      refine ⟨?_, hw2, hg2, hk2⟩
      intro s
      rw [hc2 s, hside_o, hcont s, tally_cons, cellVal_eq hd]
      have hc0 : contentD ((h.newOrder ⟨oe.executorOrderID, t.opposite, oe.amount, oe.price,
          []⟩).1.newDecimal d).1 (ob.side t.opposite).prices s
            = contentD h (ob.side t.opposite).prices s :=
        contentD_congr ((h.newOrder ⟨oe.executorOrderID, t.opposite, oe.amount,
          oe.price, []⟩).1.newDecimal d).1 hr.priced rfl (by
          simp only [Heap.newOrder, Heap.newDecimal]
          exact List.prefix_append _ _) s
      rw [hc0]
      simp only
      abel

/-! ## The state before the round trip -/

theorem pricesSound_spec {h : Heap} {os : OrderSide} (hp : pricesSound h os = true) :
    (∀ s lp, mapGet os.prices s = some lp → lp ∈ os.priceTree.map Prod.snd ∧
      ∃ l, h.levels[lp]? = some l ∧ l.price.TextG = s) ∧
    (∀ node ∈ os.priceTree, ∃ l, h.levels[node.2]? = some l ∧
      mapGet os.prices l.price.TextG = some node.2 ∧ l.orders.Nodup ∧
      (∀ el ∈ l.orders, ∃ p x, h.elements[el]? = some p ∧ h.orders[p]? = some x ∧
        x.price.TextG = l.price.TextG) ∧
      ∀ node' ∈ os.priceTree, ∀ l', h.levels[node'.2]? = some l' →
        l.totalAmount = l'.totalAmount → node.2 = node'.2) ∧
    ((restingOrder h (walkOrder os)).map (restingId h)).Nodup := by
  unfold pricesSound at hp
  simp only [Bool.and_eq_true, List.all_eq_true, decide_eq_true_eq] at hp
  obtain ⟨⟨h1, h2⟩, h3⟩ := hp
  refine ⟨?_, ?_, h3⟩
  · intro s lp hs
    have := h1 (s, lp) (mapGet_mem hs)
    simp only at this
    refine ⟨this.1, ?_⟩
    cases hl : h.levels[lp]? with
    | none => rw [hl] at this; simp at this
    | some l =>
      rw [hl] at this
      exact ⟨l, rfl, by simpa using this.2⟩
  · intro node hn
    have := h2 node hn
    cases hl : h.levels[node.2]? with
    | none => rw [hl] at this; simp at this
    | some l =>
      rw [hl] at this
      simp only [Bool.and_eq_true, List.all_eq_true, decide_eq_true_eq] at this
      obtain ⟨⟨⟨ha, hb⟩, hc⟩, hd⟩ := this
      refine ⟨l, rfl, ha, hb, ?_, ?_⟩
      · intro el hel
        have h4 := hc el hel
        cases hp : h.elements[el]? with
        | none => rw [hp] at h4; simp at h4
        | some p =>
          simp only [hp] at h4
          cases hx : h.orders[p]? with
          | none => simp [hx] at h4
          | some x =>
            simp only [hx] at h4
            exact ⟨p, x, rfl, hx, by simpa using h4⟩
      · intro node' hn' l' hl' heq
        have h5 := hd node' hn'
        rw [hl'] at h5
        simp only [decide_eq_true_eq] at h5
        exact h5 heq

theorem ownSideApart_spec {h : Heap} {ob : OrderBook} {t : OperationType}
    (ha : ownSideApart h ob t = true) :
    (∀ s lp, mapGet (ob.side t).prices s = some lp → ∃ l tt, h.levels[lp]? = some l ∧
      h.decimals[l.totalAmount]? = some tt ∧
      ∀ node ∈ (ob.side t.opposite).priceTree, ∀ l', h.levels[node.2]? = some l' →
        l.totalAmount ≠ l'.totalAmount) ∧
    (∀ node, (walkOrder (ob.side t)).head? = some node →
      node.2 ∉ (ob.side t.opposite).priceTree.map Prod.snd ∧
      ∃ l, h.levels[node.2]? = some l ∧
        ∀ el ∈ restingOrder h (walkOrder (ob.side t.opposite)), ∃ p x,
          h.elements[el]? = some p ∧ h.orders[p]? = some x ∧
          ¬ crosses (ob.side t).sideType x.price l.price) := by
  unfold ownSideApart at ha
  simp only [Bool.and_eq_true, List.all_eq_true] at ha
  obtain ⟨h1, h2⟩ := ha
  constructor
  · intro s lp hs
    have := h1 (s, lp) (mapGet_mem hs)
    simp only at this
    cases hl : h.levels[lp]? with
    | none => rw [hl] at this; simp at this
    | some l =>
      rw [hl] at this
      simp only [Bool.and_eq_true, List.all_eq_true, decide_eq_true_eq] at this
      obtain ⟨hlt, hno⟩ := this
      obtain ⟨tt, htt⟩ : ∃ tt, h.decimals[l.totalAmount]? = some tt :=
        ⟨_, List.getElem?_eq_getElem hlt⟩
      refine ⟨l, tt, rfl, htt, ?_⟩
      intro node hn l' hl'
      have := hno node hn
      rw [hl'] at this
      simpa using this
  · intro node hn
    rw [hn] at h2
    simp only [Bool.and_eq_true, decide_eq_true_eq] at h2
    refine ⟨h2.1, ?_⟩
    cases hl : h.levels[node.2]? with
    | none => rw [hl] at h2; simp at h2
    | some l =>
      rw [hl] at h2
      refine ⟨l, rfl, ?_⟩
      intro el hel
      have h3 := h2.2
      simp only [List.all_eq_true] at h3
      have h4 := h3 el hel
      cases hp : h.elements[el]? with
      | none => rw [hp] at h4; simp at h4
      | some p =>
        simp only [hp] at h4
        cases hx : h.orders[p]? with
        | none => simp [hx] at h4
        | some x =>
          simp only [hx] at h4
          exact ⟨p, x, rfl, hx, by simpa using h4⟩

theorem reportsNonZero_spec {h : Heap} {o : Nat} (hr : reportsNonZero h o = true) :
    ∀ ord, h.orders[o]? = some ord → ∀ e ∈ ord.executions, cellVal h e.amount ≠ 0 := by
  intro ord ho e he
  unfold reportsNonZero at hr
  rw [ho] at hr
  simp only [List.all_eq_true] at hr
  have := hr e he
  cases hd : h.decimals[e.amount]? with
  | none => rw [hd] at this; simp at this
  | some d =>
    rw [hd] at this
    rw [cellVal_eq hd]
    intro hz
    have hz' := (Decimal.IsZero_iff d).mpr hz
    simp [hz'] at this

theorem walkTidy_of_sound {h : Heap} {os : OrderSide} (hw : wellFormedSide h os = true)
    (hp : pricesSound h os = true) (h0 : Heap) (hlev : h0.levels = h.levels)
    (helm : h0.elements = h.elements) (hord : h.orders <+: h0.orders)
    (hdec : h.decimals <+: h0.decimals) {o aL : Nat} (ho : h.orders.length ≤ o)
    (haL : h.decimals.length ≤ aL) :
    WalkTidy h0 o aL os.prices (walkOrder os) := by
  obtain ⟨hnd, -, hnodes⟩ := wellFormedSide_spec hw
  obtain ⟨hpr, hpn, -⟩ := pricesSound_spec hp
  -- what a node of the tree gives
  have hnode : ∀ node ∈ os.priceTree, ∃ l t, h0.levels[node.2]? = some l ∧
      h.levels[node.2]? = some l ∧
      mapGet os.prices l.price.TextG = some node.2 ∧ l.orders.Nodup ∧ l.orders ≠ [] ∧
      h0.decimals[l.totalAmount]? = some t ∧ l.totalAmount ≠ aL ∧
      t.val = queueVal h0 l.orders ∧
      (∀ node' ∈ os.priceTree, ∀ l', h.levels[node'.2]? = some l' →
        l.totalAmount = l'.totalAmount → node.2 = node'.2) ∧
      ∀ el ∈ l.orders, ∃ p x d, h0.elements[el]? = some p ∧ p ≠ o ∧ h0.orders[p]? = some x ∧
        h0.decimals[x.amount]? = some d ∧ x.amount ≠ aL ∧ x.price.TextG = l.price.TextG ∧
        ∀ node' ∈ os.priceTree, ∀ l', h.levels[node'.2]? = some l' →
          x.amount = l'.totalAmount → node'.2 = node.2 ∧ l'.orders = [el] := by
    intro node hn
    obtain ⟨l, hl, hne, hta, hes⟩ := hnodes node hn
    obtain ⟨l2, hl2, hmap, hqnd, hprices, htot⟩ := hpn node hn
    rw [hl] at hl2
    simp only [Option.some.injEq] at hl2
    subst hl2
    obtain ⟨l3, t, hl3, ht, htv⟩ := totalAgrees_spec hta
    rw [hl] at hl3
    simp only [Option.some.injEq] at hl3
    subst hl3
    have hels : ∀ el ∈ l.orders, ∃ p x d, h.elements[el]? = some p ∧ h.orders[p]? = some x ∧
        h.decimals[x.amount]? = some d ∧ x.price.TextG = l.price.TextG ∧
        ∀ node' ∈ os.priceTree, ∀ l', h.levels[node'.2]? = some l' →
          x.amount = l'.totalAmount → node'.2 = node.2 ∧ l'.orders = [el] := by
      intro el hel
      obtain ⟨p, x, d, hp', hx, hd, -, halias⟩ := elementSound_spec (hes el hel)
      obtain ⟨p2, x2, hp2, hx2, hpx⟩ := hprices el hel
      rw [hp'] at hp2
      simp only [Option.some.injEq] at hp2
      subst hp2
      rw [hx] at hx2
      simp only [Option.some.injEq] at hx2
      subst hx2
      exact ⟨p, x, d, hp', hx, hd, hpx, halias⟩
    refine ⟨l, t, by rw [hlev]; exact hl, hl, hmap, hqnd, hne, grows_getElem hdec ht, ?_, ?_,
      htot, ?_⟩
    · have := (List.getElem?_eq_some.mp ht).1
      omega
    · rw [htv]
      symm
      apply queueVal_congr
      intro el hel
      obtain ⟨p, x, d, hp', hx, hd, -, -⟩ := hels el hel
      rw [elAmount_eq (by rw [helm]; exact hp') (grows_getElem hord hx)
        (grows_getElem hdec hd), elAmount_eq hp' hx hd]
    · intro el hel
      obtain ⟨p, x, d, hp', hx, hd, hpx, halias⟩ := hels el hel
      refine ⟨p, x, d, by rw [helm]; exact hp', ?_, grows_getElem hord hx,
        grows_getElem hdec hd, ?_, hpx, halias⟩
      · have := (List.getElem?_eq_some.mp hx).1
        omega
      · have := (List.getElem?_eq_some.mp hd).1
        omega
  constructor
  · unfold walkOrder
    split
    · exact hnd
    · rw [List.map_reverse]
      exact List.nodup_reverse.mpr hnd
  · intro node hn
    obtain ⟨l, t, hl0, hl, hmap, hqnd, hne, ht, htne, htv, htot, hels⟩ :=
      hnode node (mem_walkOrder.mp hn)
    refine ⟨l, t, hl0, hmap, hqnd, ht, htv, ?_⟩
    intro el hel
    obtain ⟨p, x, d, hp', hpo, hx, hd, hxa, hpx, halias⟩ := hels el hel
    refine ⟨p, x, d, hp', hpo, hx, hd, hxa, hpx, ?_⟩
    intro node' hn' l' hl' heq
    rw [hlev] at hl'
    exact halias node' (mem_walkOrder.mp hn') l' hl' heq
  · intro s lp hs
    obtain ⟨hmem, l, hl, hls⟩ := hpr s lp hs
    obtain ⟨node, hn, hn2⟩ := List.mem_map.mp hmem
    obtain ⟨l2, t, hl0, hl2, hmap, hqnd, hne, ht, htne, htv, htot, hels⟩ := hnode node hn
    rw [hn2] at hl0 hl2
    rw [hl] at hl2
    simp only [Option.some.injEq] at hl2
    subst hl2
    exact ⟨l, t, hl0, hls, htne, hne, ht⟩
  · intro s s' lp lp' l l' hs hs' hl hl' heq
    obtain ⟨hmem, -⟩ := hpr s lp hs
    obtain ⟨hmem', -⟩ := hpr s' lp' hs'
    obtain ⟨node, hn, hn2⟩ := List.mem_map.mp hmem
    obtain ⟨node', hn', hn2'⟩ := List.mem_map.mp hmem'
    obtain ⟨l2, t, hl0, hl2, -, -, -, -, -, -, htot, -⟩ := hnode node hn
    rw [hlev] at hl hl'
    rw [hn2, hl] at hl2
    simp only [Option.some.injEq] at hl2
    subst hl2
    have := htot node' hn' l' (by rw [hn2']; exact hl') heq
    rw [hn2, hn2'] at this
    exact this

/-! ## Placement followed by rollback -/

theorem mapGet_deleteExecutors_mem (es : List ExecutionReport) :
    ∀ {m : List (OrderID × Nat)} {e : ExecutionReport}, e ∈ es →
      mapGet (deleteExecutors m es) e.executorOrderID = none := by
  induction es with
  | nil => intro m e he; simp at he
  | cons e0 rest ih =>
    intro m e he
    have hstep : deleteExecutors m (e0 :: rest)
        = deleteExecutors (mapDelete m e0.executorOrderID) rest := rfl
    rw [hstep]
    rcases List.mem_cons.mp he with heq | hmem
    · subst heq
      exact mapGet_deleteExecutors_none rest (mapGet_mapDelete_self _ _)
    · exact ih hmem

theorem opposite_cases (t u : OperationType) : u = t ∨ u = t.opposite := by
  cases t <;> cases u <;> simp [OperationType.opposite]

theorem restingId_reportOf {h : Heap} {el p : Nat} {x : Order} (id : OrderID)
    (hp : h.elements[el]? = some p) (hx : h.orders[p]? = some x) :
    restingId h el = some (reportOf h id el).executorOrderID := by
  simp [restingId, reportOf, hp, hx]

theorem Rollback_of_replay {h : Heap} {ob : OrderBook} {id : OrderID} {o : Nat} {order : Order}
    {res : Heap × OrderBook × Option String} (hd : mapGet ob.OrdersDone id = some o)
    (ho : h.orders[o]? = some order)
    (hr : replay order.operationType.opposite order.executions h ob = some res) :
    Rollback h ob id = some (res.1,
      (if res.2.2 = none then { res.2.1 with OrdersDone := mapDelete res.2.1.OrdersDone id }
        else res.2.1), res.2.2) := by
  unfold Rollback
  rw [hd]
  simp only [ho, hr]
  rcases res with ⟨a, b, _ | e⟩ <;> simp

/-- C11 (amended): on a book that is ready for the round trip of an order of type `t`
(`roundTripReady`: the opposite side is well formed, its `prices` map agrees with its tree,
and the two sides are apart), when a new limit order is accepted by `PlaceLimitOrder`, does
not rest afterwards (its id is not live) and every one of its execution reports holds an
amount other than zero, `Rollback` of its id returns; when it returns no error, each side has
under every price string the same number of queued orders and the same total, as a number,
as before the order was placed. -/
theorem rollback_restores_sides (h : Heap) (ob : OrderBook) (id : OrderID) (t : OperationType)
    (amount price : Decimal) (h1 : Heap) (ob1 : OrderBook) (rep : Reply)
    (hready : roundTripReady h ob t = true)
    (hplace : placeNewLimit h ob id t amount price = some (h1, ob1, rep))
    (hok : rep.err = none) (hgone : mapGet ob1.Orders id = none)
    (hnz : reportsNonZero h1 h.orders.length = true) :
    ∃ h2 ob2 e, Rollback h1 ob1 id = some (h2, ob2, e) ∧
      (e = none → ∀ u s,
        contentD h2 (ob2.side u).prices s = contentD h (ob.side u).prices s) := by
  unfold roundTripReady at hready
  simp only [Bool.and_eq_true] at hready
  obtain ⟨⟨⟨hwf, hps⟩, hsa⟩, hoa⟩ := hready
  obtain ⟨hprX, hpnX, hidsX⟩ := pricesSound_spec hps
  obtain ⟨hWp, hWhead⟩ := ownSideApart_spec hoa
  obtain ⟨hXin, hWX⟩ := sidesApart_spec hsa
  -- the heap with the new order
  obtain ⟨hA, hAdef⟩ : ∃ hA : Heap, hA = (h.allocOrder id t amount price).1 := ⟨_, rfl⟩
  have hAlev : hA.levels = h.levels := by rw [hAdef]; rfl
  have hAelm : hA.elements = h.elements := by rw [hAdef]; rfl
  have hAord : hA.orders = h.orders ++ [⟨id, t, h.decimals.length, price, []⟩] := by
    rw [hAdef]; rfl
  have hAdec : hA.decimals = h.decimals ++ [amount] := by rw [hAdef]; rfl
  have hplace' : limitOrder hA ob h.orders.length = some (h1, ob1, rep) := by
    rw [hAdef]; exact hplace
  have hoA : hA.orders[h.orders.length]? = some ⟨id, t, h.decimals.length, price, []⟩ := by
    rw [hAord]; simp
  have haA : hA.decimals[h.decimals.length]? = some amount := by
    rw [hAdec]; simp
  obtain ⟨ord0, hE, check1, r, aL, ord1, left, hord0, hlive, hexec, hrok, hraL, hord1, hleft,
    -, hcase⟩ := limitOrder_ok hplace' hok
  rw [hoA] at hord0
  simp only [Option.some.injEq] at hord0
  subst hord0
  simp only at hlive hexec hcase
  obtain ⟨ord', a, w, hord', ha, hwalk, hEw, hwcase⟩ := ExecuteOrder_inv hexec
  rw [hoA] at hord'
  simp only [Option.some.injEq] at hord'
  subst hord'
  simp only at ha
  rw [haA] at ha
  simp only [Option.some.injEq] at ha
  subst ha
  rcases hwcase with ⟨e, -, -, hr⟩ | ⟨hwok, hcheck, hr⟩
  · rw [hr] at hrok; simp at hrok
  subst hr
  simp only [Option.some.injEq] at hraL
  subst hraL
  subst hEw
  have hwalk' : walkLevels (ob.side t.opposite).sideType h.orders.length hA.decimals.length
      (walkOrder (ob.side t.opposite)) (hA.newDecimal amount).1 (ob.side t.opposite).prices 0 []
      = some w := hwalk
  obtain ⟨ev, -⟩ := walkLevels_evolves _ hwalk'
  -- the order is not live: its amount was taken whole
  have hid1 : ord1.orderID = id := by
    obtain ⟨x', hx', hg⟩ := ev.orders h.orders.length _
      (show (hA.newDecimal amount).1.orders[h.orders.length]? = some _ from hoA)
    rw [hord1] at hx'
    simp only [Option.some.injEq] at hx'
    subst hx'
    exact hg.1
  rcases hcase with ⟨hzero, hh1, hob1⟩ | ⟨-, add3, el, -, hob1⟩
  swap
  · rw [hob1] at hgone
    simp only at hgone
    rw [hid1, mapGet_mapSet_self] at hgone
    simp at hgone
  subst hh1
  -- the walk
  have htidy : WalkTidy (hA.newDecimal amount).1 h.orders.length hA.decimals.length
      (ob.side t.opposite).prices (walkOrder (ob.side t.opposite)) :=
    walkTidy_of_sound hwf hps (hA.newDecimal amount).1 hAlev hAelm
      (by
        show h.orders <+: hA.orders
        rw [hAord]; exact List.prefix_append _ _)
      (by
        show h.decimals <+: hA.decimals ++ [amount]
        rw [hAdec, List.append_assoc]; exact List.prefix_append _ _)
      (le_refl _) (by rw [hAdec]; simp)
  have hzero' : cellVal w.heap hA.decimals.length = 0 := by
    rw [cellVal_eq hleft]
    exact (Decimal.IsZero_iff left).mp hzero
  obtain ⟨els, hsub, hofin, hcontP, hcells, hframeP, htidyF, hsubP⟩ :=
    walkLevels_content _ hwalk' hwok
      (show (hA.newDecimal amount).1.orders[h.orders.length]? = some _ from hoA)
      htidy hzero' (reportsNonZero_spec hnz)
  simp only [List.nil_append] at hofin
  rw [hord1] at hofin
  simp only [Option.some.injEq] at hofin
  subst hofin
  -- the elements taken
  have hro : restingOrder (hA.newDecimal amount).1 (walkOrder (ob.side t.opposite))
      = restingOrder h (walkOrder (ob.side t.opposite)) :=
    restingOrder_congr _ (fun node _ => by
      show hA.levels[node.2]? = h.levels[node.2]?
      rw [hAlev])
  have hel : ∀ el ∈ els, ∃ p x d, h.elements[el]? = some p ∧ h.orders[p]? = some x ∧
      (hA.newDecimal amount).1.decimals[x.amount]? = some d ∧
      reportOf (hA.newDecimal amount).1 id el = ⟨id, x.orderID, x.amount, x.price⟩ := by
    intro el hel
    obtain ⟨node, hn, l, hl, hmem⟩ := mem_restingOrder _ (hsub.subset hel)
    obtain ⟨l2, t2, hl2, -, -, -, -, hels2⟩ := htidy.level node hn
    rw [hl] at hl2
    simp only [Option.some.injEq] at hl2
    subst hl2
    obtain ⟨p, x, d, hp, -, hx, hd, -, -, -⟩ := hels2 el hmem
    obtain ⟨l3, hl3, -, -, hpx3, -⟩ := hpnX node (mem_walkOrder.mp hn)
    have hl' : h.levels[node.2]? = some l := by rw [← hAlev]; exact hl
    rw [hl'] at hl3
    simp only [Option.some.injEq] at hl3
    subst hl3
    obtain ⟨p3, x3, hp3, hx3, -⟩ := hpx3 el hmem
    have hp' : h.elements[el]? = some p := by rw [← hAelm]; exact hp
    rw [hp'] at hp3
    simp only [Option.some.injEq] at hp3
    subst hp3
    have hx' : (hA.newDecimal amount).1.orders[p]? = some x3 := by
      show hA.orders[p]? = some x3
      rw [hAord]
      exact grows_getElem (List.prefix_append _ _) hx3
    rw [hx] at hx'
    simp only [Option.some.injEq] at hx'
    subst hx'
    exact ⟨p, x, d, hp', hx3, hd, reportOf_eq _ hp hx⟩
  -- the state after the placement
  have hdone : mapGet ob1.OrdersDone id = some h.orders.length := by
    rw [hob1]
    exact mapGet_mapSet_self _ _ _
  have hsideW : ob1.side t = ob.side t := by
    rw [hob1]
    have : ∀ (b : OrderBook) (m m' : List (OrderID × Nat)),
        ({ b with Orders := m, OrdersDone := m' } : OrderBook).side t = b.side t :=
      fun _ _ _ => rfl
    rw [this]
    exact side_setSide_ne ob check1 (Ne.symm (opposite_ne t))
  have hsideX : ob1.side t.opposite = check1 := by
    rw [hob1]
    have : ∀ (b : OrderBook) (m m' : List (OrderID × Nat)),
        ({ b with Orders := m, OrdersDone := m' } : OrderBook).side t.opposite
          = b.side t.opposite := fun _ _ _ => rfl
    rw [this]
    exact side_setSide_self ob _ check1
  have hcheckP : check1.prices = w.prices := by rw [hcheck]
  -- the levels of the own side are not walked
  have hkeep : ∀ lp, ((∃ s, mapGet (ob.side t).prices s = some lp) ∨
      ∃ node, (walkOrder (ob.side t)).head? = some node ∧ node.2 = lp) →
      (∃ l, h.levels[lp]? = some l) ∧ w.heap.levels[lp]? = h.levels[lp]? ∧
      ∀ s, mapGet (ob.side t.opposite).prices s ≠ some lp := by
    intro lp hlp
    have hnot : ∀ node ∈ walkOrder (ob.side t.opposite), node.2 ≠ lp := by
      rcases hlp with ⟨s, hs⟩ | ⟨node, hn, rfl⟩
      · exact hWX s lp hs
      · intro node' hn' heq
        exact (hWhead node hn).1 (heq ▸ List.mem_map_of_mem Prod.snd (mem_walkOrder.mp hn'))
    refine ⟨?_, ?_, ?_⟩
    · rcases hlp with ⟨s, hs⟩ | ⟨node, hn, rfl⟩
      · obtain ⟨l, -, hl, -⟩ := hWp s lp hs
        exact ⟨l, hl⟩
      · obtain ⟨-, l, hl, -⟩ := hWhead node hn
        exact ⟨l, hl⟩
    · rw [walkLevels_untouched hwalk' lp hnot]
      show hA.levels[lp]? = h.levels[lp]?
      rw [hAlev]
    · intro s hs
      obtain ⟨hmem, -⟩ := hprX s lp hs
      obtain ⟨node, hn, hn2⟩ := List.mem_map.mp hmem
      exact hnot node (mem_walkOrder.mpr hn) hn2
  -- ready for the replay
  have hreplay : ReplayReady t (ob.side t) w.heap
      (fun lp => (∃ s, mapGet (ob.side t).prices s = some lp) ∨
        ∃ node, (walkOrder (ob.side t)).head? = some node ∧ node.2 = lp)
      w.heap ob1 (els.map (reportOf (hA.newDecimal amount).1 id)) := by
    refine ⟨?_, List.prefix_refl _, ?_, ?_, hsideW, ?_, ?_, le_refl _, ?_⟩
    · intro e he
      obtain ⟨el, hel', rfl⟩ := List.mem_map.mp he
      obtain ⟨p, x, d, hp, hx, hd, hrep⟩ := hel el hel'
      have hc := hcells el hel'
      rw [hrep] at hc ⊢
      simp only at hc ⊢
      refine ⟨d, by rw [hc]; exact hd, ?_⟩
      have hne := reportsNonZero_spec hnz _ hord1 (reportOf (hA.newDecimal amount).1 id el)
        (List.mem_map_of_mem _ hel')
      rw [hrep] at hne
      simp only at hne
      rw [cellVal_eq (by rw [hc]; exact hd)] at hne
      cases hz : d.IsZero with
      | false => rfl
      | true => exact absurd ((Decimal.IsZero_iff d).mp hz) hne
    · rw [List.map_map]
      have hnd : (els.map (restingId h)).Nodup :=
        List.Nodup.sublist (List.Sublist.map _ (hro ▸ hsub)) hidsX
      have hmap : els.map (restingId h) = (els.map ((fun e => e.executorOrderID) ∘
          reportOf (hA.newDecimal amount).1 id)).map some := by
        rw [List.map_map]
        apply List.map_congr_left
        intro el hel'
        obtain ⟨p, x, d, hp, hx, hd, hrep⟩ := hel el hel'
        simp only [Function.comp, hrep]
        simp [restingId, hp, hx]
      rw [hmap] at hnd
      exact List.Nodup.of_map _ hnd
    · intro e he
      rw [hob1]
      exact mapGet_deleteExecutors_mem _ he
    · intro node hn
      refine ⟨Or.inr ⟨node, hn, rfl⟩, ?_⟩
      obtain ⟨-, l, hl, hnc⟩ := hWhead node hn
      refine ⟨l, by rw [(hkeep node.2 (Or.inr ⟨node, hn, rfl⟩)).2.1]; exact hl, ?_⟩
      intro e he
      obtain ⟨el, hel', rfl⟩ := List.mem_map.mp he
      obtain ⟨p, x, d, hp, hx, hd, hrep⟩ := hel el hel'
      obtain ⟨p2, x2, hp2, hx2, hnc2⟩ := hnc el (hro ▸ hsub.subset hel')
      rw [hp] at hp2
      simp only [Option.some.injEq] at hp2
      subst hp2
      rw [hx] at hx2
      simp only [Option.some.injEq] at hx2
      subst hx2
      rw [hrep]
      exact hnc2
    · intro lp hlp
      obtain ⟨⟨l, hl⟩, hsame, hno⟩ := hkeep lp hlp
      refine ⟨?_, rfl, ?_⟩
      · have := (List.getElem?_eq_some.mp (hsame ▸ hl)).1
        exact this
      · intro s hs
        rw [hsideX, hcheckP] at hs
        exact hno s (hsubP s lp hs)
    · rw [hsideX, hcheckP]
      intro s lp hs
      obtain ⟨l, tt, hl, hls, -, -, htt⟩ := htidyF.priced s lp hs
      exact ⟨l, tt, hl, hls, htt⟩
  obtain ⟨h2, ob2, e, hrep, hres⟩ := replay_whole t _ _ _ _ hreplay
  -- the rollback
  have hroll := Rollback_of_replay hdone hord1 hrep
  simp only at hroll
  rw [hroll]
  cases e with
  | some msg => exact ⟨_, _, _, rfl, fun he => by simp at he⟩
  | none =>
    refine ⟨_, _, _, rfl, ?_⟩
    intro _ u s
    obtain ⟨hcX, hsW, hgrow, hkept⟩ := hres rfl
    have hsu : ∀ v, ({ ob2 with OrdersDone := mapDelete ob2.OrdersDone id } : OrderBook).side v
        = ob2.side v := fun _ => rfl
    simp only [if_true]
    rw [hsu]
    rcases opposite_cases t u with hu | hu
    · -- the side the order rests on
      subst hu
      rw [hsW]
      unfold contentD
      cases hg : mapGet (ob.side u).prices s with
      | none => rfl
      | some lp =>
        obtain ⟨l, tt, hl, htt, hnoX⟩ := hWp s lp hg
        have hk := hkeep lp (Or.inl ⟨s, hg⟩)
        have hl2 : h2.levels[lp]? = some l := by
          rw [hkept lp (Or.inl ⟨s, hg⟩), hk.2.1]
          exact hl
        have htA : (hA.newDecimal amount).1.decimals[l.totalAmount]? = some tt := by
          show (hA.decimals ++ [amount])[l.totalAmount]? = some tt
          rw [hAdec, List.append_assoc]
          exact grows_getElem (List.prefix_append _ _) htt
        have htw : w.heap.decimals[l.totalAmount]? = some tt := by
          rw [hframeP l.totalAmount]
          · exact htA
          · have := (List.getElem?_eq_some.mp htt).1
            rw [hAdec]
            simp only [List.length_append, List.length_singleton]
            omega
          · intro node hn l' hl'
            exact hnoX node (mem_walkOrder.mp hn) l' (by rw [← hAlev]; exact hl')
        simp only [hl2, hl, cellVal_eq (grows_getElem hgrow htw), cellVal_eq htt]
    · -- the side the order traded against
      subst hu
      rw [hcX s, hsideX, hcheckP]
      have hP := hcontP s
      have hc0 : contentD (hA.newDecimal amount).1 (ob.side t.opposite).prices s
          = contentD h (ob.side t.opposite).prices s :=
        contentD_congr (hA.newDecimal amount).1
          (by
            intro s' lp hs'
            obtain ⟨hmem, l, hl, hls⟩ := hprX s' lp hs'
            obtain ⟨node, hn, hn2⟩ := List.mem_map.mp hmem
            obtain ⟨l2, t2, hl2, -, -, ht2, -, -⟩ := htidy.level node (mem_walkOrder.mpr hn)
            rw [hn2] at hl2
            have hl' : (hA.newDecimal amount).1.levels[lp]? = some l := by
              show hA.levels[lp]? = some l
              rw [hAlev]; exact hl
            rw [hl'] at hl2
            simp only [Option.some.injEq] at hl2
            subst hl2
            obtain ⟨l3, t3, hl3, ht3, -⟩ := totalAgrees_spec
              ((wellFormedSide_spec hwf).2.2 node hn).choose_spec.2.2.1
            rw [hn2, hl] at hl3
            simp only [Option.some.injEq] at hl3
            subst hl3
            exact ⟨l, t3, hl, hls, ht3⟩)
          hAlev
          (by
            show h.decimals <+: hA.decimals ++ [amount]
            rw [hAdec, List.append_assoc]
            exact List.prefix_append _ _) s
      rw [← hc0, hP]
      congr 1
      apply tally_congr
      intro e he
      obtain ⟨el, hel', rfl⟩ := List.mem_map.mp he
      exact (cellVal_congr (hcells el hel')).symm ▸ rfl

set_option maxRecDepth 100000 in
set_option maxHeartbeats 4000000 in
/-- Witness of C11: the bid `100500` of 2.0 at 25000 on the fixture takes the six asks of the
levels 20050 and 20100 whole, and its rollback returns no error and puts them back. -/
theorem rollback_restores_sides_witness :
    roundTripReady fixtureHeap fixtureBook .Bid = true ∧
    placeNewLimit fixtureHeap fixtureBook "100500" .Bid (.New 20 (-1)) (.New 25000 0)
      = some (roundTripPlaced.1, roundTripPlaced.2.1, roundTripPlaced.2.2) ∧
    roundTripPlaced.2.2 = ⟨6, none, none⟩ ∧
    mapGet roundTripPlaced.2.1.Orders "100500" = none ∧
    reportsNonZero roundTripPlaced.1 fixtureHeap.orders.length = true ∧
    (Rollback roundTripPlaced.1 roundTripPlaced.2.1 "100500").map (fun s => s.2.2)
      = some none ∧
    ∃ h2 ob2 e, Rollback roundTripPlaced.1 roundTripPlaced.2.1 "100500" = some (h2, ob2, e) ∧
      (e = none → ∀ u s, contentD h2 (ob2.side u).prices s
        = contentD fixtureHeap (fixtureBook.side u).prices s) :=
  ⟨by decide, by decide, by decide, by decide, by decide, by decide,
    rollback_restores_sides fixtureHeap fixtureBook "100500" .Bid (.New 20 (-1)) (.New 25000 0)
      roundTripPlaced.1 roundTripPlaced.2.1 roundTripPlaced.2.2 (by decide) (by decide)
      (by decide) (by decide) (by decide)⟩

set_option maxRecDepth 100000 in
/-- C11 (counterexample): on the empty book the limit ask `O` of 1 at 100 is accepted and
rests; its rollback succeeds and replays nothing, and the ask side, which had no level before
`O` was placed, has the level of one order at 100 with the total 1. -/
theorem rollback_keeps_resting_order :
    sideLines Heap.empty (NewOrderBook "BTC" "USDT").Asks = [] ∧
    (runCalls restRollbackCalls Heap.empty (NewOrderBook "BTC" "USDT")).map
        (fun s => (sideLines s.1 s.2.Asks, sideLines s.1 s.2.Bids))
      = some ([some (1, "100", "1")], []) := by
  decide

/-! ## The invariants on reached states, evaluated -/

set_option maxRecDepth 100000 in
/-- C21 (no resting order has amount zero), the code evaluated.  On the empty book the limit
ask `A` of 2 at 100 and the limit bid `B` of 1 at 100 have positive amounts and both calls
succeed.  `A` is alone in its level, so its amount cell is also the total of the level; the
part fill subtracts 1 from the amount and 1 from the total, that is 2 from the one cell:
`A` stays in the queue of the level 100 with the amount 0. -/
theorem half_fill_leaves_zero_amount :
    halfFillCalls.all Call.positive = true ∧
    (runCalls halfFillCalls Heap.empty (NewOrderBook "BTC" "USDT")).map
        (fun s => (s.2.Asks.priceTree, s.2.Asks.prices))
      = some ([(⟨100, 0⟩, 0)], [("100", 0)]) ∧
    (runCalls halfFillCalls Heap.empty (NewOrderBook "BTC" "USDT")).map
        (fun s => (queueIds s.1 0, queueAmounts s.1 0)) = some ([some "A"], [some ⟨0, 0⟩]) ∧
    (runCalls halfFillCalls Heap.empty (NewOrderBook "BTC" "USDT")).map
        (fun s => levelLine s.1 0) = some (some (1, "100", "0")) ∧
    ∃ h ob, ReachablePositive h ob ∧ noZeroResting h ob = false :=
  ⟨by decide, by decide, by decide, by decide,
    reachablePositive_of_map halfFillCalls (fun s => noZeroResting s.1 s.2)
      (by decide) (by decide)⟩

set_option maxRecDepth 100000 in
/-- C24 (a visited level has a head), the code evaluated.  The fixture followed by the limit
bid `100500` of 1.0 at 20050 is a sequence of successful calls on orders with positive
amounts and prices.  It leaves the node 20050 in the ask tree with an empty queue.  On that
state a further bid of 0.1 at 20050 makes `ExecuteOrder` visit the node and read the `Value`
of the nil element `Front()` returns: `PlaceLimitOrder` and `PlaceMarketOrder` abort. -/
theorem empty_level_visit_aborts :
    drainCalls.all (fun c => c.positive && c.pricedPositive) = true ∧
    (runCalls drainCalls Heap.empty (NewOrderBook "BTC" "USDT")).map
        (fun s => (s.2.Asks.priceTree.head?, queueOf s.1 0))
      = some (some (⟨20050, 0⟩, 0), []) ∧
    (runCalls drainCalls Heap.empty (NewOrderBook "BTC" "USDT")).isSome = true ∧
    (placeNewLimit (stateAfter drainCalls).1 (stateAfter drainCalls).2 "n" .Bid (.New 1 (-1))
      (.New 20050 0)).isNone = true ∧
    (placeNewMarket (stateAfter drainCalls).1 (stateAfter drainCalls).2 "n" .Bid (.New 1 (-1))
      (.New 20050 0)).isNone = true := by
  refine ⟨by decide, by decide, by decide, by decide, by decide⟩

set_option maxRecDepth 100000 in
/-- C25 (the book is uncrossed), the code evaluated.  After the asks `a1` at 20050 and `a2`
at 20050.0, the limit bid `b` of 2 at 20050 is matched with `a2` only, the one level of the
ask tree, and its rest of 1 is put on the bid side at 20050.  All calls succeed, on orders
with positive amounts.  Afterwards the ask `a1` rests, live, with its amount 1 in the level
`prices["20050"]` of the ask side, and the bid `b` rests, live, with 1 at 20050: a bid level
is priced as an ask level, not strictly below it. -/
theorem resting_bid_meets_resting_ask :
    crossedCalls.all Call.positive = true ∧
    (runCalls crossedCalls Heap.empty (NewOrderBook "BTC" "USDT")).map
        (fun s => sideLines s.1 s.2.Asks) = some [some (1, "20050", "1")] ∧
    (runCalls crossedCalls Heap.empty (NewOrderBook "BTC" "USDT")).map
        (fun s => sideLines s.1 s.2.Bids) = some [some (1, "20050", "1")] ∧
    (runCalls crossedCalls Heap.empty (NewOrderBook "BTC" "USDT")).map
        (fun s => (mapGet s.2.Asks.prices "20050", mapGet s.2.Bids.prices "20050",
          queueIds s.1 0, queueIds s.1 2))
      = some (some 0, some 2, [some "a1"], [some "b"]) ∧
    (runCalls crossedCalls Heap.empty (NewOrderBook "BTC" "USDT")).map
        (fun s => (mapGet s.2.Orders "a1", mapGet s.2.Orders "b", s.2.Asks.priceTree,
          s.2.Bids.priceTree))
      = some (some 0, some 2, [], [(⟨20050, 0⟩, 2)]) ∧
    ∃ h ob, ReachablePositive h ob ∧ uncrossed h ob = false :=
  ⟨by decide, by decide, by decide, by decide, by decide,
    reachablePositive_of_map crossedCalls (fun s => uncrossed s.1 s.2) (by decide) (by decide)⟩

set_option maxRecDepth 100000 in
/-- C27 (an equal price written differently), the code evaluated.  The ask side holds the
level 20050 with the ask `a1`, in its tree and in its `prices` map.  `AddOrder` of the ask
`a2` priced 20050.0, which compares equal to 20050 and prints differently, finds no key
`20050.0` in `prices`: it makes a new level for `a2` alone, and `Put` replaces the node of
the tree.  `a2` is not at the tail of the level of `a1`, and the level of `a1` is no longer
in the tree. -/
theorem respelled_price_makes_new_level :
    (Decimal.mk 20050 0).Cmp ⟨200500, -1⟩ = 0 ∧
    ((Decimal.mk 20050 0).TextG, (Decimal.mk 200500 (-1)).TextG) = ("20050", "20050.0") ∧
    (respellSide.priceTree, respellSide.prices, queueIds respellHeap 0)
      = ([(⟨20050, 0⟩, 0)], [("20050", 0)], [some "a1"]) ∧
    respellHeap.orders[1]? = some ⟨"a2", .Ask, 2, ⟨200500, -1⟩, []⟩ ∧
    (AddOrder respellHeap respellSide 1).map
        (fun r => (r.2.1.priceTree, r.2.1.prices, r.2.2))
      = some ([(⟨200500, -1⟩, 1)], [("20050.0", 1), ("20050", 0)], (some 1, none)) ∧
    (AddOrder respellHeap respellSide 1).map
        (fun r => (queueIds r.1 0, queueIds r.1 1, r.2.1.priceTree.map Prod.snd))
      = some ([some "a1"], [some "a2"], [1]) := by
  refine ⟨by decide, by decide, by decide, by decide, by decide, by decide⟩

/-! ## Rollback of an order without reports -/

/-- C26: when `OrdersDone` holds under `id` an order without execution reports, `Rollback`
returns no error, the heap is as it was (every order rests as before), asks, bids and the
live map `Orders` are unchanged, `id` is no longer a key of `OrdersDone`, and the other
records of `OrdersDone` are unchanged. -/
theorem rollback_without_reports (h : Heap) (ob : OrderBook) (id : OrderID) (p : Nat)
    (order : Order) (hd : mapGet ob.OrdersDone id = some p) (ho : h.orders[p]? = some order)
    (he : order.executions = []) :
    ∃ ob', Rollback h ob id = some (h, ob', none) ∧
      ob'.Asks = ob.Asks ∧ ob'.Bids = ob.Bids ∧ ob'.Orders = ob.Orders ∧
      mapGet ob'.OrdersDone id = none ∧
      ∀ k, k ≠ id → mapGet ob'.OrdersDone k = mapGet ob.OrdersDone k := by
  refine ⟨{ ob with OrdersDone := mapDelete ob.OrdersDone id }, ?_, rfl, rfl, rfl,
    mapGet_mapDelete_self _ _, fun k hk => mapGet_mapDelete_ne _ _ _ hk⟩
  unfold Rollback
  rw [hd]
  simp only [ho, he, replay]

set_option maxRecDepth 100000 in
/-- Witness of C26: the limit ask `O` of 1 at 100 rests on the empty book without trading;
its rollback leaves it resting and live. -/
theorem rollback_without_reports_witness :
    mapGet (stateAfter [.placeLimit "O" .Ask (.New 1 0) (.New 100 0)]).2.OrdersDone "O"
      = some 0 ∧
    (stateAfter [.placeLimit "O" .Ask (.New 1 0) (.New 100 0)]).1.orders[0]?
      = some ⟨"O", .Ask, 0, ⟨100, 0⟩, []⟩ ∧
    (sideLines (stateAfter [.placeLimit "O" .Ask (.New 1 0) (.New 100 0)]).1
        (stateAfter [.placeLimit "O" .Ask (.New 1 0) (.New 100 0)]).2.Asks,
      mapGet (stateAfter [.placeLimit "O" .Ask (.New 1 0) (.New 100 0)]).2.Orders "O")
      = ([some (1, "100", "1")], some 0) ∧
    ∃ ob', Rollback (stateAfter [.placeLimit "O" .Ask (.New 1 0) (.New 100 0)]).1
        (stateAfter [.placeLimit "O" .Ask (.New 1 0) (.New 100 0)]).2 "O"
        = some ((stateAfter [.placeLimit "O" .Ask (.New 1 0) (.New 100 0)]).1, ob', none) ∧
      ob'.Asks = (stateAfter [.placeLimit "O" .Ask (.New 1 0) (.New 100 0)]).2.Asks ∧
      ob'.Bids = (stateAfter [.placeLimit "O" .Ask (.New 1 0) (.New 100 0)]).2.Bids ∧
      ob'.Orders = (stateAfter [.placeLimit "O" .Ask (.New 1 0) (.New 100 0)]).2.Orders ∧
      mapGet ob'.OrdersDone "O" = none ∧
      ∀ k, k ≠ "O" → mapGet ob'.OrdersDone k
        = mapGet (stateAfter [.placeLimit "O" .Ask (.New 1 0) (.New 100 0)]).2.OrdersDone k :=
  ⟨by decide, by decide, by decide,
    rollback_without_reports _ _ "O" 0 ⟨"O", .Ask, 0, ⟨100, 0⟩, []⟩ (by decide) (by decide)
      rfl⟩

/-! ## Whole fills and the fill in part -/

theorem reportOf_evolves {h h' : Heap} (ev : Evolves h h') (id : OrderID) (el : Nat) :
    reportOf h' id el = reportOf h id el := by
  unfold reportOf
  rw [ev.elements]
  cases hr : h.elements[el]? with
  | none => rfl
  | some r =>
    simp only
    cases hx : h.orders[r]? with
    | none =>
      have : h'.orders[r]? = none := by
        rw [List.getElem?_eq_none_iff] at hx ⊢
        rw [ev.ordersLen]
        exact hx
      rw [this]
    | some x =>
      obtain ⟨x', hx', hg⟩ := ev.orders r x hx
      rw [hx']
      simp [hg.1, hg.2.2.1, hg.2.2.2.1]

theorem partReportOf_evolves {h h' : Heap} (ev : Evolves h h') (id : OrderID) (aL el : Nat) :
    partReportOf h' id aL el = partReportOf h id aL el := by
  unfold partReportOf
  rw [reportOf_evolves ev]

theorem amountCell_evolves {h h' : Heap} (ev : Evolves h h') (el : Nat) :
    amountCell h' el = amountCell h el := by
  unfold amountCell
  rw [ev.elements]
  cases hr : h.elements[el]? with
  | none => rfl
  | some r =>
    simp only
    cases hx : h.orders[r]? with
    | none =>
      have : h'.orders[r]? = none := by
        rw [List.getElem?_eq_none_iff] at hx ⊢
        rw [ev.ordersLen]
        exact hx
      rw [this]
    | some x =>
      obtain ⟨x', hx', hg⟩ := ev.orders r x hx
      rw [hx']
      simp [hg.2.2.1]

/-- A successful match step appends to the incoming order the report of a whole fill when
`listNodeEmpty` is set, and the report of a fill in part otherwise; the element holds an
order. -/
theorem matchStep_fill {o aL lp el : Nat} {h : Heap} {n : Nat} {s : StepResult}
    (hs : matchStep o aL lp el h n = some s) (hok : s.err = none) {ord : Order}
    (hord : h.orders[o]? = some ord) (hne : h.elements[el]? ≠ some o) :
    (∃ c, amountCell h el = some c) ∧
    s.heap.orders[o]? = some { ord with executions := ord.executions ++
      [if s.listNodeEmpty = true then reportOf h ord.orderID el
        else partReportOf h ord.orderID aL el] } := by
  obtain ⟨r, reqOrder, ord0, reqAmount, left, s1, hr, hreq, hord0, hra, hleft, hlne, hs1, hrest⟩ :=
    matchStep_inv hs
  rw [hord] at hord0
  simp only [Option.some.injEq] at hord0
  subst hord0
  have hro : r ≠ o := fun heq => hne (by rw [hr, heq])
  obtain ⟨-, l1, o1, -, -⟩ := firstSub_inv hs1
  rcases hrest with ⟨e, -, -, -, he⟩ | ⟨-, y, s2, hy, hs2, hrest⟩
  · rw [hok] at he
    simp at he
  have o2 := (subCell_fields hs2).1
  rcases hrest with ⟨e, -, -, -, he⟩ | ⟨he2, h3, h4, lvl, s5, hh3, hh4, hlvl, hs5, hh, -, -⟩
  · rw [hok] at he
    simp at he
  have o5 : s.heap.orders = h4.orders := by rw [hh]; exact (subCell_fields hs5).1
  refine ⟨⟨reqOrder.amount, by simp [amountCell, hr, hreq]⟩, ?_⟩
  obtain ⟨x, hx, hx3⟩ := appendExecution_self hh3
  rw [o2, o1, hord] at hx
  simp only [Option.some.injEq] at hx
  subst hx
  rw [o5, appendExecution_frame hh4 o (Ne.symm hro), hx3]
  have hrep : reportOf h ord.orderID el
      = ⟨ord.orderID, reqOrder.orderID, reqOrder.amount, reqOrder.price⟩ := reportOf_eq _ hr hreq
  cases hb : s.listNodeEmpty with
  | true => simp [hrep]
  | false => simp [partReportOf, hrep]

/-- The inner loop takes the elements of the queue from the head.  Either every element it
matched was taken whole and is marked for deletion; or the last one was taken in part, is
not marked, and `amountLeft` is zero. -/
theorem matchQueue_fills {o aL lp : Nat} (q : List Nat) :
    ∀ {h : Heap} {n : Nat} {dels : List Nat} {res : QueueResult} {ord : Order},
      matchQueue o aL lp q h n dels = some res → res.err = none → h.orders[o]? = some ord →
      (∀ el ∈ q, h.elements[el]? ≠ some o) →
      (∀ l, h.levels[lp]? = some l → l.totalAmount ≠ aL) →
      ∃ k, k < q.length ∧ (∀ el ∈ q.take (k + 1), ∃ c, amountCell h el = some c) ∧
        ((res.heap.orders[o]? = some { ord with executions :=
              ord.executions ++ (q.take (k + 1)).map (reportOf h ord.orderID) } ∧
            res.deleteEls = dels ++ q.take (k + 1) ∧
            (k + 1 = q.length ∨
              ∃ z, res.heap.decimals[aL]? = some z ∧ z.IsZero = true)) ∨
         (∃ el, q[k]? = some el ∧
            res.heap.orders[o]? = some { ord with executions :=
              ord.executions ++ ((q.take k).map (reportOf h ord.orderID) ++
                [partReportOf h ord.orderID aL el]) } ∧
            res.deleteEls = dels ++ q.take k ∧
            ∃ z, res.heap.decimals[aL]? = some z ∧ z.IsZero = true)) := by
  induction q with
  | nil => intro h n dels res ord hq; simp [matchQueue] at hq
  | cons el rest ih =>
    intro h n dels res ord hq hok hord hne hfresh
    obtain ⟨s, hs, hcase⟩ := matchQueue_cons_inv hq
    obtain ⟨ev, hlev⟩ := matchStep_evolves hs
    rcases hcase with ⟨e, -, hres⟩ | ⟨he, left, hleft, hcase⟩
    · subst hres
      simp at hok
    obtain ⟨hcell, hrep⟩ := matchStep_fill hs he hord (hne el (List.mem_cons_self _ _))
    obtain ⟨-, hpart⟩ := matchStep_ok hs he hord (hne el (List.mem_cons_self _ _)) hfresh
    have hfull : left.IsZero = false → s.listNodeEmpty = true := by
      intro hz
      cases hb : s.listNodeEmpty with
      | true => rfl
      | false =>
        obtain ⟨z, hz1, hz2⟩ := hpart hb
        rw [hleft] at hz1
        simp only [Option.some.injEq] at hz1
        subst hz1
        rw [hz] at hz2
        simp at hz2
    -- the step alone
    have hone : ∀ b : Bool, (rest = [] ∨ left.IsZero = true) →
        res = ⟨s.heap, s.ordersExecuted, if s.listNodeEmpty then dels ++ [el] else dels, b,
          none⟩ →
        ∃ k, k < (el :: rest).length ∧
          (∀ el' ∈ (el :: rest).take (k + 1), ∃ c, amountCell h el' = some c) ∧
          ((res.heap.orders[o]? = some { ord with executions :=
                ord.executions ++ ((el :: rest).take (k + 1)).map (reportOf h ord.orderID) } ∧
              res.deleteEls = dels ++ (el :: rest).take (k + 1) ∧
              (k + 1 = (el :: rest).length ∨
                ∃ z, res.heap.decimals[aL]? = some z ∧ z.IsZero = true)) ∨
           (∃ el', (el :: rest)[k]? = some el' ∧
              res.heap.orders[o]? = some { ord with executions :=
                ord.executions ++ (((el :: rest).take k).map (reportOf h ord.orderID) ++
                  [partReportOf h ord.orderID aL el']) } ∧
              res.deleteEls = dels ++ (el :: rest).take k ∧
              ∃ z, res.heap.decimals[aL]? = some z ∧ z.IsZero = true)) := by
      intro b hb hres
      subst hres
      refine ⟨0, by simp, by simpa using hcell, ?_⟩
      cases hl : s.listNodeEmpty with
      | true =>
        left
        refine ⟨by rw [hrep]; simp [hl], by simp [hl], ?_⟩
        rcases hb with hb | hb
        · exact Or.inl (by simp [hb])
        · exact Or.inr ⟨left, hleft, hb⟩
      | false =>
        right
        refine ⟨el, by simp, by rw [hrep]; simp [hl], by simp [hl], hpart hl⟩
    rcases hcase with ⟨hz, hres⟩ | ⟨hz, hnil, hres⟩ | ⟨hz, hrne, hrec⟩
    · exact hone false (Or.inr hz) hres
    · exact hone true (Or.inl hnil) hres
    · -- the loop goes on: the element was taken whole
      have hl := hfull hz
      rw [hl] at hrec hrep
      simp only [if_true] at hrec hrep
      obtain ⟨k, hk, hcells, hcase⟩ := ih hrec hok hrep
        (fun el' hel' => by rw [ev.elements]; exact hne el' (List.mem_cons_of_mem _ hel'))
        (fun l hl' => hfresh l (by rw [← hlev]; exact hl'))
      have hmap : ∀ l : List Nat, l.map (reportOf s.heap ord.orderID)
          = l.map (reportOf h ord.orderID) :=
        fun l => List.map_congr_left (fun el' _ => reportOf_evolves ev _ el')
      refine ⟨k + 1, by simpa using hk, ?_, ?_⟩
      · intro el' hel'
        simp only [List.take_succ_cons, List.mem_cons] at hel'
        rcases hel' with rfl | hel'
        · exact hcell
        · obtain ⟨c, hc⟩ := hcells el' hel'
          exact ⟨c, by rw [← amountCell_evolves ev]; exact hc⟩
      rcases hcase with ⟨hfin, hdel, hend⟩ | ⟨el', hel', hfin, hdel, hend⟩
      · left
        refine ⟨?_, ?_, ?_⟩
        rotate_left 2
        · rcases hend with hend | hend
          · exact Or.inl (by simpa using hend)
          · exact Or.inr hend
        · rw [hfin]
          simp only [hmap, List.take_succ_cons, List.map_cons, List.append_assoc,
            List.singleton_append]
        · rw [hdel]
          simp
      · right
        refine ⟨el', by simpa using hel', ?_, ?_, hend⟩
        · rw [hfin]
          simp only [hmap, partReportOf_evolves ev, List.take_succ_cons, List.map_cons,
            List.append_assoc, List.singleton_append, List.cons_append, List.nil_append]
        · rw [hdel]
          simp

/-- The outer loop takes the resting elements in price-time order.  When it ends without
error, the first `j` of them have been taken whole and are gone from their queues; and
either nothing more was matched, or the element after them was taken in part, stays at the
head of what remains, and `amountLeft` is zero. -/
theorem walkLevels_fills {sideType : OperationType} {o aL : Nat}
    (nodes : List (Decimal × Nat)) :
    ∀ {h : Heap} {prices : List (String × Nat)} {n : Nat} {dtn : List Decimal} {w : WalkResult}
      {ord : Order},
      walkLevels sideType o aL nodes h prices n dtn = some w → w.err = none →
      h.orders[o]? = some ord → (nodes.map Prod.snd).Nodup →
      (∀ node ∈ nodes, ∀ l, h.levels[node.2]? = some l →
        l.totalAmount ≠ aL ∧ l.orders.Nodup ∧ ∀ el ∈ l.orders, h.elements[el]? ≠ some o) →
      ∃ j, j ≤ (restingOrder h nodes).length ∧
        restingOrder w.heap nodes = (restingOrder h nodes).drop j ∧
        (∀ el ∈ (restingOrder h nodes).take j, ∃ c, amountCell h el = some c) ∧
        (w.heap.orders[o]? = some { ord with executions :=
            ord.executions ++ ((restingOrder h nodes).take j).map (reportOf h ord.orderID) } ∨
         ∃ el, (restingOrder h nodes)[j]? = some el ∧ (∃ c, amountCell h el = some c) ∧
           w.heap.orders[o]? = some { ord with executions :=
             ord.executions ++ (((restingOrder h nodes).take j).map (reportOf h ord.orderID) ++
               [partReportOf h ord.orderID aL el]) } ∧
           ∃ z, w.heap.decimals[aL]? = some z ∧ z.IsZero = true) := by
  induction nodes with
  | nil =>
    intro h prices n dtn w ord hw _ hord _ _
    simp only [walkLevels, Option.some.injEq] at hw
    subst hw
    exact ⟨0, by simp, by simp, by simp, Or.inl (by simpa using hord)⟩
  | cons node rest ih =>
    obtain ⟨key, lp⟩ := node
    intro h prices n dtn w ord hw hwok hord hnodup hwf
    have hstay : w = ⟨h, prices, n, dtn, none⟩ →
        ∃ j, j ≤ (restingOrder h ((key, lp) :: rest)).length ∧
          restingOrder w.heap ((key, lp) :: rest)
            = (restingOrder h ((key, lp) :: rest)).drop j ∧
          (∀ el ∈ (restingOrder h ((key, lp) :: rest)).take j,
            ∃ c, amountCell h el = some c) ∧
          (w.heap.orders[o]? = some { ord with executions := ord.executions ++
              ((restingOrder h ((key, lp) :: rest)).take j).map (reportOf h ord.orderID) } ∨
           ∃ el, (restingOrder h ((key, lp) :: rest))[j]? = some el ∧
             (∃ c, amountCell h el = some c) ∧
             w.heap.orders[o]? = some { ord with executions := ord.executions ++
               (((restingOrder h ((key, lp) :: rest)).take j).map (reportOf h ord.orderID) ++
                 [partReportOf h ord.orderID aL el]) } ∧
             ∃ z, w.heap.decimals[aL]? = some z ∧ z.IsZero = true) := by
      intro hres
      subst hres
      exact ⟨0, by simp, by simp, by simp, Or.inl (by simpa using hord)⟩
    obtain ⟨left, -, hcase⟩ := walkLevels_cons_inv hw
    rcases hcase with ⟨-, hres⟩ | ⟨-, l, ord0, hl, hord0, ⟨-, hres⟩ | ⟨hc, qr, hq, hcase⟩⟩
    · exact hstay hres
    · exact hstay hres
    obtain ⟨hfresh, hqnodup, hnotin⟩ := hwf (key, lp) (List.mem_cons_self _ _) l hl
    have hq0 : queueOf h lp = l.orders := by simp [queueOf, hl]
    rcases hcase with ⟨e, hqerr, hres⟩ | ⟨hqok, h1, prices1, hrm, hrec⟩
    · rw [hres] at hwok
      simp at hwok
    obtain ⟨k, hk, hcells, hshape⟩ := matchQueue_fills _ hq hqok hord hnotin
      (fun l' hl' => by
        rw [hl] at hl'
        simp only [Option.some.injEq] at hl'
        subst hl'
        exact hfresh)
    obtain ⟨ev1, hlev1⟩ := matchQueue_evolves _ hq
    obtain ⟨hd1, ho1, he1, -, hfr1, hself1, -⟩ := removeEls_spec lp _ hrm
    have ev : Evolves h h1 := ev1.evTrans (removeEls_evolves hrm)
    have hlq : qr.heap.levels[lp]? = some l := by rw [hlev1]; exact hl
    have hl1 := hself1 l hlq
    have hnd : lp ∉ rest.map Prod.snd ∧ (rest.map Prod.snd).Nodup := by
      have hcopy := hnodup
      rw [List.map_cons, List.nodup_cons] at hcopy
      exact hcopy
    have hlpnot : ∀ node ∈ rest, node.2 ≠ lp := by
      intro node hnode heq
      exact hnd.1 (by rw [← heq]; exact List.mem_map_of_mem _ hnode)
    have hsame : ∀ node ∈ rest, h1.levels[node.2]? = h.levels[node.2]? := by
      intro node hnode
      rw [hfr1 node.2 (hlpnot node hnode), hlev1]
    have hR : restingOrder h1 rest = restingOrder h rest := restingOrder_congr rest hsame
    -- the walk stops after this level when `amountLeft` is zero
    have hstop : ∀ (m : Nat), m ≤ l.orders.length → qr.deleteEls = l.orders.take m →
        (∃ z, qr.heap.decimals[aL]? = some z ∧ z.IsZero = true) →
        w.heap = h1 ∧ restingOrder h1 ((key, lp) :: rest)
          = (restingOrder h ((key, lp) :: rest)).drop m := by
      intro m hm hdels ⟨z, hz, hzero⟩
      have hz1 : h1.decimals[aL]? = some z := by rw [hd1]; exact hz
      have hwres := walkLevels_zero rest hrec hz1 hzero
      refine ⟨by rw [hwres], ?_⟩
      have hq1 : queueOf h1 lp = l.orders.drop m := by
        have : h1.levels[lp]? = some { l with orders := l.orders.drop m } := by
          rw [hl1, hdels, foldl_erase_take l.orders hqnodup m]
        simp [queueOf, this]
      simp only [restingOrder, hq0, hq1, hR]
      rw [List.drop_append_of_le_length hm]
    rcases hshape with ⟨hfin, hdels, hend⟩ | ⟨el, hel, hfin, hdels, hend⟩
    · simp only [List.nil_append] at hdels
      rcases hend with hlen | hzero
      · -- the whole level was taken: the walk goes on
        have htake : l.orders.take (k + 1) = l.orders := by
          rw [hlen]; exact List.take_length _
        rw [htake] at hfin hdels hcells
        have hq1 : queueOf h1 lp = [] := by
          have : h1.levels[lp]? = some { l with orders := [] } := by
            rw [hl1, hdels]
            have := foldl_erase_take l.orders hqnodup l.orders.length
            rw [List.take_length, List.drop_length] at this
            rw [this]
          simp [queueOf, this]
        obtain ⟨j2, hj2, hrest2, hcells2, hshape2⟩ :=
          ih hrec hwok (by rw [ho1]; exact hfin) hnd.2
            (fun node hnode l' hl' => by
              rw [hsame node hnode] at hl'
              obtain ⟨a, b, c⟩ := hwf node (List.mem_cons_of_mem _ hnode) l' hl'
              exact ⟨a, b, fun el hel => by rw [ev.elements]; exact c el hel⟩)
        have hqw : queueOf w.heap lp = [] := by
          rw [queueOf_congr (walkLevels_untouched hrec lp hlpnot)]
          exact hq1
        have hmap : ∀ ls : List Nat, ls.map (reportOf h1 ord.orderID)
            = ls.map (reportOf h ord.orderID) :=
          fun ls => List.map_congr_left (fun el' _ => reportOf_evolves ev _ el')
        have htk : (l.orders ++ restingOrder h rest).take (l.orders.length + j2)
            = l.orders ++ (restingOrder h rest).take j2 := by
          rw [List.take_append]
        refine ⟨l.orders.length + j2, ?_, ?_, ?_, ?_⟩
        · simp only [restingOrder, hq0, List.length_append]
          rw [hR] at hj2
          omega
        · simp only [restingOrder, hq0, hqw, List.nil_append]
          rw [hrest2, hR, List.drop_append]
        · simp only [restingOrder, hq0]
          rw [htk]
          intro el' hel'
          rcases List.mem_append.mp hel' with hel' | hel'
          · exact hcells el' hel'
          · rw [hR] at hcells2
            obtain ⟨c, hc⟩ := hcells2 el' hel'
            exact ⟨c, by rw [← amountCell_evolves ev]; exact hc⟩
        · simp only [restingOrder, hq0]
          rw [htk]
          rcases hshape2 with hfin2 | ⟨el', hel', ⟨c, hc⟩, hfin2, hzero2⟩
          · left
            rw [hfin2]
            simp only [hmap, hR, List.map_append, List.append_assoc]
          · right
            refine ⟨el', ?_, ⟨c, by rw [← amountCell_evolves ev]; exact hc⟩, ?_, hzero2⟩
            · rw [hR] at hel'
              rw [List.getElem?_append_right (by omega)]
              simpa using hel'
            · rw [hfin2]
              simp only [hmap, hR, partReportOf_evolves ev, List.map_append,
                List.append_assoc]
      · -- `amountLeft` is zero after whole fills
        obtain ⟨hwh, hro⟩ := hstop (k + 1) (by omega) hdels hzero
        refine ⟨k + 1, ?_, by rw [hwh]; exact hro, ?_, Or.inl ?_⟩
        · simp only [restingOrder, hq0, List.length_append]
          omega
        · simp only [restingOrder, hq0]
          rw [List.take_append_of_le_length (by omega)]
          exact hcells
        · simp only [restingOrder, hq0]
          rw [List.take_append_of_le_length (by omega), hwh, ho1]
          exact hfin
    · -- the last element was taken in part
      simp only [List.nil_append] at hdels
      obtain ⟨hwh, hro⟩ := hstop k (by omega) hdels hend
      have helm : el ∈ l.orders.take (k + 1) := by
        have hget : (l.orders.take (k + 1))[k]? = some el := by
          rw [List.getElem?_take]
          simp [hel]
        exact List.getElem?_mem hget
      refine ⟨k, ?_, by rw [hwh]; exact hro, ?_, Or.inr ⟨el, ?_, hcells el helm, ?_, ?_⟩⟩
      · simp only [restingOrder, hq0, List.length_append]
        omega
      · simp only [restingOrder, hq0]
        rw [List.take_append_of_le_length (by omega)]
        intro el' hel'
        exact hcells el' (List.take_subset_take_left _ (by omega) hel')
      · simp only [restingOrder, hq0]
        rw [List.getElem?_append_left hk]
        exact hel
      · simp only [restingOrder, hq0]
        rw [List.take_append_of_le_length (by omega), hwh, ho1]
        exact hfin
      · rw [hwh, hd1]
        exact hend

theorem amountCell_some {h : Heap} {el c : Nat} (hc : amountCell h el = some c) :
    ∃ p x, h.elements[el]? = some p ∧ h.orders[p]? = some x ∧ x.amount = c := by
  unfold amountCell at hc
  cases hp : h.elements[el]? with
  | none => simp [hp] at hc
  | some p =>
    simp only [hp] at hc
    cases hx : h.orders[p]? with
    | none => simp [hx] at hc
    | some x =>
      simp only [hx, Option.some.injEq] at hc
      exact ⟨p, x, rfl, hx, hc⟩

/-- C23: when `ExecuteOrder` returns no error on a side that can be walked, the reports it
appends to the incoming order are those of the first resting elements in price-time order,
one each; an element whose report holds its own amount cell was taken whole and is gone from
its queue; the one other kind of report holds the cell of `amountLeft`, for an element taken
in part: that report is the last one, its element stays queued, and `amountLeft` is zero. -/
theorem one_fill_in_part_at_most (h : Heap) (os : OrderSide) (o : Nat) (h' : Heap)
    (os' : OrderSide) (r : ExecResult) (ord : Order)
    (hex : ExecuteOrder h os o = some (h', os', r)) (hok : r.err = none)
    (ho : h.orders[o]? = some ord) (hwalk : walkable h os o = true)
    (hnd : (restingOrder h (walkOrder os)).Nodup) :
    ∃ new, h'.orders[o]? = some { ord with executions := ord.executions ++ new } ∧
      r.amountLeft = some h.decimals.length ∧
      new.length ≤ (restingOrder h (walkOrder os)).length ∧
      ∀ i e el, new[i]? = some e → (restingOrder h (walkOrder os))[i]? = some el →
        some e.executorOrderID = restingId h el ∧
        ((amountCell h el = some e.amount ∧ el ∉ restingOrder h' (walkOrder os)) ∨
         (e.amount = h.decimals.length ∧ i + 1 = new.length ∧
           el ∈ restingOrder h' (walkOrder os) ∧
           ∃ z, h'.decimals[h.decimals.length]? = some z ∧ z.IsZero = true)) := by
  have hamt := ExecuteOrder_ok_amountLeft hex hok
  obtain ⟨ord0, a, w, hord0, ha, hw, rfl, hcase⟩ := ExecuteOrder_inv hex
  obtain ⟨hnodes, hwf⟩ := walkable_spec hwalk
  have ho' : (h.newDecimal a).1.orders[o]? = some ord := ho
  have hwok : w.err = none := by
    rcases hcase with ⟨e, -, -, rfl⟩ | ⟨hwok, -, -⟩
    · simp at hok
    · exact hwok
  obtain ⟨j, hj, hrest, hcells, hshape⟩ :=
    walkLevels_fills (walkOrder os) hw hwok ho' hnodes hwf
  have hR : restingOrder (h.newDecimal a).1 (walkOrder os) = restingOrder h (walkOrder os) :=
    restingOrder_congr _ (fun _ _ => rfl)
  have hI : restingId (h.newDecimal a).1 = restingId h := rfl
  have hA : amountCell (h.newDecimal a).1 = amountCell h := rfl
  have hRep : reportOf (h.newDecimal a).1 = reportOf h := rfl
  have hPart : partReportOf (h.newDecimal a).1 = partReportOf h := rfl
  rw [hR] at hj hrest hcells hshape
  rw [hA] at hcells hshape
  rw [hRep] at hshape
  rw [hPart] at hshape
  -- an element taken whole
  have hwhole : ∀ i el, i < j → (restingOrder h (walkOrder os))[i]? = some el →
      some (reportOf h ord.orderID el).executorOrderID = restingId h el ∧
      amountCell h el = some (reportOf h ord.orderID el).amount ∧
      el ∉ restingOrder w.heap (walkOrder os) := by
    intro i el hi hel
    have hmem : el ∈ (restingOrder h (walkOrder os)).take j := by
      have hget : ((restingOrder h (walkOrder os)).take j)[i]? = some el := by
        rw [List.getElem?_take]
        simp [hi, hel]
      exact List.getElem?_mem hget
    obtain ⟨c, hc⟩ := hcells el hmem
    obtain ⟨p, x, hp, hx, hxc⟩ := amountCell_some hc
    refine ⟨(restingId_reportOf _ hp hx).symm, ?_, ?_⟩
    · rw [hc, reportOf_eq _ hp hx, hxc]
    · rw [hrest]
      intro hin
      obtain ⟨i2, hi2⟩ := List.getElem?_of_mem hin
      rw [List.getElem?_drop] at hi2
      have hlt1 : j + i2 < (restingOrder h (walkOrder os)).length :=
        (List.getElem?_eq_some.mp hi2).1
      have hlt2 : i < (restingOrder h (walkOrder os)).length :=
        (List.getElem?_eq_some.mp hel).1
      have h1 := (List.getElem?_eq_some.mp hi2).2
      have h2 := (List.getElem?_eq_some.mp hel).2
      have := (List.Nodup.getElem_inj_iff hnd).mp (h1.trans h2.symm)
      omega
  have hlenR : ∀ i : Nat, i < j → i < (restingOrder h (walkOrder os)).length :=
    fun i hi => by omega
  rcases hshape with hfin | ⟨elp, help, ⟨c, hc⟩, hfin, hzero⟩
  · -- whole fills only
    refine ⟨_, hfin, hamt, by simp, ?_⟩
    intro i e el he hel
    have hi : i < j := by
      have := (List.getElem?_eq_some.mp he).1
      simp at this
      omega
    have hrep : e = reportOf h ord.orderID el := by
      rw [List.getElem?_map, List.getElem?_take] at he
      simp only [hi, if_true, hel, Option.map_some', Option.some.injEq] at he
      exact he.symm
    subst hrep
    obtain ⟨h1, h2, h3⟩ := hwhole i el hi hel
    exact ⟨h1, Or.inl ⟨h2, h3⟩⟩
  · -- whole fills, and the last one in part
    have hjlt : j < (restingOrder h (walkOrder os)).length := (List.getElem?_eq_some.mp help).1
    have hlen : (((restingOrder h (walkOrder os)).take j).map (reportOf h ord.orderID) ++
        [partReportOf h ord.orderID h.decimals.length elp]).length = j + 1 := by
      simp
      omega
    refine ⟨_, hfin, hamt, by rw [hlen]; omega, ?_⟩
    intro i e el he hel
    have hi : i < j + 1 := by
      have := (List.getElem?_eq_some.mp he).1
      rw [hlen] at this
      exact this
    by_cases hij : i < j
    · have hrep : e = reportOf h ord.orderID el := by
        rw [List.getElem?_append_left (by simp; omega), List.getElem?_map,
          List.getElem?_take] at he
        simp only [hij, if_true, hel, Option.map_some', Option.some.injEq] at he
        exact he.symm
      subst hrep
      obtain ⟨h1, h2, h3⟩ := hwhole i el hij hel
      exact ⟨h1, Or.inl ⟨h2, h3⟩⟩
    · have hieq : i = j := by omega
      subst hieq
      rw [help] at hel
      simp only [Option.some.injEq] at hel
      subst hel
      have hrep : e = partReportOf h ord.orderID h.decimals.length elp := by
        rw [List.getElem?_append_right (by simp)] at he
        simp at he
        have hmin : min i (restingOrder h (walkOrder os)).length = i := by omega
        simp [hmin] at he
        exact he.symm
      subst hrep
      obtain ⟨p, x, hp, hx, -⟩ := amountCell_some hc
      refine ⟨?_, Or.inr ⟨rfl, by rw [hlen], ?_, hzero⟩⟩
      · have := restingId_reportOf ord.orderID hp hx
        rw [this]
        rfl
      · rw [hrest]
        have hget : ((restingOrder h (walkOrder os)).drop i)[0]? = some elp := by
          rw [List.getElem?_drop]
          simpa using help
        exact List.getElem?_mem hget

set_option maxRecDepth 100000 in
/-- Witness of C23: on the asks of the fixture the bid `100500` of 0.4 at 20050 takes the
ask `1` of 0.3 whole (the report holds the cell 0 of its amount) and 0.1 of the ask `11`
(the report holds the cell 37 of `amountLeft`, which is zero afterwards). -/
theorem one_fill_in_part_at_most_witness :
    ExecuteOrder twoFillsHeap fixtureBook.Asks 14
      = some (twoFillsResult.1, twoFillsResult.2.1, twoFillsResult.2.2) ∧
    twoFillsResult.2.2 = ⟨some 37, 2, none⟩ ∧
    walkable twoFillsHeap fixtureBook.Asks 14 = true ∧
    (restingOrder twoFillsHeap (walkOrder fixtureBook.Asks)).Nodup ∧
    executionsOf twoFillsResult.1 14
      = [⟨"100500", "1", 0, ⟨20050, 0⟩⟩, ⟨"100500", "11", 37, ⟨20050, 0⟩⟩] ∧
    (queueIds twoFillsResult.1 0, twoFillsResult.1.decimals[37]?)
      = ([some "11", some "111"], some ⟨0, -1⟩) ∧
    ∃ new, twoFillsResult.1.orders[14]?
        = some { (⟨"100500", .Bid, 36, ⟨20050, 0⟩, []⟩ : Order) with
            executions := ([] : List ExecutionReport) ++ new } ∧
      twoFillsResult.2.2.amountLeft = some twoFillsHeap.decimals.length ∧
      new.length ≤ (restingOrder twoFillsHeap (walkOrder fixtureBook.Asks)).length ∧
      ∀ i e el, new[i]? = some e →
        (restingOrder twoFillsHeap (walkOrder fixtureBook.Asks))[i]? = some el →
        some e.executorOrderID = restingId twoFillsHeap el ∧
        ((amountCell twoFillsHeap el = some e.amount ∧
            el ∉ restingOrder twoFillsResult.1 (walkOrder fixtureBook.Asks)) ∨
         (e.amount = twoFillsHeap.decimals.length ∧ i + 1 = new.length ∧
           el ∈ restingOrder twoFillsResult.1 (walkOrder fixtureBook.Asks) ∧
           ∃ z, twoFillsResult.1.decimals[twoFillsHeap.decimals.length]? = some z ∧
             z.IsZero = true)) :=
  ⟨by decide, by decide, by decide, by decide, by decide, by decide,
    one_fill_in_part_at_most twoFillsHeap fixtureBook.Asks 14 twoFillsResult.1
      twoFillsResult.2.1 twoFillsResult.2.2 ⟨"100500", .Bid, 36, ⟨20050, 0⟩, []⟩
      (by decide) (by decide) (by decide) (by decide) (by decide)⟩

/-! ## The journal of completed orders -/

theorem mapDelete_map {ν μ : Type} (f : ν → μ) (m : List (String × ν)) (k : String) :
    (mapDelete m k).map (fun e => (e.1, f e.2)) = mapDelete (m.map (fun e => (e.1, f e.2))) k := by
  induction m with
  | nil => rfl
  | cons x m ih =>
    obtain ⟨k', v⟩ := x
    by_cases hk : k' = k
    · simp [mapDelete, hk, ih]
    · simp [mapDelete, hk, ih]

theorem mapSet_map {ν μ : Type} (f : ν → μ) (m : List (String × ν)) (k : String) (v : ν) :
    (mapSet m k v).map (fun e => (e.1, f e.2)) = mapSet (m.map (fun e => (e.1, f e.2))) k (f v) := by
  simp [mapSet, mapDelete_map]

theorem mapGet_map {ν μ : Type} (f : ν → μ) (m : List (String × ν)) (k : String) :
    mapGet (m.map (fun e => (e.1, f e.2))) k = (mapGet m k).map f := by
  induction m with
  | nil => rfl
  | cons x m ih =>
    obtain ⟨k', v⟩ := x
    by_cases hk : k' = k
    · simp [mapGet, hk]
    · simp [mapGet, hk, ih]

theorem limitOrder_done {h : Heap} {ob : OrderBook} {o : Nat} {h' : Heap} {ob' : OrderBook}
    {rep : Reply} (hl : limitOrder h ob o = some (h', ob', rep)) (hok : rep.err = none) :
    ∃ ord, h.orders[o]? = some ord ∧ ob'.OrdersDone = mapSet ob.OrdersDone ord.orderID o ∧
      h'.orders.length = h.orders.length := by
  obtain ⟨ord, h1, check1, r, aL, ord1, left, hord, -, hex, -, -, hord1, -, -, hcase⟩ :=
    limitOrder_ok hl hok
  obtain ⟨-, -, hlen, -, hgrew, -⟩ := ExecuteOrder_evolves hex
  obtain ⟨x, hx, hg⟩ := hgrew o ord hord
  rw [hord1] at hx
  cases hx
  have hid : ord1.orderID = ord.orderID := hg.1
  refine ⟨ord, hord, ?_⟩
  rcases hcase with ⟨-, rfl, rfl⟩ | ⟨-, add3, el, hadd, rfl⟩
  · refine ⟨?_, hlen⟩
    generalize ord.operationType = t at *
    cases t <;> simp [OrderBook.setSide, OperationType.opposite, hid]
  · obtain ⟨-, -, -, -, horders, -⟩ := AddOrder_ok hadd
    refine ⟨?_, ?_⟩
    · generalize ord.operationType = t at *
      cases t <;> simp [OrderBook.setSide, OperationType.opposite, hid]
    · rw [horders]
      split
      · simp [Heap.setOrder, hlen]
      · exact hlen

theorem PlaceMarketOrder_done {h : Heap} {ob : OrderBook} {o : Nat} {h' : Heap}
    {ob' : OrderBook} {rep : Reply} (hm : PlaceMarketOrder h ob o = some (h', ob', rep))
    (hok : rep.err = none) :
    ∃ ord, h.orders[o]? = some ord ∧ ob'.OrdersDone = mapSet ob.OrdersDone ord.orderID o ∧
      h'.orders.length = h.orders.length := by
  obtain ⟨ord, check1, r, ord1, hord, hex, -, hord1, -, rfl⟩ := PlaceMarketOrder_ok hm hok
  obtain ⟨-, -, hlen, -, hgrew, -⟩ := ExecuteOrder_evolves hex
  obtain ⟨x, hx, hg⟩ := hgrew o ord hord
  rw [hord1] at hx
  cases hx
  have hid : ord1.orderID = ord.orderID := hg.1
  refine ⟨ord, hord, ?_, hlen⟩
  generalize ord.operationType = t at *
  cases t <;> simp [OrderBook.setSide, OperationType.opposite, hid]

theorem replay_done (t : OperationType) (es : List ExecutionReport) :
    ∀ (h : Heap) (ob : OrderBook) (m : List (OrderID × Nat × Origin)) (h' : Heap)
      (ob' : OrderBook), ob.OrdersDone = m.map (fun e => (e.1, e.2.1)) →
      replay t es h ob = some (h', ob', none) →
      ob'.OrdersDone = (replayRecords m h.orders.length es).map (fun e => (e.1, e.2.1)) := by
  induction es with
  | nil =>
    intro h ob m h' ob' hm hr
    simp only [replay, Option.some.injEq, Prod.mk.injEq, and_true] at hr
    obtain ⟨-, rfl⟩ := hr
    simpa [replayRecords] using hm
  | cons e es ih =>
    intro h ob m h' ob' hm hr
    simp only [replay, Heap.newOrder] at hr
    split at hr
    · simp at hr
    · rename_i h2 ob2 r hl
      split at hr
      · simp at hr
      · rename_i hok
        obtain ⟨ord, hord, hdone, hlen⟩ := limitOrder_done hl hok
        simp at hord
        subst hord
        have hm2 : ob2.OrdersDone
            = (mapSet m e.executorOrderID (h.orders.length, Origin.replay)).map
                (fun e => (e.1, e.2.1)) := by
          rw [hdone, hm]
          exact (mapSet_map (fun v : Nat × Origin => v.1) m e.executorOrderID
            (h.orders.length, Origin.replay)).symm
        have := ih h2 ob2 _ h' ob' hm2 hr
        rw [this, hlen]
        simp [replayRecords]

theorem doneJournal_run (calls : List Call) :
    ∀ (h : Heap) (ob : OrderBook) (m : List (OrderID × Nat × Origin)) (h' : Heap)
      (ob' : OrderBook), ob.OrdersDone = m.map (fun e => (e.1, e.2.1)) →
      runCalls calls h ob = some (h', ob') →
      ob'.OrdersDone = (doneJournal calls h ob m).map (fun e => (e.1, e.2.1)) := by
  induction calls with
  | nil =>
    intro h ob m h' ob' hm hr
    simp only [runCalls, Option.some.injEq, Prod.mk.injEq] at hr
    obtain ⟨-, rfl⟩ := hr
    simpa [doneJournal] using hm
  | cons c cs ih =>
    intro h ob m h' ob' hm hr
    simp only [runCalls] at hr
    split at hr
    · rename_i h1 ob1 hc
      simp only [doneJournal, hc]
      refine ih h1 ob1 _ h' ob' ?_ hr
      cases c with
      | placeLimit id t amount price =>
        simp only [Call.run, placeNewLimit, Heap.allocOrder, Heap.newDecimal, Heap.newOrder,
          PlaceLimitOrder] at hc
        split at hc
        · simp at hc
        · rename_i h2 ob2 r hl
          simp only [Option.some.injEq, Prod.mk.injEq] at hc
          obtain ⟨rfl, rfl, hok⟩ := hc
          obtain ⟨ord, hord, hdone, -⟩ := limitOrder_done hl hok
          simp at hord
          subst hord
          rw [hdone, hm]
          exact (mapSet_map (fun v : Nat × Origin => v.1) m id
            (h.orders.length, Origin.caller)).symm
      | placeMarket id t amount price =>
        simp only [Call.run, placeNewMarket, Heap.allocOrder, Heap.newDecimal, Heap.newOrder]
          at hc
        split at hc
        · simp at hc
        · rename_i h2 ob2 r hl
          simp only [Option.some.injEq, Prod.mk.injEq] at hc
          obtain ⟨rfl, rfl, hok⟩ := hc
          obtain ⟨ord, hord, hdone, -⟩ := PlaceMarketOrder_done hl hok
          simp at hord
          subst hord
          rw [hdone, hm]
          exact (mapSet_map (fun v : Nat × Origin => v.1) m id
            (h.orders.length, Origin.caller)).symm
      | rollback id =>
        simp only [Call.run, Rollback] at hc
        split at hc
        · simp at hc
        · rename_i p hp
          split at hc
          · simp at hc
          · rename_i order hord
            split at hc
            · simp at hc
            · simp at hc
            · rename_i h2 ob2 hrep
              simp only [Option.some.injEq, Prod.mk.injEq, and_true] at hc
              obtain ⟨rfl, rfl⟩ := hc
              rw [hm, mapGet_map (fun v : Nat × Origin => v.1)] at hp
              cases hg : mapGet m id with
              | none => rw [hg] at hp; simp at hp
              | some v =>
                obtain ⟨q, g⟩ := v
                rw [hg] at hp
                simp only [Option.map_some', Option.some.injEq] at hp
                subst hp
                simp only [hg, hord]
                rw [replay_done _ _ h ob m h2 ob2 hm hrep]
                exact (mapDelete_map (fun v : Nat × Origin => v.1)
                  (replayRecords m h.orders.length order.executions) id).symm
    · simp at hr

/-- C22 (amended): in every state reached from the empty book by successful calls, the
records of `OrdersDone` are those of the journal of the run: under its id the order object a
caller passed to a successful `PlaceLimitOrder` or `PlaceMarketOrder`, or, under the id of
the executor of a report, the order object the replay loop of a successful `Rollback` built
for that report; `Rollback` deletes the record of the id it was called with. -/
theorem done_records_follow_journal (calls : List Call) (h : Heap) (ob : OrderBook)
    (hrun : runCalls calls Heap.empty (NewOrderBook "BTC" "USDT") = some (h, ob)) :
    ob.OrdersDone
      = (doneJournal calls Heap.empty (NewOrderBook "BTC" "USDT") []).map
          (fun e => (e.1, e.2.1)) :=
  doneJournal_run calls Heap.empty (NewOrderBook "BTC" "USDT") [] h ob rfl hrun

set_option maxRecDepth 100000 in
/-- Witness of C22: after two asks, the bid that takes both, the rollback of the bid and a
market bid, the journal holds the market order of the caller and the two orders the rollback
built. -/
theorem done_records_follow_journal_witness :
    runCalls journalCalls Heap.empty (NewOrderBook "BTC" "USDT")
      = some ((stateAfter journalCalls).1, (stateAfter journalCalls).2) ∧
    doneJournal journalCalls Heap.empty (NewOrderBook "BTC" "USDT") []
      = [("M", 5, .caller), ("Y", 4, .replay), ("X", 3, .replay)] ∧
    (stateAfter journalCalls).2.OrdersDone
      = (doneJournal journalCalls Heap.empty (NewOrderBook "BTC" "USDT") []).map
          (fun e => (e.1, e.2.1)) :=
  ⟨by decide, by decide,
    done_records_follow_journal journalCalls (stateAfter journalCalls).1
      (stateAfter journalCalls).2 (by decide)⟩

set_option maxRecDepth 100000 in
/-- C22 (counterexample): the callers place the asks `X` and `Y` of 1 at 100 and the bid `O`
of 2 at 100, which takes both; the three calls succeed and `OrdersDone` holds the three order
objects the callers passed (0, 1 and 2).  The rollback of `O` succeeds, and afterwards the
records of `X` and `Y` are the order objects 3 and 4, which the replay loop built from the
two reports of `O` and no caller passed to a placement. -/
theorem rollback_records_replayed_orders :
    (runCalls (replayRecordCalls.take 3) Heap.empty (NewOrderBook "BTC" "USDT")).map
        (fun s => (s.1.orders.length, s.2.OrdersDone))
      = some (3, [("O", 2), ("Y", 1), ("X", 0)]) ∧
    (runCalls replayRecordCalls Heap.empty (NewOrderBook "BTC" "USDT")).map
        (fun s => (s.1.orders.length, s.2.OrdersDone))
      = some (5, [("Y", 4), ("X", 3)]) ∧
    (runCalls replayRecordCalls Heap.empty (NewOrderBook "BTC" "USDT")).map
        (fun s => s.1.orders.drop 3)
      = some [⟨"X", .Ask, 0, ⟨100, 0⟩, []⟩, ⟨"Y", .Ask, 2, ⟨100, 0⟩, []⟩] := by
  decide

end MatchingEngine
